import Mathlib

/-!
dcmjs-codecs: RLE codec and planar-configuration transform.

A shallow embedding of the RLE decoder (`Decoders/RleDecoder.cpp`), the RLE
encoder (`Encoders/RleEncoder.cpp`), their entry points `DecodeRle` and
`EncodeRle` (`Decoders.cpp`, `Encoders.cpp`) and of
`ChangePlanarConfiguration` (`PlanarConfiguration.cpp`), together with the
adaptor layer of the other codecs: the JPEG dispatchers, the 8-bit JPEG decoder
(`Decoders/JpegDecoder8.cpp`) with the JPEG library as a parameter, the JPEG 2000
magic-number sniff, the resolution and decomposition counts and the layer rate
of the JPEG 2000 and HTJ2K encoders, and the line marshalling of the HTJ2K
encoder and decoder.

Conventions of the embedding:

* a byte is a `Nat`; every `static_cast<uint8_t>` is an explicit `% 256` and
  `static_cast<int8_t>` is `toInt8`;
* `size_t` values are `Nat`, `int32_t` values are `Int`; a
  `static_cast<int32_t>` is `toInt32` (wrap into `[-2^31, 2^31)`), and the
  sixteen header words are serialised to four little-endian bytes each;
* a thrown `runtime_error` is `Except.error` with the matching `CodecsError`;
* an access outside an array that the source does not guard (undefined
  behaviour in C++) is the explicit outcome `CodecsError.memoryFault`;
* the decoder's stores into the sink are recorded as a write log, a list of
  `(position, byte)` pairs in program order; `store` replays a log on a buffer;
* where a property speaks of the state after a failure, the call is a `Trace`
  (the stores made, then the exception if any) or an `Outcome` (how the call
  ends, and the context it leaves).
-/

namespace DcmjsCodecs

/-- The failures of the codec layer. The first five are the exceptions thrown
by the source; the last three are outcomes of the embedding. -/
inductive CodecsError where
  /-- "RleDecoder::DecodeSegment::Segment number out of range" -/
  | segmentOutOfRange (segment : Int)
  /-- "RLE literal run exceeds input buffer length" -/
  | inputOverflow
  /-- "RLE literal run exceeds output buffer length" and
  "RLE repeat run exceeds output buffer length." -/
  | outputOverflow
  /-- "EncodeRle::Read position is past end of frame buffer" -/
  | readPastEnd
  /-- "ChangePlanarConfiguration::Unsupported bits allocated" -/
  | unsupportedBitsAllocated (bitsAllocated : Nat)
  /-- "DecodeJpeg::Jpeg bit depth is 0" -/
  | bitDepthUnknown
  /-- "DecodeJpeg::Unsupported Jpeg bit depth" and
  "EncodeJpeg::Unsupported Jpeg bit depth" -/
  | unsupportedBitDepth (jpegBitDepth : Nat)
  /-- "EncodeJpeg::Unsupported lossy Jpeg bit depth" -/
  | unsupportedLossyBitDepth (jpegBitDepth : Nat)
  /-- "JpegDecoder8::DecodeJpeg8::jpeg_read_header::Suspended" -/
  | headerSuspended
  /-- "JpegDecoder8::DecodeJpeg8::JPEG codec unable to perform colorspace
  conversion on signed pixel data" -/
  | signedColorConvertUnsupported
  /-- "JpegDecoder8::ErrorExit::" and the message of the JPEG library: a failure
  the library reports through `error_exit`; likewise the exceptions raised for a
  failure that CharLS, OpenJPEG or OpenJPH reports ("DecodeJpegLs::JpegLsDecode::",
  "EncodeJpeg2000::opj_encode::Failed to encode", ...). -/
  | codecFailure
  /-- An unguarded access outside an array. -/
  | memoryFault
  /-- An unguarded integer division by zero. -/
  | divisionByZero
  /-- The loop budget of the embedding was exhausted (never the case for the
  budgets the entry points supply). -/
  | outOfFuel
  deriving DecidableEq, Repr

deriving instance DecidableEq for Except

/-- The value of `static_cast<int8_t>(b)` for a byte `b`. -/
def toInt8 (b : Nat) : Int :=
  if b % 256 < 128 then ((b % 256 : Nat) : Int) else ((b % 256 : Nat) : Int) - 256

/-- The value of `static_cast<int32_t>(n)`: `n` wrapped into `[-2^31, 2^31)`. -/
def toInt32 (n : Int) : Int :=
  (n + 2147483648) % 4294967296 - 2147483648

/-- The value of `static_cast<uint8_t>(n)`. -/
def toUInt8 (n : Int) : Nat := (n % 256).toNat

/-- The four bytes of a 32-bit word in little-endian order, as `memcpy` of the
word lays them out. -/
def le32 (v : Int) : List Nat :=
  let u := (v % 4294967296).toNat
  [u % 256, u / 256 % 256, u / 65536 % 256, u / 16777216 % 256]

/-- An unguarded read `data[i]`. -/
def readByte (data : List Nat) (i : Int) : Except CodecsError Nat :=
  if 0 ≤ i ∧ i < data.length then .ok (data.getD i.toNat 0) else .error .memoryFault

/-- A log of stores `buffer[pos] = b`, in program order. -/
abbrev WriteLog := List (Int × Nat)

/-- Replays a write log on a buffer; a store outside the buffer is a fault. -/
def store (buffer : List Nat) : WriteLog → Except CodecsError (List Nat)
  | [] => .ok buffer
  | (pos, b) :: ws =>
    if 0 ≤ pos ∧ pos < buffer.length then store (buffer.set pos.toNat b) ws
    else .error .memoryFault

/-! ## RleDecoder (`Decoders/RleDecoder.cpp`) -/

namespace ByteReader

/-- `ByteReader::ReadUInt32` at byte position `pointer`: the little-endian
value of the four bytes there. -/
def ReadUInt32 (data : List Nat) (pointer : Nat) : Except CodecsError Nat := do
  let b0 ← readByte data pointer
  let b1 ← readByte data (pointer + 1)
  let b2 ← readByte data (pointer + 2)
  let b3 ← readByte data (pointer + 3)
  .ok (b0 % 256 + 256 * (b1 % 256) + 65536 * (b2 % 256) + 16777216 * (b3 % 256))

/-- `ByteReader::ReadInt32` at byte position `pointer`. -/
def ReadInt32 (data : List Nat) (pointer : Nat) : Except CodecsError Int := do
  let u ← ReadUInt32 data pointer
  .ok (toInt32 u)

end ByteReader

/-- The fields of `RleDecoder`. -/
structure RleDecoder where
  data_ : List Nat
  size_ : Int
  segmentCount_ : Int
  offsets_ : List Int
  deriving DecidableEq, Repr

namespace RleDecoder

/-- The fifteen `ReadInt32` calls of the constructor, from slot `k` on. -/
def readOffsets (data : List Nat) : Nat → Nat → Except CodecsError (List Int)
  | 0, _ => .ok []
  | n + 1, k => do
    let o ← ByteReader.ReadInt32 data (4 + 4 * k)
    let rest ← readOffsets data n (k + 1)
    .ok (o :: rest)

/-- The constructor `RleDecoder::RleDecoder(data, size)`. -/
def new (data : List Nat) (size : Int) : Except CodecsError RleDecoder := do
  let count ← ByteReader.ReadUInt32 data 0
  let offsets ← readOffsets data 15 0
  .ok { data_ := data, size_ := size, segmentCount_ := toInt32 count, offsets_ := offsets }

/-- Modelled from the spec: `RleDecoder::GetNumberOfSegments` is declared in
`RleDecoder.h`, which is absent; it is the getter of `segmentCount_`, the
number of segments of the header. -/
def GetNumberOfSegments (d : RleDecoder) : Int := d.segmentCount_

/-- `RleDecoder::GetSegmentOffset`: `offsets_[segment]`, an array of fifteen. -/
def GetSegmentOffset (d : RleDecoder) (segment : Int) : Except CodecsError Int :=
  if 0 ≤ segment ∧ segment < d.offsets_.length then .ok (d.offsets_.getD segment.toNat 0)
  else .error .memoryFault

/-- `RleDecoder::GetSegmentLength`. -/
def GetSegmentLength (d : RleDecoder) (segment : Int) : Except CodecsError Int := do
  let offset ← d.GetSegmentOffset segment
  if segment < d.segmentCount_ - 1 then
    let next ← d.GetSegmentOffset (segment + 1)
    .ok (next - offset)
  else
    .ok (d.size_ - offset)

/-- The literal loop `while (length-- > 0) { buffer[pos] = rleData[i++]; pos += sampleOffset; }`:
returns the stores and the final `i` and `pos`. -/
def literalLoop (rleData : List Nat) (sampleOffset : Int) :
    Nat → Int → Int → Except CodecsError (WriteLog × Int × Int)
  | 0, i, pos => .ok ([], i, pos)
  | length + 1, i, pos => do
    let b ← readByte rleData i
    let r ← literalLoop rleData sampleOffset length (i + 1) (pos + sampleOffset)
    .ok ((pos, b) :: r.1, r.2.1, r.2.2)

/-- The stores of `memcpy(&buffer[pos], &rleData[i], length)`. -/
def memcpyLog (rleData : List Nat) : Nat → Int → Int → Except CodecsError WriteLog
  | 0, _, _ => .ok []
  | length + 1, i, pos => do
    let b ← readByte rleData i
    let r ← memcpyLog rleData length (i + 1) (pos + 1)
    .ok ((pos, b) :: r)

/-- The repeat loop `while (length-- >= 0) { buffer[pos] = b; pos += sampleOffset; }`
run for `n` iterations: the stores and the final `pos`. -/
def repeatLoop (b : Nat) (sampleOffset : Int) : Nat → Int → WriteLog × Int
  | 0, pos => ([], pos)
  | n + 1, pos =>
    let r := repeatLoop b sampleOffset n (pos + sampleOffset)
    ((pos, b) :: r.1, r.2)

/-- The `for (i = offset; i < end && pos < bufferLength;)` loop of
`RleDecoder::Decode`, from loop state `(i, pos)`. Every iteration consumes at
least the control byte, so `fuel = end - i` iterations are enough. -/
def decodeLoop (rleData : List Nat) (bufferLength sampleOffset end_ : Int) :
    Nat → Int → Int → Except CodecsError WriteLog
  | fuel, i, pos =>
    if i < end_ ∧ pos < bufferLength then
      match fuel with
      | 0 => .error .outOfFuel
      | fuel + 1 => do
        let c ← readByte rleData i
        let control := toInt8 c
        let i := i + 1
        if control ≥ 0 then
          let length := control + 1
          if end_ - i < length then .error .inputOverflow
          else if pos + (length - 1) * sampleOffset ≥ bufferLength then .error .outputOverflow
          else do
            let r ←
              if sampleOffset = 1 then do
                let w ← memcpyLog rleData length.toNat i pos
                pure (w, i + length, pos + length)
              else literalLoop rleData sampleOffset length.toNat i pos
            if r.2.1 + 1 ≥ end_ then .ok r.1
            else do
              let rest ← decodeLoop rleData bufferLength sampleOffset end_ fuel r.2.1 r.2.2
              .ok (r.1 ++ rest)
        else if control ≥ -127 then
          let length := -control
          if pos + (length - 1) * sampleOffset ≥ bufferLength then .error .outputOverflow
          else do
            let b ← readByte rleData i
            let i := i + 1
            let r :=
              if sampleOffset = 1 then repeatLoop b 1 (length + 1).toNat pos
              else repeatLoop b sampleOffset (length + 1).toNat pos
            if i + 1 ≥ end_ then .ok r.1
            else do
              let rest ← decodeLoop rleData bufferLength sampleOffset end_ fuel i r.2
              .ok (r.1 ++ rest)
        else
          if i + 1 ≥ end_ then .ok []
          else decodeLoop rleData bufferLength sampleOffset end_ fuel i pos
    else .ok []

/-- The stores of `RleDecoder::Decode(buffer, size, start, sampleOffset, rleData,
offset, count)`, or the exception it throws. -/
def DecodeLog (size start sampleOffset : Int) (rleData : List Nat) (offset count : Int) :
    Except CodecsError WriteLog :=
  decodeLoop rleData size sampleOffset (offset + count) count.toNat offset start

/-- `RleDecoder::Decode` on a sink `buffer`. -/
def Decode (buffer : List Nat) (size start sampleOffset : Int) (rleData : List Nat)
    (offset count : Int) : Except CodecsError (List Nat) := do
  let w ← DecodeLog size start sampleOffset rleData offset count
  store buffer w

/-- The stores of `RleDecoder::DecodeSegment`. -/
def DecodeSegmentLog (d : RleDecoder) (segment size start sampleOffset : Int) :
    Except CodecsError WriteLog :=
  if segment < 0 ∨ segment ≥ d.segmentCount_ then .error (.segmentOutOfRange segment)
  else do
    let offset ← d.GetSegmentOffset segment
    let length ← d.GetSegmentLength segment
    DecodeLog size start sampleOffset d.data_ offset length

/-- `RleDecoder::DecodeSegment` on a sink `buffer`. -/
def DecodeSegment (d : RleDecoder) (segment : Int) (buffer : List Nat)
    (size start sampleOffset : Int) : Except CodecsError (List Nat) := do
  let w ← d.DecodeSegmentLog segment size start sampleOffset
  store buffer w

end RleDecoder

/-! ## RleEncoder (`Encoders/RleEncoder.h`, `Encoders/RleEncoder.cpp`) -/

/-- The fields of `RleEncoder`; `writer_` is the byte vector of its `ByteWriter`.
`offsets_` has fifteen slots and `buffer_` has 132. -/
structure RleEncoder where
  segmentCount_ : Nat
  offsets_ : List Int
  buffer_ : List Nat
  prevByte_ : Int
  repeatCount_ : Int
  bufferPos_ : Int
  writer_ : List Nat
  deriving DecidableEq, Repr

namespace RleEncoder

/-- The constructor `RleEncoder::RleEncoder()`. -/
def new : RleEncoder :=
  { segmentCount_ := 0, offsets_ := List.replicate 15 0, buffer_ := List.replicate 132 0,
    prevByte_ := -1, repeatCount_ := 0, bufferPos_ := 0, writer_ := [] }

/-- `writer_.WriteByte(value)`. -/
def WriteByte (e : RleEncoder) (value : Nat) : RleEncoder :=
  { e with writer_ := e.writer_ ++ [value] }

/-- `RleEncoder::GetLength`, which is `writer_.Tell()`. -/
def GetLength (e : RleEncoder) : Nat := e.writer_.length

/-- `RleEncoder::MoveBuffer(count)`: writes `buffer_[0 .. count)` to the writer,
moves `buffer_[count .. bufferPos_)` to the front and lowers `bufferPos_`. -/
def MoveBuffer (e : RleEncoder) (count : Int) : RleEncoder :=
  let written := (List.range count.toNat).map (fun i => e.buffer_.getD i 0)
  let moved := (List.range (e.bufferPos_ - count).toNat).foldl
    (fun buf n => buf.set n (buf.getD (n + count.toNat) 0)) e.buffer_
  { e with writer_ := e.writer_ ++ written, buffer_ := moved, bufferPos_ := e.bufferPos_ - count }

/-- The loop `while (bufferPos_ > limit) { count = min(128, bufferPos_);
WriteByte(count - 1); MoveBuffer(count); }`, with `limit` 0 or 128. -/
def flushLiterals (limit : Int) : Nat → RleEncoder → RleEncoder
  | 0, e => e
  | fuel + 1, e =>
    if e.bufferPos_ > limit then
      let count := min 128 e.bufferPos_
      flushLiterals limit fuel ((e.WriteByte (toUInt8 (count - 1))).MoveBuffer count)
    else e

/-- One repeat run: `count = min(repeatCount_, 128); WriteByte(257 - count);
WriteByte(prevByte_); repeatCount_ -= count;`. -/
def emitRepeat (e : RleEncoder) : RleEncoder :=
  let count := min e.repeatCount_ 128
  let e := (e.WriteByte (toUInt8 (257 - count))).WriteByte (toUInt8 e.prevByte_)
  { e with repeatCount_ := e.repeatCount_ - count }

/-- The loop `while (repeatCount_ > 0) { ... one repeat run ... }`. -/
def flushRepeats : Nat → RleEncoder → RleEncoder
  | 0, e => e
  | fuel + 1, e => if e.repeatCount_ > 0 then flushRepeats fuel e.emitRepeat else e

/-- The store `buffer_[bufferPos_++] = static_cast<uint8_t>(prevByte_)`. -/
def pushPrev (e : RleEncoder) : RleEncoder :=
  { e with buffer_ := e.buffer_.set e.bufferPos_.toNat (toUInt8 e.prevByte_),
           bufferPos_ := e.bufferPos_ + 1 }

/-- `RleEncoder::Encode(b)`. -/
def Encode (e : RleEncoder) (b : Nat) : RleEncoder :=
  if (b : Int) = e.prevByte_ then
    let e := { e with repeatCount_ := e.repeatCount_ + 1 }
    if e.repeatCount_ > 2 ∧ e.bufferPos_ > 0 then
      flushLiterals 0 e.bufferPos_.toNat e
    else if e.repeatCount_ > 128 then
      e.emitRepeat
    else e
  else
    let e :=
      if e.repeatCount_ = 0 then e
      else if e.repeatCount_ = 1 then e.pushPrev
      else if e.repeatCount_ = 2 then e.pushPrev.pushPrev
      else flushRepeats e.repeatCount_.toNat e
    let e := flushLiterals 128 e.bufferPos_.toNat e
    { e with prevByte_ := b, repeatCount_ := 1 }

/-- `RleEncoder::MakeEvenLength`. -/
def MakeEvenLength (e : RleEncoder) : RleEncoder :=
  if e.writer_.length % 2 = 1 then e.WriteByte 0 else e

/-- The loop `while (repeatCount_ > 0) { buffer_[bufferPos_++] = prevByte_;
repeatCount_--; }` of `Flush`. -/
def pushPending : Nat → RleEncoder → RleEncoder
  | 0, e => e
  | fuel + 1, e =>
    if e.repeatCount_ > 0 then
      pushPending fuel { e.pushPrev with repeatCount_ := e.repeatCount_ - 1 }
    else e

/-- `RleEncoder::Flush`. -/
def Flush (e : RleEncoder) : RleEncoder :=
  let e := if e.repeatCount_ < 2 then pushPending e.repeatCount_.toNat e else e
  let e := flushLiterals 0 e.bufferPos_.toNat e
  let e := if e.repeatCount_ ≥ 2 then flushRepeats e.repeatCount_.toNat e else e
  { e with prevByte_ := -1, repeatCount_ := 0, bufferPos_ := 0 }

/-- `RleEncoder::NextSegment`. The store `offsets_[segmentCount_++]` is
unguarded: a sixteenth segment is a fault. -/
def NextSegment (e : RleEncoder) : Except CodecsError RleEncoder :=
  let e := e.Flush
  let e := if e.GetLength % 2 = 1 then e.WriteByte 0 else e
  if e.segmentCount_ < e.offsets_.length then
    .ok { e with offsets_ := e.offsets_.set e.segmentCount_ (toInt32 e.writer_.length),
                 segmentCount_ := e.segmentCount_ + 1 }
  else .error .memoryFault

/-- `RleEncoder::WriteHeader`: the segment count, the fifteen offsets (the first
`segmentCount_` of them raised by the header size 64), then the old content. -/
def WriteHeader (e : RleEncoder) : RleEncoder :=
  let tmp := e.writer_
  let offsets := (List.range e.segmentCount_).foldl
    (fun o i => o.set i (toInt32 (o.getD i 0 + 64))) e.offsets_
  let header := le32 e.segmentCount_ ++
    (List.range 15).flatMap (fun i => le32 (offsets.getD i 0))
  { e with offsets_ := offsets, writer_ := header ++ tmp }

/-- `RleEncoder::GetBuffer`: `Flush`, `WriteHeader`, then the writer's bytes
(`GetLength` of them). -/
def GetBuffer (e : RleEncoder) : RleEncoder := e.Flush.WriteHeader

end RleEncoder

/-! ## The codec context and the entry points -/

/-- The `CodecsContext` of `CodecsContext.h`; the two `Buffer`s are byte lists. -/
structure CodecsContext where
  Columns : Nat
  Rows : Nat
  BitsAllocated : Nat
  BitsStored : Nat
  SamplesPerPixel : Nat
  PixelRepresentation : Nat
  PlanarConfiguration : Nat
  PhotometricInterpretation : Nat
  EncodedBuffer : List Nat
  DecodedBuffer : List Nat
  deriving DecidableEq, Repr

/-- `PlanarConfigurationEnum::Interleaved`. -/
def Interleaved : Nat := 0

/-- `PlanarConfigurationEnum::Planar`. -/
def Planar : Nat := 1

/-- Modelled from the spec: `Buffer::Reset(size)` is declared in `Buffer.h`,
which is absent; a resize is destructive and yields `size` bytes of undefined
content. The undefined content is the parameter `junk`. -/
def Buffer.Reset (junk : Nat → Nat) (size : Nat) : List Nat :=
  (List.range size).map junk

/-- The local `bytesAllocated` of `EncodeRle` and `DecodeRle`. -/
def bytesAllocated (ctx : CodecsContext) : Nat :=
  ctx.BitsAllocated / 8 + (if ctx.BitsAllocated % 8 = 0 then 0 else 1)

/-- The local `pixelCount` of `EncodeRle` and `DecodeRle`. -/
def pixelCount (ctx : CodecsContext) : Nat := ctx.Columns * ctx.Rows

/-- The local `pos` of the segment loop of `EncodeRle` and `DecodeRle` for
segment `s`: the position of the segment's first byte in the raw buffer. -/
def segmentPos (ctx : CodecsContext) (s : Nat) : Nat :=
  let sample := s / bytesAllocated ctx
  let sabyte := s % bytesAllocated ctx
  let pos :=
    if ctx.PlanarConfiguration = Interleaved then sample * bytesAllocated ctx
    else sample * bytesAllocated ctx * pixelCount ctx
  pos + (bytesAllocated ctx - sabyte - 1)

/-- The local `offset` of the segment loop of `EncodeRle` and `DecodeRle`: the
stride between two bytes of a segment in the raw buffer. -/
def segmentStride (ctx : CodecsContext) : Nat :=
  if ctx.PlanarConfiguration = Interleaved then ctx.SamplesPerPixel * bytesAllocated ctx
  else bytesAllocated ctx

/-- The pixel loop of `EncodeRle`: `pixels` iterations from read position `pos`. -/
def encodePixels (ctx : CodecsContext) (offset : Nat) :
    Nat → Nat → RleEncoder → Except CodecsError RleEncoder
  | 0, _, e => .ok e
  | pixels + 1, pos, e =>
    if pos ≥ ctx.DecodedBuffer.length then .error .readPastEnd
    else encodePixels ctx offset pixels (pos + offset) (e.Encode (ctx.DecodedBuffer.getD pos 0))

/-- The segment loop of `EncodeRle`: `segments` iterations from segment `s`. -/
def encodeSegments (ctx : CodecsContext) :
    Nat → Nat → RleEncoder → Except CodecsError RleEncoder
  | 0, _, e => .ok e
  | segments + 1, s, e => do
    let e ← e.NextSegment
    let e ← encodePixels ctx (segmentStride ctx) (pixelCount ctx) (segmentPos ctx s) e
    encodeSegments ctx segments (s + 1) e.Flush

/-- `EncodeRle(ctx, params)`: the context with the encoded buffer set. -/
def EncodeRle (ctx : CodecsContext) : Except CodecsError CodecsContext := do
  let numberOfSegments := bytesAllocated ctx * ctx.SamplesPerPixel
  let encoder ← encodeSegments ctx numberOfSegments 0 RleEncoder.new
  let encoder := encoder.MakeEvenLength
  let encoder := encoder.GetBuffer
  .ok { ctx with EncodedBuffer := encoder.writer_ }

/-- The segment loop of `DecodeRle`: `segments` iterations from segment `s`,
on the sink `buffer`. -/
def decodeSegments (ctx : CodecsContext) (decoder : RleDecoder) (decodedBufferSize : Nat) :
    Nat → Nat → List Nat → Except CodecsError (List Nat)
  | 0, _, buffer => .ok buffer
  | segments + 1, s, buffer =>
    if bytesAllocated ctx = 0 then .error .divisionByZero
    else do
      let buffer ← decoder.DecodeSegment s buffer (toInt32 decodedBufferSize)
        (toInt32 (segmentPos ctx s)) (toInt32 (segmentStride ctx))
      decodeSegments ctx decoder decodedBufferSize segments (s + 1) buffer

/-- `DecodeRle(ctx, params)`: the context with the decoded buffer set. `junk` is
the content of the decoded buffer after its resize. -/
def DecodeRle (junk : Nat → Nat) (ctx : CodecsContext) : Except CodecsError CodecsContext := do
  let decoder ← RleDecoder.new ctx.EncodedBuffer (toInt32 ctx.EncodedBuffer.length)
  let decodedBufferSize := pixelCount ctx * bytesAllocated ctx * ctx.SamplesPerPixel
  let pDest := Buffer.Reset junk decodedBufferSize
  let pDest ← decodeSegments ctx decoder decodedBufferSize
    decoder.GetNumberOfSegments.toNat 0 pDest
  .ok { ctx with DecodedBuffer := pDest }

/-! ## ChangePlanarConfiguration (`PlanarConfiguration.cpp`) -/

/-- `ChangePlanarConfiguration(pixelData, numValues, bitsAllocated,
samplesPerPixel, oldPlanarConfiguration)`: the content of `pixelData` afterwards.
The final `memcpy` of `numValues` bytes needs `pixelData` to hold that many. -/
def ChangePlanarConfiguration (pixelData : List Nat) (numValues bitsAllocated
    samplesPerPixel oldPlanarConfiguration : Nat) : Except CodecsError (List Nat) :=
  let bytesAllocated := bitsAllocated / 8
  if samplesPerPixel = 0 then .error .divisionByZero
  else
    let numPixels := numValues / samplesPerPixel
    if bytesAllocated = 1 then
      let buffer := List.replicate numValues 0
      let buffer :=
        if oldPlanarConfiguration = Planar then
          (List.range numPixels).foldl (fun buffer n =>
            (List.range samplesPerPixel).foldl (fun buffer s =>
              buffer.set (n * samplesPerPixel + s) (pixelData.getD (n + numPixels * s) 0))
              buffer) buffer
        else
          (List.range numPixels).foldl (fun buffer n =>
            (List.range samplesPerPixel).foldl (fun buffer s =>
              buffer.set (n + numPixels * s) (pixelData.getD (n * samplesPerPixel + s) 0))
              buffer) buffer
      if numValues ≤ pixelData.length then .ok (buffer ++ pixelData.drop numValues)
      else .error .memoryFault
    else .error (.unsupportedBitsAllocated bitsAllocated)

/-! ## The JPEG entry points (`Decoders.cpp`, `Encoders.cpp`) -/

/-- The `DecoderParameters` read in `DecoderParameters.cpp`. -/
structure DecoderParameters where
  ConvertColorspaceToRgb : Bool
  deriving DecidableEq, Repr

/-- The `EncoderParameters` read in `EncoderParameters.cpp`. -/
structure EncoderParameters where
  Lossy : Bool
  Quality : Nat
  SmoothingFactor : Nat
  SampleFactor : Nat
  Predictor : Nat
  PointTransform : Nat
  AllowedLossyError : Nat
  ProgressionOrder : Nat
  Rate : Nat
  AllowMct : Nat
  deriving DecidableEq, Repr

/-- How a call on a context ends: normally or with the exception it throws,
together with the context it leaves behind. -/
abbrev Outcome := Except CodecsError Unit × CodecsContext

/-- `DecodeJpeg(ctx, params)`. The scan `ScanJpegDataForBitDepth(data, size)`
(declared in `Decoders/JpegDecoder.h`, which is absent) and the three
subvariants `DecodeJpeg8`, `DecodeJpeg12`, `DecodeJpeg16` (adaptors of the JPEG
library) are parameters; the scanned precision and `BitsStored` are compared as
natural numbers. -/
def DecodeJpeg (ScanJpegDataForBitDepth : List Nat → Nat → Nat)
    (DecodeJpeg8 DecodeJpeg12 DecodeJpeg16 : CodecsContext → DecoderParameters → Outcome)
    (ctx : CodecsContext) (params : DecoderParameters) : Outcome :=
  let jpegBitDepth := ScanJpegDataForBitDepth ctx.EncodedBuffer ctx.EncodedBuffer.length
  let jpegBitDepth := if jpegBitDepth = 0 then ctx.BitsStored else jpegBitDepth
  if jpegBitDepth = 0 then (.error .bitDepthUnknown, ctx)
  else if jpegBitDepth ≤ 8 then DecodeJpeg8 ctx params
  else if jpegBitDepth ≤ 12 then DecodeJpeg12 ctx params
  else if jpegBitDepth ≤ 16 then DecodeJpeg16 ctx params
  else (.error (.unsupportedBitDepth jpegBitDepth), ctx)

/-- `EncodeJpeg(ctx, params)`, with the three subvariants `EncodeJpeg8`,
`EncodeJpeg12`, `EncodeJpeg16` (adaptors of the JPEG library) as parameters. -/
def EncodeJpeg
    (EncodeJpeg8 EncodeJpeg12 EncodeJpeg16 : CodecsContext → EncoderParameters → Outcome)
    (ctx : CodecsContext) (params : EncoderParameters) : Outcome :=
  let jpegBitDepth := ctx.BitsStored
  if params.Lossy = true ∧ jpegBitDepth ≠ 8 then
    (.error (.unsupportedLossyBitDepth jpegBitDepth), ctx)
  else if jpegBitDepth ≤ 8 then EncodeJpeg8 ctx params
  else if jpegBitDepth ≤ 12 then EncodeJpeg12 ctx params
  else if jpegBitDepth ≤ 16 then EncodeJpeg16 ctx params
  else (.error (.unsupportedBitDepth jpegBitDepth), ctx)

/-! ## The format sniff of `DecodeJpeg2000` (`Decoders.cpp`) -/

/-- The string literal `JP2_RFC3745_MAGIC`, with its terminating zero. -/
def JP2_RFC3745_MAGIC : List Nat :=
  [0x00, 0x00, 0x00, 0x0c, 0x6a, 0x50, 0x20, 0x20, 0x0d, 0x0a, 0x87, 0x0a, 0]

/-- The string literal `JP2_MAGIC`, with its terminating zero. -/
def JP2_MAGIC : List Nat := [0x0d, 0x0a, 0x87, 0x0a, 0]

/-- The string literal `J2K_CODESTREAM_MAGIC`, with its terminating zero. -/
def J2K_CODESTREAM_MAGIC : List Nat := [0xff, 0x4f, 0xff, 0x51, 0]

/-- The values of `OPJ_CODEC_FORMAT` that `DecodeJpeg2000` assigns. -/
inductive OPJ_CODEC_FORMAT where
  | OPJ_CODEC_UNKNOWN
  | OPJ_CODEC_J2K
  | OPJ_CODEC_JP2
  deriving DecidableEq, Repr

/-- The library function `memcmp(a, b, n)` on arrays that hold at least `n`
bytes: zero when the first `n` bytes agree, else the difference of the first
two bytes that differ. -/
def memcmp : List Nat → List Nat → Nat → Int
  | a :: as, b :: bs, n + 1 => if a = b then memcmp as bs n else (a : Int) - (b : Int)
  | _, _, _ => 0

/-- The value of the local `codecFormat` of `DecodeJpeg2000` when the codec is
created. The `memcpy` of twelve bytes out of a shorter encoded buffer is a
fault. -/
def DecodeJpeg2000.codecFormat (encoded : List Nat) : Except CodecsError OPJ_CODEC_FORMAT :=
  if encoded.length < 12 then .error .memoryFault
  else
    let buf12 := encoded.take 12
    if memcmp buf12 JP2_RFC3745_MAGIC 12 = 0 ∨ memcmp buf12 JP2_MAGIC 4 = 0 then
      .ok .OPJ_CODEC_JP2
    else if memcmp buf12 J2K_CODESTREAM_MAGIC 4 = 0 then .ok .OPJ_CODEC_J2K
    else .ok .OPJ_CODEC_UNKNOWN

/-! ## The resolution counts of the JPEG 2000 encoders (`Encoders.cpp`) -/

/-- The loop `while (tw && th) { numberOfResolutions++; tw >>= 1; th >>= 1; }`
of `EncodeJpeg2000`, from loop state `(numberOfResolutions, tw, th)`. -/
def EncodeJpeg2000.resolutionLoop : Nat → Nat → Nat → Nat → Except CodecsError Nat
  | fuel, numberOfResolutions, tw, th =>
    if tw ≠ 0 ∧ th ≠ 0 then
      match fuel with
      | 0 => .error .outOfFuel
      | fuel + 1 => resolutionLoop fuel (numberOfResolutions + 1) (tw >>> 1) (th >>> 1)
    else .ok numberOfResolutions

/-- The value `EncodeJpeg2000` stores in `parameters.numresolution`. Every
iteration halves `tw`, so `tw` iterations are enough. -/
def EncodeJpeg2000.numresolution (ctx : CodecsContext) : Except CodecsError Nat := do
  let tw := ctx.Columns >>> 1
  let th := ctx.Rows >>> 1
  let numberOfResolutions ← EncodeJpeg2000.resolutionLoop tw 0 tw th
  .ok (if numberOfResolutions > 6 then 6 else numberOfResolutions)

/-- The loop `while (tw > 64 && th > 64) { numberOfDecompositions++;
tw = ceil(tw / 2); th = ceil(th / 2); }` of `EncodeHtJpeg2000`, from loop state
`(numberOfDecompositions, tw, th)`. The quotient `tw / 2` is the integer
quotient of two unsigned integers, on which `ceil` changes nothing. -/
def EncodeHtJpeg2000.decompositionLoop : Nat → Nat → Nat → Nat → Except CodecsError Nat
  | fuel, numberOfDecompositions, tw, th =>
    if tw > 64 ∧ th > 64 then
      match fuel with
      | 0 => .error .outOfFuel
      | fuel + 1 => decompositionLoop fuel (numberOfDecompositions + 1) (tw / 2) (th / 2)
    else .ok numberOfDecompositions

/-- The value `EncodeHtJpeg2000` passes to `cod.set_num_decomposition`. Every
iteration halves `tw`, so `tw` iterations are enough. -/
def EncodeHtJpeg2000.numDecompositions (ctx : CodecsContext) : Except CodecsError Nat := do
  let tw := ctx.Columns
  let th := ctx.Rows
  let numberOfDecompositions ← EncodeHtJpeg2000.decompositionLoop tw 0 tw th
  .ok (if numberOfDecompositions > 6 then 6 else numberOfDecompositions)

/-! ## The decoder with the stores made before an exception

The functions above give the stores of a call that returns. The functions of
this section follow the same source lines and keep, for a call that throws,
the stores it made before the exception. -/

/-- The stores a call made, in program order, and the exception that ended it,
if one did. -/
abbrev Trace := WriteLog × Option CodecsError

/-- The result of a call as the functions above give it: the stores of a call
that returns, the exception of a call that throws. -/
def Trace.toExcept (t : Trace) : Except CodecsError WriteLog :=
  match t.2 with
  | none => .ok t.1
  | some e => .error e

namespace RleDecoder

/-- The literal loop `while (length-- > 0) { buffer[pos] = rleData[i++]; pos += sampleOffset; }`:
the stores made, and the final `i` and `pos` or the fault of a read. -/
def literalLoopT (rleData : List Nat) (sampleOffset : Int) :
    Nat → Int → Int → WriteLog × Except CodecsError (Int × Int)
  | 0, i, pos => ([], .ok (i, pos))
  | length + 1, i, pos =>
    match readByte rleData i with
    | .error e => ([], .error e)
    | .ok b =>
      let r := literalLoopT rleData sampleOffset length (i + 1) (pos + sampleOffset)
      ((pos, b) :: r.1, r.2)

/-- The stores of `memcpy(&buffer[pos], &rleData[i], length)`, up to the fault
of a read. -/
def memcpyLogT (rleData : List Nat) : Nat → Int → Int → Trace
  | 0, _, _ => ([], none)
  | length + 1, i, pos =>
    match readByte rleData i with
    | .error e => ([], some e)
    | .ok b =>
      let r := memcpyLogT rleData length (i + 1) (pos + 1)
      ((pos, b) :: r.1, r.2)

/-- The `for (i = offset; i < end && pos < bufferLength;)` loop of
`RleDecoder::Decode`, from loop state `(i, pos)`, with the stores made before
an exception. -/
def decodeLoopT (rleData : List Nat) (bufferLength sampleOffset end_ : Int) :
    Nat → Int → Int → Trace
  | fuel, i, pos =>
    if i < end_ ∧ pos < bufferLength then
      match fuel with
      | 0 => ([], some .outOfFuel)
      | fuel + 1 =>
        match readByte rleData i with
        | .error e => ([], some e)
        | .ok c =>
          let control := toInt8 c
          let i := i + 1
          if control ≥ 0 then
            let length := control + 1
            if end_ - i < length then ([], some .inputOverflow)
            else if pos + (length - 1) * sampleOffset ≥ bufferLength then
              ([], some .outputOverflow)
            else
              let r : WriteLog × Except CodecsError (Int × Int) :=
                if sampleOffset = 1 then
                  let m := memcpyLogT rleData length.toNat i pos
                  (m.1, match m.2 with
                        | some e => .error e
                        | none => .ok (i + length, pos + length))
                else literalLoopT rleData sampleOffset length.toNat i pos
              match r.2 with
              | .error e => (r.1, some e)
              | .ok next =>
                if next.1 + 1 ≥ end_ then (r.1, none)
                else
                  let rest :=
                    decodeLoopT rleData bufferLength sampleOffset end_ fuel next.1 next.2
                  (r.1 ++ rest.1, rest.2)
          else if control ≥ -127 then
            let length := -control
            if pos + (length - 1) * sampleOffset ≥ bufferLength then
              ([], some .outputOverflow)
            else
              match readByte rleData i with
              | .error e => ([], some e)
              | .ok b =>
                let i := i + 1
                let r :=
                  if sampleOffset = 1 then repeatLoop b 1 (length + 1).toNat pos
                  else repeatLoop b sampleOffset (length + 1).toNat pos
                if i + 1 ≥ end_ then (r.1, none)
                else
                  let rest := decodeLoopT rleData bufferLength sampleOffset end_ fuel i r.2
                  (r.1 ++ rest.1, rest.2)
          else
            if i + 1 ≥ end_ then ([], none)
            else decodeLoopT rleData bufferLength sampleOffset end_ fuel i pos
    else ([], none)

/-- The trace of `RleDecoder::Decode(buffer, size, start, sampleOffset, rleData,
offset, count)`. -/
def DecodeTrace (size start sampleOffset : Int) (rleData : List Nat)
    (offset count : Int) : Trace :=
  decodeLoopT rleData size sampleOffset (offset + count) count.toNat offset start

/-- The trace of `RleDecoder::DecodeSegment`: the range check comes first. -/
def DecodeSegmentTrace (d : RleDecoder) (segment size start sampleOffset : Int) :
    Trace :=
  if segment < 0 ∨ segment ≥ d.segmentCount_ then ([], some (.segmentOutOfRange segment))
  else
    match d.GetSegmentOffset segment with
    | .error e => ([], some e)
    | .ok offset =>
      match d.GetSegmentLength segment with
      | .error e => ([], some e)
      | .ok length => DecodeTrace size start sampleOffset d.data_ offset length

end RleDecoder

/-- Replays a write log on a buffer up to the first store outside the buffer,
which is a fault. -/
def storeT (buffer : List Nat) : WriteLog → List Nat × Option CodecsError
  | [] => (buffer, none)
  | (pos, b) :: ws =>
    if 0 ≤ pos ∧ pos < buffer.length then storeT (buffer.set pos.toNat b) ws
    else (buffer, some .memoryFault)

/-- The sink after a call with trace `t`, and how the call ended: with the
fault of a store outside the sink, with the exception of the trace, or
normally. -/
def applyTrace (buffer : List Nat) (t : Trace) : Except CodecsError Unit × List Nat :=
  let r := storeT buffer t.1
  match r.2 with
  | some e => (.error e, r.1)
  | none =>
    match t.2 with
    | some e => (.error e, r.1)
    | none => (.ok (), r.1)

/-- `RleDecoder::DecodeSegment` on a sink `buffer`: how the call ends and the
sink afterwards. -/
def RleDecoder.DecodeSegmentSink (d : RleDecoder) (segment : Int) (buffer : List Nat)
    (size start sampleOffset : Int) : Except CodecsError Unit × List Nat :=
  applyTrace buffer (d.DecodeSegmentTrace segment size start sampleOffset)

/-- The segment loop of `DecodeRle` on the sink `buffer`: how it ends and the
sink afterwards. -/
def decodeSegmentsSink (ctx : CodecsContext) (decoder : RleDecoder) (decodedBufferSize : Nat) :
    Nat → Nat → List Nat → Except CodecsError Unit × List Nat
  | 0, _, buffer => (.ok (), buffer)
  | segments + 1, s, buffer =>
    if bytesAllocated ctx = 0 then (.error .divisionByZero, buffer)
    else
      let r := decoder.DecodeSegmentSink s buffer (toInt32 decodedBufferSize)
        (toInt32 (segmentPos ctx s)) (toInt32 (segmentStride ctx))
      match r.1 with
      | .error e => (.error e, r.2)
      | .ok _ => decodeSegmentsSink ctx decoder decodedBufferSize segments (s + 1) r.2

/-- `DecodeRle(ctx, params)` as a call on the context: how it ends and the
context afterwards. An exception of the constructor comes before the resize
of the decoded buffer; a later one leaves the decoded buffer resized and
written in part. -/
def DecodeRleOutcome (junk : Nat → Nat) (ctx : CodecsContext) : Outcome :=
  match RleDecoder.new ctx.EncodedBuffer (toInt32 ctx.EncodedBuffer.length) with
  | .error e => (.error e, ctx)
  | .ok decoder =>
    let decodedBufferSize := pixelCount ctx * bytesAllocated ctx * ctx.SamplesPerPixel
    let pDest := Buffer.Reset junk decodedBufferSize
    let r := decodeSegmentsSink ctx decoder decodedBufferSize
      decoder.GetNumberOfSegments.toNat 0 pDest
    (r.1, { ctx with DecodedBuffer := r.2 })

/-- `EncodeRle(ctx, params)` as a call on the context: every exception comes
before the first write to the context, the resize of the encoded buffer. -/
def EncodeRleOutcome (ctx : CodecsContext) : Outcome :=
  match EncodeRle ctx with
  | .error e => (.error e, ctx)
  | .ok ctx' => (.ok (), ctx')

/-! ## The 8-bit JPEG decoder (`Decoders/JpegDecoder8.cpp`) -/

/-- `PixelRepresentationEnum::Signed`. -/
def Signed : Nat := 1

/-- `PhotometricInterpretationEnum::Rgb`. -/
def Rgb : Nat := 3

/-- The colour spaces `J_COLOR_SPACE` of the JPEG library. -/
inductive J_COLOR_SPACE where
  | JCS_UNKNOWN
  | JCS_GRAYSCALE
  | JCS_RGB
  | JCS_YCbCr
  | JCS_CMYK
  | JCS_YCCK
  deriving DecidableEq, Repr

/-- The fields of the library's `jpeg_decompress_struct` that `DecodeJpeg8`
reads or writes. -/
structure jpeg_decompress_struct where
  image_width : Nat
  image_height : Nat
  num_components : Nat
  jpeg_color_space : J_COLOR_SPACE
  out_color_space : J_COLOR_SPACE
  deriving DecidableEq, Repr

/-- The JPEG library as `DecodeJpeg8` uses it. `jpeg_read_header` on the encoded
buffer throws through `error_exit`, or is suspended (`none`), or fills the
header fields. `decompress` stands for `jpeg_start_decompress`, the scanline
loop and `jpeg_finish_decompress`: given the header fields as `DecodeJpeg8`
left them, the encoded buffer and the byte length of a scanline, it yields the
stores of the library into the decoded buffer and the exception it threw, if
any. -/
structure JpegLibrary where
  jpeg_read_header : List Nat → Except CodecsError (Option jpeg_decompress_struct)
  decompress : jpeg_decompress_struct → List Nat → Nat → Trace

/-- The lines of `DecodeJpeg8` from the computation of `bytesAllocated` on: the
resize of the decoded buffer and the decompression into it. -/
def DecodeJpeg8.decompressInto (lib : JpegLibrary) (junk : Nat → Nat)
    (dinfo : jpeg_decompress_struct) (ctx : CodecsContext) : Outcome :=
  let bytesAllocated := ctx.BitsAllocated / 8 + (if ctx.BitsAllocated % 8 = 0 then 0 else 1)
  let decodedBufferSize :=
    dinfo.image_width * dinfo.image_height * bytesAllocated * dinfo.num_components
  let buffer := Buffer.Reset junk decodedBufferSize
  let scanlineBytes := dinfo.image_width * bytesAllocated * dinfo.num_components
  let r := applyTrace buffer (lib.decompress dinfo ctx.EncodedBuffer scanlineBytes)
  (r.1, { ctx with DecodedBuffer := r.2 })

/-- `DecodeJpeg8(ctx, params)`: how the call ends and the context afterwards.
`junk` is the content of the decoded buffer after its resize. -/
def DecodeJpeg8 (lib : JpegLibrary) (junk : Nat → Nat) (ctx : CodecsContext)
    (params : DecoderParameters) : Outcome :=
  match lib.jpeg_read_header ctx.EncodedBuffer with
  | .error e => (.error e, ctx)
  | .ok none => (.error .headerSuspended, ctx)
  | .ok (some dinfo) =>
    if params.ConvertColorspaceToRgb = true ∧
        (dinfo.out_color_space = .JCS_YCbCr ∨ dinfo.out_color_space = .JCS_RGB) then
      if ctx.PixelRepresentation = Signed then (.error .signedColorConvertUnsupported, ctx)
      else
        let dinfo := { dinfo with out_color_space := .JCS_RGB }
        let ctx := { ctx with PhotometricInterpretation := Rgb }
        let ctx := { ctx with PlanarConfiguration := Interleaved }
        DecodeJpeg8.decompressInto lib junk dinfo ctx
    else
      let dinfo := { dinfo with jpeg_color_space := .JCS_UNKNOWN,
                                out_color_space := .JCS_UNKNOWN }
      DecodeJpeg8.decompressInto lib junk dinfo ctx

/-- The numeric fields of a context. -/
def CodecsContext.numericFields (ctx : CodecsContext) : List Nat :=
  [ctx.Columns, ctx.Rows, ctx.BitsAllocated, ctx.BitsStored, ctx.SamplesPerPixel,
    ctx.PixelRepresentation, ctx.PlanarConfiguration, ctx.PhotometricInterpretation]

/-- Replays a list of stores `buffer[i] = b` with natural indices. -/
def setAll (buffer : List Nat) (ws : List (Nat × Nat)) : List Nat :=
  ws.foldl (fun b w => b.set w.1 w.2) buffer

/-- A complete PackBits run of the on-wire format. -/
inductive Run where
  /-- A control byte `c = bytes.length - 1 ≥ 0` followed by the `c + 1` bytes. -/
  | literal (bytes : List Nat)
  /-- A control byte `c = -n` in `[-127, -1]` followed by the byte `b`. -/
  | repeated (n : Nat) (b : Nat)
  /-- The control byte `-128`. -/
  | noop
  deriving DecidableEq, Repr

namespace Run

/-- Well-formed runs: a literal run has 1 to 128 bytes, a repeat run has
`n` from 1 to 127. -/
def wf : Run → Prop
  | literal bytes => 1 ≤ bytes.length ∧ bytes.length ≤ 128
  | repeated n _ => 1 ≤ n ∧ n ≤ 127
  | noop => True

instance (r : Run) : Decidable r.wf := by
  cases r <;> unfold wf <;> infer_instance

/-- The bytes of a run in the segment. -/
def bytes : Run → List Nat
  | literal bs => (bs.length - 1) :: bs
  | repeated n b => [256 - n, b]
  | noop => [128]

/-- The reference expansion of a run: a literal run is its `c + 1` bytes
verbatim, a repeat run with control byte `c = -n` is `(-c) + 1` copies of its
byte, the no-op is nothing. -/
def expand : Run → List Nat
  | literal bs => bs
  | repeated n b => List.replicate (n + 1) b
  | noop => []

end Run

/-- The bytes of a sequence of runs. -/
def encodeRuns (runs : List Run) : List Nat := runs.flatMap Run.bytes

/-- The reference expansion of a sequence of runs. -/
def expandRuns (runs : List Run) : List Nat := runs.flatMap Run.expand

/-- The stores that put `bytes`, in order, at `start`, `start + stride`,
`start + 2 * stride`, and so on. -/
def strided (start stride : Int) : List Nat → WriteLog
  | [] => []
  | b :: bs => (start, b) :: strided (start + stride) stride bs

/-- The guard `if ((i + 1) >= end) break;` that ends every iteration of the
loop of `RleDecoder::Decode`, followed by the rest of the loop. -/
def RleDecoder.guarded (rleData : List Nat) (bufferLength sampleOffset end_ : Int)
    (fuel : Nat) (i pos : Int) : Except CodecsError WriteLog :=
  if i + 1 ≥ end_ then .ok []
  else RleDecoder.decodeLoop rleData bufferLength sampleOffset end_ fuel i pos

/-- The bytes waiting in the literal buffer of the encoder. -/
def RleEncoder.pending (e : RleEncoder) : List Nat := e.buffer_.take e.bufferPos_.toNat

/-- The state of the encoder after `Flush`: no previous byte, nothing pending. -/
def RleEncoder.clean (e : RleEncoder) : Prop :=
  e.prevByte_ = -1 ∧ e.repeatCount_ = 0 ∧ e.bufferPos_ = 0 ∧ e.buffer_.length = 132

/-- The invariant of the encoder inside a segment that started in state `e0`
and has consumed the bytes `inp`: the writer holds complete well-formed runs,
and their expansion, followed by the pending literal bytes and the current run
of `repeatCount_` copies of `prevByte_`, is the input consumed so far. -/
def RleEncoder.Inv (e0 : RleEncoder) (inp : List Nat) (e : RleEncoder) : Prop :=
  (∃ runs : List Run, e.writer_ = e0.writer_ ++ encodeRuns runs ∧ (∀ r ∈ runs, r.wf) ∧
    expandRuns runs ++ e.pending ++
      List.replicate e.repeatCount_.toNat (toUInt8 e.prevByte_) = inp.map (· % 256)) ∧
  0 ≤ e.bufferPos_ ∧ e.bufferPos_ ≤ 128 ∧ 0 ≤ e.repeatCount_ ∧ e.repeatCount_ ≤ 128 ∧
  (3 ≤ e.repeatCount_ → e.bufferPos_ = 0) ∧ e.buffer_.length = 132 ∧
  (e.repeatCount_ = 0 → e.prevByte_ = -1) ∧ (0 < e.repeatCount_ → 0 ≤ e.prevByte_) ∧
  e.offsets_ = e0.offsets_ ∧ e.segmentCount_ = e0.segmentCount_

/-- The bytes the pixel loop of `EncodeRle` reads: `n` bytes of `buffer` from
position `pos` on, `offset` apart. -/
def gather (buffer : List Nat) (offset : Nat) : Nat → Nat → List Nat
  | 0, _ => []
  | n + 1, pos => buffer.getD pos 0 :: gather buffer offset n (pos + offset)

/-- The bytes of segment `s` of the raw buffer of `ctx`, in pixel order. -/
def segmentBytes (ctx : CodecsContext) (s : Nat) : List Nat :=
  gather ctx.DecodedBuffer (segmentStride ctx) (pixelCount ctx) (segmentPos ctx s)

/-- Segment `j` of the `k` segments written so far, in the writer content `w`
with the offset slots `offs`: it starts at an even position, it consists of
well-formed runs that expand to the bytes of segment `j` of the raw buffer, and
it is followed by at most one padding byte. -/
def SegAt (ctx : CodecsContext) (w : List Nat) (offs : List Int) (k j : Nat) : Prop :=
  ∃ (pre : List Nat) (runs : List Run) (trail post : List Nat),
    w = pre ++ encodeRuns runs ++ trail ++ post ∧
    offs.getD j 0 = toInt32 (pre.length : Nat) ∧ pre.length % 2 = 0 ∧ trail.length ≤ 1 ∧
    (∀ r ∈ runs, r.wf) ∧ expandRuns runs = (segmentBytes ctx j).map (· % 256) ∧
    (j + 1 < k →
      offs.getD (j + 1) 0 = toInt32 ((pre.length + (encodeRuns runs).length + trail.length : Nat))) ∧
    (j + 1 = k → trail = [] ∧ post = [])

/-- The state of the encoder between two segments of `EncodeRle`, after `k`
segments. -/
def Layout (ctx : CodecsContext) (e : RleEncoder) (k : Nat) : Prop :=
  e.clean ∧ e.segmentCount_ = k ∧ e.offsets_.length = 15 ∧ k ≤ 15 ∧
  (∀ j, k ≤ j → e.offsets_.getD j 0 = 0) ∧
  ∀ j, j < k → SegAt ctx e.writer_ e.offsets_ k j

/-- Segment `j` of the `n` segments of an encoded stream with body `body` (the
bytes after the 64-byte header) and header offsets `offs`. -/
def FinalSeg (ctx : CodecsContext) (body : List Nat) (offs : List Int) (n j : Nat) : Prop :=
  ∃ (pre : List Nat) (runs : List Run) (trail post : List Nat),
    body = pre ++ encodeRuns runs ++ trail ++ post ∧
    offs.getD j 0 = toInt32 (toInt32 (pre.length : Nat) + 64) ∧ trail.length ≤ 1 ∧
    (∀ r ∈ runs, r.wf) ∧ expandRuns runs = (segmentBytes ctx j).map (· % 256) ∧
    (j + 1 < n → offs.getD (j + 1) 0 =
      toInt32 (toInt32 ((pre.length + (encodeRuns runs).length + trail.length : Nat)) + 64)) ∧
    (j + 1 = n → post = [])

/-- The shape of the stream `EncodeRle` produces for `ctx`: the segment count,
the fifteen offsets, then the padded segment bodies. -/
def Encoded (ctx : CodecsContext) (enc : List Nat) : Prop :=
  bytesAllocated ctx * ctx.SamplesPerPixel ≤ 15 ∧
  ∃ (offs : List Int) (body : List Nat), offs.length = 15 ∧
    enc = le32 (bytesAllocated ctx * ctx.SamplesPerPixel : Nat) ++ offs.flatMap le32 ++ body ∧
    body.length % 2 = 0 ∧
    (∀ j, bytesAllocated ctx * ctx.SamplesPerPixel ≤ j → offs.getD j 0 = 0) ∧
    (∀ j, j < bytesAllocated ctx * ctx.SamplesPerPixel →
      FinalSeg ctx body offs (bytesAllocated ctx * ctx.SamplesPerPixel) j)

/-- The context of the RLE scenarios: one row of `raw.length` pixels with 8 bits
allocated and stored, one sample per pixel, interleaved, and `raw` as the
decoded buffer. -/
def scenarioContext (raw : List Nat) : CodecsContext :=
  { Columns := raw.length, Rows := 1, BitsAllocated := 8, BitsStored := 8,
    SamplesPerPixel := 1, PixelRepresentation := 0, PlanarConfiguration := Interleaved,
    PhotometricInterpretation := 1, EncodedBuffer := [], DecodedBuffer := raw }

/-- The 64 header bytes of a stream with one segment: the count 1, the offset
64 and fourteen unused offsets. -/
def singleSegmentHeader : List Nat := [1, 0, 0, 0, 64, 0, 0, 0] ++ List.replicate 56 0

/-- A JPEG library for worked examples: the header read yields `dinfo` and the
decompression has the trace `t`, whatever the encoded buffer holds. -/
def exampleLibrary (dinfo : jpeg_decompress_struct) (t : Trace) : JpegLibrary :=
  { jpeg_read_header := fun _ => .ok (some dinfo), decompress := fun _ _ _ => t }

/-- A context for worked examples of the JPEG decoder: `columns` by `rows`
pixels of `samplesPerPixel` 8-bit samples, with the given pixel representation,
planar configuration and photometric interpretation, and empty buffers. -/
def exampleContext (columns rows samplesPerPixel pixelRepresentation planarConfiguration
    photometricInterpretation : Nat) : CodecsContext :=
  { Columns := columns, Rows := rows, BitsAllocated := 8, BitsStored := 8,
    SamplesPerPixel := samplesPerPixel, PixelRepresentation := pixelRepresentation,
    PlanarConfiguration := planarConfiguration,
    PhotometricInterpretation := photometricInterpretation,
    EncodedBuffer := [], DecodedBuffer := [] }

/-! ## Machine arithmetic of the WebAssembly target -/

/-- The value of a `size_t` or `unsigned int` expression whose exact value is
`n`: both types are 32 bits wide on the WebAssembly target, and a sum or a
product wraps around. -/
def toSizeT (n : Nat) : Nat := n % 4294967296

/-- The value of `static_cast<size_t>(z)` for an `int` expression of exact value
`z`. -/
def intToSizeT (z : Int) : Nat := (z % 4294967296).toNat

/-- The number of low bits of `n` that do not fit a significand of `bits` bits:
the least `e` with `n / 2 ^ e < 2 ^ bits`. Every step halves `n`, so `n` steps
are enough. -/
def excessBits (bits : Nat) : Nat → Nat → Nat
  | 0, _ => 0
  | fuel + 1, n => if n < 2 ^ bits then 0 else excessBits bits fuel (n / 2) + 1

/-- The integer `n` rounded to `bits` significant bits, to the nearest value and
on a tie to the even significand: the conversion of `n` to a binary
floating-point type whose significand has `bits` bits (24 for `float`, 53 for
`double`). The result is an integer. -/
def roundToSignificand (bits n : Nat) : Nat :=
  let e := excessBits bits n n
  let q := n / 2 ^ e
  let r := n % 2 ^ e
  if 2 * r < 2 ^ e ∨ (2 * r = 2 ^ e ∧ q % 2 = 0) then q * 2 ^ e else (q + 1) * 2 ^ e

/-- The value of `static_cast<float>(n)` for a `size_t` value `n`; it is an
integer. -/
def toFloat (n : Nat) : Nat := roundToSignificand 24 n

/-- The value `EncodeJpeg2000` stores in `parameters.tcp_rates[0]`:
`static_cast<float>(params->Rate * GetBitsStored(ctx) / GetBitsAllocated(ctx))`.
The product and the quotient are those of `size_t` values, so the product wraps
around and the quotient is the integer quotient; the conversion rounds it to a
`float`, whose value is again an integer. A division by zero traps. -/
def EncodeJpeg2000.tcp_rate (ctx : CodecsContext) (params : EncoderParameters) :
    Except CodecsError Nat :=
  if ctx.BitsAllocated = 0 then .error .divisionByZero
  else .ok (toFloat (toSizeT (params.Rate * ctx.BitsStored) / ctx.BitsAllocated))

/-- Follows the spec's words: the loop "while both dimensions are > 64, replace
each dimension `d` by its ceiling-half `⌈d / 2⌉`", from the count `k` and the
dimensions `tw`, `th`; the result is the number of iterations `k`. -/
def ceilingHalvingLoop : Nat → Nat → Nat → Nat → Nat
  | 0, k, _, _ => k
  | fuel + 1, k, tw, th =>
    if tw > 64 ∧ th > 64 then ceilingHalvingLoop fuel (k + 1) ((tw + 1) / 2) ((th + 1) / 2)
    else k

/-- Follows the spec's words: the decomposition count `min(6, k)`, with `k` the
number of iterations of the ceiling-halving loop. A dimension above 64 gets
smaller in every iteration, so `columns` iterations are enough. -/
def ceilingHalvingCount (columns rows : Nat) : Nat :=
  min 6 (ceilingHalvingLoop columns 0 columns rows)

namespace RleEncoder

/-- The indices at which `MoveBuffer(count)` accesses `buffer_`, in program
order: the reads `buffer_[i]` for `i < count` of the first loop, then for every
`n` of the second loop the read `buffer_[i]`, `i = count + n`, and the store
`buffer_[n]`. -/
def MoveBuffer.indices (e : RleEncoder) (count : Int) : List Int :=
  (List.range count.toNat).map (fun (i : Nat) => (i : Int)) ++
    (List.range (e.bufferPos_ - count).toNat).flatMap
      (fun (n : Nat) => [count + (n : Int), (n : Int)])

/-- The indices at which the loop `while (bufferPos_ > limit) { ...
MoveBuffer(count); }` accesses `buffer_`. -/
def flushLiterals.indices (limit : Int) : Nat → RleEncoder → List Int
  | 0, _ => []
  | fuel + 1, e =>
    if e.bufferPos_ > limit then
      let count := min 128 e.bufferPos_
      MoveBuffer.indices (e.WriteByte (toUInt8 (count - 1))) count ++
        flushLiterals.indices limit fuel ((e.WriteByte (toUInt8 (count - 1))).MoveBuffer count)
    else []

/-- The indices at which `Encode(b)` accesses `buffer_`: the stores
`buffer_[bufferPos_++]` of the `switch` and the accesses of the literal flush
loops. -/
def Encode.indices (e : RleEncoder) (b : Nat) : List Int :=
  if (b : Int) = e.prevByte_ then
    let e := { e with repeatCount_ := e.repeatCount_ + 1 }
    if e.repeatCount_ > 2 ∧ e.bufferPos_ > 0 then
      flushLiterals.indices 0 e.bufferPos_.toNat e
    else []
  else
    let stores :=
      if e.repeatCount_ = 0 then []
      else if e.repeatCount_ = 1 then [e.bufferPos_]
      else if e.repeatCount_ = 2 then [e.bufferPos_, e.pushPrev.bufferPos_]
      else []
    let e :=
      if e.repeatCount_ = 0 then e
      else if e.repeatCount_ = 1 then e.pushPrev
      else if e.repeatCount_ = 2 then e.pushPrev.pushPrev
      else flushRepeats e.repeatCount_.toNat e
    stores ++ flushLiterals.indices 128 e.bufferPos_.toNat e

/-- The indices of the stores `buffer_[bufferPos_++] = prevByte_` of the first
loop of `Flush`. -/
def pushPending.indices : Nat → RleEncoder → List Int
  | 0, _ => []
  | fuel + 1, e =>
    if e.repeatCount_ > 0 then
      e.bufferPos_ :: pushPending.indices fuel { e.pushPrev with repeatCount_ := e.repeatCount_ - 1 }
    else []

/-- The indices at which `Flush()` accesses `buffer_`. -/
def Flush.indices (e : RleEncoder) : List Int :=
  let stores := if e.repeatCount_ < 2 then pushPending.indices e.repeatCount_.toNat e else []
  let e := if e.repeatCount_ < 2 then pushPending e.repeatCount_.toNat e else e
  stores ++ flushLiterals.indices 0 e.bufferPos_.toNat e

/-- A call of one of the public methods `Encode`, `Flush`, `NextSegment`. -/
inductive Call where
  | Encode (b : Nat)
  | Flush
  | NextSegment
  deriving DecidableEq, Repr

/-- The state after the call. -/
def Call.run : Call → RleEncoder → Except CodecsError RleEncoder
  | .Encode b, e => .ok (e.Encode b)
  | .Flush, e => .ok e.Flush
  | .NextSegment, e => e.NextSegment

/-- The indices at which the call accesses `buffer_`; `NextSegment` does so in
its call of `Flush`. -/
def Call.indices : Call → RleEncoder → List Int
  | .Encode b, e => Encode.indices e b
  | .Flush, e => Flush.indices e
  | .NextSegment, e => Flush.indices e

/-- A sequence of calls, from the state `e`. -/
def runCalls : List Call → RleEncoder → Except CodecsError RleEncoder
  | [], e => .ok e
  | c :: cs, e => do
    let e ← c.run e
    runCalls cs e

end RleEncoder

/-- The accounting invariant of the encoder inside a segment that started in
state `e0` and has consumed `n` bytes: with `m` the number of input bytes the
written runs stand for, the written runs are at most `m / 128` bytes longer
than `m`, plus one byte for every copy beyond the second of the run held. -/
def RleEncoder.Cost (e0 : RleEncoder) (n : Nat) (e : RleEncoder) : Prop :=
  128 * ((e.writer_.length : Int) - e0.writer_.length -
      ((n : Int) - e.bufferPos_ - e.repeatCount_)) ≤
    ((n : Int) - e.bufferPos_ - e.repeatCount_) + 128 * max (e.repeatCount_ - 2) 0

/-! ## The line marshalling of the HTJ2K adaptor (`Encoders.cpp`, `Decoders.cpp`) -/

/-- The value of `static_cast<int16_t>(n)`: `n` wrapped into `[-2^15, 2^15)`. -/
def toInt16 (n : Int) : Int :=
  (n + 32768) % 65536 - 32768

/-- The read `*sp` behind a `uint16_t *` at byte position `pos` of `data` (two
bytes, little-endian). -/
def readUInt16 (data : List Nat) (pos : Nat) : Except CodecsError Int := do
  let lo ← readByte data pos
  let hi ← readByte data (pos + 1)
  .ok ((lo : Int) + 256 * (hi : Int))

/-- The read `*sp` behind an `int16_t *` at byte position `pos` of `data`. -/
def readInt16 (data : List Nat) (pos : Nat) : Except CodecsError Int := do
  let u ← readUInt16 data pos
  .ok (toInt16 u)

/-- The two bytes of a 16-bit word in little-endian order, as a store through a
`uint16_t *` or `int16_t *` lays them out. -/
def le16 (v : Int) : List Nat :=
  let u := (v % 65536).toNat
  [u % 256, u / 256]

namespace EncodeHtJpeg2000

/-- The loop `for (x = 0; x < GetColumns(ctx); x++) { *dp++ = *sp; ... }`: the
samples written to the line, `read x` being the sample `*sp` of iteration `x`. -/
def lineLoop (read : Nat → Except CodecsError Int) : Nat → Nat → Except CodecsError (List Int)
  | 0, _ => .ok []
  | n + 1, x => do
    let v ← read x
    let rest ← lineLoop read n (x + 1)
    .ok (v :: rest)

/-- The line `cur_line->i32` that `EncodeHtJpeg2000` fills for row `y` and
component `c` before it hands it to `codestream.exchange`. -/
def line (ctx : CodecsContext) (y c : Nat) : Except CodecsError (List Int) :=
  let bytesPerPixel := ctx.BitsAllocated / 8
  if ctx.BitsAllocated ≤ 8 then
    lineLoop (fun x => do
      let b ← readByte ctx.DecodedBuffer
        ((y * ctx.Columns * bytesPerPixel * ctx.SamplesPerPixel + c + x * ctx.SamplesPerPixel : Nat) : Int)
      .ok (b : Int)) ctx.Columns 0
  else if ctx.PixelRepresentation = Signed then
    lineLoop (fun x => readInt16 ctx.DecodedBuffer (y * ctx.Columns * bytesPerPixel + 2 * x))
      ctx.Columns 0
  else
    lineLoop (fun x => readUInt16 ctx.DecodedBuffer (y * ctx.Columns * bytesPerPixel + 2 * x))
      ctx.Columns 0

/-- The loop over the components `c` of one row `y`: the lines in the order they
are handed over. -/
def componentLines (ctx : CodecsContext) (y : Nat) : Nat → Nat → Except CodecsError (List (List Int))
  | 0, _ => .ok []
  | n + 1, c => do
    let l ← line ctx y c
    let rest ← componentLines ctx y n (c + 1)
    .ok (l :: rest)

/-- The loop over the rows `y`: for every row the lines of its components. -/
def rowLines (ctx : CodecsContext) : Nat → Nat → Except CodecsError (List (List (List Int)))
  | 0, _ => .ok []
  | n + 1, y => do
    let ls ← componentLines ctx y ctx.SamplesPerPixel 0
    let rest ← rowLines ctx n (y + 1)
    .ok (ls :: rest)

/-- All the lines `EncodeHtJpeg2000` hands to the codestream: one list per row,
holding one line per component. The image has `Rows` rows and `SamplesPerPixel`
components. -/
def lines (ctx : CodecsContext) : Except CodecsError (List (List (List Int))) :=
  rowLines ctx ctx.Rows 0

end EncodeHtJpeg2000

namespace DecodeHtJpeg2000

/-- The value `static_cast<uint8_t>(max(0, min(val, UCHAR_MAX)))`. -/
def clampUInt8 (val : Int) : Nat := toUInt8 (max 0 (min val 255))

/-- The value `static_cast<int16_t>(max(SHRT_MIN, min(val, SHRT_MAX)))`. -/
def clampInt16 (val : Int) : Int := toInt16 (max (-32768) (min val 32767))

/-- The value `static_cast<uint16_t>(max(0, min(val, USHRT_MAX)))`. -/
def clampUInt16 (val : Int) : Int := max 0 (min val 65535) % 65536

/-- The stores of the loop over `x` for one line pulled from the codestream:
`dp[x * stride] = ...` with `dp` at byte `lineStart` plus `c` samples. For one
sample per pixel the source has `dp[x]` and no `c`, which is `stride = 1` and
`c = 0`. -/
def lineStores (ctx : CodecsContext) (width lineStart c stride : Nat) (line : List Int) :
    WriteLog :=
  if ctx.BitsAllocated ≤ 8 then
    (List.range width).map (fun (x : Nat) =>
      (((lineStart + c + x * stride : Nat) : Int), clampUInt8 (line.getD x 0)))
  else if ctx.PixelRepresentation = Signed then
    (List.range width).flatMap (fun (x : Nat) =>
      [(((lineStart + 2 * (c + x * stride) : Nat) : Int),
          (le16 (clampInt16 (line.getD x 0))).getD 0 0),
       (((lineStart + 2 * (c + x * stride) + 1 : Nat) : Int),
          (le16 (clampInt16 (line.getD x 0))).getD 1 0)])
  else
    (List.range width).flatMap (fun (x : Nat) =>
      [(((lineStart + 2 * (c + x * stride) : Nat) : Int),
          (le16 (clampUInt16 (line.getD x 0))).getD 0 0),
       (((lineStart + 2 * (c + x * stride) + 1 : Nat) : Int),
          (le16 (clampUInt16 (line.getD x 0))).getD 1 0)])

/-- The stores of the loop over the rows `y` of `DecodeHtJpeg2000` into the
local `decodedBuffer`; `pull y c` is the line `codestream.pull` returns for row
`y` and component `c`. -/
def stores (ctx : CodecsContext) (width height : Nat) (pull : Nat → Nat → List Int) : WriteLog :=
  let bytesPerPixel := ctx.BitsAllocated / 8
  (List.range height).flatMap (fun (y : Nat) =>
    let lineStart := y * width * ctx.SamplesPerPixel * bytesPerPixel
    if ctx.SamplesPerPixel = 1 then lineStores ctx width lineStart 0 1 (pull y 0)
    else (List.range ctx.SamplesPerPixel).flatMap (fun (c : Nat) =>
      lineStores ctx width lineStart c ctx.SamplesPerPixel (pull y c)))

/-- The local `decodedBuffer` of `DecodeHtJpeg2000` after the loop over the
rows: `width * height * SamplesPerPixel * bytesPerPixel` zero bytes with the
stores replayed; a store outside it is a fault. -/
def scatter (ctx : CodecsContext) (width height : Nat) (pull : Nat → Nat → List Int) :
    Except CodecsError (List Nat) :=
  let bytesPerPixel := ctx.BitsAllocated / 8
  store (List.replicate (width * height * ctx.SamplesPerPixel * bytesPerPixel) 0)
    (stores ctx width height pull)

end DecodeHtJpeg2000

/-- The lines `EncodeHtJpeg2000` gathers from the raw buffer of `ctx`, scattered
back by the line marshalling of `DecodeHtJpeg2000` for the same context, with
the codestream taken as lossless: the decoder pulls the lines the encoder
handed over. -/
def htj2kMarshalRoundTrip (ctx : CodecsContext) : Except CodecsError (List Nat) := do
  let lines ← EncodeHtJpeg2000.lines ctx
  DecodeHtJpeg2000.scatter ctx ctx.Columns ctx.Rows (fun y c => (lines.getD y []).getD c [])

/-! ## The JPEG-LS entry points (`Decoders.cpp`, `Encoders.cpp`) -/

/-- The values of `charls::InterleaveMode`. -/
inductive InterleaveMode where
  | None
  | Line
  | Sample
  deriving DecidableEq, Repr

/-- The fields of `JlsParameters` that the entry points read or write; the
numbers are `int32_t` values. `colorTransformation` is the number of the
enumerator, `ColorTransformation::None` being 0. -/
structure JlsParameters where
  width : Int
  height : Int
  bitsPerSample : Int
  stride : Int
  components : Int
  allowedLossyError : Int
  interleaveMode : InterleaveMode
  colorTransformation : Nat
  outputBgr : Bool
  deriving DecidableEq, Repr

/-- CharLS as the entry points use it. `JpegLsReadHeader` on the encoded buffer
fills the parameters, or reports a result other than `ApiResult::OK` (`none`).
`JpegLsDecode`, given the size of the destination, the encoded buffer and the
parameters, yields its stores into the destination and whether its result is
`ApiResult::OK`. `JpegLsEncode`, given the size of the destination, the decoded
buffer and the parameters, yields the bytes it left at the start of the
destination, `actualJpegLsDataSize` being their number, or reports a result
other than `ApiResult::OK` (`none`). -/
structure CharLS where
  JpegLsReadHeader : List Nat → Option JlsParameters
  JpegLsDecode : Nat → List Nat → JlsParameters → WriteLog × Bool
  JpegLsEncode : Nat → List Nat → JlsParameters → Option (List Nat)

/-- `DecodeJpegLs(ctx, params)`: how the call ends and the context afterwards.
The quotient and the remainder by 8 are those of C, which truncate; the product
of the `int` fields is converted to `size_t` (a product outside the range of
`int`, undefined in C++, is taken modulo 2^32); `junk` is the content of the
decoded buffer after its resize. -/
def DecodeJpegLs (lib : CharLS) (junk : Nat → Nat) (ctx : CodecsContext) : Outcome :=
  match lib.JpegLsReadHeader ctx.EncodedBuffer with
  | none => (.error .codecFailure, ctx)
  | some jlsParams =>
    let jlsParams := { jlsParams with outputBgr := false }
    let bytesPerSample : Int :=
      jlsParams.bitsPerSample.tdiv 8 + (if jlsParams.bitsPerSample.tmod 8 = 0 then 0 else 1)
    let decodedBufferSize := intToSizeT
      (jlsParams.width * jlsParams.height * jlsParams.components * bytesPerSample)
    let buffer := Buffer.Reset junk decodedBufferSize
    let r := lib.JpegLsDecode decodedBufferSize ctx.EncodedBuffer jlsParams
    let s := applyTrace buffer (r.1, if r.2 = true then none else some .codecFailure)
    (s.1, { ctx with DecodedBuffer := s.2 })

/-- The size `estimatedJpegLsDataSize * 0.2 + estimatedJpegLsDataSize` of the
temporary buffer of `EncodeJpegLs`, a `double` converted to `size_t`. The
`double` nearest to 0.2 is `7205759403792794 / 2 ^ 55`; the product and the sum
are rounded to 53 significant bits, here in units of `2 ^ -55`, and the
conversion drops the fraction. A value above the range of `size_t`, whose
conversion is undefined, is taken as the largest `size_t`. -/
def EncodeJpegLs.tmpBufferSize (estimatedJpegLsDataSize : Nat) : Nat :=
  let product := roundToSignificand 53 (estimatedJpegLsDataSize * 7205759403792794)
  let sum := roundToSignificand 53 (product + estimatedJpegLsDataSize * 36028797018963968)
  min (sum / 36028797018963968) 4294967295

/-- `EncodeJpegLs(ctx, params)`: how the call ends and the context afterwards.
`junk` is the content of the encoded buffer after its resize, which shows when
the `memcpy` out of the temporary buffer reads past its end. -/
def EncodeJpegLs (lib : CharLS) (junk : Nat → Nat) (ctx : CodecsContext)
    (params : EncoderParameters) : Outcome :=
  let bytesAllocated := ctx.BitsAllocated / 8 + (if ctx.BitsAllocated % 8 = 0 then 0 else 1)
  let jlsParams : JlsParameters :=
    { width := toInt32 ctx.Columns
      height := toInt32 ctx.Rows
      bitsPerSample := toInt32 ctx.BitsAllocated
      stride := toInt32 (toSizeT (bytesAllocated * ctx.Columns * ctx.SamplesPerPixel))
      components := toInt32 ctx.SamplesPerPixel
      allowedLossyError := if params.Lossy = true then toInt32 params.AllowedLossyError else 0
      interleaveMode :=
        if ctx.SamplesPerPixel = 1 then .None
        else if ctx.PlanarConfiguration = Interleaved then .Sample
        else .Line
      colorTransformation := 0
      outputBgr := false }
  let estimatedJpegLsDataSize :=
    toSizeT (ctx.Columns * ctx.Rows * ctx.SamplesPerPixel * bytesAllocated + 1024 + 34)
  let tmpBufferSize := EncodeJpegLs.tmpBufferSize estimatedJpegLsDataSize
  match lib.JpegLsEncode tmpBufferSize ctx.DecodedBuffer jlsParams with
  | none => (.error .codecFailure, ctx)
  | some data =>
    if data.length ≤ tmpBufferSize then (.ok (), { ctx with EncodedBuffer := data })
    else (.error .memoryFault, { ctx with EncodedBuffer := Buffer.Reset junk data.length })

/-! ## The JPEG 2000 entry points (`Decoders.cpp`, `Encoders.cpp`) -/

/-- The fields of `opj_image_comp_t` that the entry points read or write: the
extent, the precision and the samples `data`, an array of `OPJ_INT32`. -/
structure opj_image_comp_t where
  w : Nat
  h : Nat
  prec : Nat
  data : List Int
  deriving DecidableEq, Repr

/-- The fields of `opj_image_t` that the entry points read or write; `comps` is
the array of its `numcomps` components. -/
structure opj_image_t where
  x0 : Nat
  y0 : Nat
  x1 : Nat
  y1 : Nat
  comps : List opj_image_comp_t
  deriving DecidableEq, Repr

/-- The field `numcomps` of an image. -/
def opj_image_t.numcomps (pImage : opj_image_t) : Nat := pImage.comps.length

/-- `OpjCreateMemoryStream(pBuffer, size, isReadStream)` of `Jpeg2000Buffer.cpp`
for a buffer that is not null: whether `opj_stream_create` yields a stream. The
calls that follow set the callbacks and cannot fail. -/
def OpjCreateMemoryStream (opj_stream_create : Bool → Bool) (isReadStream : Bool) : Bool :=
  opj_stream_create isReadStream

/-- OpenJPEG as `DecodeJpeg2000` uses it. `opj_stream_create`,
`opj_create_decompress` and `opj_setup_decoder` say whether the call yields its
object; `opj_read_header` on the encoded buffer yields the image of the header,
or fails (`none`); `decode` stands for `opj_decode` and `opj_end_decompress` and
yields the decoded image, or fails. -/
structure OpenJpegDecoder where
  opj_stream_create : Bool → Bool
  opj_create_decompress : OPJ_CODEC_FORMAT → Bool
  opj_setup_decoder : OPJ_CODEC_FORMAT → Bool
  opj_read_header : OPJ_CODEC_FORMAT → List Nat → Option opj_image_t
  decode : OPJ_CODEC_FORMAT → List Nat → opj_image_t → Option opj_image_t

/-- The lines of `DecodeJpeg2000` up to the decoded image: the exception or the
fault that ends them, or the decoded image `pImage`. None of them writes to the
context. -/
def DecodeJpeg2000.image (lib : OpenJpegDecoder) (encoded : List Nat) :
    Except CodecsError opj_image_t :=
  match DecodeJpeg2000.codecFormat encoded with
  | .error e => .error e
  | .ok codecFormat =>
    if OpjCreateMemoryStream lib.opj_stream_create true = false then .error .codecFailure
    else if lib.opj_create_decompress codecFormat = false then .error .codecFailure
    else if lib.opj_setup_decoder codecFormat = false then .error .codecFailure
    else
      match lib.opj_read_header codecFormat encoded with
      | none => .error .codecFailure
      | some pImage =>
        match lib.decode codecFormat encoded pImage with
        | none => .error .codecFailure
        | some pImage => .ok pImage

/-- The loop `for (i = numPixels; i; i--) *pDest++ = static_cast<uint8_t>(*pSource++)`
from pixel `k` on: the stores into the decoded buffer, up to the fault of a
read past the samples. -/
def DecodeJpeg2000.copy8 (pSource : List Int) : Nat → Nat → Trace
  | 0, _ => ([], none)
  | i + 1, k =>
    match pSource.get? k with
    | none => ([], some .memoryFault)
    | some v =>
      let r := DecodeJpeg2000.copy8 pSource i (k + 1)
      ((((k : Nat) : Int), toUInt8 v) :: r.1, r.2)

/-- The same loop through a `uint16_t *`: pixel `k` is stored in the bytes `2 k`
and `2 k + 1`. -/
def DecodeJpeg2000.copy16 (pSource : List Int) : Nat → Nat → Trace
  | 0, _ => ([], none)
  | i + 1, k =>
    match pSource.get? k with
    | none => ([], some .memoryFault)
    | some v =>
      let r := DecodeJpeg2000.copy16 pSource i (k + 1)
      ((((2 * k : Nat) : Int), (le16 v).getD 0 0) ::
        (((2 * k + 1 : Nat) : Int), (le16 v).getD 1 0) :: r.1, r.2)

/-- The loop over the pixels of a three-component image: pixel `k` is stored in
the bytes `3 k`, `3 k + 1` and `3 k + 2`. -/
def DecodeJpeg2000.copyRgb (pSourceR pSourceG pSourceB : List Int) : Nat → Nat → Trace
  | 0, _ => ([], none)
  | i + 1, k =>
    match pSourceR.get? k, pSourceG.get? k, pSourceB.get? k with
    | some r, some g, some b =>
      let rest := DecodeJpeg2000.copyRgb pSourceR pSourceG pSourceB i (k + 1)
      ((((3 * k : Nat) : Int), toUInt8 r) :: (((3 * k + 1 : Nat) : Int), toUInt8 g) ::
        (((3 * k + 2 : Nat) : Int), toUInt8 b) :: rest.1, rest.2)
    | _, _, _ => ([], some .memoryFault)

/-- The lines of `DecodeJpeg2000` that move the samples of the decoded image
into the decoded buffer: the stores of the branch taken, for `numPixels`
pixels. -/
def DecodeJpeg2000.demultiplex (pImage : opj_image_t) (numPixels : Nat) : Trace :=
  match pImage.comps with
  | [c0] => if c0.prec ≤ 8 then DecodeJpeg2000.copy8 c0.data numPixels 0
            else DecodeJpeg2000.copy16 c0.data numPixels 0
  | [c0, c1, c2] => DecodeJpeg2000.copyRgb c0.data c1.data c2.data numPixels 0
  | _ => ([], none)

/-- `DecodeJpeg2000(ctx, params)`: how the call ends and the context afterwards.
Reading `comps[0]` of an image without components is a fault. `junk` is the
content of the decoded buffer after its resize. -/
def DecodeJpeg2000 (lib : OpenJpegDecoder) (junk : Nat → Nat) (ctx : CodecsContext) : Outcome :=
  match DecodeJpeg2000.image lib ctx.EncodedBuffer with
  | .error e => (.error e, ctx)
  | .ok pImage =>
    match pImage.comps.head? with
    | none => (.error .memoryFault, ctx)
    | some comp0 =>
      let depth := toSizeT (comp0.prec + 7) / 8
      let decodedBufferSize := toSizeT (ctx.Columns * ctx.Rows * pImage.numcomps * depth)
      let buffer := Buffer.Reset junk decodedBufferSize
      let numPixels := toSizeT (ctx.Columns * ctx.Rows)
      let s := applyTrace buffer (DecodeJpeg2000.demultiplex pImage numPixels)
      (s.1, { ctx with DecodedBuffer := s.2 })

/-- The fields of `opj_cparameters_t` that `EncodeJpeg2000` reads or writes.
The rates of `tcp_rates`, an array of 100 `float`, are integers here. -/
structure opj_cparameters_t where
  irreversible : Bool
  prog_order : Nat
  tcp_mct : Nat
  tcp_numlayers : Nat
  tcp_rates : List Nat
  cp_disto_alloc : Nat
  numresolution : Nat
  subsampling_dx : Nat
  subsampling_dy : Nat
  image_offset_x0 : Nat
  image_offset_y0 : Nat
  deriving DecidableEq, Repr

/-- The structure `opj_image_cmptparm_t`, as far as `EncodeJpeg2000` fills it. -/
structure opj_image_cmptparm_t where
  bpp : Nat
  prec : Nat
  sgnd : Nat
  dx : Nat
  dy : Nat
  h : Nat
  w : Nat
  deriving DecidableEq, Repr

/-- The colour spaces `EncodeJpeg2000` passes to `opj_image_create`. -/
inductive OPJ_COLOR_SPACE where
  | OPJ_CLRSPC_SRGB
  | OPJ_CLRSPC_GRAY
  deriving DecidableEq, Repr

/-- OpenJPEG as `EncodeJpeg2000` uses it. `opj_create_compress`,
`opj_stream_create` and `opj_setup_encoder` say whether the call succeeds;
`opj_set_default_encoder_parameters` yields the parameters; `opj_image_create`
yields the image, or null (`none`); `compress` stands for `opj_start_compress`,
`opj_encode` and `opj_end_compress` on a stream over a buffer of the given
size, and yields the bytes written through `OpjWriteToMemory`, or fails. -/
structure OpenJpegEncoder where
  opj_create_compress : Bool
  opj_set_default_encoder_parameters : opj_cparameters_t
  opj_image_create : Nat → List opj_image_cmptparm_t → OPJ_COLOR_SPACE → Option opj_image_t
  opj_setup_encoder : opj_cparameters_t → opj_image_t → Bool
  opj_stream_create : Bool → Bool
  compress : opj_cparameters_t → opj_image_t → Nat → Option (List Nat)

/-- The loop `for (i = numPixels; i; i--) *pDest++ = ...` of `EncodeJpeg2000`
from pixel `k` on, `read k` being the sample read for pixel `k`: the samples
`pDest` afterwards. A read past the decoded buffer and a store past the samples
are faults. -/
def EncodeJpeg2000.fill (read : Nat → Except CodecsError Int) :
    Nat → Nat → List Int → Except CodecsError (List Int)
  | 0, _, pDest => .ok pDest
  | i + 1, k, pDest => do
    let v ← read k
    if k < pDest.length then EncodeJpeg2000.fill read i (k + 1) (pDest.set k v)
    else .error .memoryFault

/-- The lines of `EncodeJpeg2000` that move the samples of the decoded buffer
into the components of `pImage`. -/
def EncodeJpeg2000.multiplex (ctx : CodecsContext) (pImage : opj_image_t) (numPixels : Nat) :
    Except CodecsError opj_image_t :=
  match pImage.comps with
  | [c0] =>
    if c0.prec ≤ 8 then do
      let data ← EncodeJpeg2000.fill
        (fun k => do
          let b ← readByte ctx.DecodedBuffer k
          .ok (b : Int)) numPixels 0 c0.data
      .ok { pImage with comps := [{ c0 with data := data }] }
    else if ctx.PixelRepresentation = 0 then do
      let data ← EncodeJpeg2000.fill (fun k => readUInt16 ctx.DecodedBuffer (2 * k))
        numPixels 0 c0.data
      .ok { pImage with comps := [{ c0 with data := data }] }
    else do
      let data ← EncodeJpeg2000.fill (fun k => readInt16 ctx.DecodedBuffer (2 * k))
        numPixels 0 c0.data
      .ok { pImage with comps := [{ c0 with data := data }] }
  | [c0, c1, c2] => do
    let dataR ← EncodeJpeg2000.fill
      (fun k => do
        let b ← readByte ctx.DecodedBuffer ((3 * k : Nat) : Int)
        .ok (b : Int)) numPixels 0 c0.data
    let dataG ← EncodeJpeg2000.fill
      (fun k => do
        let b ← readByte ctx.DecodedBuffer ((3 * k + 1 : Nat) : Int)
        .ok (b : Int)) numPixels 0 c1.data
    let dataB ← EncodeJpeg2000.fill
      (fun k => do
        let b ← readByte ctx.DecodedBuffer ((3 * k + 2 : Nat) : Int)
        .ok (b : Int)) numPixels 0 c2.data
    .ok { pImage with comps := [{ c0 with data := dataR }, { c1 with data := dataG },
                                { c2 with data := dataB }] }
  | _ => .ok pImage

/-- The size `0.1625 * estimatedJpeg2000DataSize + 2000` of the temporary buffer
of `EncodeJpeg2000`, a `double` converted to `size_t`; the estimate is an
`int`. The `double` nearest to 0.1625 is `5854679515581645 / 2 ^ 55`; the
product and the sum are rounded to 53 significant bits, here in units of
`2 ^ -55`, and the conversion drops the fraction. A value outside the range of
`size_t`, whose conversion is undefined, is taken as the nearest `size_t`. -/
def EncodeJpeg2000.tmpBufferSize (estimatedJpeg2000DataSize : Int) : Nat :=
  let product : Int := estimatedJpeg2000DataSize.sign *
    (roundToSignificand 53 (estimatedJpeg2000DataSize.natAbs * 5854679515581645) : Nat)
  let sum : Int := product + 2000 * 36028797018963968
  let rounded : Int := sum.sign * (roundToSignificand 53 sum.natAbs : Nat)
  min (rounded / 36028797018963968).toNat 4294967295

/-- The parameters `EncodeJpeg2000` hands to `opj_setup_encoder`, built from the
defaults of the library. The increments of `tcp_numlayers` are those of the
source; a store past the 100 rates is a fault. -/
def EncodeJpeg2000.parameters (defaults : opj_cparameters_t) (ctx : CodecsContext)
    (params : EncoderParameters) : Except CodecsError opj_cparameters_t := do
  let parameters := { defaults with irreversible := params.Lossy,
                                    prog_order := params.ProgressionOrder }
  let parameters :=
    if ctx.PhotometricInterpretation = Rgb ∧ params.AllowMct ≠ 0 then
      { parameters with tcp_mct := 1 }
    else parameters
  let parameters := { parameters with tcp_numlayers := parameters.tcp_numlayers + 1 }
  let rate ← EncodeJpeg2000.tcp_rate ctx params
  if parameters.tcp_rates.length = 0 then .error .memoryFault
  let parameters := { parameters with tcp_rates := parameters.tcp_rates.set 0 rate }
  let parameters ←
    if params.Lossy = false then
      if parameters.tcp_numlayers < parameters.tcp_rates.length then
        (.ok { parameters with
                tcp_rates := parameters.tcp_rates.set parameters.tcp_numlayers 0,
                tcp_numlayers := parameters.tcp_numlayers + 1 } :
          Except CodecsError opj_cparameters_t)
      else .error .memoryFault
    else .ok parameters
  let parameters := { parameters with cp_disto_alloc := 1 }
  let numresolution ← EncodeJpeg2000.numresolution ctx
  .ok { parameters with numresolution := numresolution }

/-- The lines of `EncodeJpeg2000` up to the end of the compression: the
exception or the fault that ends them, or the bytes of the temporary buffer up
to `destinationBuffer.Offset`, which `OpjWriteToMemory` keeps within the buffer.
None of these lines writes to the context. The array `cmptparm` has three
entries, so more than three samples per pixel are a fault, and so is the use of
a null image. -/
def EncodeJpeg2000.encoded (lib : OpenJpegEncoder) (ctx : CodecsContext)
    (params : EncoderParameters) : Except CodecsError (List Nat) := do
  if lib.opj_create_compress = false then .error .codecFailure
  let parameters ←
    EncodeJpeg2000.parameters lib.opj_set_default_encoder_parameters ctx params
  if toSizeT ctx.SamplesPerPixel > 3 then .error .memoryFault
  let cmptparm : List opj_image_cmptparm_t :=
    (List.replicate (toSizeT ctx.SamplesPerPixel)
      { bpp := toSizeT ctx.BitsAllocated
        prec := toSizeT ctx.BitsStored
        sgnd := toSizeT ctx.PixelRepresentation
        dx := toSizeT parameters.subsampling_dx
        dy := toSizeT parameters.subsampling_dy
        h := toSizeT ctx.Rows
        w := toSizeT ctx.Columns }) ++
    List.replicate (3 - toSizeT ctx.SamplesPerPixel) ⟨0, 0, 0, 0, 0, 0, 0⟩
  let colorspace :=
    if ctx.SamplesPerPixel > 1 then OPJ_COLOR_SPACE.OPJ_CLRSPC_SRGB
    else OPJ_COLOR_SPACE.OPJ_CLRSPC_GRAY
  match lib.opj_image_create (toSizeT ctx.SamplesPerPixel) cmptparm colorspace with
  | none => .error .memoryFault
  | some pImage =>
    let x0 := toSizeT parameters.image_offset_x0
    let y0 := toSizeT parameters.image_offset_y0
    let pImage := { pImage with
      x0 := x0
      y0 := y0
      x1 := toSizeT (x0 + intToSizeT ((ctx.Columns : Int) - 1) * parameters.subsampling_dx + 1)
      y1 := toSizeT (y0 + intToSizeT ((ctx.Rows : Int) - 1) * parameters.subsampling_dy + 1) }
    let numPixels := toSizeT (ctx.Columns * ctx.Rows)
    let pImage ← EncodeJpeg2000.multiplex ctx pImage numPixels
    if lib.opj_setup_encoder parameters pImage = false then .error .codecFailure
    let estimatedJpeg2000DataSize := toInt32
      ((pImage.comps.map (fun (c : opj_image_comp_t) => c.w * c.h * c.prec)).sum)
    let tmpBufferSize := EncodeJpeg2000.tmpBufferSize estimatedJpeg2000DataSize
    if OpjCreateMemoryStream lib.opj_stream_create false = false then .error .codecFailure
    match lib.compress parameters pImage tmpBufferSize with
    | none => .error .codecFailure
    | some data => .ok (data.take tmpBufferSize)

/-- `EncodeJpeg2000(ctx, params)`: how the call ends and the context
afterwards. The encoded buffer is the only part of the context it writes, after
the compression has ended. -/
def EncodeJpeg2000 (lib : OpenJpegEncoder) (ctx : CodecsContext) (params : EncoderParameters) :
    Outcome :=
  match EncodeJpeg2000.encoded lib ctx params with
  | .error e => (.error e, ctx)
  | .ok data => (.ok (), { ctx with EncodedBuffer := data })

/-! ## The HTJ2K entry points (`Decoders.cpp`, `Encoders.cpp`) -/

/-- The values `DecodeHtJpeg2000` reads from the `SIZ` and `COD` segments of the
codestream. -/
structure HtHeader where
  num_components : Nat
  image_extent_x : Nat
  image_extent_y : Nat
  image_offset_x : Nat
  image_offset_y : Nat
  is_using_color_transform : Bool
  deriving DecidableEq, Repr

/-- OpenJPH as `DecodeHtJpeg2000` uses it. `read_headers` on the encoded buffer
yields the header, or throws (`none`); `create`, given the header and the
planar flag, and `close` say whether the call returns; `pull`, given the
encoded buffer, the row `y` and the number `c` of the line within the row,
yields the samples of the line, or throws. -/
structure OpenJphDecoder where
  read_headers : List Nat → Option HtHeader
  create : HtHeader → Bool → Bool
  pull : List Nat → Nat → Nat → Option (List Int)
  close : Bool

/-- The loop over the components `c` of row `y` of `DecodeHtJpeg2000`, for more
than one sample per pixel: the stores into the local buffer up to the exception
of a `pull`. -/
def DecodeHtJpeg2000.componentsT (ctx : CodecsContext) (pull : Nat → Nat → Option (List Int))
    (width lineStart y : Nat) : Nat → Nat → Trace
  | 0, _ => ([], none)
  | n + 1, c =>
    match pull y c with
    | none => ([], some .codecFailure)
    | some line =>
      let r := DecodeHtJpeg2000.componentsT ctx pull width lineStart y n (c + 1)
      (DecodeHtJpeg2000.lineStores ctx width lineStart c ctx.SamplesPerPixel line ++ r.1, r.2)

/-- The loop over the rows `y` of `DecodeHtJpeg2000`: the stores into the local
buffer up to the exception of a `pull`. -/
def DecodeHtJpeg2000.rowsT (ctx : CodecsContext) (pull : Nat → Nat → Option (List Int))
    (width : Nat) : Nat → Nat → Trace
  | 0, _ => ([], none)
  | n + 1, y =>
    let bytesPerPixel := ctx.BitsAllocated / 8
    let lineStart := toSizeT (y * width * ctx.SamplesPerPixel * bytesPerPixel)
    let t : Trace :=
      if ctx.SamplesPerPixel = 1 then
        match pull y 0 with
        | none => ([], some .codecFailure)
        | some line => (DecodeHtJpeg2000.lineStores ctx width lineStart 0 1 line, none)
      else DecodeHtJpeg2000.componentsT ctx pull width lineStart y ctx.SamplesPerPixel 0
    match t.2 with
    | some e => (t.1, some e)
    | none =>
      let r := DecodeHtJpeg2000.rowsT ctx pull width n (y + 1)
      (t.1 ++ r.1, r.2)

/-- The lines of `DecodeHtJpeg2000` up to `codestream.close()`: the exception
or the fault that ends them, or the local `decodedBuffer`. None of these lines
writes to the context. The array `bitDepths` has four entries, so more than
four components are a fault. -/
def DecodeHtJpeg2000.decodedBuffer (lib : OpenJphDecoder) (ctx : CodecsContext) :
    Except CodecsError (List Nat) :=
  match lib.read_headers ctx.EncodedBuffer with
  | none => .error .codecFailure
  | some siz =>
    if siz.num_components > 4 then .error .memoryFault
    else if lib.create siz
        (if siz.num_components = 1 then true
          else (if siz.is_using_color_transform = true then false else true)) = false then
      .error .codecFailure
    else
      let width := intToSizeT ((siz.image_extent_x : Int) - (siz.image_offset_x : Int))
      let height := intToSizeT ((siz.image_extent_y : Int) - (siz.image_offset_y : Int))
      let bytesPerPixel := ctx.BitsAllocated / 8
      let decodedBufferSize := toSizeT (width * height * ctx.SamplesPerPixel * bytesPerPixel)
      let decodedBuffer := List.replicate decodedBufferSize 0
      let s := applyTrace decodedBuffer
        (DecodeHtJpeg2000.rowsT ctx (lib.pull ctx.EncodedBuffer) width height 0)
      match s.1 with
      | .error e => .error e
      | .ok _ => if lib.close = false then .error .codecFailure else .ok s.2

/-- `DecodeHtJpeg2000(ctx, params)`: how the call ends and the context
afterwards. The lines are scattered into a local buffer; the decoded buffer of
the context is resized and filled from it after `codestream.close()`. -/
def DecodeHtJpeg2000 (lib : OpenJphDecoder) (ctx : CodecsContext) : Outcome :=
  match DecodeHtJpeg2000.decodedBuffer lib ctx with
  | .error e => (.error e, ctx)
  | .ok decodedBuffer => (.ok (), { ctx with DecodedBuffer := decodedBuffer })

/-- The settings `EncodeHtJpeg2000` makes on the codestream before it writes
the headers. Every component has the downsampling `point(1, 1)`, the bit depth
`bit_depth` and the sign `is_signed`. -/
structure HtSettings where
  planar : Bool
  image_extent_x : Nat
  image_extent_y : Nat
  num_components : Nat
  bit_depth : Nat
  is_signed : Bool
  progression_order : String
  color_transform : Bool
  reversible : Bool
  num_decomposition : Nat
  deriving DecidableEq, Repr

/-- OpenJPH as `EncodeHtJpeg2000` uses it. `write_headers` stands for
`destinationBuffer.open()` and `codestream.write_headers` and says whether they
return for the settings made; `encode` stands for the calls of
`codestream.exchange` and `codestream.flush` and yields, for the lines handed
over, the bytes of the destination up to `tell()`, or throws (`none`); `close`
says whether `codestream.close()` returns. -/
structure OpenJphEncoder where
  write_headers : HtSettings → Bool
  encode : HtSettings → List (List (List Int)) → Option (List Nat)
  close : Bool

/-- The table `ProgressionOrders` of `EncodeHtJpeg2000`. -/
def ProgressionOrders : List String := ["LRCP", "RLCP", "RPCL", "PCRL", "CPRL"]

/-- The lines of `EncodeHtJpeg2000` up to `codestream.flush()`: the exception or
the fault that ends them, or the bytes of the destination. None of these lines
writes to the context. An index past the table of progression orders is a
fault, and so is a read past the decoded buffer. -/
def EncodeHtJpeg2000.encoded (lib : OpenJphEncoder) (ctx : CodecsContext)
    (params : EncoderParameters) : Except CodecsError (List Nat) :=
  let colorTransform : Bool := if ctx.SamplesPerPixel > 1 then true else false
  match ProgressionOrders.get? params.ProgressionOrder with
  | none => .error .memoryFault
  | some order =>
    match EncodeHtJpeg2000.numDecompositions ctx with
    | .error e => .error e
    | .ok numberOfDecompositions =>
      let settings : HtSettings :=
        { planar := (colorTransform == false)
          image_extent_x := toSizeT ctx.Columns
          image_extent_y := toSizeT ctx.Rows
          num_components := toSizeT ctx.SamplesPerPixel
          bit_depth := toSizeT ctx.BitsAllocated
          is_signed := if ctx.PixelRepresentation = 1 then true else false
          progression_order := order
          color_transform := colorTransform
          reversible := !params.Lossy
          num_decomposition := numberOfDecompositions }
      if lib.write_headers settings = false then .error .codecFailure
      else
        match EncodeHtJpeg2000.lines ctx with
        | .error e => .error e
        | .ok lines =>
          match lib.encode settings lines with
          | none => .error .codecFailure
          | some data => .ok data

/-- `EncodeHtJpeg2000(ctx, params)`: how the call ends and the context
afterwards. The encoded buffer is resized and filled after the flush;
`codestream.close()` comes after that write. -/
def EncodeHtJpeg2000 (lib : OpenJphEncoder) (ctx : CodecsContext) (params : EncoderParameters) :
    Outcome :=
  match EncodeHtJpeg2000.encoded lib ctx params with
  | .error e => (.error e, ctx)
  | .ok data =>
    if lib.close = false then (.error .codecFailure, { ctx with EncodedBuffer := data })
    else (.ok (), { ctx with EncodedBuffer := data })

/-! ## The JPEG encoders and the other JPEG decoders -/

/-- The fields of `jpeg_compress_struct` that `EncodeJpeg16` sets before
`jpeg_set_defaults`. -/
structure jpeg_compress_struct where
  image_width : Nat
  image_height : Nat
  input_components : Int
  in_color_space : J_COLOR_SPACE
  deriving DecidableEq, Repr

/-- The JPEG library as `EncodeJpeg16` uses it. `compress` stands for
`jpeg_set_defaults`, the settings made from the encoder parameters (which are
written to `cinfo`, never to the context), `jpeg_start_compress`, the loop of
`jpeg_write_scanlines` over the rows that start every `rowStride` bytes in the
decoded buffer, and `jpeg_finish_compress`: it yields the bytes of the
destination manager, or the exception thrown through `error_exit`. -/
structure JpegCompressor where
  compress : jpeg_compress_struct → EncoderParameters → List Nat → Nat →
    Except CodecsError (List Nat)

/-- `EncodeJpeg16(ctx, params)` of `Encoders/JpegEncoder16.cpp`: how the call
ends and the context afterwards. -/
def EncodeJpeg16 (lib : JpegCompressor) (ctx : CodecsContext) (params : EncoderParameters) :
    Outcome :=
  let cinfo : jpeg_compress_struct :=
    { image_width := toSizeT ctx.Columns
      image_height := toSizeT ctx.Rows
      input_components := toInt32 ctx.SamplesPerPixel
      in_color_space := if ctx.SamplesPerPixel > 1 then .JCS_RGB else .JCS_GRAYSCALE }
  let bytesAllocated := ctx.BitsAllocated / 8 + (if ctx.BitsAllocated % 8 = 0 then 0 else 1)
  let rowStride := toSizeT (ctx.Columns * ctx.SamplesPerPixel *
    (if ctx.BitsStored ≤ 8 then 1 else bytesAllocated))
  match lib.compress cinfo params ctx.DecodedBuffer rowStride with
  | .error e => (.error e, ctx)
  | .ok data => (.ok (), { ctx with EncodedBuffer := data })

/-- Modelled from the spec: `EncodeJpeg8` is defined in `Encoders/JpegEncoder8.cpp`,
which is absent. The spec describes one JPEG adaptor for every precision (row
stride, lossy and lossless settings), so it is the adaptor of `EncodeJpeg16`
over the 8-bit build of the library. -/
def EncodeJpeg8 (lib : JpegCompressor) (ctx : CodecsContext) (params : EncoderParameters) :
    Outcome :=
  EncodeJpeg16 lib ctx params

/-- Modelled from the spec: `EncodeJpeg12` is defined in
`Encoders/JpegEncoder12.cpp`, which is absent; as for `EncodeJpeg8`, it is the
adaptor of `EncodeJpeg16` over the 12-bit build of the library. -/
def EncodeJpeg12 (lib : JpegCompressor) (ctx : CodecsContext) (params : EncoderParameters) :
    Outcome :=
  EncodeJpeg16 lib ctx params

/-- Modelled from the spec: `DecodeJpeg12` is defined in
`Decoders/JpegDecoder12.cpp`, which is absent. The spec describes one JPEG
adaptor for every precision (source pump, colour-space patch, output buffer
size), so it is the adaptor of `DecodeJpeg8` over the 12-bit build of the
library. -/
def DecodeJpeg12 (lib : JpegLibrary) (junk : Nat → Nat) (ctx : CodecsContext)
    (params : DecoderParameters) : Outcome :=
  DecodeJpeg8 lib junk ctx params

/-- Modelled from the spec: `DecodeJpeg16` is defined in
`Decoders/JpegDecoder16.cpp`, which is absent; as for `DecodeJpeg12`, it is the
adaptor of `DecodeJpeg8` over the 16-bit build of the library. -/
def DecodeJpeg16 (lib : JpegLibrary) (junk : Nat → Nat) (ctx : CodecsContext)
    (params : DecoderParameters) : Outcome :=
  DecodeJpeg8 lib junk ctx params

/-! ## Libraries for worked examples -/

/-- A CharLS for worked examples: the header read yields `header`, the decoding
makes the stores `stores.1` and its result is OK when `stores.2` holds, and the
encoding yields `encoded`, whatever the buffers hold. -/
def exampleCharLS (header : Option JlsParameters) (stores : WriteLog × Bool)
    (encoded : Option (List Nat)) : CharLS :=
  { JpegLsReadHeader := fun _ => header
    JpegLsDecode := fun _ _ _ => stores
    JpegLsEncode := fun _ _ _ => encoded }

/-- An OpenJPEG decoder for worked examples: every object is created, the header
read yields `header` and the decoding yields `image`. -/
def exampleOpenJpegDecoder (header image : Option opj_image_t) : OpenJpegDecoder :=
  { opj_stream_create := fun _ => true
    opj_create_decompress := fun _ => true
    opj_setup_decoder := fun _ => true
    opj_read_header := fun _ _ => header
    decode := fun _ _ _ => image }

/-- An OpenJPEG encoder for worked examples: every object is created, the
defaults are those of the library as far as the source reads them (no layer,
100 rates of zero, subsampling 1, offset 0), an image gets one component of
`w * h` zero samples for each of its `numcmpts` descriptors, and the compression
yields `encoded`. -/
def exampleOpenJpegEncoder (encoded : Option (List Nat)) : OpenJpegEncoder :=
  { opj_create_compress := true
    opj_set_default_encoder_parameters :=
      { irreversible := false, prog_order := 0, tcp_mct := 0, tcp_numlayers := 0,
        tcp_rates := List.replicate 100 0, cp_disto_alloc := 0, numresolution := 6,
        subsampling_dx := 1, subsampling_dy := 1, image_offset_x0 := 0, image_offset_y0 := 0 }
    opj_image_create := fun numcmpts cmptparms _ =>
      some { x0 := 0, y0 := 0, x1 := 0, y1 := 0,
             comps := (cmptparms.take numcmpts).map (fun (c : opj_image_cmptparm_t) =>
               { w := c.w, h := c.h, prec := c.prec, data := List.replicate (c.w * c.h) 0 }) }
    opj_setup_encoder := fun _ _ => true
    opj_stream_create := fun _ => true
    compress := fun _ _ _ => encoded }

/-- An OpenJPH decoder for worked examples: the header read yields `header`, the
codestream is created and closed, and the line of row `y` and number `c` is
`lines y c`. -/
def exampleOpenJphDecoder (header : Option HtHeader) (lines : Nat → Nat → Option (List Int)) :
    OpenJphDecoder :=
  { read_headers := fun _ => header
    create := fun _ _ => true
    pull := fun _ y c => lines y c
    close := true }

/-- An OpenJPH encoder for worked examples: the headers are written, the
encoding yields `encoded` and the codestream is closed. -/
def exampleOpenJphEncoder (encoded : Option (List Nat)) : OpenJphEncoder :=
  { write_headers := fun _ => true
    encode := fun _ _ => encoded
    close := true }

/-- A JPEG compressor for worked examples: the compression ends as `result`. -/
def exampleJpegCompressor (result : Except CodecsError (List Nat)) : JpegCompressor :=
  { compress := fun _ _ _ _ => result }

theorem setAll_nil (buffer : List Nat) : setAll buffer [] = buffer := rfl

theorem setAll_cons (buffer : List Nat) (w : Nat × Nat) (ws : List (Nat × Nat)) :
    setAll buffer (w :: ws) = setAll (buffer.set w.1 w.2) ws := rfl

theorem setAll_append (buffer : List Nat) (ws vs : List (Nat × Nat)) :
    setAll buffer (ws ++ vs) = setAll (setAll buffer ws) vs := by
  simp [setAll, List.foldl_append]

theorem length_setAll (ws : List (Nat × Nat)) (buffer : List Nat) :
    (setAll buffer ws).length = buffer.length := by
  induction ws generalizing buffer with
  | nil => rfl
  | cons w ws ih => rw [setAll_cons, ih, List.length_set]

/-- When every store writes the value a function `x` assigns to its index, the
result holds `x j` at every stored index `j` and the old byte elsewhere. -/
theorem getElem?_setAll (x : Nat → Nat) (ws : List (Nat × Nat)) (buffer : List Nat)
    (h : ∀ w ∈ ws, w.2 = x w.1) (j : Nat) :
    (setAll buffer ws)[j]? =
      if j ∈ ws.map Prod.fst ∧ j < buffer.length then some (x j) else buffer[j]? := by
  induction ws generalizing buffer with
  | nil => simp [setAll_nil]
  | cons w ws ih =>
    rw [setAll_cons, ih _ (fun v hv => h v (List.mem_cons_of_mem _ hv))]
    have hw := h w (List.mem_cons_self _ _)
    simp only [List.length_set, List.map_cons, List.mem_cons, List.getElem?_set]
    by_cases h1 : j ∈ ws.map Prod.fst
    · by_cases h2 : j < buffer.length
      · simp [h1, h2]
      · have : buffer[j]? = none := by simp; omega
        simp [h1, h2, this]
        intro h3; omega
    · by_cases h3 : w.1 = j
      · subst h3
        by_cases h2 : w.1 < buffer.length
        · simp [h1, h2, hw]
        · have : buffer[w.1]? = none := by simp; omega
          simp [h1, h2, this]
      · have h4 : ¬ j = w.1 := fun h => h3 h.symm
        simp [h1, h3, h4]

theorem toInt32_of_lt (n : Nat) (h : n < 2147483648) : toInt32 n = n := by
  unfold toInt32
  omega

theorem segmentPos_add_mul_stride (ctx : CodecsContext) (s k : Nat) :
    segmentPos ctx s + k * segmentStride ctx =
      if ctx.PlanarConfiguration = Interleaved then
        (k * ctx.SamplesPerPixel + s / bytesAllocated ctx) * bytesAllocated ctx +
          (bytesAllocated ctx - 1 - s % bytesAllocated ctx)
      else
        (s / bytesAllocated ctx * pixelCount ctx + k) * bytesAllocated ctx +
          (bytesAllocated ctx - 1 - s % bytesAllocated ctx) := by
  unfold segmentPos segmentStride
  have e : bytesAllocated ctx - s % bytesAllocated ctx - 1 =
      bytesAllocated ctx - 1 - s % bytesAllocated ctx := by omega
  simp only [e]
  split <;> ring

/-- With at least one pixel, the first position and the stride of every segment
`s < bytesAllocated * SamplesPerPixel` are at most the decoded size. -/
theorem segmentPos_lt_size (ctx : CodecsContext) (s : Nat)
    (hs : s < bytesAllocated ctx * ctx.SamplesPerPixel) (hP : 0 < pixelCount ctx) :
    segmentPos ctx s < pixelCount ctx * bytesAllocated ctx * ctx.SamplesPerPixel ∧
    segmentStride ctx ≤ pixelCount ctx * bytesAllocated ctx * ctx.SamplesPerPixel := by
  generalize hBA : bytesAllocated ctx = BA at *
  generalize hPc : pixelCount ctx = P at *
  generalize hSPP : ctx.SamplesPerPixel = SPP at *
  have hBA0 : 0 < BA := by
    rcases Nat.eq_zero_or_pos BA with h | h
    · subst h; simp at hs
    · exact h
  have hSPP0 : 0 < SPP := by
    rcases Nat.eq_zero_or_pos SPP with h | h
    · subst h; simp at hs
    · exact h
  have ha : s / BA < SPP := by
    rw [Nat.div_lt_iff_lt_mul hBA0, Nat.mul_comm]; exact hs
  have hm : s % BA < BA := Nat.mod_lt _ hBA0
  have h1 : (s / BA + 1) * BA ≤ SPP * BA := Nat.mul_le_mul_right BA ha
  have h2 : SPP * BA * 1 ≤ SPP * BA * P := Nat.mul_le_mul_left _ hP
  have h3 : BA * 1 ≤ BA * SPP := Nat.mul_le_mul_left _ hSPP0
  have h4 : BA * SPP * 1 ≤ BA * SPP * P := Nat.mul_le_mul_left _ hP
  have h5 : (s / BA + 1) * (BA * P) ≤ SPP * (BA * P) := Nat.mul_le_mul_right _ ha
  have h6 : BA * 1 ≤ BA * P := Nat.mul_le_mul_left _ hP
  have e1 : P * BA * SPP = SPP * BA * P := by ring
  have e2 : BA * SPP * P = SPP * BA * P := by ring
  have e3 : SPP * (BA * P) = SPP * BA * P := by ring
  have e4 : (s / BA + 1) * (BA * P) = s / BA * BA * P + BA * P := by ring
  have e5 : (s / BA + 1) * BA = s / BA * BA + BA := by ring
  unfold segmentPos segmentStride
  simp only [hBA, hPc, hSPP]
  constructor
  · split <;> omega
  · split <;> omega

theorem strided_append (stride : Int) (xs ys : List Nat) (start : Int) :
    strided start stride (xs ++ ys) =
      strided start stride xs ++ strided (start + xs.length * stride) stride ys := by
  induction xs generalizing start with
  | nil => simp [strided]
  | cons x xs ih =>
    have h : start + stride + (xs.length : Int) * stride =
        start + ((xs.length + 1 : Nat) : Int) * stride := by push_cast; ring
    simp only [List.cons_append, strided, List.append_eq, ih, List.length_cons, h]

theorem length_strided (stride : Int) (xs : List Nat) (start : Int) :
    (strided start stride xs).length = xs.length := by
  induction xs generalizing start with
  | nil => rfl
  | cons x xs ih => simp [strided, ih]

theorem getElem?_strided (stride : Int) (xs : List Nat) (start : Int) (k : Nat) (hk : k < xs.length) :
    (strided start stride xs)[k]? = some (start + k * stride, xs.getD k 0) := by
  induction xs generalizing start k with
  | nil => simp at hk
  | cons x xs ih =>
    cases k with
    | zero => simp [strided]
    | succ k =>
      simp only [strided, List.getElem?_cons_succ, List.getD_cons_succ]
      rw [ih _ _ (by simpa using hk)]
      congr 2
      push_cast
      ring

theorem readByte_mid (pre mid post : List Nat) (j : Nat) (hj : j < mid.length) :
    readByte (pre ++ mid ++ post) ((pre.length : Int) + j) = .ok (mid.getD j 0) := by
  unfold readByte
  have h1 : (0 : Int) ≤ (pre.length : Int) + j := by omega
  have h2 : (pre.length : Int) + j < ((pre ++ mid ++ post).length : Nat) := by
    simp only [List.length_append]; push_cast; omega
  rw [if_pos ⟨h1, h2⟩]
  have h3 : ((pre.length : Int) + j).toNat = pre.length + j := by omega
  rw [h3]
  simp only [List.getD_eq_getElem?_getD, List.append_assoc]
  rw [List.getElem?_append_right (by omega)]
  simp only [Nat.add_sub_cancel_left]
  rw [List.getElem?_append_left hj]

theorem literalLoop_block (stride : Int) (bytes : List Nat) (pre post : List Nat) (pos : Int) :
    RleDecoder.literalLoop (pre ++ bytes ++ post) stride bytes.length pre.length pos =
      .ok (strided pos stride bytes, (pre.length : Int) + bytes.length,
        pos + bytes.length * stride) := by
  induction bytes generalizing pre pos with
  | nil => simp [RleDecoder.literalLoop, strided]
  | cons b bs ih =>
    have hr := readByte_mid pre (b :: bs) post 0 (by simp)
    simp only [Nat.cast_zero, add_zero, List.getD_cons_zero] at hr
    have ih' := ih (pre ++ [b]) (pos + stride)
    simp only [List.append_assoc, List.singleton_append, List.length_append,
      List.length_singleton, Nat.cast_add, Nat.cast_one] at ih'
    simp only [List.append_assoc, List.cons_append] at hr ih'
    simp only [List.length_cons, RleDecoder.literalLoop, List.append_assoc,
      List.cons_append, bind, Except.bind, hr, ih', strided]
    congr 3
    · push_cast; ring
    · push_cast; ring

theorem memcpyLog_block (bytes : List Nat) (pre post : List Nat) (pos : Int) :
    RleDecoder.memcpyLog (pre ++ bytes ++ post) bytes.length pre.length pos =
      .ok (strided pos 1 bytes) := by
  induction bytes generalizing pre pos with
  | nil => simp [RleDecoder.memcpyLog, strided]
  | cons b bs ih =>
    have hr := readByte_mid pre (b :: bs) post 0 (by simp)
    simp only [Nat.cast_zero, add_zero, List.getD_cons_zero] at hr
    have ih' := ih (pre ++ [b]) (pos + 1)
    simp only [List.append_assoc, List.singleton_append, List.length_append,
      List.length_singleton, Nat.cast_add, Nat.cast_one] at ih'
    simp only [List.append_assoc, List.cons_append] at hr ih'
    simp only [List.length_cons, RleDecoder.memcpyLog, List.append_assoc,
      List.cons_append, bind, Except.bind, hr, ih', strided]

theorem repeatLoop_eq (b : Nat) (stride : Int) (n : Nat) (pos : Int) :
    RleDecoder.repeatLoop b stride n pos =
      (strided pos stride (List.replicate n b), pos + n * stride) := by
  induction n generalizing pos with
  | zero => simp [RleDecoder.repeatLoop, strided]
  | succ n ih =>
    simp only [RleDecoder.repeatLoop, ih, List.replicate_succ, strided]
    congr 1
    push_cast; ring

theorem toInt8_of_lt (c : Nat) (h : c < 128) : toInt8 c = c := by
  unfold toInt8
  have : c % 256 = c := Nat.mod_eq_of_lt (by omega)
  rw [this, if_pos h]

theorem toInt8_of_ge (c : Nat) (h : 128 ≤ c) (h2 : c < 256) : toInt8 c = (c : Int) - 256 := by
  unfold toInt8
  have : c % 256 = c := Nat.mod_eq_of_lt h2
  rw [this, if_neg (by omega)]

theorem decodeLoop_exit (data : List Nat) (size stride end_ : Int) (fuel : Nat) (i pos : Int)
    (h : ¬ (i < end_ ∧ pos < size)) :
    RleDecoder.decodeLoop data size stride end_ fuel i pos = .ok [] := by
  unfold RleDecoder.decodeLoop
  rw [if_neg h]

theorem decodeLoop_literal (pre bs rest data : List Nat) (size stride end_ i pos : Int)
    (fuel : Nat) (hd : data = pre ++ (bs.length - 1) :: bs ++ rest) (hi : i = pre.length)
    (h1 : 1 ≤ bs.length) (h128 : bs.length ≤ 128)
    (hend : (pre.length : Int) + 1 + bs.length ≤ end_) (hpos : pos < size)
    (hfit : pos + ((bs.length : Int) - 1) * stride < size) :
    RleDecoder.decodeLoop data size stride end_ (fuel + 1) i pos =
      (RleDecoder.guarded data size stride end_ fuel
          ((pre.length : Int) + 1 + bs.length) (pos + bs.length * stride)).map
          (fun w => strided pos stride bs ++ w) := by
  subst hd hi
  rw [RleDecoder.decodeLoop]
  have hi : (pre.length : Int) < end_ ∧ pos < size := ⟨by omega, hpos⟩
  have hr := readByte_mid pre ((bs.length - 1) :: bs) rest 0 (by simp)
  simp only [Nat.cast_zero, add_zero, List.getD_cons_zero] at hr
  have hc : toInt8 (bs.length - 1) = (bs.length : Int) - 1 := by
    rw [toInt8_of_lt _ (by omega)]; omega
  have hlit := literalLoop_block stride bs (pre ++ [bs.length - 1]) rest pos
  have hmem := memcpyLog_block bs (pre ++ [bs.length - 1]) rest pos
  simp only [List.append_assoc, List.singleton_append, List.length_append,
    List.length_singleton, Nat.cast_add, Nat.cast_one, List.cons_append,
    List.nil_append] at hr hlit hmem ⊢
  simp only [if_pos hi, bind, Except.bind, hr, hc, sub_add_cancel, add_sub_cancel_right,
    Int.toNat_ofNat]
  rw [if_pos (by omega), if_neg (by omega), if_neg (by omega)]
  unfold RleDecoder.guarded
  by_cases hs : stride = 1
  · subst hs
    simp only [if_true, hmem, pure, Except.pure, mul_one]
    by_cases hg : (pre.length : Int) + 1 + bs.length + 1 ≥ end_
    · simp [hg, Except.map]
    · simp only [hg, if_false]
      generalize RleDecoder.decodeLoop _ _ _ _ _ _ _ = res
      cases res <;> rfl
  · simp only [if_neg hs, hlit]
    by_cases hg : (pre.length : Int) + 1 + bs.length + 1 ≥ end_
    · simp [hg, Except.map]
    · simp only [hg, if_false]
      generalize RleDecoder.decodeLoop _ _ _ _ _ _ _ = res
      cases res <;> rfl

theorem repeatLoop_branch (b : Nat) (stride : Int) (n : Nat) (pos : Int) :
    (if stride = 1 then RleDecoder.repeatLoop b 1 n pos
      else RleDecoder.repeatLoop b stride n pos) = RleDecoder.repeatLoop b stride n pos := by
  by_cases h : stride = 1
  · subst h; simp
  · simp [h]

theorem decodeLoop_repeat (pre rest data : List Nat) (n b : Nat)
    (size stride end_ i pos : Int) (fuel : Nat)
    (hd : data = pre ++ (256 - n) :: b :: rest) (hi : i = pre.length)
    (h1 : 1 ≤ n) (h127 : n ≤ 127)
    (hend : (pre.length : Int) < end_) (hpos : pos < size)
    (hfit : pos + ((n : Int) - 1) * stride < size) :
    RleDecoder.decodeLoop data size stride end_ (fuel + 1) i pos =
      (RleDecoder.guarded data size stride end_ fuel
          ((pre.length : Int) + 2) (pos + ((n : Int) + 1) * stride)).map
          (fun w => strided pos stride (List.replicate (n + 1) b) ++ w) := by
  subst hd hi
  have e2 : (pre.length : Int) + 2 = (pre.length : Int) + 1 + 1 := by ring
  have e3 : ((n : Int) + 1) = ((n + 1 : Nat) : Int) := by push_cast; ring
  rw [e2, e3]
  rw [RleDecoder.decodeLoop]
  have hi : (pre.length : Int) < end_ ∧ pos < size := ⟨hend, hpos⟩
  have hr := readByte_mid pre ((256 - n) :: b :: rest) [] 0 (by simp)
  have hr1 := readByte_mid pre ((256 - n) :: b :: rest) [] 1 (by simp)
  simp only [Nat.cast_zero, add_zero, List.getD_cons_zero, List.append_nil, Nat.cast_one,
    List.getD_cons_succ] at hr hr1
  have hc : toInt8 (256 - n) = -(n : Int) := by
    rw [toInt8_of_ge _ (by omega) (by omega)]; omega
  have hlen : (-(-(n : Int)) + 1).toNat = n + 1 := by omega
  have hlen' : ((n : Int) + 1).toNat = n + 1 := by omega
  simp only [if_pos hi, bind, Except.bind, hr, hr1, hc, neg_neg, hlen, hlen', repeatLoop_branch]
  simp only [repeatLoop_eq]
  rw [if_neg (by omega), if_pos (by omega), if_neg (by omega)]
  unfold RleDecoder.guarded
  by_cases hg : (pre.length : Int) + 1 + 1 + 1 ≥ end_
  · simp [hg, Except.map]
  · simp only [hg, if_false]
    generalize RleDecoder.decodeLoop _ _ _ _ _ _ _ = res
    cases res <;> rfl

theorem decodeLoop_noop (pre rest data : List Nat) (size stride end_ i pos : Int)
    (fuel : Nat) (hd : data = pre ++ 128 :: rest) (hi : i = pre.length)
    (hend : (pre.length : Int) < end_) (hpos : pos < size) :
    RleDecoder.decodeLoop data size stride end_ (fuel + 1) i pos =
      RleDecoder.guarded data size stride end_ fuel ((pre.length : Int) + 1) pos := by
  subst hd hi
  rw [RleDecoder.decodeLoop]
  have hi : (pre.length : Int) < end_ ∧ pos < size := ⟨hend, hpos⟩
  have hr := readByte_mid pre (128 :: rest) [] 0 (by simp)
  simp only [Nat.cast_zero, add_zero, List.getD_cons_zero, List.append_nil] at hr
  have hc : toInt8 128 = -128 := by decide
  simp only [if_pos hi, bind, Except.bind, hr, hc]
  rw [if_neg (by omega), if_neg (by omega)]
  rfl

theorem encodeRuns_cons (r : Run) (rs : List Run) :
    encodeRuns (r :: rs) = r.bytes ++ encodeRuns rs := by
  simp [encodeRuns]

theorem expandRuns_cons (r : Run) (rs : List Run) :
    expandRuns (r :: rs) = r.expand ++ expandRuns rs := by
  simp [expandRuns]

theorem encodeRuns_append (rs ts : List Run) :
    encodeRuns (rs ++ ts) = encodeRuns rs ++ encodeRuns ts := by
  simp [encodeRuns]

theorem expandRuns_append (rs ts : List Run) :
    expandRuns (rs ++ ts) = expandRuns rs ++ expandRuns ts := by
  simp [expandRuns]

theorem Run.one_le_length_bytes (r : Run) : 1 ≤ r.bytes.length := by
  cases r <;> simp [Run.bytes]

theorem encodeRuns_eq_nil (rs : List Run) (h : encodeRuns rs = []) : rs = [] := by
  cases rs with
  | nil => rfl
  | cons r rs =>
    rw [encodeRuns_cons] at h
    have := r.one_le_length_bytes
    have h2 := congrArg List.length h
    rw [List.length_append, List.length_nil] at h2
    omega

theorem expandRuns_eq_nil_of_short (rs : List Run) (hwf : ∀ r ∈ rs, r.wf)
    (h : (encodeRuns rs).length ≤ 1) : expandRuns rs = [] := by
  cases rs with
  | nil => rfl
  | cons r rs =>
    rw [encodeRuns_cons, List.length_append] at h
    have hr := r.one_le_length_bytes
    have hrs : rs = [] := encodeRuns_eq_nil rs (List.length_eq_zero.mp (by omega))
    subst hrs
    have hw := hwf r (List.mem_cons_self _ _)
    cases r with
    | literal bs =>
      simp only [Run.bytes, List.length_cons] at h
      simp only [Run.wf] at hw
      omega
    | repeated n b => simp only [Run.bytes, List.length_cons] at h; omega
    | noop => simp [expandRuns, Run.expand]

/-- One iteration of the loop of `RleDecoder::Decode` on a well-formed complete
run whose expansion stays below the sink size. -/
theorem decodeLoop_run (r : Run) (hwf : r.wf) (pre rest data : List Nat)
    (size stride end_ i pos : Int) (fuel : Nat)
    (hd : data = pre ++ r.bytes ++ rest) (hi : i = pre.length)
    (hend : (pre.length : Int) + r.bytes.length ≤ end_) (hpos : pos < size)
    (hfit : ∀ k : Nat, k < r.expand.length → pos + k * stride < size) :
    RleDecoder.decodeLoop data size stride end_ (fuel + 1) i pos =
      (RleDecoder.guarded data size stride end_ fuel (i + r.bytes.length)
        (pos + r.expand.length * stride)).map (fun w => strided pos stride r.expand ++ w) := by
  cases r with
  | literal bs =>
    simp only [Run.wf] at hwf
    simp only [Run.bytes, Run.expand, List.length_cons] at hd hend hfit ⊢
    rw [decodeLoop_literal pre bs rest data size stride end_ i pos fuel (by simp [hd]) hi
      hwf.1 hwf.2 (by push_cast at hend; omega) hpos
      (by
        have := hfit (bs.length - 1) (by omega)
        have e : ((bs.length - 1 : Nat) : Int) = (bs.length : Int) - 1 := by omega
        rwa [e] at this)]
    have e : (pre.length : Int) + 1 + bs.length = i + ((bs.length + 1 : Nat) : Int) := by
      rw [hi]; push_cast; ring
    rw [e]
  | repeated n b =>
    simp only [Run.wf] at hwf
    simp only [Run.bytes, Run.expand, List.length_cons, List.length_nil,
      List.length_replicate] at hd hend hfit ⊢
    rw [decodeLoop_repeat pre rest data n b size stride end_ i pos fuel (by simp [hd]) hi
      hwf.1 hwf.2 (by push_cast at hend; omega) hpos
      (by
        have := hfit (n - 1) (by omega)
        have e : ((n - 1 : Nat) : Int) = (n : Int) - 1 := by omega
        rwa [e] at this)]
    have e : (pre.length : Int) + 2 = i + ((0 + 1 + 1 : Nat) : Int) := by
      rw [hi]; push_cast; ring
    have e2 : ((n : Int) + 1) = ((n + 1 : Nat) : Int) := by push_cast; ring
    rw [e, e2]
  | noop =>
    simp only [Run.bytes, Run.expand, List.length_cons, List.length_nil] at hd hend hfit ⊢
    rw [decodeLoop_noop pre rest data size stride end_ i pos fuel (by simp [hd]) hi
      (by push_cast at hend; omega) hpos]
    have e : (pre.length : Int) + 1 = i + ((0 + 1 : Nat) : Int) := by
      rw [hi]; push_cast; ring
    have e2 : pos + ((0 : Nat) : Int) * stride = pos := by simp
    rw [e, e2]
    generalize RleDecoder.guarded _ _ _ _ _ _ _ = res
    cases res <;> simp [Except.map, strided]

/-- The loop of `RleDecoder::Decode` on a segment made of well-formed complete
runs followed by at most one extra byte: it stores the expansion of the runs,
in order, at `pos`, `pos + stride`, and so on, provided those positions are
below the sink size. -/
theorem decodeLoop_runs (size stride : Int) (trail post : List Nat) (ht : trail.length ≤ 1)
    (runs : List Run) :
    ∀ (pre data : List Nat) (end_ i pos : Int) (fuel : Nat),
      data = pre ++ encodeRuns runs ++ trail ++ post →
      end_ = (pre.length : Int) + (encodeRuns runs).length + trail.length →
      i = pre.length →
      (∀ r ∈ runs, r.wf) →
      (∀ k : Nat, k < (expandRuns runs).length → pos + k * stride < size) →
      (encodeRuns runs).length ≤ fuel →
      (runs ≠ [] ∨ trail = []) →
      RleDecoder.decodeLoop data size stride end_ fuel i pos
        = .ok (strided pos stride (expandRuns runs)) := by
  induction runs with
  | nil =>
    intro pre data end_ i pos fuel _ he hi _ _ _ hne
    have htr : trail = [] := by
      rcases hne with h | h
      · exact absurd rfl h
      · exact h
    subst htr
    apply decodeLoop_exit
    simp [encodeRuns] at he
    omega
  | cons r rs ih =>
    intro pre data end_ i pos fuel hd he hi hwf hfit hfuel _
    have hwfr := hwf r (List.mem_cons_self _ _)
    have hwfrs : ∀ r ∈ rs, r.wf := fun x hx => hwf x (List.mem_cons_of_mem _ hx)
    rw [encodeRuns_cons, List.length_append] at hfuel he
    rw [encodeRuns_cons] at hd
    rw [expandRuns_cons]
    rw [expandRuns_cons, List.length_append] at hfit
    have hb := r.one_le_length_bytes
    by_cases hpos : pos < size
    · obtain ⟨f, rfl⟩ : ∃ f, fuel = f + 1 := ⟨fuel - 1, by omega⟩
      rw [decodeLoop_run r hwfr pre (encodeRuns rs ++ trail ++ post) data size stride end_ i pos f
        (by simp [hd]) hi (by push_cast at he; omega) hpos
        (fun k hk => hfit k (by omega))]
      have hfit' : ∀ k : Nat, k < (expandRuns rs).length →
          pos + r.expand.length * stride + k * stride < size := by
        intro k hk
        have := hfit (r.expand.length + k) (by omega)
        push_cast at this
        have e : pos + ((r.expand.length : Int) + k) * stride =
          pos + r.expand.length * stride + k * stride := by ring
        rwa [e] at this
      have hg : RleDecoder.guarded data size stride end_ f (i + r.bytes.length)
          (pos + r.expand.length * stride) =
          .ok (strided (pos + r.expand.length * stride) stride (expandRuns rs)) := by
        unfold RleDecoder.guarded
        by_cases hg : i + r.bytes.length + 1 ≥ end_
        · rw [if_pos hg, expandRuns_eq_nil_of_short rs hwfrs (by push_cast at he; omega)]
          rfl
        · rw [if_neg hg]
          refine ih (pre ++ r.bytes) data end_ _ _ f (by simp [hd])
            (by rw [he]; simp; ring) (by rw [hi]; simp) hwfrs hfit' (by omega) (Or.inl ?_)
          rintro rfl
          simp [encodeRuns] at he
          omega
      rw [hg, strided_append]
      rfl
    · rw [decodeLoop_exit _ _ _ _ _ _ _ (fun h => hpos h.2)]
      have hnil : r.expand ++ expandRuns rs = [] := by
        by_contra hne
        have := hfit 0 (by
          rw [← List.length_append]; exact List.length_pos.mpr hne)
        simp at this
        exact hpos this
      rw [hnil]
      rfl

/-- The loop of `RleDecoder::Decode` over a prefix of well-formed complete runs
that is followed by at least two more bytes of the segment: the stores of the
prefix, then the loop from the state after it. -/
theorem decodeLoop_prefix (size stride : Int) (tail : List Nat) (runs : List Run) :
    ∀ (pre data : List Nat) (end_ i pos : Int) (fuel : Nat),
      data = pre ++ encodeRuns runs ++ tail →
      (pre.length : Int) + (encodeRuns runs).length + 2 ≤ end_ →
      i = pre.length →
      (∀ r ∈ runs, r.wf) →
      (∀ k : Nat, k ≤ (expandRuns runs).length → pos + k * stride < size) →
      RleDecoder.decodeLoop data size stride end_ (runs.length + fuel) i pos
        = (RleDecoder.decodeLoop data size stride end_ fuel (i + (encodeRuns runs).length)
            (pos + (expandRuns runs).length * stride)).map
            (fun w => strided pos stride (expandRuns runs) ++ w) := by
  induction runs with
  | nil =>
    intro pre data end_ i pos fuel _ _ _ _ _
    simp only [encodeRuns, expandRuns, List.flatMap_nil, List.length_nil, Nat.cast_zero,
      add_zero, zero_mul, Nat.zero_add, strided, List.nil_append]
    generalize RleDecoder.decodeLoop _ _ _ _ _ _ _ = res
    cases res <;> rfl
  | cons r rs ih =>
    intro pre data end_ i pos fuel hd he hi hwf hfit
    have hwfr := hwf r (List.mem_cons_self _ _)
    have hwfrs : ∀ r ∈ rs, r.wf := fun x hx => hwf x (List.mem_cons_of_mem _ hx)
    rw [encodeRuns_cons, List.length_append] at he ⊢
    rw [encodeRuns_cons] at hd
    rw [expandRuns_cons, List.length_append] at hfit ⊢
    have e : (r :: rs).length + fuel = (rs.length + fuel) + 1 := by simp; omega
    rw [e, decodeLoop_run r hwfr pre (encodeRuns rs ++ tail) data size stride end_ i pos _
      (by simp [hd]) hi (by push_cast at he; omega)
      (by have := hfit 0 (by omega); simpa using this)
      (fun k hk => hfit k (by omega))]
    have hg : RleDecoder.guarded data size stride end_ (rs.length + fuel) (i + r.bytes.length)
        (pos + r.expand.length * stride) =
        RleDecoder.decodeLoop data size stride end_ (rs.length + fuel) (i + r.bytes.length)
        (pos + r.expand.length * stride) := by
      unfold RleDecoder.guarded
      rw [if_neg (by push_cast at he; omega)]
    rw [hg, ih (pre ++ r.bytes) data end_ _ _ fuel (by simp [hd])
      (by push_cast at he ⊢; simp; omega) (by rw [hi]; simp) hwfrs
      (by
        intro k hk
        have := hfit (r.expand.length + k) (by omega)
        push_cast at this
        have e : pos + ((r.expand.length : Int) + k) * stride =
          pos + r.expand.length * stride + k * stride := by ring
        rwa [e] at this)]
    have e1 : i + (r.bytes.length : Int) + (encodeRuns rs).length =
        i + ((r.bytes.length + (encodeRuns rs).length : Nat) : Int) := by push_cast; ring
    have e2 : pos + (r.expand.length : Int) * stride + (expandRuns rs).length * stride =
        pos + ((r.expand.length + (expandRuns rs).length : Nat) : Int) * stride := by
      push_cast; ring
    rw [e1, e2, strided_append]
    generalize RleDecoder.decodeLoop _ _ _ _ _ _ _ = res
    cases res <;> simp [Except.map]

theorem shiftFold_spec (count : Nat) (m : Nat) (buf : List Nat) :
    ((List.range m).foldl (fun b n => b.set n (b.getD (n + count) 0)) buf).length = buf.length ∧
    (0 < count → ∀ j, ((List.range m).foldl (fun b n => b.set n (b.getD (n + count) 0)) buf)[j]? =
      if j < m then (if j < buf.length then some (buf.getD (j + count) 0) else none)
      else buf[j]?) := by
  induction m with
  | zero => simp
  | succ m ih =>
    rw [List.range_succ, List.foldl_append]
    simp only [List.foldl_cons, List.foldl_nil, List.length_set]
    refine ⟨ih.1, fun hc j => ?_⟩
    have ih2 := ih.2 hc
    rw [List.getElem?_set, ih.1]
    have hg : ((List.range m).foldl (fun b n => b.set n (b.getD (n + count) 0)) buf).getD
        (m + count) 0 = buf.getD (m + count) 0 := by
      rw [List.getD_eq_getElem?_getD, ih2, if_neg (by omega), ← List.getD_eq_getElem?_getD]
    rw [hg, ih2]
    by_cases h1 : m = j
    · subst h1
      simp
    · by_cases h2 : j < m
      · simp [h1, h2, Nat.lt_succ_of_lt h2]
      · have h3 : ¬ j < m + 1 := by omega
        simp [h1, h2, h3]

/-- The shift loop of `MoveBuffer` moves the pending bytes after the first
`count` to the front. -/
theorem take_shiftFold (count bp : Nat) (buf : List Nat) (hc : 0 < count) (hcb : count ≤ bp)
    (hb : bp ≤ buf.length) :
    (((List.range (bp - count)).foldl (fun b n => b.set n (b.getD (n + count) 0)) buf)).take
      (bp - count) = (buf.take bp).drop count := by
  apply List.ext_getElem?
  intro j
  have h := (shiftFold_spec count (bp - count) buf).2 hc j
  rw [List.getElem?_take, List.getElem?_drop, List.getElem?_take, h]
  by_cases h1 : j < bp - count
  · have h2 : count + j < bp := by omega
    have h3 : j < buf.length := by omega
    have h4 : count + j < buf.length := by omega
    simp only [h1, h2, h3, if_true]
    rw [List.getD_eq_getElem?_getD, Nat.add_comm j count, List.getElem?_eq_getElem h4]
    rfl
  · have h2 : ¬ count + j < bp := by omega
    simp [h1, h2]

theorem map_getD_range (buf : List Nat) (n : Nat) (h : n ≤ buf.length) :
    (List.range n).map (fun i => buf.getD i 0) = buf.take n := by
  apply List.ext_getElem?
  intro j
  rw [List.getElem?_map, List.getElem?_take]
  by_cases hj : j < n
  · have : j < buf.length := by omega
    simp [hj, List.getElem?_range hj, List.getD_eq_getElem?_getD, List.getElem?_eq_getElem this]
  · simp [hj, List.getElem?_eq_none (l := List.range n) (by simpa using hj)]

theorem take_set_self (l : List Nat) (n a : Nat) : (l.set n a).take n = l.take n := by
  apply List.ext_getElem?
  intro i
  rw [List.getElem?_take, List.getElem?_take]
  split
  · rw [List.getElem?_set_ne (by omega)]
  · rfl

namespace RleEncoder

theorem MoveBuffer_spec (e : RleEncoder) (count : Int) (hc : 0 < count)
    (hcb : count ≤ e.bufferPos_) (hb : e.bufferPos_ ≤ e.buffer_.length) :
    (e.MoveBuffer count).writer_ =
        e.writer_ ++ (e.buffer_.take e.bufferPos_.toNat).take count.toNat ∧
    (e.MoveBuffer count).buffer_.take (e.MoveBuffer count).bufferPos_.toNat =
        (e.buffer_.take e.bufferPos_.toNat).drop count.toNat ∧
    (e.MoveBuffer count).bufferPos_ = e.bufferPos_ - count ∧
    (e.MoveBuffer count).buffer_.length = e.buffer_.length ∧
    (e.MoveBuffer count).repeatCount_ = e.repeatCount_ ∧
    (e.MoveBuffer count).prevByte_ = e.prevByte_ ∧
    (e.MoveBuffer count).offsets_ = e.offsets_ ∧
    (e.MoveBuffer count).segmentCount_ = e.segmentCount_ := by
  have h1 : count.toNat ≤ e.buffer_.length := by omega
  have h2 : (e.bufferPos_ - count).toNat = e.bufferPos_.toNat - count.toNat := by omega
  refine ⟨?_, ?_, rfl, ?_, rfl, rfl, rfl, rfl⟩
  · show e.writer_ ++ _ = _
    rw [map_getD_range _ _ h1, List.take_take]
    congr 2
    omega
  · have h3 := take_shiftFold count.toNat e.bufferPos_.toNat e.buffer_ (by omega) (by omega)
      (by omega)
    simp only [MoveBuffer, h2]
    exact h3
  · exact (shiftFold_spec _ _ _).1

theorem pushPrev_spec (e : RleEncoder) (h0 : 0 ≤ e.bufferPos_)
    (hb : e.bufferPos_ < e.buffer_.length) :
    e.pushPrev.buffer_.take e.pushPrev.bufferPos_.toNat =
      e.buffer_.take e.bufferPos_.toNat ++ [toUInt8 e.prevByte_] ∧
    e.pushPrev.bufferPos_ = e.bufferPos_ + 1 ∧
    e.pushPrev.buffer_.length = e.buffer_.length ∧
    e.pushPrev.writer_ = e.writer_ ∧
    e.pushPrev.repeatCount_ = e.repeatCount_ ∧
    e.pushPrev.prevByte_ = e.prevByte_ ∧
    e.pushPrev.offsets_ = e.offsets_ ∧
    e.pushPrev.segmentCount_ = e.segmentCount_ := by
  refine ⟨?_, rfl, by simp [pushPrev], rfl, rfl, rfl, rfl, rfl⟩
  have h1 : (e.bufferPos_ + 1).toNat = e.bufferPos_.toNat + 1 := by omega
  have h2 : e.bufferPos_.toNat < e.buffer_.length := by omega
  show List.take (e.bufferPos_ + 1).toNat (e.buffer_.set _ _) = _
  rw [h1, List.take_succ, take_set_self]
  congr 1
  simp [List.getElem?_set, h2]

end RleEncoder

namespace RleEncoder

theorem length_pending (e : RleEncoder) (h0 : 0 ≤ e.bufferPos_)
    (hb : e.bufferPos_ ≤ e.buffer_.length) : (e.pending.length : Int) = e.bufferPos_ := by
  unfold pending
  rw [List.length_take]
  omega

theorem toUInt8_of_lt (n : Int) (h0 : 0 ≤ n) (h : n < 256) : toUInt8 n = n.toNat := by
  unfold toUInt8
  congr 1
  omega

theorem flushLiterals_zero (limit : Int) (e : RleEncoder) : flushLiterals limit 0 e = e := rfl

theorem flushLiterals_succ_pos (limit : Int) (fuel : Nat) (e : RleEncoder)
    (h : e.bufferPos_ > limit) :
    flushLiterals limit (fuel + 1) e = flushLiterals limit fuel
      ((e.WriteByte (toUInt8 (min 128 e.bufferPos_ - 1))).MoveBuffer (min 128 e.bufferPos_)) := by
  rw [flushLiterals, if_pos h]

theorem flushLiterals_succ_neg (limit : Int) (fuel : Nat) (e : RleEncoder)
    (h : ¬ e.bufferPos_ > limit) : flushLiterals limit (fuel + 1) e = e := by
  rw [flushLiterals, if_neg h]

/-- The literal flush loop writes the pending bytes it removes as well-formed
literal runs and leaves at most `limit` bytes pending. -/
theorem flushLiterals_spec (limit : Int) (hl : 0 ≤ limit) (fuel : Nat) :
    ∀ e : RleEncoder, 0 ≤ e.bufferPos_ → e.bufferPos_ ≤ e.buffer_.length →
      e.bufferPos_ ≤ fuel →
      (∃ runs : List Run, (∀ r ∈ runs, r.wf) ∧
        (flushLiterals limit fuel e).writer_ = e.writer_ ++ encodeRuns runs ∧
        expandRuns runs ++ (flushLiterals limit fuel e).pending = e.pending) ∧
      0 ≤ (flushLiterals limit fuel e).bufferPos_ ∧
      (flushLiterals limit fuel e).bufferPos_ ≤ limit ⊔ 0 ∧
      (e.bufferPos_ ≤ limit → flushLiterals limit fuel e = e) ∧
      (flushLiterals limit fuel e).bufferPos_ ≤ e.bufferPos_ ∧
      (e.bufferPos_ ≤ limit + 128 → limit < e.bufferPos_ →
        (flushLiterals limit fuel e).bufferPos_ = e.bufferPos_ - min 128 e.bufferPos_) ∧
      (flushLiterals limit fuel e).buffer_.length = e.buffer_.length ∧
      (flushLiterals limit fuel e).repeatCount_ = e.repeatCount_ ∧
      (flushLiterals limit fuel e).prevByte_ = e.prevByte_ ∧
      (flushLiterals limit fuel e).offsets_ = e.offsets_ ∧
      (flushLiterals limit fuel e).segmentCount_ = e.segmentCount_ := by
  induction fuel with
  | zero =>
    intro e h0 _ hf
    have : e.bufferPos_ = 0 := by omega
    rw [flushLiterals_zero]
    refine ⟨⟨[], by simp, by simp [encodeRuns], by simp [expandRuns]⟩, h0, by omega, fun _ => rfl,
      le_refl _, fun _ _ => by omega, rfl, rfl, rfl, rfl, rfl⟩
  | succ fuel ih =>
    intro e h0 hb hf
    by_cases hgt : e.bufferPos_ > limit
    · rw [flushLiterals_succ_pos _ _ _ hgt]
      have hc1 : 0 < min 128 e.bufferPos_ := by omega
      have hc2 : min 128 e.bufferPos_ ≤ e.bufferPos_ := by omega
      obtain ⟨hw, hp, hbp, hlen, hrc, hprev, hoff, hseg⟩ :=
        MoveBuffer_spec (e.WriteByte (toUInt8 (min 128 e.bufferPos_ - 1)))
          (min 128 e.bufferPos_) hc1 hc2 hb
      generalize hm : (e.WriteByte (toUInt8 (min 128 e.bufferPos_ - 1))).MoveBuffer
        (min 128 e.bufferPos_) = e2 at hw hp hbp hlen hrc hprev hoff hseg
      have hbp' : e2.bufferPos_ = e.bufferPos_ - min 128 e.bufferPos_ := hbp
      obtain ⟨⟨runs, hwf, hw2, hex⟩, i1, i2, i3, i4, i5, i6, i7, i8, i9, i10⟩ :=
        ih e2 (by omega) (by rw [hlen]; exact le_trans (by omega) hb) (by omega)
      have hpl := length_pending e h0 hb
      have htl : ((e.pending.take (min 128 e.bufferPos_).toNat).length : Int) =
          min 128 e.bufferPos_ := by
        rw [List.length_take]; omega
      refine ⟨⟨Run.literal (e.pending.take (min 128 e.bufferPos_).toNat) :: runs, ?_, ?_, ?_⟩,
        i1, i2, fun h => absurd hgt (by omega), by omega, ?_, by rw [i6, hlen]; rfl,
        by rw [i7, hrc]; rfl, by rw [i8, hprev]; rfl, by rw [i9, hoff]; rfl,
        by rw [i10, hseg]; rfl⟩
      · intro r hr
        rcases List.mem_cons.mp hr with h | h
        · subst h
          simp only [Run.wf]
          omega
        · exact hwf r h
      · rw [hw2, hw, encodeRuns_cons]
        have e1 : toUInt8 (min 128 e.bufferPos_ - 1) =
            (e.pending.take (min 128 e.bufferPos_).toNat).length - 1 := by
          rw [toUInt8_of_lt _ (by omega) (by omega)]
          omega
        simp only [WriteByte, Run.bytes, e1, List.append_assoc, List.singleton_append,
          List.cons_append]
        rfl
      · rw [expandRuns_cons, List.append_assoc, hex]
        show _ ++ e2.pending = _
        have : e2.pending = e.pending.drop (min 128 e.bufferPos_).toNat := hp
        rw [this]
        exact List.take_append_drop _ _
      · intro h1 h2
        have : e2.bufferPos_ ≤ limit := by omega
        rw [i3 this, hbp']
    · rw [flushLiterals_succ_neg _ _ _ hgt]
      refine ⟨⟨[], by simp, by simp [encodeRuns], by simp [expandRuns]⟩, h0, by omega,
        fun _ => rfl, le_refl _, fun _ h => absurd h hgt, rfl, rfl, rfl, rfl, rfl⟩

end RleEncoder

namespace RleEncoder

theorem toUInt8_natCast (b : Nat) : toUInt8 (b : Int) = b % 256 := by
  unfold toUInt8
  omega

theorem emitRepeat_spec (e : RleEncoder) (h2 : 2 ≤ e.repeatCount_) :
    e.emitRepeat.writer_ = e.writer_ ++
      (Run.repeated ((min e.repeatCount_ 128).toNat - 1) (toUInt8 e.prevByte_)).bytes ∧
    e.emitRepeat.repeatCount_ = e.repeatCount_ - min e.repeatCount_ 128 ∧
    e.emitRepeat.buffer_ = e.buffer_ ∧ e.emitRepeat.bufferPos_ = e.bufferPos_ ∧
    e.emitRepeat.prevByte_ = e.prevByte_ ∧ e.emitRepeat.offsets_ = e.offsets_ ∧
    e.emitRepeat.segmentCount_ = e.segmentCount_ := by
  refine ⟨?_, rfl, rfl, rfl, rfl, rfl, rfl⟩
  have e1 : toUInt8 (257 - min e.repeatCount_ 128) = 256 - ((min e.repeatCount_ 128).toNat - 1) := by
    rw [toUInt8_of_lt _ (by omega) (by omega)]
    omega
  simp only [emitRepeat, WriteByte, Run.bytes, e1, List.append_assoc, List.singleton_append]

theorem flushRepeats_of_zero (fuel : Nat) (e : RleEncoder) (h : e.repeatCount_ = 0) :
    flushRepeats fuel e = e := by
  cases fuel with
  | zero => rfl
  | succ f => rw [flushRepeats, if_neg (by omega)]

theorem flushRepeats_once (fuel : Nat) (e : RleEncoder) (h2 : 2 ≤ e.repeatCount_)
    (h128 : e.repeatCount_ ≤ 128) (hf : 1 ≤ fuel) : flushRepeats fuel e = e.emitRepeat := by
  obtain ⟨f, rfl⟩ : ∃ f, fuel = f + 1 := ⟨fuel - 1, by omega⟩
  rw [flushRepeats, if_pos (by omega), flushRepeats_of_zero]
  rw [(emitRepeat_spec e h2).2.1]
  omega

theorem pending_eq_of (e r : RleEncoder) (h1 : r.buffer_ = e.buffer_)
    (h2 : r.bufferPos_ = e.bufferPos_) : r.pending = e.pending := by
  unfold pending
  rw [h1, h2]

/-- The `switch` of `Encode` that closes the current run when the byte changes:
the closed run is written or moved to the literal buffer. -/
theorem closeRun_spec (e : RleEncoder) (h0 : 0 ≤ e.bufferPos_) (h128 : e.bufferPos_ ≤ 128)
    (hr0 : 0 ≤ e.repeatCount_) (hr128 : e.repeatCount_ ≤ 128)
    (h3 : 3 ≤ e.repeatCount_ → e.bufferPos_ = 0) (hlen : e.buffer_.length = 132)
    (e1 : RleEncoder)
    (he1 : e1 = if e.repeatCount_ = 0 then e
      else if e.repeatCount_ = 1 then e.pushPrev
      else if e.repeatCount_ = 2 then e.pushPrev.pushPrev
      else flushRepeats e.repeatCount_.toNat e) :
    (∃ runs : List Run, (∀ r ∈ runs, r.wf) ∧ e1.writer_ = e.writer_ ++ encodeRuns runs ∧
      expandRuns runs ++ e1.pending =
        e.pending ++ List.replicate e.repeatCount_.toNat (toUInt8 e.prevByte_)) ∧
    0 ≤ e1.bufferPos_ ∧ e1.bufferPos_ ≤ 130 ∧ e1.buffer_.length = 132 ∧
    e1.offsets_ = e.offsets_ ∧ e1.segmentCount_ = e.segmentCount_ := by
  by_cases c0 : e.repeatCount_ = 0
  · rw [if_pos c0] at he1
    subst he1
    refine ⟨⟨[], by simp, by simp [encodeRuns], by simp [expandRuns, c0]⟩, h0, by omega, hlen,
      rfl, rfl⟩
  · rw [if_neg c0] at he1
    by_cases c1 : e.repeatCount_ = 1
    · rw [if_pos c1] at he1
      subst he1
      obtain ⟨p1, p2, p3, p4, _, _, p7, p8⟩ := pushPrev_spec e h0 (by omega)
      refine ⟨⟨[], by simp, by simp [encodeRuns, p4], ?_⟩, by omega, by omega, by omega, p7, p8⟩
      simp only [expandRuns, List.flatMap_nil, List.nil_append, pending, p1, c1]
      rfl
    · rw [if_neg c1] at he1
      by_cases c2 : e.repeatCount_ = 2
      · rw [if_pos c2] at he1
        subst he1
        obtain ⟨p1, p2, p3, p4, p5, p6, p7, p8⟩ := pushPrev_spec e h0 (by omega)
        obtain ⟨q1, q2, q3, q4, _, _, q7, q8⟩ := pushPrev_spec e.pushPrev (by omega) (by omega)
        refine ⟨⟨[], by simp, by simp [encodeRuns, p4, q4], ?_⟩, by omega, by omega, by omega,
          by rw [q7, p7], by rw [q8, p8]⟩
        simp only [expandRuns, List.flatMap_nil, List.nil_append, pending, p1, q1, p6, c2,
          List.append_assoc]
        rfl
      · rw [if_neg c2] at he1
        have hge : 3 ≤ e.repeatCount_ := by omega
        rw [flushRepeats_once _ e (by omega) hr128 (by omega)] at he1
        subst he1
        obtain ⟨p1, p2, p3, p4, p5, p6, p7⟩ := emitRepeat_spec e (by omega)
        have hbp := h3 hge
        have hpe : e.emitRepeat.pending = e.pending := pending_eq_of _ _ p3 p4
        have hpn : e.pending = [] := by simp [pending, hbp]
        have hmin : min e.repeatCount_ 128 = e.repeatCount_ := by omega
        refine ⟨⟨[Run.repeated (e.repeatCount_.toNat - 1) (toUInt8 e.prevByte_)], ?_, ?_, ?_⟩,
          by omega, by omega, by rw [p3]; exact hlen, p6, p7⟩
        · intro r hr
          simp only [List.mem_singleton] at hr
          subst hr
          simp only [Run.wf]
          omega
        · rw [p1, hmin]
          simp [encodeRuns]
        · rw [hpe, hpn]
          simp only [expandRuns, List.flatMap_cons, List.flatMap_nil, Run.expand, List.append_nil,
            List.nil_append]
          congr 1
          omega

end RleEncoder

namespace RleEncoder

theorem Inv_init (e0 : RleEncoder) (h : e0.clean) : Inv e0 [] e0 := by
  obtain ⟨h1, h2, h3, h4⟩ := h
  refine ⟨⟨[], by simp [encodeRuns], by simp, by simp [expandRuns, pending, h2, h3]⟩,
    by omega, by omega, by omega, by omega, fun _ => h3, h4, fun _ => h1, fun h => by omega,
    rfl, rfl⟩

/-- `Encode` keeps the invariant of the encoder. -/
theorem Encode_inv (e0 e : RleEncoder) (inp : List Nat) (b : Nat) (h : Inv e0 inp e) :
    Inv e0 (inp ++ [b]) (e.Encode b) := by
  obtain ⟨⟨runs, hw, hwf, hex⟩, hb0, hb128, hr0, hr128, h3, hlen, hprev0, hprev, hoff, hseg⟩ := h
  have hmap : (inp ++ [b]).map (· % 256) = inp.map (· % 256) ++ [b % 256] := by simp
  unfold Encode
  by_cases heq : (b : Int) = e.prevByte_
  · rw [if_pos heq]
    have hrpos : 0 < e.repeatCount_ := by
      rcases lt_or_le 0 e.repeatCount_ with h | h
      · exact h
      · have := hprev0 (by omega)
        omega
    have hp : toUInt8 e.prevByte_ = b % 256 := by rw [← heq, toUInt8_natCast]
    have hrep : List.replicate (e.repeatCount_ + 1).toNat (b % 256) =
        List.replicate e.repeatCount_.toNat (b % 256) ++ [b % 256] := by
      have : (e.repeatCount_ + 1).toNat = e.repeatCount_.toNat + 1 := by omega
      rw [this, List.replicate_succ']
    simp only
    by_cases hA : e.repeatCount_ + 1 > 2 ∧ e.bufferPos_ > 0
    · rw [if_pos hA]
      have hrc : e.repeatCount_ = 2 := by
        rcases lt_or_le e.repeatCount_ 3 with h | h
        · omega
        · have := h3 h; omega
      obtain ⟨⟨runs', hwf', hw', hex'⟩, i1, i2, _, _, _, i6, i7, i8, i9, i10⟩ :=
        flushLiterals_spec 0 (le_refl _) e.bufferPos_.toNat
          { e with repeatCount_ := e.repeatCount_ + 1 } hb0
          (by show e.bufferPos_ ≤ (e.buffer_.length : Int); omega)
          (by show e.bufferPos_ ≤ (e.bufferPos_.toNat : Int); omega)
      generalize flushLiterals 0 e.bufferPos_.toNat
        { e with repeatCount_ := e.repeatCount_ + 1 } = r at *
      have hbp : r.bufferPos_ = 0 := by
        have : (0 : Int) ⊔ 0 = 0 := by simp
        omega
      refine ⟨⟨runs ++ runs', ?_, ?_, ?_⟩, by omega, by omega, by rw [i7]; show 0 ≤ e.repeatCount_ + 1; omega,
        by rw [i7]; show e.repeatCount_ + 1 ≤ 128; omega, fun _ => hbp, by rw [i6]; exact hlen,
        fun h => by rw [i7] at h; change e.repeatCount_ + 1 = 0 at h; omega,
        fun _ => by rw [i8]; exact hprev hrpos, by rw [i9]; exact hoff, by rw [i10]; exact hseg⟩
      · rw [hw', encodeRuns_append, ← List.append_assoc]
        show e.writer_ ++ _ = _
        rw [hw]
      · intro x hx
        rcases List.mem_append.mp hx with h | h
        · exact hwf x h
        · exact hwf' x h
      · rw [hmap, ← hex, expandRuns_append, i7, i8]
        show _ ++ _ ++ List.replicate (e.repeatCount_ + 1).toNat (toUInt8 e.prevByte_) = _
        rw [hp, hrep]
        have : r.pending = [] := by simp [pending, hbp]
        have hex'' : expandRuns runs' ++ r.pending = e.pending := hex'
        rw [← hex'', this]
        simp
    · rw [if_neg hA]
      by_cases hB : e.repeatCount_ + 1 > 128
      · rw [if_pos hB]
        have hrc : e.repeatCount_ = 128 := by omega
        have hbp : e.bufferPos_ = 0 := h3 (by omega)
        obtain ⟨p1, p2, p3, p4, p5, p6, p7⟩ :=
          emitRepeat_spec { e with repeatCount_ := e.repeatCount_ + 1 }
            (by show 2 ≤ e.repeatCount_ + 1; omega)
        generalize emitRepeat { e with repeatCount_ := e.repeatCount_ + 1 } = r at *
        have hrr : r.repeatCount_ = 1 := by
          rw [p2]; show e.repeatCount_ + 1 - min (e.repeatCount_ + 1) 128 = 1; omega
        have hpe : r.pending = e.pending := pending_eq_of
          { e with repeatCount_ := e.repeatCount_ + 1 } r p3 p4
        have hpn : e.pending = [] := by simp [pending, hbp]
        refine ⟨⟨runs ++ [Run.repeated 127 (b % 256)], ?_, ?_, ?_⟩, by rw [p4]; exact hb0,
          by rw [p4]; exact hb128, by omega, by omega, fun h => by omega, by rw [p3]; exact hlen,
          fun h => by omega, fun _ => by rw [p5]; exact hprev hrpos, by rw [p6]; exact hoff,
          by rw [p7]; exact hseg⟩
        · rw [p1, encodeRuns_append, ← List.append_assoc]
          show e.writer_ ++ _ = _
          rw [hw]
          congr 1
          show (Run.repeated ((min (e.repeatCount_ + 1) 128).toNat - 1)
            (toUInt8 e.prevByte_)).bytes = _
          have : (min (e.repeatCount_ + 1) 128).toNat - 1 = 127 := by omega
          rw [this, hp]
          simp [encodeRuns]
        · intro x hx
          rcases List.mem_append.mp hx with h | h
          · exact hwf x h
          · simp only [List.mem_singleton] at h
            subst h
            simp [Run.wf]
        · rw [hmap, ← hex, expandRuns_append, hpe, hpn, hrr, p5]
          show _ ++ _ ++ List.replicate 1 (toUInt8 e.prevByte_) = _
          rw [hp, hrc]
          simp only [expandRuns, List.flatMap_cons, List.flatMap_nil, Run.expand, List.append_nil,
            List.append_assoc, List.nil_append]
          congr 1
      · rw [if_neg hB]
        refine ⟨⟨runs, hw, hwf, ?_⟩, hb0, hb128, by show 0 ≤ e.repeatCount_ + 1; omega,
          by show e.repeatCount_ + 1 ≤ 128; omega, ?_, hlen,
          fun h => by change e.repeatCount_ + 1 = 0 at h; omega, fun _ => hprev hrpos, hoff,
          hseg⟩
        · rw [hmap, ← hex]
          show _ ++ e.pending ++ List.replicate (e.repeatCount_ + 1).toNat (toUInt8 e.prevByte_) = _
          rw [hp, hrep]
          simp
        · intro h
          change 3 ≤ e.repeatCount_ + 1 at h
          show e.bufferPos_ = 0
          by_contra hne
          exact hA ⟨by omega, by omega⟩
  · rw [if_neg heq]
    simp only
    obtain ⟨⟨runs1, hwf1, hw1, hex1⟩, c1, c2, c3, c4, c5⟩ :=
      closeRun_spec e hb0 hb128 hr0 hr128 h3 hlen _ rfl
    generalize (if e.repeatCount_ = 0 then e
      else if e.repeatCount_ = 1 then e.pushPrev
      else if e.repeatCount_ = 2 then e.pushPrev.pushPrev
      else flushRepeats e.repeatCount_.toNat e) = e1 at *
    obtain ⟨⟨runs2, hwf2, hw2, hex2⟩, i1, i2, _, _, _, i6, i7, i8, i9, i10⟩ :=
      flushLiterals_spec 128 (by omega) e1.bufferPos_.toNat e1 c1 (by omega) (by omega)
    generalize flushLiterals 128 e1.bufferPos_.toNat e1 = e2 at *
    have hmax : (128 : Int) ⊔ 0 = 128 := by simp
    refine ⟨⟨runs ++ runs1 ++ runs2, ?_, ?_, ?_⟩, i1, by show e2.bufferPos_ ≤ 128; omega,
      by show (0 : Int) ≤ 1; omega, by show (1 : Int) ≤ 128; omega,
      fun h => by change (3 : Int) ≤ 1 at h; omega, by show e2.buffer_.length = 132; omega,
      fun h => by change (1 : Int) = 0 at h; omega, fun _ => by show (0 : Int) ≤ (b : Int); omega,
      by show e2.offsets_ = _; rw [i9, c4, hoff], by show e2.segmentCount_ = _; rw [i10, c5, hseg]⟩
    · show e2.writer_ = _
      rw [hw2, hw1, hw, encodeRuns_append, encodeRuns_append]
      simp
    · intro x hx
      rcases List.mem_append.mp hx with h | h
      · rcases List.mem_append.mp h with h | h
        · exact hwf x h
        · exact hwf1 x h
      · exact hwf2 x h
    · rw [hmap, ← hex, expandRuns_append, expandRuns_append]
      show _ ++ e2.pending ++ List.replicate (1 : Int).toNat (toUInt8 (b : Int)) = _
      rw [toUInt8_natCast]
      have : (1 : Int).toNat = 1 := rfl
      rw [this]
      simp only [List.append_assoc, List.replicate_one]
      rw [← List.append_assoc (expandRuns runs2), hex2, ← List.append_assoc (expandRuns runs1),
        hex1]
      simp

end RleEncoder

namespace RleEncoder

theorem clean_Flush (e : RleEncoder) (h : e.buffer_.length = 132 ∧ 0 ≤ e.bufferPos_ ∧
    e.bufferPos_ + 1 ≤ e.buffer_.length ∧ e.repeatCount_ ≤ 128) :
    e.Flush.buffer_.length = 132 := by
  obtain ⟨h1, h2, h3, h4⟩ := h
  unfold Flush
  simp only
  have hA : ∀ e1 : RleEncoder, e1.buffer_.length = 132 → 0 ≤ e1.bufferPos_ →
      e1.bufferPos_ ≤ e1.buffer_.length →
      (if (flushLiterals 0 e1.bufferPos_.toNat e1).repeatCount_ ≥ 2 then
        flushRepeats (flushLiterals 0 e1.bufferPos_.toNat e1).repeatCount_.toNat
          (flushLiterals 0 e1.bufferPos_.toNat e1)
        else flushLiterals 0 e1.bufferPos_.toNat e1).buffer_.length = 132 := by
    intro e1 g1 g2 g3
    obtain ⟨_, _, _, _, _, _, i6, _⟩ :=
      flushLiterals_spec 0 (le_refl _) e1.bufferPos_.toNat e1 g2 g3 (by omega)
    generalize flushLiterals 0 e1.bufferPos_.toNat e1 = e2 at *
    split
    · rename_i hge
      by_cases h128 : e2.repeatCount_ ≤ 128
      · rw [flushRepeats_once _ e2 (by omega) h128 (by omega), (emitRepeat_spec e2 (by omega)).2.2.1,
          i6, g1]
      · -- longer runs do not occur; the loop never touches the literal buffer
        have hgen : ∀ (n : Nat) (x : RleEncoder), (flushRepeats n x).buffer_ = x.buffer_ := by
          intro n
          induction n with
          | zero => intro x; rfl
          | succ n ih =>
            intro x
            rw [flushRepeats]
            split
            · rw [ih]; rfl
            · rfl
        rw [hgen, i6, g1]
    · rw [i6, g1]
  by_cases hlt : e.repeatCount_ < 2
  · rw [if_pos hlt]
    have hp : (pushPending e.repeatCount_.toNat e).buffer_.length = 132 ∧
        0 ≤ (pushPending e.repeatCount_.toNat e).bufferPos_ ∧
        (pushPending e.repeatCount_.toNat e).bufferPos_ ≤
          (pushPending e.repeatCount_.toNat e).buffer_.length := by
      rcases lt_or_le 0 e.repeatCount_ with hpos | hneg
      · have h1' : e.repeatCount_.toNat = 1 := by omega
        rw [h1']
        simp only [pushPending, if_pos hpos]
        obtain ⟨_, p2, p3, _⟩ := pushPrev_spec e h2 (by omega)
        refine ⟨by rw [p3, h1], by rw [p2]; omega, by rw [p2, p3]; omega⟩
      · have h0' : e.repeatCount_.toNat = 0 := by omega
        rw [h0']
        exact ⟨h1, h2, by show e.bufferPos_ ≤ (e.buffer_.length : Int); omega⟩
    exact hA _ hp.1 hp.2.1 hp.2.2
  · rw [if_neg hlt]
    exact hA e h1 h2 (by omega)

/-- `Flush` ends a segment: the writer holds complete well-formed runs whose
expansion is the whole input of the segment, and the state is clean again. -/
theorem Flush_spec (e0 e : RleEncoder) (inp : List Nat) (h : Inv e0 inp e) :
    (∃ runs : List Run, e.Flush.writer_ = e0.writer_ ++ encodeRuns runs ∧ (∀ r ∈ runs, r.wf) ∧
      expandRuns runs = inp.map (· % 256)) ∧
    e.Flush.clean ∧ e.Flush.offsets_ = e0.offsets_ ∧ e.Flush.segmentCount_ = e0.segmentCount_ := by
  have hcl := clean_Flush e ⟨h.2.2.2.2.2.2.1, h.2.1, by have := h.2.2.1; have := h.2.2.2.2.2.2.1; omega,
    h.2.2.2.2.1⟩
  obtain ⟨⟨runs, hw, hwf, hex⟩, hb0, hb128, hr0, hr128, h3, hlen, hprev0, hprev, hoff, hseg⟩ := h
  refine ⟨?_, ⟨rfl, rfl, rfl, hcl⟩, ?_⟩
  · -- the writer
    by_cases hlt : e.repeatCount_ < 2
    · -- the pending byte, if any, joins the literal buffer
      have hp : ∃ e1 : RleEncoder, pushPending e.repeatCount_.toNat e = e1 ∧
          e1.pending = e.pending ++ List.replicate e.repeatCount_.toNat (toUInt8 e.prevByte_) ∧
          e1.repeatCount_ = 0 ∧ e1.writer_ = e.writer_ ∧ 0 ≤ e1.bufferPos_ ∧
          e1.bufferPos_ ≤ e1.buffer_.length := by
        rcases lt_or_le 0 e.repeatCount_ with hpos | hneg
        · have h1' : e.repeatCount_.toNat = 1 := by omega
          rw [h1']
          obtain ⟨p1, p2, p3, p4, _⟩ := pushPrev_spec e hb0 (by omega)
          refine ⟨_, rfl, ?_, ?_, ?_, ?_, ?_⟩
          · simp only [pushPending, if_pos hpos]
            exact p1
          · simp only [pushPending, if_pos hpos]; omega
          · simp only [pushPending, if_pos hpos]; exact p4
          · simp only [pushPending, if_pos hpos]; omega
          · simp only [pushPending, if_pos hpos]; omega
        · have h0' : e.repeatCount_.toNat = 0 := by omega
          rw [h0']
          exact ⟨e, rfl, by simp, by omega, rfl, hb0, by omega⟩
      obtain ⟨e1, he1, q1, q2, q3, q4, q5⟩ := hp
      obtain ⟨⟨runs', hwf', hw', hex'⟩, i1, i2, _, _, _, i6, i7, i8, i9, i10⟩ :=
        flushLiterals_spec 0 (le_refl _) e1.bufferPos_.toNat e1 q4 q5 (by omega)
      have hF : e.Flush.writer_ = (flushLiterals 0 e1.bufferPos_.toNat e1).writer_ := by
        unfold Flush
        simp only [if_pos hlt, he1]
        rw [if_neg (by rw [i7, q2]; omega)]
      generalize flushLiterals 0 e1.bufferPos_.toNat e1 = e2 at *
      have hbp : e2.bufferPos_ = 0 := by
        have : (0 : Int) ⊔ 0 = 0 := by simp
        omega
      have hpn : e2.pending = [] := by simp [pending, hbp]
      refine ⟨runs ++ runs', ?_, ?_, ?_⟩
      · rw [hF, hw', q3, hw, encodeRuns_append, List.append_assoc]
      · intro x hx
        rcases List.mem_append.mp hx with h | h
        · exact hwf x h
        · exact hwf' x h
      · rw [← hex, expandRuns_append, List.append_assoc, ← q1, ← hex', hpn]
        simp
    · -- the literal buffer is written, then the run
      obtain ⟨⟨runs', hwf', hw', hex'⟩, i1, i2, _, _, _, i6, i7, i8, i9, i10⟩ :=
        flushLiterals_spec 0 (le_refl _) e.bufferPos_.toNat e hb0 (by omega) (by omega)
      have hF : e.Flush.writer_ = (flushLiterals 0 e.bufferPos_.toNat e).emitRepeat.writer_ := by
        unfold Flush
        simp only [if_neg hlt]
        rw [if_pos (by rw [i7]; omega), flushRepeats_once _ _ (by rw [i7]; omega)
          (by rw [i7]; omega) (by rw [i7]; omega)]
      generalize flushLiterals 0 e.bufferPos_.toNat e = e2 at *
      have hbp : e2.bufferPos_ = 0 := by
        have : (0 : Int) ⊔ 0 = 0 := by simp
        omega
      have hpn : e2.pending = [] := by simp [pending, hbp]
      obtain ⟨p1, _⟩ := emitRepeat_spec e2 (by omega)
      have hmin : (min e2.repeatCount_ 128).toNat - 1 = e.repeatCount_.toNat - 1 := by
        rw [i7]; omega
      refine ⟨runs ++ runs' ++ [Run.repeated (e.repeatCount_.toNat - 1) (toUInt8 e.prevByte_)],
        ?_, ?_, ?_⟩
      · rw [hF, p1, hw', hw, hmin, i8, encodeRuns_append, encodeRuns_append]
        simp [encodeRuns]
      · intro x hx
        rcases List.mem_append.mp hx with h | h
        · rcases List.mem_append.mp h with h | h
          · exact hwf x h
          · exact hwf' x h
        · simp only [List.mem_singleton] at h
          subst h
          simp only [Run.wf]
          omega
      · rw [← hex, expandRuns_append, expandRuns_append]
        rw [hpn, List.append_nil] at hex'
        rw [hex']
        simp only [expandRuns, List.flatMap_cons, List.flatMap_nil, Run.expand, List.append_nil,
          List.append_assoc]
        congr 2
        congr 1
        omega
  · -- offsets and segment count
    have hgen : ∀ (n : Nat) (x : RleEncoder), (flushRepeats n x).offsets_ = x.offsets_ ∧
        (flushRepeats n x).segmentCount_ = x.segmentCount_ := by
      intro n
      induction n with
      | zero => intro x; exact ⟨rfl, rfl⟩
      | succ n ih =>
        intro x
        rw [flushRepeats]
        split
        · rw [(ih _).1, (ih _).2]; exact ⟨rfl, rfl⟩
        · exact ⟨rfl, rfl⟩
    have hpp : ∀ (n : Nat) (x : RleEncoder), (pushPending n x).offsets_ = x.offsets_ ∧
        (pushPending n x).segmentCount_ = x.segmentCount_ ∧
        (n ≤ 1 → 0 ≤ x.bufferPos_ → x.bufferPos_ + 1 ≤ x.buffer_.length →
          0 ≤ (pushPending n x).bufferPos_ ∧
          (pushPending n x).bufferPos_ ≤ (pushPending n x).buffer_.length) := by
      intro n
      induction n with
      | zero =>
        intro x
        exact ⟨rfl, rfl, fun _ h1 h2 => ⟨h1, by show x.bufferPos_ ≤ (x.buffer_.length : Int); omega⟩⟩
      | succ n ih =>
        intro x
        rw [pushPending]
        split
        · refine ⟨by rw [(ih _).1]; rfl, by rw [(ih _).2.1]; rfl, fun hn h1 h2 => ?_⟩
          have hn0 : n = 0 := by omega
          subst hn0
          obtain ⟨_, p2, p3, _⟩ := pushPrev_spec x h1 (by omega)
          exact ⟨by show 0 ≤ x.pushPrev.bufferPos_; omega,
            by show x.pushPrev.bufferPos_ ≤ x.pushPrev.buffer_.length; omega⟩
        · exact ⟨rfl, rfl, fun _ h1 h2 => ⟨h1, by omega⟩⟩
    have hA : ∀ e1 : RleEncoder, 0 ≤ e1.bufferPos_ → e1.bufferPos_ ≤ e1.buffer_.length →
        (if (flushLiterals 0 e1.bufferPos_.toNat e1).repeatCount_ ≥ 2 then
          flushRepeats (flushLiterals 0 e1.bufferPos_.toNat e1).repeatCount_.toNat
            (flushLiterals 0 e1.bufferPos_.toNat e1)
          else flushLiterals 0 e1.bufferPos_.toNat e1).offsets_ = e1.offsets_ ∧
        (if (flushLiterals 0 e1.bufferPos_.toNat e1).repeatCount_ ≥ 2 then
          flushRepeats (flushLiterals 0 e1.bufferPos_.toNat e1).repeatCount_.toNat
            (flushLiterals 0 e1.bufferPos_.toNat e1)
          else flushLiterals 0 e1.bufferPos_.toNat e1).segmentCount_ = e1.segmentCount_ := by
      intro e1 g2 g3
      obtain ⟨_, _, _, _, _, _, _, _, _, i9, i10⟩ :=
        flushLiterals_spec 0 (le_refl _) e1.bufferPos_.toNat e1 g2 g3 (by omega)
      generalize flushLiterals 0 e1.bufferPos_.toNat e1 = e2 at *
      split
      · rw [(hgen _ _).1, (hgen _ _).2, i9, i10]; exact ⟨rfl, rfl⟩
      · exact ⟨i9, i10⟩
    unfold Flush
    simp only
    by_cases hlt : e.repeatCount_ < 2
    · rw [if_pos hlt]
      have hq := (hpp e.repeatCount_.toNat e).2.2 (by omega) hb0 (by omega)
      have := hA _ hq.1 hq.2
      rw [this.1, this.2, (hpp _ _).1, (hpp _ _).2.1]
      exact ⟨hoff, hseg⟩
    · rw [if_neg hlt]
      have := hA e hb0 (by omega)
      rw [this.1, this.2]
      exact ⟨hoff, hseg⟩

theorem Flush_of_clean (e : RleEncoder) (h : e.clean) : e.Flush = e := by
  obtain ⟨h1, h2, h3, h4⟩ := h
  unfold Flush
  have e0 : e.repeatCount_.toNat = 0 := by omega
  have e1 : e.bufferPos_.toNat = 0 := by omega
  have a1 : (if e.repeatCount_ < 2 then pushPending e.repeatCount_.toNat e else e) = e := by
    rw [e0]; split <;> rfl
  simp only [a1, e1, flushLiterals_zero]
  rw [if_neg (by omega)]
  cases e
  simp_all

end RleEncoder

theorem encodePixels_inv (ctx : CodecsContext) (offset : Nat) (e0 : RleEncoder) (n : Nat) :
    ∀ (pos : Nat) (e e' : RleEncoder) (inp : List Nat), RleEncoder.Inv e0 inp e →
      encodePixels ctx offset n pos e = .ok e' →
      RleEncoder.Inv e0 (inp ++ gather ctx.DecodedBuffer offset n pos) e' := by
  induction n with
  | zero =>
    intro pos e e' inp hinv h
    simp only [encodePixels, Except.ok.injEq] at h
    subst h
    simpa [gather] using hinv
  | succ n ih =>
    intro pos e e' inp hinv h
    simp only [encodePixels] at h
    split at h
    · simp at h
    · have := ih _ _ _ _ (RleEncoder.Encode_inv e0 e inp _ hinv) h
      simpa [gather] using this

theorem encodePixels_ok (ctx : CodecsContext) (offset : Nat) (n : Nat) :
    ∀ (pos : Nat) (e : RleEncoder),
      (∀ p, p < n → pos + p * offset < ctx.DecodedBuffer.length) →
      ∃ e', encodePixels ctx offset n pos e = .ok e' := by
  induction n with
  | zero => intro pos e _; exact ⟨e, rfl⟩
  | succ n ih =>
    intro pos e h
    simp only [encodePixels]
    have h0 := h 0 (by omega)
    rw [if_neg (by omega)]
    apply ih
    intro p hp
    have := h (p + 1) (by omega)
    rw [Nat.add_mul, Nat.one_mul] at this
    omega

theorem encodePixels_error (ctx : CodecsContext) (offset : Nat) (n : Nat) :
    ∀ (pos : Nat) (e : RleEncoder) (err : CodecsError),
      encodePixels ctx offset n pos e = .error err → err = .readPastEnd := by
  induction n with
  | zero => intro pos e err h; simp [encodePixels] at h
  | succ n ih =>
    intro pos e err h
    simp only [encodePixels] at h
    split at h
    · simp only [Except.error.injEq] at h; exact h.symm
    · exact ih _ _ _ h

theorem getD_set_int (l : List Int) (s j : Nat) (v : Int) :
    (l.set s v).getD j 0 = if j = s ∧ s < l.length then v else l.getD j 0 := by
  simp only [List.getD_eq_getElem?_getD, List.getElem?_set]
  by_cases h : s = j
  · subst h
    by_cases h2 : s < l.length
    · simp [h2]
    · simp [h2]
      rw [List.getElem?_eq_none (by omega)]
      rfl
  · have : ¬ j = s := fun h' => h h'.symm
    simp [h, this]

/-- `NextSegment` in a clean state: pad the writer to even length and record
the start of the next segment. -/
theorem NextSegment_spec (e : RleEncoder) (hc : e.clean) (hk : e.segmentCount_ < e.offsets_.length) :
    ∃ (pad : List Nat) (e' : RleEncoder), e.NextSegment = .ok e' ∧ pad.length ≤ 1 ∧
      e'.writer_ = e.writer_ ++ pad ∧ e'.writer_.length % 2 = 0 ∧
      e'.offsets_ = e.offsets_.set e.segmentCount_ (toInt32 (e'.writer_.length : Nat)) ∧
      e'.segmentCount_ = e.segmentCount_ + 1 ∧ e'.clean := by
  unfold RleEncoder.NextSegment
  rw [RleEncoder.Flush_of_clean e hc]
  simp only [RleEncoder.GetLength]
  by_cases hodd : e.writer_.length % 2 = 1
  · refine ⟨[0], { e.WriteByte 0 with
        offsets_ := e.offsets_.set e.segmentCount_ (toInt32 ((e.WriteByte 0).writer_.length : Nat)),
        segmentCount_ := e.segmentCount_ + 1 }, ?_, by simp, rfl, ?_, rfl, rfl, hc⟩
    · simp only [if_pos hodd]
      rw [if_pos (by exact hk)]
      rfl
    · simp only [RleEncoder.WriteByte, List.length_append, List.length_singleton]
      omega
  · refine ⟨[], { e with
        offsets_ := e.offsets_.set e.segmentCount_ (toInt32 (e.writer_.length : Nat)),
        segmentCount_ := e.segmentCount_ + 1 }, ?_, by simp, by simp, ?_, rfl, rfl, hc⟩
    · simp only [if_neg hodd]
      rw [if_pos hk]
    · show e.writer_.length % 2 = 0
      omega

theorem NextSegment_ok_lt (e : RleEncoder) (e' : RleEncoder) (h : e.NextSegment = .ok e') :
    e.Flush.segmentCount_ < e.Flush.offsets_.length := by
  unfold RleEncoder.NextSegment at h
  simp only at h
  by_cases hodd : e.Flush.GetLength % 2 = 1
  · simp only [if_pos hodd] at h
    by_cases hlt : (e.Flush.WriteByte 0).segmentCount_ < (e.Flush.WriteByte 0).offsets_.length
    · exact hlt
    · rw [if_neg hlt] at h; simp at h
  · simp only [if_neg hodd] at h
    by_cases hlt : e.Flush.segmentCount_ < e.Flush.offsets_.length
    · exact hlt
    · rw [if_neg hlt] at h; simp at h

theorem clean_new : RleEncoder.new.clean := by
  refine ⟨rfl, rfl, rfl, by simp [RleEncoder.new]⟩

theorem Layout_new (ctx : CodecsContext) : Layout ctx RleEncoder.new 0 := by
  refine ⟨clean_new, rfl, by simp [RleEncoder.new], by omega, ?_, fun j hj => by omega⟩
  intro j _
  simp only [RleEncoder.new, List.getD_eq_getElem?_getD]
  by_cases h : j < 15
  · rw [List.getElem?_replicate]; simp [h]
  · rw [List.getElem?_eq_none (by simpa using h)]; rfl

/-- The segment loop of `EncodeRle` keeps the layout of the writer. -/
theorem encodeSegments_layout (ctx : CodecsContext) (n : Nat) :
    ∀ (s : Nat) (e e' : RleEncoder), Layout ctx e s →
      encodeSegments ctx n s e = .ok e' → Layout ctx e' (s + n) := by
  induction n with
  | zero =>
    intro s e e' hl h
    simp only [encodeSegments, Except.ok.injEq] at h
    subst h
    exact hl
  | succ n ih =>
    intro s e e' hl h
    obtain ⟨hclean, hcount, hlen, hs15, hzero, hsegs⟩ := hl
    simp only [encodeSegments, bind, Except.bind] at h
    cases hN : e.NextSegment with
    | error err => rw [hN] at h; simp at h
    | ok e1 =>
      rw [hN] at h
      simp only at h
      have hlt := NextSegment_ok_lt e e1 hN
      rw [RleEncoder.Flush_of_clean e hclean] at hlt
      obtain ⟨pad, e1', hN', hpad, hw1, hev1, hoff1, hcnt1, hcl1⟩ :=
        NextSegment_spec e hclean hlt
      rw [hN] at hN'
      simp only [Except.ok.injEq] at hN'
      subst hN'
      cases hP : encodePixels ctx (segmentStride ctx) (pixelCount ctx) (segmentPos ctx s) e1 with
      | error err => rw [hP] at h; simp at h
      | ok e2 =>
        rw [hP] at h
        simp only at h
        have hinv := encodePixels_inv ctx _ e1 _ _ e1 e2 [] (RleEncoder.Inv_init e1 hcl1) hP
        rw [List.nil_append] at hinv
        obtain ⟨⟨runs, hw3, hwf3, hex3⟩, hcl3, hoff3, hcnt3⟩ :=
          RleEncoder.Flush_spec e1 e2 _ hinv
        have hl3 : Layout ctx e2.Flush (s + 1) := by
          refine ⟨hcl3, by rw [hcnt3, hcnt1, hcount], by rw [hoff3, hoff1, List.length_set, hlen],
            by omega, ?_, ?_⟩
          · intro j hj
            rw [hoff3, hoff1, getD_set_int, if_neg (by omega)]
            exact hzero j (by omega)
          · intro j hj
            rw [hoff3, hoff1, hw3, hw1, hcount]
            by_cases hjs : j < s
            · obtain ⟨pre, runs_j, trail, post, hw, hoff, heven, htl, hwf, hex, hnext, hlast⟩ :=
                hsegs j hjs
              by_cases hj1 : j + 1 < s
              · refine ⟨pre, runs_j, trail, post ++ pad ++ encodeRuns runs, ?_, ?_, heven, htl, hwf,
                  hex, fun _ => ?_, fun h => by omega⟩
                · rw [hw]; simp
                · rw [getD_set_int, if_neg (by omega)]; exact hoff
                · rw [getD_set_int, if_neg (by omega)]; exact hnext hj1
              · have hj1' : j + 1 = s := by omega
                obtain ⟨htr, hpo⟩ := hlast hj1'
                subst htr hpo
                refine ⟨pre, runs_j, pad, encodeRuns runs, ?_, ?_, heven, hpad, hwf, hex,
                  fun _ => ?_, fun h => by omega⟩
                · rw [hw]; simp
                · rw [getD_set_int, if_neg (by omega)]; exact hoff
                · rw [getD_set_int, if_pos ⟨hj1', by omega⟩, hw]
                  simp [Int.add_assoc]
            · have hjs' : j = s := by omega
              subst hjs'
              refine ⟨e.writer_ ++ pad, runs, [], [], by simp, ?_, by rw [← hw1]; exact hev1,
                by simp, hwf3, hex3, fun h => by omega, fun _ => ⟨rfl, rfl⟩⟩
              rw [getD_set_int, if_pos ⟨rfl, by omega⟩]
        have := ih (s + 1) _ e' hl3 h
        have e : s + (n + 1) = s + 1 + n := by omega
        rw [e]
        exact this

theorem biasFold_spec (k : Nat) (offs : List Int) :
    ((List.range k).foldl (fun o i => o.set i (toInt32 (o.getD i 0 + 64))) offs).length =
      offs.length ∧
    ∀ j, ((List.range k).foldl (fun o i => o.set i (toInt32 (o.getD i 0 + 64))) offs).getD j 0 =
      if j < k ∧ j < offs.length then toInt32 (offs.getD j 0 + 64) else offs.getD j 0 := by
  induction k with
  | zero => simp
  | succ k ih =>
    rw [List.range_succ, List.foldl_append]
    simp only [List.foldl_cons, List.foldl_nil, List.length_set]
    refine ⟨ih.1, fun j => ?_⟩
    have hk : ¬ (k < k ∧ k < offs.length) := by omega
    rw [getD_set_int, ih.1, ih.2 k, ih.2 j]
    simp only [hk, if_false]
    by_cases h1 : j = k
    · subst h1
      by_cases h2 : j < offs.length
      · simp [h2]
      · simp [h2]
    · by_cases h2 : j < k
      · have : j < k + 1 := by omega
        simp [h1, h2, this]
      · have : ¬ j < k + 1 := by omega
        simp [h1, h2, this]

theorem map_getD_range_int (l : List Int) :
    (List.range l.length).map (fun i => l.getD i 0) = l := by
  apply List.ext_getElem?
  intro j
  rw [List.getElem?_map]
  by_cases hj : j < l.length
  · simp [List.getElem?_range hj, List.getD_eq_getElem?_getD, List.getElem?_eq_getElem hj]
  · rw [List.getElem?_eq_none (l := List.range l.length) (by simpa using hj),
      List.getElem?_eq_none (by omega)]
    rfl

theorem length_gather (buffer : List Nat) (offset n : Nat) :
    ∀ pos, (gather buffer offset n pos).length = n := by
  induction n with
  | zero => intro pos; rfl
  | succ n ih => intro pos; simp [gather, ih]

theorem length_segmentBytes (ctx : CodecsContext) (s : Nat) :
    (segmentBytes ctx s).length = pixelCount ctx := length_gather _ _ _ _

theorem clean_MakeEvenLength (e : RleEncoder) (h : e.clean) : e.MakeEvenLength.clean := by
  unfold RleEncoder.MakeEvenLength
  split
  · exact h
  · exact h

/-- The stream `EncodeRle` produces: header, offsets and segment bodies. -/
theorem EncodeRle_encoded (ctx ctx' : CodecsContext) (h : EncodeRle ctx = .ok ctx') :
    Encoded ctx ctx'.EncodedBuffer ∧ ctx' = { ctx with EncodedBuffer := ctx'.EncodedBuffer } := by
  unfold Encoded
  unfold EncodeRle at h
  simp only [bind, Except.bind] at h
  cases hS : encodeSegments ctx (bytesAllocated ctx * ctx.SamplesPerPixel) 0 RleEncoder.new with
  | error err => rw [hS] at h; simp at h
  | ok e =>
    rw [hS] at h
    simp only [Except.ok.injEq] at h
    have hl := encodeSegments_layout ctx _ 0 _ e (Layout_new ctx) hS
    rw [Nat.zero_add] at hl
    obtain ⟨hclean, hcount, hlen, hn15, hzero, hsegs⟩ := hl
    generalize hn : bytesAllocated ctx * ctx.SamplesPerPixel = n at *
    have hcl2 := clean_MakeEvenLength e hclean
    -- the final padding
    obtain ⟨pad, hpad, hw2, hev2⟩ : ∃ pad : List Nat, pad.length ≤ 1 ∧
        e.MakeEvenLength.writer_ = e.writer_ ++ pad ∧ e.MakeEvenLength.writer_.length % 2 = 0 := by
      unfold RleEncoder.MakeEvenLength
      by_cases hodd : e.writer_.length % 2 = 1
      · refine ⟨[0], by simp, ?_, ?_⟩
        · rw [if_pos hodd]; rfl
        · rw [if_pos hodd]
          simp only [RleEncoder.WriteByte, List.length_append, List.length_singleton]
          omega
      · refine ⟨[], by simp, ?_, ?_⟩
        · rw [if_neg hodd]; simp
        · rw [if_neg hodd]; omega
    have hoff2 : e.MakeEvenLength.offsets_ = e.offsets_ := by
      unfold RleEncoder.MakeEvenLength; split <;> rfl
    have hcnt2 : e.MakeEvenLength.segmentCount_ = e.segmentCount_ := by
      unfold RleEncoder.MakeEvenLength; split <;> rfl
    have hbuf : e.MakeEvenLength.GetBuffer = e.MakeEvenLength.WriteHeader := by
      unfold RleEncoder.GetBuffer
      rw [RleEncoder.Flush_of_clean _ hcl2]
    rw [hbuf] at h
    have hbias := biasFold_spec n e.offsets_
    generalize hfo : (List.range n).foldl (fun o i => o.set i (toInt32 (o.getD i 0 + 64)))
      e.offsets_ = foffs at hbias
    have henc : ctx'.EncodedBuffer = le32 (n : Nat) ++ foffs.flatMap le32 ++ (e.writer_ ++ pad) := by
      rw [← h]
      show e.MakeEvenLength.WriteHeader.writer_ = _
      unfold RleEncoder.WriteHeader
      simp only [hoff2, hcnt2, hcount, hfo, hw2]
      congr 2
      have : (List.range 15).flatMap (fun i => le32 (foffs.getD i 0)) =
          ((List.range 15).map (fun i => foffs.getD i 0)).flatMap le32 := by
        rw [List.flatMap_map]
      rw [this]
      have hl15 : foffs.length = 15 := by rw [hbias.1, hlen]
      rw [← hl15, map_getD_range_int]
    refine ⟨⟨hn15, foffs, e.writer_ ++ pad, by rw [hbias.1, hlen], henc, by rw [← hw2]; exact hev2,
      ?_, ?_⟩, ?_⟩
    · intro j hj
      rw [hbias.2 j, if_neg (by omega)]
      exact hzero j hj
    · intro j hj
      obtain ⟨pre, runs, trail, post, hw, hoff, _, htl, hwf, hex, hnext, hlast⟩ := hsegs j hj
      by_cases hj1 : j + 1 < n
      · refine ⟨pre, runs, trail, post ++ pad, by rw [hw]; simp, ?_, htl, hwf, hex, fun _ => ?_,
          fun h => by omega⟩
        · rw [hbias.2 j, if_pos ⟨hj, by omega⟩, hoff]
        · rw [hbias.2 (j + 1), if_pos ⟨hj1, by omega⟩, hnext hj1]
      · have hj1' : j + 1 = n := by omega
        obtain ⟨htr, hpo⟩ := hlast hj1'
        subst htr hpo
        refine ⟨pre, runs, pad, [], by rw [hw]; simp, ?_, hpad, hwf, hex, fun h => by omega,
          fun _ => rfl⟩
        rw [hbias.2 j, if_pos ⟨hj, by omega⟩, hoff]
    · rw [← h]

theorem length_le32 (v : Int) : (le32 v).length = 4 := rfl

theorem length_flatMap_le32 (l : List Int) : (l.flatMap le32).length = 4 * l.length := by
  induction l with
  | nil => rfl
  | cons v l ih =>
    rw [List.flatMap_cons, List.length_append, ih, length_le32, List.length_cons]
    omega

theorem toInt32_range (n : Int) : -2147483648 ≤ toInt32 n ∧ toInt32 n < 2147483648 := by
  unfold toInt32
  omega

theorem toInt32_of_range (n : Int) (h0 : -2147483648 ≤ n) (h1 : n < 2147483648) :
    toInt32 n = n := by
  unfold toInt32
  omega

/-- Reading back a word written by `WriteUInt32` or `WriteInt32`. -/
theorem ReadUInt32_le32 (pre post : List Nat) (v : Int) :
    ByteReader.ReadUInt32 (pre ++ le32 v ++ post) pre.length = .ok (v % 4294967296).toNat := by
  have h0 := readByte_mid pre (le32 v) post 0 (by simp [length_le32])
  have h1 := readByte_mid pre (le32 v) post 1 (by simp [length_le32])
  have h2 := readByte_mid pre (le32 v) post 2 (by simp [length_le32])
  have h3 := readByte_mid pre (le32 v) post 3 (by simp [length_le32])
  simp only [Nat.cast_zero, add_zero, Nat.cast_one, Nat.cast_ofNat] at h0 h1 h2 h3
  unfold ByteReader.ReadUInt32
  simp only [bind, Except.bind, h0, h1, h2, h3]
  simp only [le32, List.getD_cons_zero, List.getD_cons_succ]
  congr 1
  have hu : (v % 4294967296).toNat < 4294967296 := by omega
  generalize (v % 4294967296).toNat = u at hu
  omega

theorem ReadInt32_le32 (pre post : List Nat) (v : Int) (h0 : -2147483648 ≤ v)
    (h1 : v < 2147483648) :
    ByteReader.ReadInt32 (pre ++ le32 v ++ post) pre.length = .ok v := by
  have h := ReadUInt32_le32 pre post v
  have e : toInt32 ((v % 4294967296).toNat : Nat) = v := by
    unfold toInt32
    omega
  unfold ByteReader.ReadInt32
  simp only [bind, Except.bind, h, e]

theorem readOffsets_flatMap (l : List Int) :
    ∀ (pre post : List Nat) (k : Nat), pre.length = 4 + 4 * k →
      (∀ v ∈ l, -2147483648 ≤ v ∧ v < 2147483648) →
      RleDecoder.readOffsets (pre ++ l.flatMap le32 ++ post) l.length k = .ok l := by
  induction l with
  | nil => intro pre post k _ _; rfl
  | cons v l ih =>
    intro pre post k hp hv
    have hr := ReadInt32_le32 pre (l.flatMap le32 ++ post) v (hv v (List.mem_cons_self _ _)).1
      (hv v (List.mem_cons_self _ _)).2
    have hi := ih (pre ++ le32 v) post (k + 1) (by rw [List.length_append, length_le32]; omega)
      (fun x hx => hv x (List.mem_cons_of_mem _ hx))
    simp only [List.flatMap_cons, List.length_cons, RleDecoder.readOffsets, bind, Except.bind,
      List.append_assoc] at hr hi ⊢
    rw [← hp, hr]
    simp only
    rw [hi]

theorem length_Encoded (ctx : CodecsContext) (enc : List Nat) (h : Encoded ctx enc) :
    enc.length % 2 = 0 := by
  obtain ⟨_, offs, body, hl, henc, hev, _⟩ := h
  rw [henc, List.length_append, List.length_append, length_le32, length_flatMap_le32, hl]
  omega

/-- What the decoder finds in a stream of `EncodeRle` shorter than 2^31 bytes:
the header read by the constructor, and for every segment the runs at its
offset. -/
theorem Encoded_segments (ctx : CodecsContext) (enc : List Nat) (h : Encoded ctx enc)
    (hb : enc.length < 2147483648) :
    ∃ offs : List Int, offs.length = 15 ∧
      ByteReader.ReadUInt32 enc 0 = .ok (bytesAllocated ctx * ctx.SamplesPerPixel) ∧
      RleDecoder.readOffsets enc 15 0 = .ok offs ∧
      (∀ j, bytesAllocated ctx * ctx.SamplesPerPixel ≤ j → offs.getD j 0 = 0) ∧
      ∀ j, j < bytesAllocated ctx * ctx.SamplesPerPixel →
        ∃ (pre : List Nat) (runs : List Run) (trail post : List Nat),
          enc = pre ++ encodeRuns runs ++ trail ++ post ∧ 64 ≤ pre.length ∧
          offs.getD j 0 = (pre.length : Int) ∧ trail.length ≤ 1 ∧ (∀ r ∈ runs, r.wf) ∧
          expandRuns runs = (segmentBytes ctx j).map (· % 256) ∧
          (j + 1 < bytesAllocated ctx * ctx.SamplesPerPixel →
            offs.getD (j + 1) 0 =
              ((pre.length + (encodeRuns runs).length + trail.length : Nat) : Int)) ∧
          (j + 1 = bytesAllocated ctx * ctx.SamplesPerPixel → post = []) := by
  obtain ⟨hn15, offs, body, hl, henc, hev, hzero, hsegs⟩ := h
  generalize hn : bytesAllocated ctx * ctx.SamplesPerPixel = n at *
  have hrange : ∀ v ∈ offs, -2147483648 ≤ v ∧ v < 2147483648 := by
    intro v hv
    obtain ⟨j, hj, rfl⟩ := List.getElem_of_mem hv
    have hg : offs.getD j 0 = offs[j] := by
      rw [List.getD_eq_getElem?_getD, List.getElem?_eq_getElem hj]; rfl
    rw [← hg]
    by_cases hjn : j < n
    · obtain ⟨pre, runs, trail, post, _, hoff, _⟩ := hsegs j hjn
      rw [hoff]
      exact toInt32_range _
    · rw [hzero j (by omega)]
      omega
  refine ⟨offs, hl, ?_, ?_, hzero, ?_⟩
  · have := ReadUInt32_le32 [] (offs.flatMap le32 ++ body) (n : Int)
    simp only [List.nil_append, List.length_nil, List.append_assoc] at this
    rw [henc, List.append_assoc, this]
    congr 1
    omega
  · have := readOffsets_flatMap offs (le32 (n : Int)) body 0 (by rw [length_le32]) hrange
    rw [hl] at this
    rw [henc]
    exact this
  · intro j hj
    obtain ⟨pre, runs, trail, post, hbody, hoff, htl, hwf, hex, hnext, hlast⟩ := hsegs j hj
    have hlen : enc.length = 64 + body.length := by
      rw [henc, List.length_append, List.length_append, length_le32, length_flatMap_le32, hl]
    have hbl : body.length = pre.length + (encodeRuns runs).length + trail.length + post.length := by
      rw [hbody]; simp only [List.length_append]
    refine ⟨le32 (n : Int) ++ offs.flatMap le32 ++ pre, runs, trail, post, ?_, ?_, ?_, htl, hwf, hex,
      fun h => ?_, hlast⟩
    · rw [henc, hbody]; simp
    · simp only [List.length_append, length_le32, length_flatMap_le32, hl]; omega
    · rw [hoff, toInt32_of_lt _ (by omega), toInt32_of_range _ (by omega) (by omega)]
      simp only [List.length_append, length_le32, length_flatMap_le32, hl]
      push_cast
      omega
    · rw [hnext h, toInt32_of_lt _ (by omega), toInt32_of_range _ (by omega) (by omega)]
      simp only [List.length_append, length_le32, length_flatMap_le32, hl]
      push_cast
      omega

/-- Every byte a segment reads or stores lies inside the raw buffer. -/
theorem segment_index_lt (ctx : CodecsContext) (s k : Nat)
    (hs : s < bytesAllocated ctx * ctx.SamplesPerPixel) (hk : k < pixelCount ctx) :
    segmentPos ctx s + k * segmentStride ctx <
      pixelCount ctx * bytesAllocated ctx * ctx.SamplesPerPixel := by
  rw [segmentPos_add_mul_stride]
  generalize bytesAllocated ctx = BA at *
  generalize pixelCount ctx = P at *
  generalize ctx.SamplesPerPixel = SPP at *
  have hBA0 : 0 < BA := by
    rcases Nat.eq_zero_or_pos BA with h | h
    · subst h; simp at hs
    · exact h
  have ha : s / BA < SPP := by
    rw [Nat.div_lt_iff_lt_mul hBA0, Nat.mul_comm]; exact hs
  have hm : s % BA < BA := Nat.mod_lt _ hBA0
  split
  · have h1 : k * SPP + s / BA + 1 ≤ P * SPP := by
      have : (k + 1) * SPP ≤ P * SPP := Nat.mul_le_mul_right SPP hk
      rw [Nat.add_mul, Nat.one_mul] at this
      omega
    have h2 : (k * SPP + s / BA + 1) * BA ≤ P * SPP * BA := Nat.mul_le_mul_right BA h1
    have e1 : (k * SPP + s / BA + 1) * BA = (k * SPP + s / BA) * BA + BA := by ring
    have e2 : P * BA * SPP = P * SPP * BA := by ring
    omega
  · have h1 : s / BA * P + k + 1 ≤ SPP * P := by
      have : (s / BA + 1) * P ≤ SPP * P := Nat.mul_le_mul_right P ha
      rw [Nat.add_mul, Nat.one_mul] at this
      omega
    have h2 : (s / BA * P + k + 1) * BA ≤ SPP * P * BA := Nat.mul_le_mul_right BA h1
    have e1 : (s / BA * P + k + 1) * BA = (s / BA * P + k) * BA + BA := by ring
    have e2 : P * BA * SPP = SPP * P * BA := by ring
    omega

/-- Every byte of the raw buffer belongs to exactly one segment position: here,
to at least one. -/
theorem segment_cover (ctx : CodecsContext) (q : Nat)
    (hq : q < pixelCount ctx * bytesAllocated ctx * ctx.SamplesPerPixel) :
    ∃ s k, s < bytesAllocated ctx * ctx.SamplesPerPixel ∧ k < pixelCount ctx ∧
      q = segmentPos ctx s + k * segmentStride ctx := by
  generalize hBA : bytesAllocated ctx = BA at *
  generalize hP : pixelCount ctx = P at *
  generalize hSPP : ctx.SamplesPerPixel = SPP at *
  have hBA0 : 0 < BA := by
    rcases Nat.eq_zero_or_pos BA with h | h
    · subst h; simp at hq
    · exact h
  have hSPP0 : 0 < SPP := by
    rcases Nat.eq_zero_or_pos SPP with h | h
    · subst h; simp at hq
    · exact h
  have hP0 : 0 < P := by
    rcases Nat.eq_zero_or_pos P with h | h
    · subst h; simp at hq
    · exact h
  have hm : q % BA < BA := Nat.mod_lt _ hBA0
  have ht : q / BA < P * SPP := by
    rw [Nat.div_lt_iff_lt_mul hBA0]
    have : P * SPP * BA = P * BA * SPP := by ring
    omega
  have hqd : BA * (q / BA) + q % BA = q := Nat.div_add_mod q BA
  have hlt : BA - 1 - q % BA < BA := by omega
  by_cases hpc : ctx.PlanarConfiguration = Interleaved
  · -- pixel k = t / SPP, sample t % SPP
    have hk : q / BA / SPP < P := by
      rw [Nat.div_lt_iff_lt_mul hSPP0]; exact ht
    have hsm : q / BA % SPP < SPP := Nat.mod_lt _ hSPP0
    have htd : SPP * (q / BA / SPP) + q / BA % SPP = q / BA := Nat.div_add_mod _ _
    refine ⟨q / BA % SPP * BA + (BA - 1 - q % BA), q / BA / SPP, ?_, hk, ?_⟩
    · have : (q / BA % SPP + 1) * BA ≤ SPP * BA := Nat.mul_le_mul_right BA hsm
      rw [Nat.add_mul, Nat.one_mul] at this
      have e : BA * SPP = SPP * BA := Nat.mul_comm _ _
      omega
    · rw [segmentPos_add_mul_stride, if_pos hpc, hBA, hSPP]
      have e1 : (q / BA % SPP * BA + (BA - 1 - q % BA)) / BA = q / BA % SPP := by
        rw [Nat.mul_comm, Nat.mul_add_div hBA0, Nat.div_eq_of_lt hlt, Nat.add_zero]
      have e2 : (q / BA % SPP * BA + (BA - 1 - q % BA)) % BA = BA - 1 - q % BA := by
        rw [Nat.mul_comm, Nat.mul_add_mod, Nat.mod_eq_of_lt hlt]
      rw [e1, e2]
      have e3 : BA - 1 - (BA - 1 - q % BA) = q % BA := by omega
      rw [e3]
      have e4 : q / BA / SPP * SPP + q / BA % SPP = q / BA := by
        rw [Nat.mul_comm]; exact htd
      rw [e4, Nat.mul_comm]
      exact hqd.symm
  · -- sample t / P, pixel t % P
    have hsm : q / BA / P < SPP := by
      rw [Nat.div_lt_iff_lt_mul hP0, Nat.mul_comm]; exact ht
    have hk : q / BA % P < P := Nat.mod_lt _ hP0
    have htd : P * (q / BA / P) + q / BA % P = q / BA := Nat.div_add_mod _ _
    refine ⟨q / BA / P * BA + (BA - 1 - q % BA), q / BA % P, ?_, hk, ?_⟩
    · have : (q / BA / P + 1) * BA ≤ SPP * BA := Nat.mul_le_mul_right BA hsm
      rw [Nat.add_mul, Nat.one_mul] at this
      have e : BA * SPP = SPP * BA := Nat.mul_comm _ _
      omega
    · rw [segmentPos_add_mul_stride, if_neg hpc, hBA, hP]
      have e1 : (q / BA / P * BA + (BA - 1 - q % BA)) / BA = q / BA / P := by
        rw [Nat.mul_comm, Nat.mul_add_div hBA0, Nat.div_eq_of_lt hlt, Nat.add_zero]
      have e2 : (q / BA / P * BA + (BA - 1 - q % BA)) % BA = BA - 1 - q % BA := by
        rw [Nat.mul_comm, Nat.mul_add_mod, Nat.mod_eq_of_lt hlt]
      rw [e1, e2]
      have e3 : BA - 1 - (BA - 1 - q % BA) = q % BA := by omega
      rw [e3]
      have e4 : q / BA / P * P + q / BA % P = q / BA := by
        rw [Nat.mul_comm]; exact htd
      rw [e4, Nat.mul_comm]
      exact hqd.symm

theorem getD_gather (buffer : List Nat) (offset n : Nat) :
    ∀ (pos k : Nat), k < n →
      (gather buffer offset n pos).getD k 0 = buffer.getD (pos + k * offset) 0 := by
  induction n with
  | zero => intro pos k hk; omega
  | succ n ih =>
    intro pos k hk
    cases k with
    | zero => simp [gather]
    | succ k =>
      simp only [gather, List.getD_cons_succ]
      rw [ih _ _ (by omega)]
      congr 1
      rw [Nat.add_mul, Nat.one_mul]
      omega

theorem gather_lt (buffer : List Nat) (offset n : Nat) (hb : ∀ b ∈ buffer, b < 256) :
    ∀ pos, ∀ b ∈ gather buffer offset n pos, b < 256 := by
  induction n with
  | zero => intro pos b hb'; simp [gather] at hb'
  | succ n ih =>
    intro pos b hb'
    simp only [gather, List.mem_cons] at hb'
    rcases hb' with h | h
    · subst h
      rw [List.getD_eq_getElem?_getD]
      cases hg : buffer[pos]? with
      | none => simp
      | some v =>
        simp only [Option.getD_some]
        exact hb v (List.getElem?_mem hg)
    · exact ih _ b h

theorem map_mod_of_lt (l : List Nat) (h : ∀ b ∈ l, b < 256) : l.map (· % 256) = l := by
  induction l with
  | nil => rfl
  | cons a l ih =>
    simp only [List.map_cons]
    rw [ih (fun b hb => h b (List.mem_cons_of_mem _ hb)),
      Nat.mod_eq_of_lt (h a (List.mem_cons_self _ _))]

/-- Replaying the strided stores of bytes that agree with a function `x` of the
position: the result holds `x q` at every stored position `q` and the old byte
elsewhere. -/
theorem store_strided (x : Nat → Nat) (stride : Nat) (bytes : List Nat) :
    ∀ (pos : Nat) (buffer : List Nat),
      (∀ k, k < bytes.length →
        pos + k * stride < buffer.length ∧ bytes.getD k 0 = x (pos + k * stride)) →
      ∃ r, store buffer (strided (pos : Int) (stride : Int) bytes) = .ok r ∧
        r.length = buffer.length ∧
        ∀ q, (∃ k, k < bytes.length ∧ q = pos + k * stride) ∨ buffer[q]? = some (x q) →
          q < buffer.length → r[q]? = some (x q) := by
  induction bytes with
  | nil =>
    intro pos buffer _
    refine ⟨buffer, rfl, rfl, ?_⟩
    intro q hq _
    rcases hq with ⟨k, hk, _⟩ | h
    · simp at hk
    · exact h
  | cons b bs ih =>
    intro pos buffer h
    have h0 := h 0 (by simp)
    simp only [Nat.zero_mul, Nat.add_zero, List.getD_cons_zero] at h0
    have hstep : ∀ k, k < bs.length →
        pos + stride + k * stride < (buffer.set pos b).length ∧
          bs.getD k 0 = x (pos + stride + k * stride) := by
      intro k hk
      have := h (k + 1) (by simpa using hk)
      simp only [List.getD_cons_succ] at this
      rw [List.length_set]
      have e : pos + (k + 1) * stride = pos + stride + k * stride := by ring
      rw [e] at this
      exact this
    obtain ⟨r, hr, hlen, hget⟩ := ih (pos + stride) (buffer.set pos b) hstep
    refine ⟨r, ?_, by rw [hlen, List.length_set], ?_⟩
    · simp only [strided, store]
      rw [if_pos ⟨by omega, by omega⟩]
      have e : ((pos : Int)).toNat = pos := by omega
      have e2 : (pos : Int) + (stride : Int) = ((pos + stride : Nat) : Int) := by push_cast; ring
      rw [e, e2]
      exact hr
    · intro q hq hql
      apply hget q _ (by rw [List.length_set]; exact hql)
      by_cases hqp : q = pos
      · right
        subst hqp
        rw [List.getElem?_set_self hql, h0.2]
      · rcases hq with ⟨k, hk, hqk⟩ | hb
        · left
          cases k with
          | zero => simp at hqk; exact absurd hqk hqp
          | succ k =>
            refine ⟨k, by simpa using hk, ?_⟩
            rw [hqk]; ring
        · right
          rw [List.getElem?_set_ne (fun h' => hqp h'.symm)]
          exact hb

/-- Decoding segment `j` of a stream of `EncodeRle` stores the bytes of segment
`j` of the raw buffer at their positions. -/
theorem DecodeSegmentLog_encoded (ctx : CodecsContext) (enc : List Nat) (offs : List Int)
    (j : Nat) (pre : List Nat) (runs : List Run) (trail post : List Nat)
    (hl : offs.length = 15)
    (hj : j < bytesAllocated ctx * ctx.SamplesPerPixel)
    (hn15 : bytesAllocated ctx * ctx.SamplesPerPixel ≤ 15)
    (hP : 1 ≤ pixelCount ctx)
    (hbytes : ∀ b ∈ ctx.DecodedBuffer, b < 256)
    (henc : enc = pre ++ encodeRuns runs ++ trail ++ post)
    (hoff : offs.getD j 0 = (pre.length : Int)) (htl : trail.length ≤ 1)
    (hwf : ∀ r ∈ runs, r.wf)
    (hex : expandRuns runs = (segmentBytes ctx j).map (· % 256))
    (hnext : j + 1 < bytesAllocated ctx * ctx.SamplesPerPixel →
      offs.getD (j + 1) 0 = ((pre.length + (encodeRuns runs).length + trail.length : Nat) : Int))
    (hlast : j + 1 = bytesAllocated ctx * ctx.SamplesPerPixel → post = []) :
    RleDecoder.DecodeSegmentLog
      { data_ := enc, size_ := enc.length,
        segmentCount_ := ((bytesAllocated ctx * ctx.SamplesPerPixel : Nat) : Int),
        offsets_ := offs } j
      ((pixelCount ctx * bytesAllocated ctx * ctx.SamplesPerPixel : Nat) : Int)
      (segmentPos ctx j : Nat) (segmentStride ctx : Nat) =
    .ok (strided (segmentPos ctx j : Nat) (segmentStride ctx : Nat) (segmentBytes ctx j)) := by
  have hex' : expandRuns runs = segmentBytes ctx j := by
    rw [hex]; exact map_mod_of_lt _ (gather_lt _ _ _ hbytes _)
  have hne : runs ≠ [] := by
    intro h0
    rw [h0] at hex'
    have := congrArg List.length hex'
    rw [length_segmentBytes] at this
    simp [expandRuns] at this
    omega
  unfold RleDecoder.DecodeSegmentLog
  rw [if_neg (by push_cast; omega)]
  have hoffset : RleDecoder.GetSegmentOffset
      { data_ := enc, size_ := enc.length,
        segmentCount_ := ((bytesAllocated ctx * ctx.SamplesPerPixel : Nat) : Int),
        offsets_ := offs } j = .ok (pre.length : Int) := by
    unfold RleDecoder.GetSegmentOffset
    simp only
    rw [if_pos ⟨by omega, by omega⟩, Int.toNat_ofNat, hoff]
  have hlength : RleDecoder.GetSegmentLength
      { data_ := enc, size_ := enc.length,
        segmentCount_ := ((bytesAllocated ctx * ctx.SamplesPerPixel : Nat) : Int),
        offsets_ := offs } j =
        .ok (((encodeRuns runs).length + trail.length : Nat) : Int) := by
    unfold RleDecoder.GetSegmentLength
    simp only [bind, Except.bind, hoffset]
    by_cases hj1 : j + 1 < bytesAllocated ctx * ctx.SamplesPerPixel
    · rw [if_pos (by push_cast; omega)]
      unfold RleDecoder.GetSegmentOffset
      simp only
      rw [if_pos ⟨by omega, by omega⟩]
      have e : ((j : Int) + 1).toNat = j + 1 := by omega
      rw [e, hnext hj1]
      simp only [Except.ok.injEq]
      push_cast
      ring
    · rw [if_neg (by push_cast; omega)]
      have hp := hlast (by omega)
      subst hp
      simp only [Except.ok.injEq, henc, List.length_append, List.length_nil]
      push_cast
      ring
  simp only [bind, Except.bind, hoffset, hlength]
  unfold RleDecoder.DecodeLog
  rw [← hex']
  apply decodeLoop_runs _ _ trail post htl runs pre enc _ _ _ _ henc
  · push_cast; ring
  · rfl
  · exact hwf
  · intro k hk
    rw [hex', length_segmentBytes] at hk
    have := segment_index_lt ctx j k hj hk
    have e : ((segmentPos ctx j : Nat) : Int) + (k : Int) * ((segmentStride ctx : Nat) : Int) =
        ((segmentPos ctx j + k * segmentStride ctx : Nat) : Int) := by push_cast; ring
    rw [e]
    exact_mod_cast this
  · rw [Int.toNat_ofNat]; omega
  · exact Or.inl hne

/-- The segment loop of `EncodeRle` succeeds when the raw buffer holds every
byte it reads and there are at most fifteen segments. -/
theorem encodeSegments_ok (ctx : CodecsContext)
    (hlen : pixelCount ctx * bytesAllocated ctx * ctx.SamplesPerPixel ≤ ctx.DecodedBuffer.length)
    (m : Nat) :
    ∀ (s : Nat) (e : RleEncoder), Layout ctx e s → s + m ≤ 15 →
      s + m ≤ bytesAllocated ctx * ctx.SamplesPerPixel →
      ∃ e', encodeSegments ctx m s e = .ok e' := by
  induction m with
  | zero => intro s e _ _ _; exact ⟨e, rfl⟩
  | succ m ih =>
    intro s e hl h15 hn
    obtain ⟨hclean, hcount, hlen15, _, _, _⟩ := id hl
    obtain ⟨pad, e1, hN, _, _, _, _, _, hcl1⟩ :=
      NextSegment_spec e hclean (by rw [hcount, hlen15]; omega)
    obtain ⟨e2, hP⟩ := encodePixels_ok ctx (segmentStride ctx) (pixelCount ctx)
      (segmentPos ctx s) e1 (fun p hp => by
        have := segment_index_lt ctx s p (by omega) hp
        omega)
    have h1 : encodeSegments ctx 1 s e = .ok e2.Flush := by
      simp only [encodeSegments, bind, Except.bind, hN, hP]
    have hl2 := encodeSegments_layout ctx 1 s e _ hl h1
    obtain ⟨e', he'⟩ := ih (s + 1) e2.Flush hl2 (by omega) (by omega)
    refine ⟨e', ?_⟩
    simp only [encodeSegments, bind, Except.bind, hN, hP]
    exact he'

/-- The segment loop of `DecodeRle` on a stream of `EncodeRle`: after the loop
every position covered by a segment holds the byte of the raw buffer `x`. -/
theorem decodeSegments_encoded (ctx ctxD : CodecsContext) (enc : List Nat) (offs : List Int)
    (hBA : bytesAllocated ctxD = bytesAllocated ctx)
    (hpos : ∀ s, segmentPos ctxD s = segmentPos ctx s)
    (hstr : segmentStride ctxD = segmentStride ctx)
    (hl : offs.length = 15)
    (hn15 : bytesAllocated ctx * ctx.SamplesPerPixel ≤ 15)
    (hP : 1 ≤ pixelCount ctx)
    (hbytes : ∀ b ∈ ctx.DecodedBuffer, b < 256)
    (hsize : pixelCount ctx * bytesAllocated ctx * ctx.SamplesPerPixel < 2147483648)
    (hsegs : ∀ j, j < bytesAllocated ctx * ctx.SamplesPerPixel →
        ∃ (pre : List Nat) (runs : List Run) (trail post : List Nat),
          enc = pre ++ encodeRuns runs ++ trail ++ post ∧ 64 ≤ pre.length ∧
          offs.getD j 0 = (pre.length : Int) ∧ trail.length ≤ 1 ∧ (∀ r ∈ runs, r.wf) ∧
          expandRuns runs = (segmentBytes ctx j).map (· % 256) ∧
          (j + 1 < bytesAllocated ctx * ctx.SamplesPerPixel →
            offs.getD (j + 1) 0 =
              ((pre.length + (encodeRuns runs).length + trail.length : Nat) : Int)) ∧
          (j + 1 = bytesAllocated ctx * ctx.SamplesPerPixel → post = []))
    (m : Nat) :
    ∀ (s : Nat) (buffer : List Nat), s + m = bytesAllocated ctx * ctx.SamplesPerPixel →
      buffer.length = pixelCount ctx * bytesAllocated ctx * ctx.SamplesPerPixel →
      (∀ q, q < buffer.length →
        (∃ s' k, s' < s ∧ k < pixelCount ctx ∧ q = segmentPos ctx s' + k * segmentStride ctx) →
        buffer[q]? = some (ctx.DecodedBuffer.getD q 0)) →
      ∃ r, decodeSegments ctxD
          { data_ := enc, size_ := enc.length,
            segmentCount_ := ((bytesAllocated ctx * ctx.SamplesPerPixel : Nat) : Int),
            offsets_ := offs }
          (pixelCount ctx * bytesAllocated ctx * ctx.SamplesPerPixel) m s buffer = .ok r ∧
        r.length = buffer.length ∧
        ∀ q, q < buffer.length →
          (∃ s' k, s' < s + m ∧ k < pixelCount ctx ∧
            q = segmentPos ctx s' + k * segmentStride ctx) →
          r[q]? = some (ctx.DecodedBuffer.getD q 0) := by
  induction m with
  | zero =>
    intro s buffer _ _ hcov
    exact ⟨buffer, rfl, rfl, fun q hq h => hcov q hq (by simpa using h)⟩
  | succ m ih =>
    intro s buffer hsm hblen hcov
    have hs : s < bytesAllocated ctx * ctx.SamplesPerPixel := by omega
    have hBA0 : bytesAllocated ctx ≠ 0 := by
      intro h0; rw [h0] at hs; simp at hs
    obtain ⟨pre, runs, trail, post, henc, _, hoff, htl, hwf, hex, hnext, hlast⟩ := hsegs s hs
    have hlog := DecodeSegmentLog_encoded ctx enc offs s pre runs trail post hl hs hn15 hP hbytes
      henc hoff htl hwf hex hnext hlast
    have hb := segmentPos_lt_size ctx s hs (by omega)
    have e1 := toInt32_of_lt _ hsize
    have e2 := toInt32_of_lt (segmentPos ctx s) (lt_trans hb.1 hsize)
    have e3 := toInt32_of_lt (segmentStride ctx) (lt_of_le_of_lt hb.2 hsize)
    obtain ⟨r1, hr1, hlen1, hget1⟩ := store_strided (fun q => ctx.DecodedBuffer.getD q 0)
      (segmentStride ctx) (segmentBytes ctx s) (segmentPos ctx s) buffer (by
        intro k hk
        rw [length_segmentBytes] at hk
        refine ⟨?_, getD_gather _ _ _ _ _ hk⟩
        rw [hblen]
        exact segment_index_lt ctx s k hs hk)
    obtain ⟨r, hr, hlen, hget⟩ := ih (s + 1) r1 (by omega) (by rw [hlen1, hblen]) (by
      intro q hq hc
      rw [hlen1] at hq
      apply hget1 q _ hq
      obtain ⟨s', k, hs', hk, hqe⟩ := hc
      by_cases hss : s' = s
      · subst hss
        left
        exact ⟨k, by rw [length_segmentBytes]; exact hk, hqe⟩
      · right
        exact hcov q hq ⟨s', k, by omega, hk, hqe⟩)
    refine ⟨r, ?_, by rw [hlen, hlen1], ?_⟩
    · rw [decodeSegments, hBA, if_neg hBA0, hpos, hstr, e1, e2, e3]
      unfold RleDecoder.DecodeSegment
      rw [hlog]
      simp only [bind, Except.bind]
      rw [hr1]
      exact hr
    · intro q hq hc
      have e : s + (m + 1) = s + 1 + m := by omega
      rw [e] at hc
      exact hget q (by rw [hlen1]; exact hq) hc

/-- The round trip for any context with at most fifteen segments: encoding
succeeds, and decoding the stream with the same context fields gives back the
raw buffer, when both buffers are shorter than 2^31 bytes. -/
theorem EncodeRle_DecodeRle (junk : Nat → Nat) (ctx : CodecsContext) (stale : List Nat)
    (hn15 : bytesAllocated ctx * ctx.SamplesPerPixel ≤ 15) (hP : 1 ≤ pixelCount ctx)
    (hlen : ctx.DecodedBuffer.length =
      pixelCount ctx * bytesAllocated ctx * ctx.SamplesPerPixel)
    (hbytes : ∀ b ∈ ctx.DecodedBuffer, b < 256) :
    ∃ ctx', EncodeRle ctx = .ok ctx' ∧ ctx'.DecodedBuffer = ctx.DecodedBuffer ∧
      (ctx'.EncodedBuffer.length < 2147483648 → ctx.DecodedBuffer.length < 2147483648 →
        DecodeRle junk { ctx' with DecodedBuffer := stale } = .ok ctx') := by
  obtain ⟨e, he⟩ := encodeSegments_ok ctx (by omega) (bytesAllocated ctx * ctx.SamplesPerPixel)
    0 RleEncoder.new (Layout_new ctx) (by omega) (by omega)
  have hok : EncodeRle ctx =
      .ok { ctx with EncodedBuffer := e.MakeEvenLength.GetBuffer.writer_ } := by
    unfold EncodeRle
    simp only [bind, Except.bind, he]
  refine ⟨_, hok, rfl, ?_⟩
  intro hb hxb
  generalize henc : e.MakeEvenLength.GetBuffer.writer_ = enc at hok hb ⊢
  have hE := (EncodeRle_encoded ctx _ hok).1
  obtain ⟨offs, hl, hcount, hread, hzero, hsegs⟩ := Encoded_segments ctx enc hE hb
  have hsize : pixelCount ctx * bytesAllocated ctx * ctx.SamplesPerPixel < 2147483648 := by
    rw [← hlen]; exact hxb
  obtain ⟨r, hr, hrlen, hget⟩ := decodeSegments_encoded ctx
    { ctx with EncodedBuffer := enc, DecodedBuffer := stale } enc offs rfl (fun _ => rfl) rfl hl
    hn15 hP hbytes hsize hsegs (bytesAllocated ctx * ctx.SamplesPerPixel) 0
    (Buffer.Reset junk (pixelCount ctx * bytesAllocated ctx * ctx.SamplesPerPixel))
    (by omega) (by simp [Buffer.Reset]) (fun q _ h => by
      obtain ⟨s', k, hs', _⟩ := h
      omega)
  have hrx : r = ctx.DecodedBuffer := by
    have hbl : (Buffer.Reset junk
        (pixelCount ctx * bytesAllocated ctx * ctx.SamplesPerPixel)).length =
        pixelCount ctx * bytesAllocated ctx * ctx.SamplesPerPixel := by simp [Buffer.Reset]
    apply List.ext_getElem?
    intro q
    by_cases hq : q < pixelCount ctx * bytesAllocated ctx * ctx.SamplesPerPixel
    · obtain ⟨s, k, hs, hk, hqe⟩ := segment_cover ctx q hq
      rw [hget q (by rw [hbl]; exact hq) ⟨s, k, by omega, hk, hqe⟩,
        List.getD_eq_getElem?_getD, List.getElem?_eq_getElem (by rw [hlen]; exact hq)]
      rfl
    · rw [List.getElem?_eq_none (by rw [hrlen, hbl]; omega),
        List.getElem?_eq_none (by rw [hlen]; omega)]
  have hnew : RleDecoder.new enc (toInt32 (enc.length : Nat)) =
      .ok { data_ := enc, size_ := enc.length,
            segmentCount_ := ((bytesAllocated ctx * ctx.SamplesPerPixel : Nat) : Int),
            offsets_ := offs } := by
    unfold RleDecoder.new
    simp only [bind, Except.bind, hcount, hread]
    rw [toInt32_of_lt _ hb, toInt32_of_lt _ (by omega)]
  have hgoal : DecodeRle junk { ctx with EncodedBuffer := enc, DecodedBuffer := stale } =
      .ok { ctx with EncodedBuffer := enc } := by
    unfold DecodeRle
    simp only [bind, Except.bind]
    rw [hnew]
    simp only [RleDecoder.GetNumberOfSegments, Int.toNat_ofNat]
    erw [hr]
    rw [hrx]
  exact hgoal

section LiteralRun

open RleEncoder

/-- The pixel loop of `EncodeRle`, when every read is inside the raw buffer,
feeds the gathered bytes to `Encode` in order. -/
theorem encodePixels_eq_foldl (ctx : CodecsContext) (offset : Nat) (n : Nat) :
    ∀ (pos : Nat) (e : RleEncoder),
      (∀ p, p < n → pos + p * offset < ctx.DecodedBuffer.length) →
      encodePixels ctx offset n pos e =
        .ok ((gather ctx.DecodedBuffer offset n pos).foldl RleEncoder.Encode e) := by
  induction n with
  | zero => intro pos e _; rfl
  | succ n ih =>
    intro pos e h
    have h0 : ¬ pos ≥ ctx.DecodedBuffer.length := by
      have := h 0 (by omega)
      omega
    unfold encodePixels
    rw [if_neg h0, ih]
    · rfl
    · intro p hp
      have := h (p + 1) (by omega)
      rw [Nat.add_mul] at this
      omega

/-- Gathering `n` bytes one apart is taking `n` bytes. -/
theorem gather_one (buffer : List Nat) (n : Nat) :
    ∀ pos, pos + n ≤ buffer.length → gather buffer 1 n pos = (buffer.drop pos).take n := by
  induction n with
  | zero => intro pos _; simp [gather]
  | succ n ih =>
    intro pos h
    have hp : pos < buffer.length := by omega
    unfold gather
    rw [ih (pos + 1) (by omega), List.getD_eq_getElem _ _ hp]
    rw [List.drop_eq_getElem_cons hp, List.take_succ_cons]

/-- `Encode` of a byte that differs from the previous one, with a run of one
pending: the previous byte joins the literal buffer and nothing is written. -/
theorem Encode_distinct (e : RleEncoder) (b : Nat) (hne : (b : Int) ≠ e.prevByte_)
    (hrc : e.repeatCount_ = 1) (h0 : 0 ≤ e.bufferPos_) (h127 : e.bufferPos_ ≤ 127)
    (hlen : e.buffer_.length = 132) :
    (e.Encode b).writer_ = e.writer_ ∧
    (e.Encode b).pending = e.pending ++ [toUInt8 e.prevByte_] ∧
    (e.Encode b).bufferPos_ = e.bufferPos_ + 1 ∧
    (e.Encode b).prevByte_ = b ∧ (e.Encode b).repeatCount_ = 1 ∧
    (e.Encode b).buffer_.length = 132 ∧
    (e.Encode b).offsets_ = e.offsets_ ∧ (e.Encode b).segmentCount_ = e.segmentCount_ := by
  obtain ⟨p1, p2, p3, p4, p5, p6, p7, p8⟩ := pushPrev_spec e h0 (by omega)
  have hfl : flushLiterals 128 e.pushPrev.bufferPos_.toNat e.pushPrev = e.pushPrev :=
    (flushLiterals_spec 128 (by omega) _ e.pushPrev (by omega) (by omega) (by omega)).2.2.2.1
      (by omega)
  have hE : e.Encode b = { e.pushPrev with prevByte_ := b, repeatCount_ := 1 } := by
    unfold Encode
    rw [if_neg hne]
    have h1 : ¬ e.repeatCount_ = 0 := by omega
    simp only [if_neg h1, if_pos hrc]
    rw [hfl]
  rw [hE]
  refine ⟨p4, ?_, p2, rfl, rfl, by rw [← hlen]; exact p3, p7, p8⟩
  exact p1

/-- `Encode` of the first byte of a segment: it becomes the previous byte. -/
theorem Encode_first (e : RleEncoder) (b : Nat) (hc : e.clean) :
    e.Encode b = { e with prevByte_ := b, repeatCount_ := 1 } := by
  obtain ⟨h1, h2, h3, h4⟩ := hc
  have hne : (b : Int) ≠ e.prevByte_ := by omega
  unfold Encode
  rw [if_neg hne]
  simp only [h2, if_true, h3, Int.toNat_zero, flushLiterals_zero]

/-- Bytes of which no two neighbours are equal accumulate in the literal
buffer: after them the buffer followed by the previous byte is the input. -/
theorem foldl_Encode_distinct : ∀ (bs : List Nat) (e : RleEncoder) (p : Nat),
    e.prevByte_ = (p : Int) → p < 256 → e.repeatCount_ = 1 → 0 ≤ e.bufferPos_ →
    e.bufferPos_ + bs.length ≤ 127 → e.buffer_.length = 132 →
    List.Chain (· ≠ ·) p bs → (∀ b ∈ bs, b < 256) →
    (bs.foldl RleEncoder.Encode e).writer_ = e.writer_ ∧
    (bs.foldl RleEncoder.Encode e).pending ++ [toUInt8 (bs.foldl RleEncoder.Encode e).prevByte_] =
      e.pending ++ p :: bs ∧
    (bs.foldl RleEncoder.Encode e).repeatCount_ = 1 ∧
    (bs.foldl RleEncoder.Encode e).bufferPos_ = e.bufferPos_ + bs.length ∧
    0 ≤ (bs.foldl RleEncoder.Encode e).prevByte_ ∧ (bs.foldl RleEncoder.Encode e).prevByte_ < 256 ∧
    (bs.foldl RleEncoder.Encode e).buffer_.length = 132 ∧
    (bs.foldl RleEncoder.Encode e).offsets_ = e.offsets_ ∧
    (bs.foldl RleEncoder.Encode e).segmentCount_ = e.segmentCount_
  | [], e, p, hp, hp256, hrc, h0, _, hlen, _, _ => by
    refine ⟨rfl, ?_, hrc, by simp, ?_, ?_, hlen, rfl, rfl⟩
    · show e.pending ++ [toUInt8 e.prevByte_] = e.pending ++ [p]
      rw [hp, toUInt8_natCast, Nat.mod_eq_of_lt hp256]
    · show 0 ≤ e.prevByte_
      omega
    · show e.prevByte_ < 256
      omega
  | b :: bs, e, p, hp, hp256, hrc, h0, hb, hlen, hch, hby => by
    rw [List.chain_cons] at hch
    simp only [List.length_cons, Nat.cast_add, Nat.cast_one] at hb
    have hne : (b : Int) ≠ e.prevByte_ := by
      rw [hp]
      intro h
      exact hch.1 (by exact_mod_cast h.symm)
    obtain ⟨q1, q2, q3, q4, q5, q6, q7, q8⟩ :=
      Encode_distinct e b hne hrc h0 (by omega) hlen
    have hb256 : b < 256 := hby b (List.mem_cons_self _ _)
    obtain ⟨r1, r2, r3, r4, r5, r6, r7, r8, r9⟩ :=
      foldl_Encode_distinct bs (e.Encode b) b q4 hb256 q5 (by omega) (by omega) q6 hch.2
        (fun x hx => hby x (List.mem_cons_of_mem _ hx))
    rw [List.foldl_cons]
    refine ⟨by rw [r1, q1], ?_, r3, ?_, r5, r6, r7, by rw [r8, q7], by rw [r9, q8]⟩
    · rw [r2, q2, hp, toUInt8_natCast, Nat.mod_eq_of_lt hp256]
      simp
    · rw [r4, q3]
      simp only [List.length_cons, Nat.cast_add, Nat.cast_one]
      omega

/-- `Flush` with a run of one pending and at most 127 bytes in the literal
buffer: one literal run of the buffered bytes and the previous byte. -/
theorem Flush_literals (e : RleEncoder) (hrc : e.repeatCount_ = 1) (h0 : 0 ≤ e.bufferPos_)
    (h127 : e.bufferPos_ ≤ 127) (hlen : e.buffer_.length = 132) :
    e.Flush.writer_ =
      e.writer_ ++ (e.bufferPos_.toNat :: (e.pending ++ [toUInt8 e.prevByte_])) ∧
    e.Flush.clean ∧ e.Flush.offsets_ = e.offsets_ ∧
    e.Flush.segmentCount_ = e.segmentCount_ := by
  obtain ⟨p1, p2, p3, p4, p5, p6, p7, p8⟩ := pushPrev_spec e h0 (by omega)
  -- the state after the first loop
  have a1 : (if e.repeatCount_ < 2 then pushPending e.repeatCount_.toNat e else e) =
      { e.pushPrev with repeatCount_ := 0 } := by
    rw [if_pos (by omega)]
    have ht : e.repeatCount_.toNat = 0 + 1 := by omega
    rw [ht]
    unfold pushPending
    rw [if_pos (by omega)]
    unfold pushPending
    rw [hrc]
    rfl
  -- the one iteration of the second loop
  have hpos : ({ e.pushPrev with repeatCount_ := 0 } : RleEncoder).bufferPos_ > 0 := by
    show e.pushPrev.bufferPos_ > 0
    omega
  have hmin : min 128 e.pushPrev.bufferPos_ = e.bufferPos_ + 1 := by
    rw [p2]; omega
  have hfuel : ({ e.pushPrev with repeatCount_ := 0 } : RleEncoder).bufferPos_.toNat =
      e.bufferPos_.toNat + 1 := by
    show e.pushPrev.bufferPos_.toNat = _
    omega
  obtain ⟨m1, m2, m3, m4, m5, m6, m7, m8⟩ := MoveBuffer_spec
    (({ e.pushPrev with repeatCount_ := 0 } : RleEncoder).WriteByte (toUInt8 (e.bufferPos_ + 1 - 1)))
    (e.bufferPos_ + 1) (by omega)
    (by show e.bufferPos_ + 1 ≤ e.pushPrev.bufferPos_; omega)
    (by show e.pushPrev.bufferPos_ ≤ (e.pushPrev.buffer_.length : Int); omega)
  have a2 : flushLiterals 0 ({ e.pushPrev with repeatCount_ := 0 } : RleEncoder).bufferPos_.toNat
      { e.pushPrev with repeatCount_ := 0 } =
      (({ e.pushPrev with repeatCount_ := 0 } : RleEncoder).WriteByte
        (toUInt8 (e.bufferPos_ + 1 - 1))).MoveBuffer (e.bufferPos_ + 1) := by
    rw [hfuel, flushLiterals_succ_pos 0 _ _ hpos]
    have hmin' : min 128 ({ e.pushPrev with repeatCount_ := 0 } : RleEncoder).bufferPos_ =
        e.bufferPos_ + 1 := hmin
    rw [hmin']
    refine (flushLiterals_spec 0 (le_refl 0) _ _ ?_ ?_ ?_).2.2.2.1 ?_
    · rw [m3]; show 0 ≤ e.pushPrev.bufferPos_ - (e.bufferPos_ + 1); omega
    · rw [m3, m4]
      show e.pushPrev.bufferPos_ - (e.bufferPos_ + 1) ≤ (e.pushPrev.buffer_.length : Int)
      omega
    · rw [m3]; show e.pushPrev.bufferPos_ - (e.bufferPos_ + 1) ≤ _; omega
    · rw [m3]; show e.pushPrev.bufferPos_ - (e.bufferPos_ + 1) ≤ 0; omega
  have hw : e.Flush.writer_ = ((({ e.pushPrev with repeatCount_ := 0 } : RleEncoder).WriteByte
        (toUInt8 (e.bufferPos_ + 1 - 1))).MoveBuffer (e.bufferPos_ + 1)).writer_ ∧
      e.Flush.buffer_ = ((({ e.pushPrev with repeatCount_ := 0 } : RleEncoder).WriteByte
        (toUInt8 (e.bufferPos_ + 1 - 1))).MoveBuffer (e.bufferPos_ + 1)).buffer_ ∧
      e.Flush.offsets_ = ((({ e.pushPrev with repeatCount_ := 0 } : RleEncoder).WriteByte
        (toUInt8 (e.bufferPos_ + 1 - 1))).MoveBuffer (e.bufferPos_ + 1)).offsets_ ∧
      e.Flush.segmentCount_ = ((({ e.pushPrev with repeatCount_ := 0 } : RleEncoder).WriteByte
        (toUInt8 (e.bufferPos_ + 1 - 1))).MoveBuffer (e.bufferPos_ + 1)).segmentCount_ ∧
      e.Flush.prevByte_ = -1 ∧ e.Flush.repeatCount_ = 0 ∧ e.Flush.bufferPos_ = 0 := by
    unfold Flush
    simp only [a1, a2]
    rw [if_neg (by rw [m5]; show ¬ (0 : Int) ≥ 2; omega)]
    refine ⟨?_, ?_, ?_, ?_, ?_, ?_, ?_⟩ <;> first | rfl | trivial
  obtain ⟨w1, w2, w3, w4, w5, w6, w7⟩ := hw
  refine ⟨?_, ⟨w5, w6, w7, ?_⟩, ?_, ?_⟩
  · rw [w1, m1]
    show e.pushPrev.writer_ ++ [toUInt8 (e.bufferPos_ + 1 - 1)] ++
      (e.pushPrev.buffer_.take e.pushPrev.bufferPos_.toNat).take (e.bufferPos_ + 1).toNat = _
    have ht : (e.bufferPos_ + 1).toNat = e.pushPrev.bufferPos_.toNat := by rw [p2]
    rw [ht, List.take_take, Nat.min_self, p1, p4, add_sub_cancel_right,
      toUInt8_of_lt _ h0 (by omega)]
    simp [RleEncoder.pending]
  · rw [w2, m4]
    show e.pushPrev.buffer_.length = 132
    omega
  · rw [w3, m7]
    exact p7
  · rw [w4, m8]
    exact p8

/-- The header `WriteHeader` puts before the body of a single segment. -/
theorem WriteHeader_single (e : RleEncoder) (h1 : e.segmentCount_ = 1)
    (h2 : e.offsets_ = List.replicate 15 0) :
    e.WriteHeader.writer_ = [1, 0, 0, 0, 64, 0, 0, 0] ++ List.replicate 56 0 ++ e.writer_ := by
  unfold WriteHeader
  simp only [h1, h2]
  rfl

/-- The pixel loop and the `Flush` after it, for the single segment of an
8-bit, one-sample image of at most 128 bytes that differ from their
neighbours: one literal run of all the bytes. -/
theorem encodePixels_literal_run (ctx : CodecsContext) (e1 : RleEncoder) (hc : e1.clean)
    (hBA : bytesAllocated ctx = 1)
    (hSPP : ctx.SamplesPerPixel = 1) (hP : pixelCount ctx = ctx.DecodedBuffer.length)
    (h1 : 1 ≤ ctx.DecodedBuffer.length) (h128 : ctx.DecodedBuffer.length ≤ 128)
    (hbytes : ∀ b ∈ ctx.DecodedBuffer, b < 256)
    (hadj : List.Chain' (· ≠ ·) ctx.DecodedBuffer) :
    ∃ e2, encodePixels ctx (segmentStride ctx) (pixelCount ctx) (segmentPos ctx 0) e1 = .ok e2 ∧
      e2.Flush.writer_ =
        e1.writer_ ++ (ctx.DecodedBuffer.length - 1) :: ctx.DecodedBuffer ∧
      e2.Flush.clean ∧ e2.Flush.offsets_ = e1.offsets_ ∧
      e2.Flush.segmentCount_ = e1.segmentCount_ := by
  have hstride : segmentStride ctx = 1 := by
    unfold segmentStride
    rw [hBA, hSPP]
    split <;> rfl
  have hpos : segmentPos ctx 0 = 0 := by
    unfold segmentPos
    rw [hBA]
    split <;> simp
  have hg : gather ctx.DecodedBuffer 1 (pixelCount ctx) 0 = ctx.DecodedBuffer := by
    rw [gather_one _ _ 0 (by omega), List.drop_zero, hP, List.take_length]
  have hpix := encodePixels_eq_foldl ctx 1 (pixelCount ctx) 0 e1 (by intro p hp; omega)
  rw [hg] at hpix
  obtain ⟨c1, c2, c3, c4⟩ := hc
  obtain ⟨a, bs, hx⟩ : ∃ a bs, ctx.DecodedBuffer = a :: bs := by
    cases hd : ctx.DecodedBuffer with
    | nil => rw [hd] at h1; simp at h1
    | cons a bs => exact ⟨a, bs, rfl⟩
  rw [hx] at hadj hbytes h128
  simp only [List.length_cons] at h128
  have ha : a < 256 := hbytes a (List.mem_cons_self _ _)
  obtain ⟨r1, r2, r3, r4, r5, r6, r7, r8, r9⟩ := foldl_Encode_distinct bs
    { e1 with prevByte_ := a, repeatCount_ := 1 } a rfl ha rfl
    (by show 0 ≤ e1.bufferPos_; omega) (by show e1.bufferPos_ + _ ≤ 127; omega)
    c4 hadj (fun b hb => hbytes b (List.mem_cons_of_mem _ hb))
  have hfold : (a :: bs).foldl RleEncoder.Encode e1 =
      bs.foldl RleEncoder.Encode { e1 with prevByte_ := a, repeatCount_ := 1 } := by
    rw [List.foldl_cons, Encode_first _ _ ⟨c1, c2, c3, c4⟩]
  have hbp : (bs.foldl RleEncoder.Encode
      { e1 with prevByte_ := a, repeatCount_ := 1 }).bufferPos_ = (bs.length : Int) := by
    rw [r4]
    show e1.bufferPos_ + _ = _
    omega
  obtain ⟨f1, f2, f3, f4⟩ := Flush_literals _ r3 (by rw [hbp]; omega) (by rw [hbp]; omega) r7
  have hpend : ({ e1 with prevByte_ := a, repeatCount_ := 1 } : RleEncoder).pending = [] := by
    show e1.buffer_.take e1.bufferPos_.toNat = []
    rw [c3]
    rfl
  refine ⟨List.foldl RleEncoder.Encode e1 ctx.DecodedBuffer, ?_, ?_, ?_, ?_, ?_⟩
  · rw [hstride, hpos, hpix]
  · rw [hx, hfold, f1, r1, r2, hbp, hpend]
    show e1.writer_ ++ _ = _
    simp
  · rw [hx, hfold]; exact f2
  · rw [hx, hfold, f3, r8]
  · rw [hx, hfold, f4, r9]

/-- The stream of `EncodeRle` for an 8-bit, one-sample image of 1 to 128 bytes
that differ from their neighbours. -/
theorem EncodeRle_of_distinct (ctx : CodecsContext) (hBA : bytesAllocated ctx = 1)
    (hSPP : ctx.SamplesPerPixel = 1) (hP : pixelCount ctx = ctx.DecodedBuffer.length)
    (h1 : 1 ≤ ctx.DecodedBuffer.length) (h128 : ctx.DecodedBuffer.length ≤ 128)
    (hbytes : ∀ b ∈ ctx.DecodedBuffer, b < 256)
    (hadj : List.Chain' (· ≠ ·) ctx.DecodedBuffer) :
    EncodeRle ctx = .ok { ctx with EncodedBuffer :=
      [1, 0, 0, 0, 64, 0, 0, 0] ++ List.replicate 56 0 ++
        ((ctx.DecodedBuffer.length - 1) :: ctx.DecodedBuffer ++
          if ctx.DecodedBuffer.length % 2 = 0 then [0] else []) } := by
  have hNS : RleEncoder.new.NextSegment =
      .ok { segmentCount_ := 1, offsets_ := List.replicate 15 0,
            buffer_ := List.replicate 132 0, prevByte_ := -1, repeatCount_ := 0,
            bufferPos_ := 0, writer_ := [] } := by rfl
  obtain ⟨e2, he2, w, hc, ho, hs⟩ := encodePixels_literal_run ctx
    { segmentCount_ := 1, offsets_ := List.replicate 15 0,
      buffer_ := List.replicate 132 0, prevByte_ := -1, repeatCount_ := 0,
      bufferPos_ := 0, writer_ := [] }
    ⟨rfl, rfl, rfl, by simp⟩ hBA hSPP hP h1 h128 hbytes hadj
  have hseg : encodeSegments ctx (bytesAllocated ctx * ctx.SamplesPerPixel) 0 RleEncoder.new =
      .ok e2.Flush := by
    rw [hBA, hSPP]
    unfold encodeSegments
    rw [hNS]
    simp only [bind, Except.bind]
    rw [he2]
    rfl
  have hcm := clean_MakeEvenLength _ hc
  have hflush : e2.Flush.MakeEvenLength.Flush = e2.Flush.MakeEvenLength :=
    Flush_of_clean _ hcm
  have hom : e2.Flush.MakeEvenLength.offsets_ = List.replicate 15 0 ∧
      e2.Flush.MakeEvenLength.segmentCount_ = 1 ∧
      e2.Flush.MakeEvenLength.writer_ =
        (ctx.DecodedBuffer.length - 1) :: ctx.DecodedBuffer ++
          if ctx.DecodedBuffer.length % 2 = 0 then [0] else [] := by
    unfold RleEncoder.MakeEvenLength
    have hl : e2.Flush.writer_.length = ctx.DecodedBuffer.length + 1 := by
      rw [w]; simp
    by_cases hpar : ctx.DecodedBuffer.length % 2 = 0
    · rw [if_pos (by omega), if_pos hpar]
      exact ⟨ho, hs, by show e2.Flush.writer_ ++ [0] = _; rw [w]; simp⟩
    · rw [if_neg (by omega), if_neg hpar]
      exact ⟨ho, hs, by rw [w]; simp⟩
  unfold EncodeRle
  simp only [hseg, bind, Except.bind, RleEncoder.GetBuffer]
  rw [hflush, WriteHeader_single _ hom.2.1 hom.1, hom.2.2]

end LiteralRun

namespace RleDecoder

theorem literalLoop_eq_trace (rleData : List Nat) (sampleOffset : Int) :
    ∀ (n : Nat) (i pos : Int), literalLoop rleData sampleOffset n i pos =
      match (literalLoopT rleData sampleOffset n i pos).2 with
      | .ok next => .ok ((literalLoopT rleData sampleOffset n i pos).1, next.1, next.2)
      | .error e => .error e
  | 0, i, pos => rfl
  | n + 1, i, pos => by
    unfold literalLoop literalLoopT
    cases hb : readByte rleData i with
    | error e => rfl
    | ok b =>
      simp only [bind, Except.bind]
      rw [literalLoop_eq_trace rleData sampleOffset n (i + 1) (pos + sampleOffset)]
      cases (literalLoopT rleData sampleOffset n (i + 1) (pos + sampleOffset)).2 with
      | error e => rfl
      | ok next => rfl

theorem memcpyLog_eq_trace (rleData : List Nat) :
    ∀ (n : Nat) (i pos : Int), memcpyLog rleData n i pos = (memcpyLogT rleData n i pos).toExcept
  | 0, i, pos => rfl
  | n + 1, i, pos => by
    unfold memcpyLog memcpyLogT
    cases hb : readByte rleData i with
    | error e => rfl
    | ok b =>
      simp only [bind, Except.bind]
      rw [memcpyLog_eq_trace rleData n (i + 1) (pos + 1)]
      unfold Trace.toExcept
      cases (memcpyLogT rleData n (i + 1) (pos + 1)).2 with
      | none => rfl
      | some e => rfl

end RleDecoder

namespace RleDecoder

theorem toExcept_nil_none : Trace.toExcept (([] : WriteLog), (none : Option CodecsError)) = .ok [] :=
  rfl

theorem toExcept_some (w : WriteLog) (e : CodecsError) : Trace.toExcept (w, some e) = .error e :=
  rfl

theorem toExcept_none (w : WriteLog) : Trace.toExcept (w, none) = .ok w := rfl

/-- The loop of `Decode` with and without the stores before an exception: the
same exception, or the same stores. -/
theorem decodeLoop_eq_trace (rleData : List Nat) (bufferLength sampleOffset end_ : Int) :
    ∀ (fuel : Nat) (i pos : Int),
      decodeLoop rleData bufferLength sampleOffset end_ fuel i pos =
        (decodeLoopT rleData bufferLength sampleOffset end_ fuel i pos).toExcept := by
  intro fuel
  induction fuel with
  | zero =>
    intro i pos
    rw [decodeLoop, decodeLoopT]
    by_cases hc : i < end_ ∧ pos < bufferLength
    · rw [if_pos hc, if_pos hc]; rfl
    · rw [if_neg hc, if_neg hc]; rfl
  | succ fuel ih =>
    intro i pos
    rw [decodeLoop, decodeLoopT]
    by_cases hc : i < end_ ∧ pos < bufferLength
    · rw [if_pos hc, if_pos hc]
      cases hb : readByte rleData i with
      | error e => rfl
      | ok c =>
        simp only [bind, Except.bind]
        by_cases h0 : toInt8 c ≥ 0
        · rw [if_pos h0, if_pos h0]
          by_cases h1 : end_ - (i + 1) < toInt8 c + 1
          · rw [if_pos h1, if_pos h1]; rfl
          · rw [if_neg h1, if_neg h1]
            by_cases h2 : pos + (toInt8 c + 1 - 1) * sampleOffset ≥ bufferLength
            · rw [if_pos h2, if_pos h2]; rfl
            · rw [if_neg h2, if_neg h2]
              by_cases hs : sampleOffset = 1
              · rw [if_pos hs, if_pos hs]
                rw [memcpyLog_eq_trace]
                unfold Trace.toExcept
                cases hm : (memcpyLogT rleData (toInt8 c + 1).toNat (i + 1) pos).2 with
                | some e => rfl
                | none =>
                  simp only [pure, Except.pure]
                  by_cases hg : i + 1 + (toInt8 c + 1) + 1 ≥ end_
                  · rw [if_pos hg, if_pos hg]
                  · rw [if_neg hg, if_neg hg, ih]
                    unfold Trace.toExcept
                    cases (decodeLoopT rleData bufferLength sampleOffset end_ fuel
                      (i + 1 + (toInt8 c + 1)) (pos + (toInt8 c + 1))).2 with
                    | none => rfl
                    | some e => rfl
              · rw [if_neg hs, if_neg hs]
                rw [literalLoop_eq_trace]
                cases hl : (literalLoopT rleData sampleOffset (toInt8 c + 1).toNat (i + 1) pos).2 with
                | error e => rfl
                | ok next =>
                  simp only []
                  by_cases hg : next.1 + 1 ≥ end_
                  · rw [if_pos hg, if_pos hg]; rfl
                  · rw [if_neg hg, if_neg hg, ih]
                    unfold Trace.toExcept
                    cases (decodeLoopT rleData bufferLength sampleOffset end_ fuel
                      next.1 next.2).2 with
                    | none => rfl
                    | some e => rfl
        · rw [if_neg h0, if_neg h0]
          by_cases h127 : toInt8 c ≥ -127
          · rw [if_pos h127, if_pos h127]
            by_cases h2 : pos + (-toInt8 c - 1) * sampleOffset ≥ bufferLength
            · rw [if_pos h2, if_pos h2]; rfl
            · rw [if_neg h2, if_neg h2]
              cases hb2 : readByte rleData (i + 1) with
              | error e => rfl
              | ok b =>
                simp only []
                by_cases hg : i + 1 + 1 + 1 ≥ end_
                · rw [if_pos hg, if_pos hg]; rfl
                · rw [if_neg hg, if_neg hg, ih]
                  unfold Trace.toExcept
                  cases (decodeLoopT rleData bufferLength sampleOffset end_ fuel (i + 1 + 1)
                    (if sampleOffset = 1 then repeatLoop b 1 (-toInt8 c + 1).toNat pos
                     else repeatLoop b sampleOffset (-toInt8 c + 1).toNat pos).2).2 with
                  | none => rfl
                  | some e => rfl
          · rw [if_neg h127, if_neg h127]
            by_cases hg : i + 1 + 1 ≥ end_
            · rw [if_pos hg, if_pos hg]; rfl
            · rw [if_neg hg, if_neg hg, ih]
    · rw [if_neg hc, if_neg hc]; rfl

end RleDecoder

theorem store_eq_storeT : ∀ (w : WriteLog) (buffer : List Nat),
    store buffer w =
      match (storeT buffer w).2 with
      | none => .ok (storeT buffer w).1
      | some e => .error e
  | [], buffer => rfl
  | (pos, b) :: ws, buffer => by
    unfold store storeT
    by_cases h : 0 ≤ pos ∧ pos < buffer.length
    · rw [if_pos h, if_pos h]
      exact store_eq_storeT ws _
    · rw [if_neg h, if_neg h]

/-- The faults of `storeT` are faults of memory. -/
theorem storeT_error : ∀ (w : WriteLog) (buffer : List Nat) (e : CodecsError),
    (storeT buffer w).2 = some e → e = .memoryFault
  | [], buffer, e, h => by cases h
  | (pos, b) :: ws, buffer, e, h => by
    unfold storeT at h
    by_cases hc : 0 ≤ pos ∧ pos < buffer.length
    · rw [if_pos hc] at h
      exact storeT_error ws _ e h
    · rw [if_neg hc] at h
      cases h
      rfl

theorem length_storeT : ∀ (w : WriteLog) (buffer : List Nat),
    (storeT buffer w).1.length = buffer.length
  | [], buffer => rfl
  | (pos, b) :: ws, buffer => by
    unfold storeT
    by_cases hc : 0 ≤ pos ∧ pos < buffer.length
    · rw [if_pos hc, length_storeT ws, List.length_set]
    · rw [if_neg hc]

namespace RleDecoder

theorem DecodeLog_eq_trace (size start sampleOffset : Int) (rleData : List Nat)
    (offset count : Int) :
    DecodeLog size start sampleOffset rleData offset count =
      (DecodeTrace size start sampleOffset rleData offset count).toExcept :=
  decodeLoop_eq_trace _ _ _ _ _ _ _

theorem DecodeSegmentLog_eq_trace (d : RleDecoder) (segment size start sampleOffset : Int) :
    d.DecodeSegmentLog segment size start sampleOffset =
      (d.DecodeSegmentTrace segment size start sampleOffset).toExcept := by
  unfold DecodeSegmentLog DecodeSegmentTrace
  by_cases h : segment < 0 ∨ segment ≥ d.segmentCount_
  · rw [if_pos h, if_pos h]; rfl
  · rw [if_neg h, if_neg h]
    cases d.GetSegmentOffset segment with
    | error e => rfl
    | ok offset =>
      cases d.GetSegmentLength segment with
      | error e => rfl
      | ok length => exact DecodeLog_eq_trace _ _ _ _ _ _

end RleDecoder

theorem readByte_error (data : List Nat) (i : Int) (e : CodecsError)
    (h : readByte data i = .error e) : e = .memoryFault := by
  unfold readByte at h
  split at h
  · cases h
  · cases h; rfl

namespace RleDecoder

theorem literalLoopT_error (rleData : List Nat) (sampleOffset : Int) :
    ∀ (n : Nat) (i pos : Int) (e : CodecsError),
      (literalLoopT rleData sampleOffset n i pos).2 = .error e → e = .memoryFault
  | 0, i, pos, e, h => by cases h
  | n + 1, i, pos, e, h => by
    unfold literalLoopT at h
    cases hb : readByte rleData i with
    | error e' =>
      rw [hb] at h
      cases h
      exact readByte_error _ _ _ hb
    | ok b =>
      rw [hb] at h
      exact literalLoopT_error rleData sampleOffset n _ _ e h

theorem memcpyLogT_error (rleData : List Nat) :
    ∀ (n : Nat) (i pos : Int) (e : CodecsError),
      (memcpyLogT rleData n i pos).2 = some e → e = .memoryFault
  | 0, i, pos, e, h => by cases h
  | n + 1, i, pos, e, h => by
    unfold memcpyLogT at h
    cases hb : readByte rleData i with
    | error e' =>
      rw [hb] at h
      cases h
      exact readByte_error _ _ _ hb
    | ok b =>
      rw [hb] at h
      exact memcpyLogT_error rleData n _ _ e h

/-- The exceptions of the loop of `Decode`: the two overflows, and the faults
of the model. -/
theorem decodeLoopT_error (rleData : List Nat) (bufferLength sampleOffset end_ : Int) :
    ∀ (fuel : Nat) (i pos : Int) (e : CodecsError),
      (decodeLoopT rleData bufferLength sampleOffset end_ fuel i pos).2 = some e →
      e = .inputOverflow ∨ e = .outputOverflow ∨ e = .memoryFault ∨ e = .outOfFuel := by
  intro fuel
  induction fuel with
  | zero =>
    intro i pos e h
    rw [decodeLoopT] at h
    by_cases hc : i < end_ ∧ pos < bufferLength
    · rw [if_pos hc] at h
      cases h
      exact Or.inr (Or.inr (Or.inr rfl))
    · rw [if_neg hc] at h
      cases h
  | succ fuel ih =>
    intro i pos e h
    rw [decodeLoopT] at h
    by_cases hc : i < end_ ∧ pos < bufferLength
    · rw [if_pos hc] at h
      cases hb : readByte rleData i with
      | error e' =>
        rw [hb] at h
        cases h
        exact Or.inr (Or.inr (Or.inl (readByte_error _ _ _ hb)))
      | ok c =>
        rw [hb] at h
        simp only [] at h
        by_cases h0 : toInt8 c ≥ 0
        · rw [if_pos h0] at h
          by_cases h1 : end_ - (i + 1) < toInt8 c + 1
          · rw [if_pos h1] at h
            cases h
            exact Or.inl rfl
          · rw [if_neg h1] at h
            by_cases h2 : pos + (toInt8 c + 1 - 1) * sampleOffset ≥ bufferLength
            · rw [if_pos h2] at h
              cases h
              exact Or.inr (Or.inl rfl)
            · rw [if_neg h2] at h
              by_cases hs : sampleOffset = 1
              · rw [if_pos hs] at h
                cases hm : (memcpyLogT rleData (toInt8 c + 1).toNat (i + 1) pos).2 with
                | some e' =>
                  simp only [hm] at h
                  cases h
                  exact Or.inr (Or.inr (Or.inl (memcpyLogT_error _ _ _ _ _ hm)))
                | none =>
                  simp only [hm] at h
                  by_cases hg : i + 1 + (toInt8 c + 1) + 1 ≥ end_
                  · rw [if_pos hg] at h
                    cases h
                  · rw [if_neg hg] at h
                    exact ih _ _ e h
              · rw [if_neg hs] at h
                cases hl : (literalLoopT rleData sampleOffset (toInt8 c + 1).toNat (i + 1) pos).2 with
                | error e' =>
                  simp only [hl] at h
                  cases h
                  exact Or.inr (Or.inr (Or.inl (literalLoopT_error _ _ _ _ _ _ hl)))
                | ok next =>
                  simp only [hl] at h
                  by_cases hg : next.1 + 1 ≥ end_
                  · rw [if_pos hg] at h
                    cases h
                  · rw [if_neg hg] at h
                    exact ih _ _ e h
        · rw [if_neg h0] at h
          by_cases h127 : toInt8 c ≥ -127
          · rw [if_pos h127] at h
            by_cases h2 : pos + (-toInt8 c - 1) * sampleOffset ≥ bufferLength
            · rw [if_pos h2] at h
              cases h
              exact Or.inr (Or.inl rfl)
            · rw [if_neg h2] at h
              cases hb2 : readByte rleData (i + 1) with
              | error e' =>
                rw [hb2] at h
                cases h
                exact Or.inr (Or.inr (Or.inl (readByte_error _ _ _ hb2)))
              | ok b =>
                rw [hb2] at h
                simp only [] at h
                by_cases hg : i + 1 + 1 + 1 ≥ end_
                · rw [if_pos hg] at h
                  cases h
                · rw [if_neg hg] at h
                  exact ih _ _ e h
          · rw [if_neg h127] at h
            by_cases hg : i + 1 + 1 ≥ end_
            · rw [if_pos hg] at h
              cases h
            · rw [if_neg hg] at h
              exact ih _ _ e h
    · rw [if_neg hc] at h
      cases h

end RleDecoder

/-- The first run of a stream of well-formed runs is determined by the bytes. -/
theorem Run.bytes_append_inj (r1 r2 : Run) (t1 t2 : List Nat) (h1 : r1.wf) (h2 : r2.wf)
    (h : r1.bytes ++ t1 = r2.bytes ++ t2) : r1 = r2 ∧ t1 = t2 := by
  cases r1 with
  | literal bs1 =>
    cases r2 with
    | literal bs2 =>
      simp only [Run.bytes, List.cons_append, List.cons.injEq] at h
      simp only [Run.wf] at h1 h2
      obtain ⟨h3, h4⟩ := List.append_inj h.2 (by omega)
      exact ⟨by rw [h3], h4⟩
    | repeated n b =>
      simp only [Run.bytes, List.cons_append, List.cons.injEq] at h
      simp only [Run.wf] at h1 h2
      omega
    | noop =>
      simp only [Run.bytes, List.cons_append, List.cons.injEq] at h
      simp only [Run.wf] at h1
      omega
  | repeated n1 b1 =>
    cases r2 with
    | literal bs2 =>
      simp only [Run.bytes, List.cons_append, List.cons.injEq] at h
      simp only [Run.wf] at h1 h2
      omega
    | repeated n2 b2 =>
      simp only [Run.bytes, List.cons_append, List.cons.injEq, List.nil_append] at h
      simp only [Run.wf] at h1 h2
      obtain ⟨h3, h4, h5⟩ := h
      have : n1 = n2 := by omega
      subst this
      subst h4
      exact ⟨rfl, h5⟩
    | noop =>
      simp only [Run.bytes, List.cons_append, List.cons.injEq] at h
      simp only [Run.wf] at h1
      omega
  | noop =>
    cases r2 with
    | literal bs2 =>
      simp only [Run.bytes, List.cons_append, List.cons.injEq] at h
      simp only [Run.wf] at h2
      omega
    | repeated n2 b2 =>
      simp only [Run.bytes, List.cons_append, List.cons.injEq] at h
      simp only [Run.wf] at h2
      omega
    | noop =>
      simp only [Run.bytes, List.cons_append, List.cons.injEq, List.nil_append, true_and] at h
      exact ⟨rfl, h⟩

/-- A stream of bytes has at most one reading as well-formed runs. -/
theorem encodeRuns_inj : ∀ (rs ts : List Run), (∀ r ∈ rs, r.wf) → (∀ r ∈ ts, r.wf) →
    encodeRuns rs = encodeRuns ts → rs = ts := by
  intro rs
  induction rs with
  | nil =>
    intro ts _ _ h
    exact (encodeRuns_eq_nil ts h.symm).symm
  | cons r rs ih =>
    intro ts h1 h2 h
    cases ts with
    | nil => exact encodeRuns_eq_nil _ h
    | cons t ts =>
      rw [encodeRuns_cons, encodeRuns_cons] at h
      obtain ⟨h3, h4⟩ := Run.bytes_append_inj r t _ _ (h1 r (List.mem_cons_self _ _))
        (h2 t (List.mem_cons_self _ _)) h
      rw [h3, ih ts (fun x hx => h1 x (List.mem_cons_of_mem _ hx))
        (fun x hx => h2 x (List.mem_cons_of_mem _ hx)) h4]

namespace RleEncoder

/-- The literal flush loop writes literal runs only. -/
theorem flushLiterals_literal (limit : Int) (hl : 0 ≤ limit) (fuel : Nat) :
    ∀ e : RleEncoder, 0 ≤ e.bufferPos_ → e.bufferPos_ ≤ e.buffer_.length →
      ∃ runs : List Run, (∀ r ∈ runs, r.wf ∧ ∃ bs, r = Run.literal bs) ∧
        (flushLiterals limit fuel e).writer_ = e.writer_ ++ encodeRuns runs ∧
        expandRuns runs ++ (flushLiterals limit fuel e).pending = e.pending := by
  induction fuel with
  | zero =>
    intro e _ _
    rw [flushLiterals_zero]
    exact ⟨[], by simp, by simp [encodeRuns], by simp [expandRuns]⟩
  | succ fuel ih =>
    intro e h0 hb
    by_cases hgt : e.bufferPos_ > limit
    · rw [flushLiterals_succ_pos _ _ _ hgt]
      have hc1 : 0 < min 128 e.bufferPos_ := by omega
      have hc2 : min 128 e.bufferPos_ ≤ e.bufferPos_ := by omega
      obtain ⟨hw, hp, hbp, hlen, _, _, _, _⟩ :=
        MoveBuffer_spec (e.WriteByte (toUInt8 (min 128 e.bufferPos_ - 1)))
          (min 128 e.bufferPos_) hc1 hc2 hb
      generalize hm : (e.WriteByte (toUInt8 (min 128 e.bufferPos_ - 1))).MoveBuffer
        (min 128 e.bufferPos_) = e2 at hw hp hbp hlen
      have hbp' : e2.bufferPos_ = e.bufferPos_ - min 128 e.bufferPos_ := hbp
      obtain ⟨runs, hwf, hw2, hex⟩ :=
        ih e2 (by omega) (by rw [hlen]; exact le_trans (by omega) hb)
      have hpl := length_pending e h0 hb
      have htl : ((e.pending.take (min 128 e.bufferPos_).toNat).length : Int) =
          min 128 e.bufferPos_ := by
        rw [List.length_take]; omega
      refine ⟨Run.literal (e.pending.take (min 128 e.bufferPos_).toNat) :: runs, ?_, ?_, ?_⟩
      · intro r hr
        rcases List.mem_cons.mp hr with h | h
        · subst h
          refine ⟨?_, _, rfl⟩
          simp only [Run.wf]
          omega
        · exact hwf r h
      · rw [hw2, hw, encodeRuns_cons]
        have e1 : toUInt8 (min 128 e.bufferPos_ - 1) =
            (e.pending.take (min 128 e.bufferPos_).toNat).length - 1 := by
          rw [toUInt8_of_lt _ (by omega) (by omega)]
          omega
        simp only [WriteByte, Run.bytes, e1, List.append_assoc, List.singleton_append,
          List.cons_append]
        rfl
      · rw [expandRuns_cons, List.append_assoc, hex]
        show _ ++ e2.pending = _
        have : e2.pending = e.pending.drop (min 128 e.bufferPos_).toNat := hp
        rw [this]
        exact List.take_append_drop _ _
    · rw [flushLiterals_succ_neg _ _ _ hgt]
      exact ⟨[], by simp, by simp [encodeRuns], by simp [expandRuns]⟩

end RleEncoder

namespace RleEncoder

/-- The `switch` of `Encode` writes a repeat run only for a run of three or
more. -/
theorem closeRun_long (e : RleEncoder) (hr0 : 0 ≤ e.repeatCount_) (hr128 : e.repeatCount_ ≤ 128)
    (e1 : RleEncoder)
    (he1 : e1 = if e.repeatCount_ = 0 then e
      else if e.repeatCount_ = 1 then e.pushPrev
      else if e.repeatCount_ = 2 then e.pushPrev.pushPrev
      else flushRepeats e.repeatCount_.toNat e) :
    ∃ runs : List Run, (∀ r ∈ runs, r.wf) ∧ (∀ n c, Run.repeated n c ∈ runs → 2 ≤ n) ∧
      e1.writer_ = e.writer_ ++ encodeRuns runs := by
  by_cases c0 : e.repeatCount_ = 0
  · rw [if_pos c0] at he1
    subst he1
    exact ⟨[], by simp, by simp, by simp [encodeRuns]⟩
  · rw [if_neg c0] at he1
    by_cases c1 : e.repeatCount_ = 1
    · rw [if_pos c1] at he1
      subst he1
      exact ⟨[], by simp, by simp, by simp [encodeRuns, pushPrev]⟩
    · rw [if_neg c1] at he1
      by_cases c2 : e.repeatCount_ = 2
      · rw [if_pos c2] at he1
        subst he1
        exact ⟨[], by simp, by simp, by simp [encodeRuns, pushPrev]⟩
      · rw [if_neg c2] at he1
        rw [flushRepeats_once _ e (by omega) hr128 (by omega)] at he1
        subst he1
        obtain ⟨p1, _⟩ := emitRepeat_spec e (by omega)
        have hmin : min e.repeatCount_ 128 = e.repeatCount_ := by omega
        refine ⟨[Run.repeated (e.repeatCount_.toNat - 1) (toUInt8 e.prevByte_)], ?_, ?_, ?_⟩
        · intro r hr
          simp only [List.mem_singleton] at hr
          subst hr
          simp only [Run.wf]
          omega
        · intro n c hr
          simp only [List.mem_singleton, Run.repeated.injEq] at hr
          omega
        · rw [p1, hmin]
          simp [encodeRuns]

/-- `Encode` writes well-formed runs, and a repeat run only for three or more
copies. -/
theorem Encode_long (e0 e : RleEncoder) (inp : List Nat) (b : Nat) (h : Inv e0 inp e) :
    ∃ runs : List Run, (∀ r ∈ runs, r.wf) ∧ (∀ n c, Run.repeated n c ∈ runs → 2 ≤ n) ∧
      (e.Encode b).writer_ = e.writer_ ++ encodeRuns runs := by
  obtain ⟨_, hb0, hb128, hr0, hr128, h3, hlen, hprev0, hprev, hoff, hseg⟩ := h
  unfold Encode
  by_cases heq : (b : Int) = e.prevByte_
  · rw [if_pos heq]
    simp only
    by_cases hA : e.repeatCount_ + 1 > 2 ∧ e.bufferPos_ > 0
    · rw [if_pos hA]
      obtain ⟨runs, hl, hw, _⟩ := flushLiterals_literal 0 (le_refl _) e.bufferPos_.toNat
        { e with repeatCount_ := e.repeatCount_ + 1 } hb0
        (by show e.bufferPos_ ≤ (e.buffer_.length : Int); omega)
      refine ⟨runs, fun r hr => (hl r hr).1, fun n c hr => ?_, hw⟩
      obtain ⟨bs, hbs⟩ := (hl _ hr).2
      cases hbs
    · rw [if_neg hA]
      by_cases hB : e.repeatCount_ + 1 > 128
      · rw [if_pos hB]
        obtain ⟨p1, _⟩ := emitRepeat_spec { e with repeatCount_ := e.repeatCount_ + 1 }
          (by show 2 ≤ e.repeatCount_ + 1; omega)
        refine ⟨[Run.repeated 127 (toUInt8 e.prevByte_)], ?_, ?_, ?_⟩
        · intro r hr
          simp only [List.mem_singleton] at hr
          subst hr
          simp [Run.wf]
        · intro n c hr
          simp only [List.mem_singleton, Run.repeated.injEq] at hr
          omega
        · rw [p1]
          show e.writer_ ++ (Run.repeated ((min (e.repeatCount_ + 1) 128).toNat - 1)
            (toUInt8 e.prevByte_)).bytes = _
          have : (min (e.repeatCount_ + 1) 128).toNat - 1 = 127 := by omega
          rw [this]
          simp [encodeRuns]
      · rw [if_neg hB]
        exact ⟨[], by simp, by simp, by simp [encodeRuns]⟩
  · rw [if_neg heq]
    simp only
    obtain ⟨_, c1, c2, c3, _, _⟩ := closeRun_spec e hb0 hb128 hr0 hr128 h3 hlen _ rfl
    obtain ⟨runs1, hwf1, hlong1, hw1⟩ := closeRun_long e hr0 hr128 _ rfl
    generalize (if e.repeatCount_ = 0 then e
      else if e.repeatCount_ = 1 then e.pushPrev
      else if e.repeatCount_ = 2 then e.pushPrev.pushPrev
      else flushRepeats e.repeatCount_.toNat e) = e1 at *
    obtain ⟨runs2, hl2, hw2, _⟩ :=
      flushLiterals_literal 128 (by omega) e1.bufferPos_.toNat e1 c1 (by omega)
    refine ⟨runs1 ++ runs2, ?_, ?_, ?_⟩
    · intro r hr
      rcases List.mem_append.mp hr with h | h
      · exact hwf1 r h
      · exact (hl2 r h).1
    · intro n c hr
      rcases List.mem_append.mp hr with h | h
      · exact hlong1 n c h
      · obtain ⟨bs, hbs⟩ := (hl2 _ h).2
        cases hbs
    · show (flushLiterals 128 e1.bufferPos_.toNat e1).writer_ = _
      rw [hw2, hw1, encodeRuns_append, List.append_assoc]

/-- The bytes of a segment fed to `Encode` keep the invariant and write
well-formed runs, a repeat run only for three or more copies. -/
theorem foldl_Encode_long (e0 : RleEncoder) : ∀ (bs : List Nat) (e : RleEncoder) (inp : List Nat),
    Inv e0 inp e →
    Inv e0 (inp ++ bs) (bs.foldl Encode e) ∧
    ∃ runs : List Run, (∀ r ∈ runs, r.wf) ∧ (∀ n c, Run.repeated n c ∈ runs → 2 ≤ n) ∧
      (bs.foldl Encode e).writer_ = e.writer_ ++ encodeRuns runs := by
  intro bs
  induction bs with
  | nil =>
    intro e inp h
    rw [List.append_nil]
    exact ⟨h, [], by simp, by simp, by simp [encodeRuns]⟩
  | cons b bs ih =>
    intro e inp h
    obtain ⟨runs1, hwf1, hlong1, hw1⟩ := Encode_long e0 e inp b h
    obtain ⟨hinv, runs2, hwf2, hlong2, hw2⟩ := ih (e.Encode b) (inp ++ [b]) (Encode_inv e0 e inp b h)
    rw [List.append_assoc, List.singleton_append] at hinv
    refine ⟨hinv, runs1 ++ runs2, ?_, ?_, ?_⟩
    · intro r hr
      rcases List.mem_append.mp hr with h | h
      · exact hwf1 r h
      · exact hwf2 r h
    · intro n c hr
      rcases List.mem_append.mp hr with h | h
      · exact hlong1 n c h
      · exact hlong2 n c h
    · rw [List.foldl_cons, hw2, hw1, encodeRuns_append, List.append_assoc]

end RleEncoder

namespace RleEncoder

/-- What `Flush` writes: literal runs for the pending bytes, then at most one
repeat run, for the two or more copies the encoder still holds. -/
theorem Flush_tail (e0 e : RleEncoder) (inp : List Nat) (h : Inv e0 inp e) :
    ∃ lits last : List Run, (∀ r ∈ lits, r.wf ∧ ∃ bs, r = Run.literal bs) ∧
      (last = [] ∨ ∃ n c, last = [Run.repeated n c] ∧ 1 ≤ n ∧ n ≤ 127) ∧
      e.Flush.writer_ = e.writer_ ++ encodeRuns (lits ++ last) ∧
      (e.repeatCount_ = 2 →
        last = [Run.repeated 1 (toUInt8 e.prevByte_)] ∧ expandRuns lits = e.pending) := by
  obtain ⟨_, hb0, hb128, hr0, hr128, h3, hlen, hprev0, hprev, hoff, hseg⟩ := h
  by_cases hlt : e.repeatCount_ < 2
  · have hp : ∃ e1 : RleEncoder, pushPending e.repeatCount_.toNat e = e1 ∧
        e1.repeatCount_ = 0 ∧ e1.writer_ = e.writer_ ∧ 0 ≤ e1.bufferPos_ ∧
        e1.bufferPos_ ≤ e1.buffer_.length := by
      rcases lt_or_le 0 e.repeatCount_ with hpos | hneg
      · have h1 : e.repeatCount_.toNat = 1 := by omega
        rw [h1]
        obtain ⟨p1, p2, p3, p4, _⟩ := pushPrev_spec e hb0 (by omega)
        refine ⟨_, rfl, ?_, ?_, ?_, ?_⟩
        · simp only [pushPending, if_pos hpos]; omega
        · simp only [pushPending, if_pos hpos]; exact p4
        · simp only [pushPending, if_pos hpos]; omega
        · simp only [pushPending, if_pos hpos]; omega
      · have h0 : e.repeatCount_.toNat = 0 := by omega
        rw [h0]
        exact ⟨e, rfl, by omega, rfl, hb0, by omega⟩
    obtain ⟨e1, he1, q2, q3, q4, q5⟩ := hp
    obtain ⟨_, _, _, _, _, _, _, i7, _⟩ :=
      flushLiterals_spec 0 (le_refl _) e1.bufferPos_.toNat e1 q4 q5 (by omega)
    obtain ⟨lits, hl, hw, _⟩ := flushLiterals_literal 0 (le_refl _) e1.bufferPos_.toNat e1 q4 q5
    have hF : e.Flush.writer_ = (flushLiterals 0 e1.bufferPos_.toNat e1).writer_ := by
      unfold Flush
      simp only [if_pos hlt, he1]
      rw [if_neg (by rw [i7, q2]; omega)]
    refine ⟨lits, [], hl, Or.inl rfl, ?_, fun h2 => by omega⟩
    rw [hF, hw, q3, List.append_nil]
  · obtain ⟨_, _, i2, _, _, _, _, i7, i8, _⟩ :=
      flushLiterals_spec 0 (le_refl _) e.bufferPos_.toNat e hb0 (by omega) (by omega)
    obtain ⟨lits, hl, hw, hex⟩ :=
      flushLiterals_literal 0 (le_refl _) e.bufferPos_.toNat e hb0 (by omega)
    have hF : e.Flush.writer_ = (flushLiterals 0 e.bufferPos_.toNat e).emitRepeat.writer_ := by
      unfold Flush
      simp only [if_neg hlt]
      rw [if_pos (by rw [i7]; omega), flushRepeats_once _ _ (by rw [i7]; omega)
        (by rw [i7]; omega) (by rw [i7]; omega)]
    generalize flushLiterals 0 e.bufferPos_.toNat e = e2 at *
    have hbp : e2.bufferPos_ = 0 := by
      have : (0 : Int) ⊔ 0 = 0 := by simp
      omega
    have hpn : e2.pending = [] := by simp [pending, hbp]
    obtain ⟨p1, _⟩ := emitRepeat_spec e2 (by omega)
    have hmin : (min e2.repeatCount_ 128).toNat - 1 = e.repeatCount_.toNat - 1 := by
      rw [i7]; omega
    refine ⟨lits, [Run.repeated (e.repeatCount_.toNat - 1) (toUInt8 e.prevByte_)], hl,
      Or.inr ⟨_, _, rfl, by omega, by omega⟩, ?_, fun h2 => ⟨?_, ?_⟩⟩
    · rw [hF, p1, hw, hmin, i8, encodeRuns_append]
      simp [encodeRuns]
    · rw [h2]
      rfl
    · rw [← hex, hpn, List.append_nil]

/-- When the byte changes after a run of two, `Encode` moves the two copies to
the literal buffer and writes literal runs only. -/
theorem Encode_pair (e0 e : RleEncoder) (inp : List Nat) (b : Nat) (h : Inv e0 inp e)
    (h2 : e.repeatCount_ = 2) (hne : (b : Int) ≠ e.prevByte_) :
    ∃ lits : List Run, (∀ r ∈ lits, r.wf ∧ ∃ bs, r = Run.literal bs) ∧
      (e.Encode b).writer_ = e.writer_ ++ encodeRuns lits ∧
      expandRuns lits ++ (e.Encode b).pending =
        e.pending ++ [toUInt8 e.prevByte_, toUInt8 e.prevByte_] ∧
      (e.Encode b).repeatCount_ = 1 ∧ (e.Encode b).prevByte_ = b := by
  obtain ⟨_, hb0, hb128, hr0, hr128, h3, hlen, hprev0, hprev, hoff, hseg⟩ := h
  unfold Encode
  rw [if_neg hne]
  simp only
  rw [if_neg (by omega), if_neg (by omega), if_pos h2]
  obtain ⟨p1, p2, p3, p4, p5, p6, _, _⟩ := pushPrev_spec e hb0 (by omega)
  obtain ⟨q1, q2, q3, q4, _, _, _, _⟩ := pushPrev_spec e.pushPrev (by omega) (by omega)
  obtain ⟨lits, hl, hw, hex⟩ := flushLiterals_literal 128 (by omega)
    e.pushPrev.pushPrev.bufferPos_.toNat e.pushPrev.pushPrev (by omega) (by omega)
  refine ⟨lits, hl, ?_, ?_, trivial, trivial⟩
  · show (flushLiterals 128 _ e.pushPrev.pushPrev).writer_ = _
    rw [hw, q4, p4]
  · show expandRuns lits ++ (flushLiterals 128 _ e.pushPrev.pushPrev).pending = _
    rw [hex]
    unfold pending
    rw [q1, p1, p6, List.append_assoc]
    rfl

end RleEncoder

theorem nestedFold_eq_setAll (idx val : Nat → Nat → Nat) (S : Nat) (l : List Nat)
    (buffer : List Nat) :
    l.foldl (fun b n => (List.range S).foldl (fun b s => b.set (idx n s) (val n s)) b) buffer =
      setAll buffer (l.flatMap (fun n => (List.range S).map (fun s => (idx n s, val n s)))) := by
  induction l generalizing buffer with
  | nil => rfl
  | cons n l ih =>
    rw [List.foldl_cons, ih, List.flatMap_cons, setAll_append]
    congr 1
    simp [setAll, List.foldl_map]

/-- The two loop nests of `ChangePlanarConfiguration`, characterised bytewise:
when the stored value is a function `x` of the stored index, slot `idx n s`
holds `x (idx n s)` afterwards. -/
theorem nestedFold_getD (idx val : Nat → Nat → Nat) (x : Nat → Nat) (P S : Nat)
    (buffer : List Nat) (hx : ∀ n s, n < P → s < S → val n s = x (idx n s))
    (n s : Nat) (hn : n < P) (hs : s < S) (hb : idx n s < buffer.length) :
    ((List.range P).foldl (fun b n => (List.range S).foldl
      (fun b s => b.set (idx n s) (val n s)) b) buffer).getD (idx n s) 0 = val n s := by
  rw [nestedFold_eq_setAll, List.getD_eq_getElem?_getD, getElem?_setAll x]
  · have hm : idx n s ∈ List.map Prod.fst
        ((List.range P).flatMap (fun n => (List.range S).map (fun s => (idx n s, val n s)))) := by
      simp only [List.mem_map, List.mem_flatMap, List.mem_range]
      exact ⟨(idx n s, val n s), ⟨n, hn, s, hs, rfl⟩, rfl⟩
    simp [hm, hb, hx n s hn hs]
  · intro w hw
    simp only [List.mem_map, List.mem_flatMap, List.mem_range] at hw
    obtain ⟨n', hn', s', hs', rfl⟩ := hw
    exact hx n' s' hn' hs'

theorem length_nestedFold (idx val : Nat → Nat → Nat) (P S : Nat) (buffer : List Nat) :
    ((List.range P).foldl (fun b n => (List.range S).foldl
      (fun b s => b.set (idx n s) (val n s)) b) buffer).length = buffer.length := by
  rw [nestedFold_eq_setAll, length_setAll]

theorem idx_lt_mul (P S n s : Nat) (hn : n < P) (hs : s < S) : n * S + s < P * S := by
  have : (n + 1) * S ≤ P * S := Nat.mul_le_mul_right S hn
  rw [Nat.add_mul] at this
  omega

theorem idx_lt_mul2 (P S n s : Nat) (hn : n < P) (hs : s < S) : n + P * s < P * S := by
  have : P * (s + 1) ≤ P * S := Nat.mul_le_mul_left P hs
  rw [Nat.mul_add] at this
  omega

/-- C10. For 8-bit samples and `numValues = P * SPP`, `ChangePlanarConfiguration`
with the old configuration planar leaves `result[n * SPP + s] = src[n + P * s]`
for every pixel `n < P` and sample `s < SPP`; with the old configuration
interleaved it leaves `result[n + P * s] = src[n * SPP + s]`; and the
interleaved buffer R0 G0 B0 R1 G1 B1 becomes R0 R1 G0 G1 B0 B1. -/
theorem ChangePlanarConfiguration_transposes (pixelData : List Nat) (P SPP : Nat)
    (hS : 0 < SPP) (hlen : pixelData.length = P * SPP) :
    (∃ r, ChangePlanarConfiguration pixelData (P * SPP) 8 SPP Planar = .ok r ∧
      r.length = P * SPP ∧
      ∀ n s, n < P → s < SPP → r.getD (n * SPP + s) 0 = pixelData.getD (n + P * s) 0) ∧
    (∃ r, ChangePlanarConfiguration pixelData (P * SPP) 8 SPP Interleaved = .ok r ∧
      r.length = P * SPP ∧
      ∀ n s, n < P → s < SPP → r.getD (n + P * s) 0 = pixelData.getD (n * SPP + s) 0) ∧
    (∀ R0 G0 B0 R1 G1 B1 : Nat,
      ChangePlanarConfiguration [R0, G0, B0, R1, G1, B1] 6 8 3 Interleaved =
        .ok [R0, R1, G0, G1, B0, B1]) := by
  have hne : SPP ≠ 0 := by omega
  have hdiv : P * SPP / SPP = P := Nat.mul_div_cancel P hS
  have hdrop : pixelData.drop (P * SPP) = [] := by
    rw [List.drop_eq_nil_iff]; omega
  have h1 : ChangePlanarConfiguration pixelData (P * SPP) 8 SPP Planar =
      .ok ((List.range P).foldl (fun b n => (List.range SPP).foldl (fun b s =>
        b.set (n * SPP + s) (pixelData.getD (n + P * s) 0)) b) (List.replicate (P * SPP) 0)) := by
    simp only [ChangePlanarConfiguration, hne, hdiv, if_false, if_true, hlen, le_refl,
      hdrop, List.append_nil]
  have h2 : ChangePlanarConfiguration pixelData (P * SPP) 8 SPP Interleaved =
      .ok ((List.range P).foldl (fun b n => (List.range SPP).foldl (fun b s =>
        b.set (n + P * s) (pixelData.getD (n * SPP + s) 0)) b) (List.replicate (P * SPP) 0)) := by
    simp only [ChangePlanarConfiguration, hne, hdiv, if_false, if_true, hlen, le_refl,
      hdrop, List.append_nil, Interleaved, Planar]
    rfl
  refine ⟨?_, ?_, ?_⟩
  · refine ⟨_, h1, ?_, ?_⟩
    · rw [length_nestedFold, List.length_replicate]
    · intro n s hn hs
      have hb : n * SPP + s < (List.replicate (P * SPP) 0).length := by
        rw [List.length_replicate]; exact idx_lt_mul P SPP n s hn hs
      refine nestedFold_getD (fun n s => n * SPP + s) (fun n s => pixelData.getD (n + P * s) 0)
        (fun j => pixelData.getD (j / SPP + P * (j % SPP)) 0) P SPP _ ?_ n s hn hs hb
      intro n' s' _ hs'
      have h1 : (n' * SPP + s') / SPP = n' := by
        rw [Nat.add_comm, Nat.add_mul_div_right _ _ hS, Nat.div_eq_of_lt hs', Nat.zero_add]
      have h2 : (n' * SPP + s') % SPP = s' := by
        rw [Nat.add_comm, Nat.add_mul_mod_self_right, Nat.mod_eq_of_lt hs']
      simp only [h1, h2]
  · refine ⟨_, h2, ?_, ?_⟩
    · rw [length_nestedFold, List.length_replicate]
    · intro n s hn hs
      have hb : n + P * s < (List.replicate (P * SPP) 0).length := by
        rw [List.length_replicate]; exact idx_lt_mul2 P SPP n s hn hs
      refine nestedFold_getD (fun n s => n + P * s) (fun n s => pixelData.getD (n * SPP + s) 0)
        (fun j => pixelData.getD (j % P * SPP + j / P) 0) P SPP _ ?_ n s hn hs hb
      intro n' s' hn' _
      have hP : 0 < P := by omega
      have h1 : (n' + P * s') / P = s' := by
        rw [Nat.add_mul_div_left _ _ hP, Nat.div_eq_of_lt hn', Nat.zero_add]
      have h2 : (n' + P * s') % P = n' := by
        rw [Nat.add_mul_mod_self_left, Nat.mod_eq_of_lt hn']
      simp only [h1, h2]
  · intro R0 G0 B0 R1 G1 B1
    rfl

theorem ChangePlanarConfiguration_transposes_witness :
    (∃ r, ChangePlanarConfiguration [10, 11, 20, 21, 30, 31] (2 * 3) 8 3 Planar = .ok r ∧
      r.length = 2 * 3 ∧
      ∀ n s, n < 2 → s < 3 →
        r.getD (n * 3 + s) 0 = [10, 11, 20, 21, 30, 31].getD (n + 2 * s) 0) :=
  (ChangePlanarConfiguration_transposes [10, 11, 20, 21, 30, 31] 2 3 (by decide) (by decide)).1

theorem decodeLoop_truncated (pre rest data : List Nat) (c : Nat) (size stride end_ i pos : Int)
    (fuel : Nat) (hd : data = pre ++ c :: rest) (hi : i = pre.length) (hc : c < 128)
    (hend : (pre.length : Int) < end_) (hpos : pos < size)
    (htr : end_ - ((pre.length : Int) + 1) < (c : Int) + 1) :
    RleDecoder.decodeLoop data size stride end_ (fuel + 1) i pos = .error .inputOverflow := by
  subst hd hi
  rw [RleDecoder.decodeLoop]
  have hi : (pre.length : Int) < end_ ∧ pos < size := ⟨hend, hpos⟩
  have hr := readByte_mid pre (c :: rest) [] 0 (by simp)
  simp only [Nat.cast_zero, add_zero, List.getD_cons_zero, List.append_nil] at hr
  simp only [if_pos hi, bind, Except.bind, hr, toInt8_of_lt c hc]
  rw [if_pos (by omega), if_pos htr]

theorem length_le_length_encodeRuns (runs : List Run) : runs.length ≤ (encodeRuns runs).length := by
  induction runs with
  | nil => simp
  | cons r rs ih =>
    rw [encodeRuns_cons, List.length_append, List.length_cons]
    have := r.one_le_length_bytes
    omega

/-- C5. For every segment that consists only of complete well-formed runs whose
expansion stays below the sink size, `RleDecoder::Decode` stores exactly the
reference expansion of the runs, in order, at the positions `start`,
`start + stride`, `start + 2 * stride`, and so on: the `k`-th store puts the
`k`-th byte of the expansion at `start + k * stride`. -/
theorem Decode_writes_expansion (runs : List Run) (pre post : List Nat)
    (size start stride : Int) (hwf : ∀ r ∈ runs, r.wf)
    (hfit : ∀ k : Nat, k < (expandRuns runs).length → start + k * stride < size) :
    ∃ w, RleDecoder.DecodeLog size start stride (pre ++ encodeRuns runs ++ post) pre.length
        (encodeRuns runs).length = .ok w ∧
      w.length = (expandRuns runs).length ∧
      ∀ k : Nat, k < (expandRuns runs).length →
        w[k]? = some (start + k * stride, (expandRuns runs).getD k 0) := by
  refine ⟨strided start stride (expandRuns runs), ?_, length_strided _ _ _, ?_⟩
  · unfold RleDecoder.DecodeLog
    exact decodeLoop_runs size stride [] post (by simp) runs pre _ _ _ start _ (by simp)
      (by simp) rfl hwf hfit (by simp) (Or.inr rfl)
  · intro k hk
    exact getElem?_strided stride _ start k hk

theorem Decode_writes_expansion_witness :
    ∃ w, RleDecoder.DecodeLog 10 0 2
        ([9] ++ encodeRuns [Run.literal [1, 2], Run.repeated 2 7, Run.noop] ++ [])
        ([9] : List Nat).length
        (encodeRuns [Run.literal [1, 2], Run.repeated 2 7, Run.noop]).length = .ok w ∧
      w.length = (expandRuns [Run.literal [1, 2], Run.repeated 2 7, Run.noop]).length ∧
      ∀ k : Nat, k < (expandRuns [Run.literal [1, 2], Run.repeated 2 7, Run.noop]).length →
        w[k]? = some ((0 : Int) + k * 2,
          (expandRuns [Run.literal [1, 2], Run.repeated 2 7, Run.noop]).getD k 0) :=
  Decode_writes_expansion [Run.literal [1, 2], Run.repeated 2 7, Run.noop] [9] [] 10 0 2
    (by decide)
    (by
      intro k hk
      simp [expandRuns, Run.expand] at hk
      omega)

/-- C7 (the code at the failing input). With a sink of one byte, the two-byte
segment `FF 42`, a repeat run of two bytes, passes the overflow check of
`RleDecoder::Decode`: no exception is thrown and the second byte is stored at
position 1, past the end of the sink. On a real one-byte buffer that store is
out of bounds, also when reached through `DecodeRle`. -/
theorem Decode_repeat_run_overruns_sink :
    RleDecoder.DecodeLog 1 0 1 [255, 66] 0 2 = .ok [(0, 66), (1, 66)] ∧
    RleDecoder.Decode [0] 1 0 1 [255, 66] 0 2 = .error .memoryFault ∧
    DecodeRle (fun _ => 0)
      { Columns := 1, Rows := 1, BitsAllocated := 8, BitsStored := 8, SamplesPerPixel := 1,
        PixelRepresentation := 0, PlanarConfiguration := 0, PhotometricInterpretation := 0,
        EncodedBuffer := [1, 0, 0, 0, 64, 0, 0, 0] ++ List.replicate 56 0 ++ [255, 66],
        DecodedBuffer := [] } = .error .memoryFault := by
  refine ⟨by rfl, by rfl, by rfl⟩

/-- C8 (counterexample). In the segment `00 41 05` the literal control byte `05`
has no byte after it, and the sink of ten bytes is not full, yet decoding
succeeds: the guard `(i + 1) >= end` ends the loop before that byte is read. -/
theorem Decode_trailing_literal_control_ignored :
    RleDecoder.DecodeLog 10 0 1 [0, 65, 5] 0 3 = .ok [(0, 65)] ∧
    RleDecoder.DecodeLog 10 0 1 [0, 65, 5] 0 3 ≠ .error .inputOverflow := by
  refine ⟨by rfl, by decide⟩

/-- C8 (amended). When well-formed complete runs whose expansion leaves the sink
not full are followed by a literal control byte `c ≥ 0` with fewer than `c + 1`
bytes remaining after it in the segment, decoding fails with `inputOverflow`,
provided the control byte is the first byte of the segment or at least one byte
of the segment follows it. -/
theorem Decode_truncated_literal (runs : List Run) (pre rest post : List Nat) (c : Nat)
    (size start stride : Int) (hwf : ∀ r ∈ runs, r.wf) (hc : c < 128)
    (hshort : rest.length < c + 1) (hreach : runs = [] ∨ 1 ≤ rest.length)
    (hfit : ∀ k : Nat, k ≤ (expandRuns runs).length → start + k * stride < size) :
    RleDecoder.DecodeLog size start stride (pre ++ encodeRuns runs ++ c :: rest ++ post)
      pre.length (((encodeRuns runs).length + 1 + rest.length : Nat) : Int)
      = .error .inputOverflow := by
  unfold RleDecoder.DecodeLog
  rw [Int.toNat_ofNat]
  have hlen := length_le_length_encodeRuns runs
  by_cases hr : runs = []
  · subst hr
    simp only [encodeRuns, List.flatMap_nil, List.length_nil, List.append_nil, Nat.zero_add,
      expandRuns] at hfit ⊢
    have e : 1 + rest.length = rest.length + 1 := by omega
    rw [e]
    refine decodeLoop_truncated pre (rest ++ post) _ c size stride _ _ start rest.length
      (by simp) rfl hc (by push_cast; omega) ?_ (by push_cast; omega)
    have := hfit 0 (le_refl _)
    simpa using this
  · have hrest : 1 ≤ rest.length := by
      rcases hreach with h | h
      · exact absurd h hr
      · exact h
    obtain ⟨f, hf⟩ : ∃ f, (encodeRuns runs).length + 1 + rest.length = runs.length + (f + 1) :=
      ⟨(encodeRuns runs).length + rest.length - runs.length, by omega⟩
    rw [hf, decodeLoop_prefix size stride (c :: rest ++ post) runs pre _ _ _ start (f + 1)
      (by simp) (by rw [← hf]; push_cast; omega) rfl hwf hfit]
    rw [decodeLoop_truncated (pre ++ encodeRuns runs) (rest ++ post) _ c size stride _ _ _ f
      (by simp) (by simp) hc (by rw [← hf]; simp; omega)
      (hfit _ (le_refl _)) (by rw [← hf]; simp; omega)]
    rfl

theorem Decode_truncated_literal_witness :
    RleDecoder.DecodeLog 10 0 1
      ([9] ++ encodeRuns [Run.repeated 1 7] ++ 5 :: [1, 2] ++ [4, 4, 4, 4])
      ([9] : List Nat).length
      (((encodeRuns [Run.repeated 1 7]).length + 1 + [1, 2].length : Nat) : Int)
      = .error .inputOverflow :=
  Decode_truncated_literal [Run.repeated 1 7] [9] [1, 2] [4, 4, 4, 4] 5 10 0 1
    (by decide) (by decide) (by decide) (Or.inr (by decide))
    (by
      intro k hk
      simp [expandRuns, Run.expand] at hk
      omega)

theorem length_store (ws : WriteLog) :
    ∀ (buffer r : List Nat), store buffer ws = .ok r → r.length = buffer.length := by
  induction ws with
  | nil =>
    intro buffer r h
    simp only [store, Except.ok.injEq] at h
    rw [h]
  | cons w ws ih =>
    intro buffer r h
    obtain ⟨pos, b⟩ := w
    simp only [store] at h
    split at h
    · rw [ih _ _ h, List.length_set]
    · simp at h

theorem length_DecodeSegment (d : RleDecoder) (segment : Int) (buffer r : List Nat)
    (size start stride : Int) (h : d.DecodeSegment segment buffer size start stride = .ok r) :
    r.length = buffer.length := by
  unfold RleDecoder.DecodeSegment at h
  simp only [bind, Except.bind] at h
  split at h
  · simp at h
  · exact length_store _ _ _ h

theorem length_decodeSegments (ctx : CodecsContext) (d : RleDecoder) (size : Nat) (n : Nat) :
    ∀ (s : Nat) (buffer r : List Nat),
      decodeSegments ctx d size n s buffer = .ok r → r.length = buffer.length := by
  induction n with
  | zero =>
    intro s buffer r h
    simp only [decodeSegments, Except.ok.injEq] at h
    rw [h]
  | succ n ih =>
    intro s buffer r h
    simp only [decodeSegments] at h
    split at h
    · simp at h
    · simp only [bind, Except.bind] at h
      split at h
      · simp at h
      · rename_i b hb
        rw [ih _ _ _ h, length_DecodeSegment _ _ _ _ _ _ _ hb]

theorem bytesAllocated_eq_ceil (ctx : CodecsContext) :
    bytesAllocated ctx = (ctx.BitsAllocated + 7) / 8 := by
  unfold bytesAllocated
  split <;> omega

/-- The `size_t` product of a wrapped factor is the wrapped product. -/
theorem toSizeT_mul_left (a b : Nat) : toSizeT (toSizeT a * b) = toSizeT (a * b) := by
  unfold toSizeT
  rw [Nat.mul_mod, Nat.mod_mod, ← Nat.mul_mod]

/-- C9. For a context whose size `Columns * Rows * SamplesPerPixel *
⌈BitsAllocated / 8⌉` is below 2^32, so that the `size_t` products of
`DecodeRle` do not wrap around: whenever `DecodeRle` succeeds, the decoded
buffer has exactly that many bytes, whatever the content of the encoded buffer
(and of the resized buffer); it is the size the source computes in `size_t`. -/
theorem DecodeRle_decoded_size (junk : Nat → Nat) (ctx ctx' : CodecsContext)
    (h : DecodeRle junk ctx = .ok ctx')
    (hsize : ctx.Columns * ctx.Rows * ctx.SamplesPerPixel * ((ctx.BitsAllocated + 7) / 8) <
      4294967296) :
    ctx'.DecodedBuffer.length =
      ctx.Columns * ctx.Rows * ctx.SamplesPerPixel * ((ctx.BitsAllocated + 7) / 8) ∧
    ctx'.DecodedBuffer.length =
      toSizeT (toSizeT (toSizeT (ctx.Columns * ctx.Rows) * bytesAllocated ctx) *
        ctx.SamplesPerPixel) := by
  have hlen : ctx'.DecodedBuffer.length =
      ctx.Columns * ctx.Rows * ctx.SamplesPerPixel * ((ctx.BitsAllocated + 7) / 8) := by
    unfold DecodeRle at h
    simp only [bind, Except.bind] at h
    split at h
    · simp at h
    · split at h
      · simp at h
      · rename_i buf hbuf
        simp only [Except.ok.injEq] at h
        rw [← h]
        simp only
        rw [length_decodeSegments _ _ _ _ _ _ _ hbuf, Buffer.Reset, List.length_map,
          List.length_range, pixelCount, bytesAllocated_eq_ceil]
        ring
  refine ⟨hlen, ?_⟩
  rw [toSizeT_mul_left, Nat.mul_assoc, toSizeT_mul_left, ← Nat.mul_assoc,
    bytesAllocated_eq_ceil, hlen]
  have hcomm : ctx.Columns * ctx.Rows * ((ctx.BitsAllocated + 7) / 8) * ctx.SamplesPerPixel =
      ctx.Columns * ctx.Rows * ctx.SamplesPerPixel * ((ctx.BitsAllocated + 7) / 8) :=
    Nat.mul_right_comm _ _ _
  rw [hcomm]
  unfold toSizeT
  omega

theorem DecodeRle_decoded_size_witness :
    DecodeRle (fun _ => 0)
      { Columns := 2, Rows := 1, BitsAllocated := 8, BitsStored := 8, SamplesPerPixel := 1,
        PixelRepresentation := 0, PlanarConfiguration := 0, PhotometricInterpretation := 0,
        EncodedBuffer := [1, 0, 0, 0, 64, 0, 0, 0] ++ List.replicate 56 0 ++ [1, 65, 66],
        DecodedBuffer := [] } =
      .ok { Columns := 2, Rows := 1, BitsAllocated := 8, BitsStored := 8, SamplesPerPixel := 1,
            PixelRepresentation := 0, PlanarConfiguration := 0, PhotometricInterpretation := 0,
            EncodedBuffer := [1, 0, 0, 0, 64, 0, 0, 0] ++ List.replicate 56 0 ++ [1, 65, 66],
            DecodedBuffer := [65, 66] } ∧
    ([65, 66] : List Nat).length = 2 * 1 * 1 * ((8 + 7) / 8) :=
  ⟨by rfl, (DecodeRle_decoded_size (fun _ => 0)
    { Columns := 2, Rows := 1, BitsAllocated := 8, BitsStored := 8, SamplesPerPixel := 1,
      PixelRepresentation := 0, PlanarConfiguration := 0, PhotometricInterpretation := 0,
      EncodedBuffer := [1, 0, 0, 0, 64, 0, 0, 0] ++ List.replicate 56 0 ++ [1, 65, 66],
      DecodedBuffer := [] } _ (by rfl) (by decide)).1⟩

/-- C2. For every context on which `EncodeRle` succeeds, the length of the
encoded buffer, the 64-byte header plus the segment bodies and padding, is
even. -/
theorem EncodeRle_even_length (ctx ctx' : CodecsContext) (h : EncodeRle ctx = .ok ctx') :
    64 ≤ ctx'.EncodedBuffer.length ∧ ctx'.EncodedBuffer.length % 2 = 0 := by
  have he := (EncodeRle_encoded ctx ctx' h).1
  refine ⟨?_, length_Encoded _ _ he⟩
  obtain ⟨_, offs, body, hl, henc, _⟩ := he
  rw [henc, List.length_append, List.length_append, length_le32, length_flatMap_le32, hl]
  omega

theorem EncodeRle_even_length_witness :
    EncodeRle { Columns := 5, Rows := 1, BitsAllocated := 8, BitsStored := 8,
                SamplesPerPixel := 1, PixelRepresentation := 0, PlanarConfiguration := 0,
                PhotometricInterpretation := 2, EncodedBuffer := [],
                DecodedBuffer := [16, 16, 32, 48, 48] } =
      .ok { Columns := 5, Rows := 1, BitsAllocated := 8, BitsStored := 8,
            SamplesPerPixel := 1, PixelRepresentation := 0, PlanarConfiguration := 0,
            PhotometricInterpretation := 2,
            EncodedBuffer := [1, 0, 0, 0, 64, 0, 0, 0] ++ List.replicate 56 0 ++
              [2, 16, 16, 32, 255, 48],
            DecodedBuffer := [16, 16, 32, 48, 48] } ∧
    64 ≤ ([1, 0, 0, 0, 64, 0, 0, 0] ++ List.replicate 56 0 ++
      [2, 16, 16, 32, 255, 48] : List Nat).length ∧
    ([1, 0, 0, 0, 64, 0, 0, 0] ++ List.replicate 56 0 ++
      [2, 16, 16, 32, 255, 48] : List Nat).length % 2 = 0 :=
  ⟨by rfl, EncodeRle_even_length
    { Columns := 5, Rows := 1, BitsAllocated := 8, BitsStored := 8,
      SamplesPerPixel := 1, PixelRepresentation := 0, PlanarConfiguration := 0,
      PhotometricInterpretation := 2, EncodedBuffer := [],
      DecodedBuffer := [16, 16, 32, 48, 48] }
    { Columns := 5, Rows := 1, BitsAllocated := 8, BitsStored := 8,
      SamplesPerPixel := 1, PixelRepresentation := 0, PlanarConfiguration := 0,
      PhotometricInterpretation := 2,
      EncodedBuffer := [1, 0, 0, 0, 64, 0, 0, 0] ++ List.replicate 56 0 ++
        [2, 16, 16, 32, 255, 48],
      DecodedBuffer := [16, 16, 32, 48, 48] } (by rfl)⟩

/-- C1. For every raw buffer `x` of exactly `P * BA * SPP` bytes, with
`P = Columns * Rows ≥ 1`, `BA` 1 or 2 bytes per sample, `SPP` 1 or 3 and any
planar configuration, `EncodeRle` succeeds, and `DecodeRle` on the produced
encoded buffer with the same context fields succeeds and yields a decoded
buffer identical to `x` (for buffers shorter than 2^31 bytes, the range of the
32-bit sizes and offsets of the format). -/
theorem EncodeRle_DecodeRle_roundtrip (junk : Nat → Nat) (ctx : CodecsContext)
    (stale : List Nat)
    (hBA : bytesAllocated ctx = 1 ∨ bytesAllocated ctx = 2)
    (hSPP : ctx.SamplesPerPixel = 1 ∨ ctx.SamplesPerPixel = 3)
    (hP : 1 ≤ ctx.Columns * ctx.Rows)
    (hlen : ctx.DecodedBuffer.length =
      ctx.Columns * ctx.Rows * bytesAllocated ctx * ctx.SamplesPerPixel)
    (hbytes : ∀ b ∈ ctx.DecodedBuffer, b < 256) :
    ∃ ctx', EncodeRle ctx = .ok ctx' ∧ ctx'.DecodedBuffer = ctx.DecodedBuffer ∧
      (ctx'.EncodedBuffer.length < 2147483648 → ctx.DecodedBuffer.length < 2147483648 →
        DecodeRle junk { ctx' with DecodedBuffer := stale } = .ok ctx') := by
  apply EncodeRle_DecodeRle junk ctx stale _ hP hlen hbytes
  rcases hBA with h | h <;> rcases hSPP with h' | h' <;> rw [h, h'] <;> omega

theorem EncodeRle_DecodeRle_roundtrip_witness :
    ∃ ctx', EncodeRle
        { Columns := 2, Rows := 1, BitsAllocated := 16, BitsStored := 12, SamplesPerPixel := 3,
          PixelRepresentation := 0, PlanarConfiguration := 1, PhotometricInterpretation := 3,
          EncodedBuffer := [], DecodedBuffer := [1, 2, 3, 4, 5, 6, 7, 7, 7, 7, 9, 9] } =
        .ok ctx' ∧
      ctx'.DecodedBuffer = [1, 2, 3, 4, 5, 6, 7, 7, 7, 7, 9, 9] ∧
      (ctx'.EncodedBuffer.length < 2147483648 →
        ([1, 2, 3, 4, 5, 6, 7, 7, 7, 7, 9, 9] : List Nat).length < 2147483648 →
        DecodeRle (fun _ => 0) { ctx' with DecodedBuffer := [] } = .ok ctx') :=
  EncodeRle_DecodeRle_roundtrip (fun _ => 0)
    { Columns := 2, Rows := 1, BitsAllocated := 16, BitsStored := 12, SamplesPerPixel := 3,
      PixelRepresentation := 0, PlanarConfiguration := 1, PhotometricInterpretation := 3,
      EncodedBuffer := [], DecodedBuffer := [1, 2, 3, 4, 5, 6, 7, 7, 7, 7, 9, 9] } []
    (Or.inr (by decide)) (Or.inr (by decide)) (by decide) (by decide) (by decide)

theorem length_applyTrace (buffer : List Nat) (t : Trace) :
    (applyTrace buffer t).2.length = buffer.length := by
  unfold applyTrace
  simp only []
  cases hs : (storeT buffer t.1).2 with
  | some e => exact length_storeT _ _
  | none =>
    cases ht : t.2 with
    | some e => exact length_storeT _ _
    | none => exact length_storeT _ _

theorem length_Reset (junk : Nat → Nat) (size : Nat) : (Buffer.Reset junk size).length = size := by
  simp [Buffer.Reset]

/-- What `DecodeJpeg8.decompressInto` leaves: the numeric fields as they were
and a decoded buffer of the size computed from the header. -/
theorem decompressInto_spec (lib : JpegLibrary) (junk : Nat → Nat)
    (dinfo : jpeg_decompress_struct) (ctx : CodecsContext) :
    (DecodeJpeg8.decompressInto lib junk dinfo ctx).2.numericFields = ctx.numericFields ∧
    (DecodeJpeg8.decompressInto lib junk dinfo ctx).2.DecodedBuffer.length =
      dinfo.image_width * dinfo.image_height * bytesAllocated ctx * dinfo.num_components := by
  unfold DecodeJpeg8.decompressInto
  refine ⟨rfl, ?_⟩
  simp only []
  rw [length_applyTrace, length_Reset]
  rfl

/-- `DecodeRle` writes no numeric field, however it ends. -/
theorem DecodeRleOutcome_numericFields (junk : Nat → Nat) (ctx : CodecsContext) :
    (DecodeRleOutcome junk ctx).2.numericFields = ctx.numericFields := by
  unfold DecodeRleOutcome
  cases RleDecoder.new ctx.EncodedBuffer (toInt32 ctx.EncodedBuffer.length) with
  | error e => rfl
  | ok decoder => rfl

/-- `EncodeRle` writes no numeric field, however it ends. -/
theorem EncodeRleOutcome_numericFields (ctx : CodecsContext) :
    (EncodeRleOutcome ctx).2.numericFields = ctx.numericFields := by
  unfold EncodeRleOutcome
  cases h : EncodeRle ctx with
  | error e => rfl
  | ok ctx' =>
    have := (EncodeRle_encoded ctx ctx' h).2
    simp only []
    rw [this]
    rfl

/-- With the old configuration planar, `ChangePlanarConfiguration` on `P * SPP`
8-bit values succeeds and slot `n * SPP + s` holds the old `n + P * s`. -/
theorem ChangePlanarConfiguration_of_planar (pixelData : List Nat) (P SPP : Nat)
    (hS : 0 < SPP) (hlen : pixelData.length = P * SPP) :
    ∃ r, ChangePlanarConfiguration pixelData (P * SPP) 8 SPP Planar = .ok r ∧
      r.length = P * SPP ∧
      ∀ n s, n < P → s < SPP → r.getD (n * SPP + s) 0 = pixelData.getD (n + P * s) 0 := by
  have hne : SPP ≠ 0 := by omega
  have hdiv : P * SPP / SPP = P := Nat.mul_div_cancel P hS
  have hdrop : pixelData.drop (P * SPP) = [] := by
    rw [List.drop_eq_nil_iff]; omega
  have h1 : ChangePlanarConfiguration pixelData (P * SPP) 8 SPP Planar =
      .ok ((List.range P).foldl (fun b n => (List.range SPP).foldl (fun b s =>
        b.set (n * SPP + s) (pixelData.getD (n + P * s) 0)) b) (List.replicate (P * SPP) 0)) := by
    simp only [ChangePlanarConfiguration, hne, hdiv, if_false, if_true, hlen, le_refl,
      hdrop, List.append_nil]
  refine ⟨_, h1, ?_, ?_⟩
  · rw [length_nestedFold, List.length_replicate]
  · intro n s hn hs
    have hb : n * SPP + s < (List.replicate (P * SPP) 0).length := by
      rw [List.length_replicate]; exact idx_lt_mul P SPP n s hn hs
    refine nestedFold_getD (fun n s => n * SPP + s) (fun n s => pixelData.getD (n + P * s) 0)
      (fun j => pixelData.getD (j / SPP + P * (j % SPP)) 0) P SPP _ ?_ n s hn hs hb
    intro n' s' _ hs'
    have h1 : (n' * SPP + s') / SPP = n' := by
      rw [Nat.add_comm, Nat.add_mul_div_right _ _ hS, Nat.div_eq_of_lt hs', Nat.zero_add]
    have h2 : (n' * SPP + s') % SPP = s' := by
      rw [Nat.add_comm, Nat.add_mul_mod_self_right, Nat.mod_eq_of_lt hs']
    simp only [h1, h2]

/-- With any other old configuration (interleaved), `ChangePlanarConfiguration`
on `P * SPP` 8-bit values succeeds and slot `n + P * s` holds the old
`n * SPP + s`. -/
theorem ChangePlanarConfiguration_of_interleaved (pixelData : List Nat) (P SPP old : Nat)
    (hold : old ≠ Planar) (hS : 0 < SPP) (hlen : pixelData.length = P * SPP) :
    ∃ r, ChangePlanarConfiguration pixelData (P * SPP) 8 SPP old = .ok r ∧
      r.length = P * SPP ∧
      ∀ n s, n < P → s < SPP → r.getD (n + P * s) 0 = pixelData.getD (n * SPP + s) 0 := by
  have hne : SPP ≠ 0 := by omega
  have hdiv : P * SPP / SPP = P := Nat.mul_div_cancel P hS
  have hdrop : pixelData.drop (P * SPP) = [] := by
    rw [List.drop_eq_nil_iff]; omega
  have h2 : ChangePlanarConfiguration pixelData (P * SPP) 8 SPP old =
      .ok ((List.range P).foldl (fun b n => (List.range SPP).foldl (fun b s =>
        b.set (n + P * s) (pixelData.getD (n * SPP + s) 0)) b) (List.replicate (P * SPP) 0)) := by
    simp only [ChangePlanarConfiguration, hne, hdiv, if_false, if_true, hlen, le_refl,
      hdrop, List.append_nil, hold]
  refine ⟨_, h2, ?_, ?_⟩
  · rw [length_nestedFold, List.length_replicate]
  · intro n s hn hs
    have hb : n + P * s < (List.replicate (P * SPP) 0).length := by
      rw [List.length_replicate]; exact idx_lt_mul2 P SPP n s hn hs
    refine nestedFold_getD (fun n s => n + P * s) (fun n s => pixelData.getD (n * SPP + s) 0)
      (fun j => pixelData.getD (j % P * SPP + j / P) 0) P SPP _ ?_ n s hn hs hb
    intro n' s' hn' _
    have hP : 0 < P := by omega
    have h1 : (n' + P * s') / P = s' := by
      rw [Nat.add_mul_div_left _ _ hP, Nat.div_eq_of_lt hn', Nat.zero_add]
    have h2 : (n' + P * s') % P = n' := by
      rw [Nat.add_mul_mod_self_left, Nat.mod_eq_of_lt hn']
    simp only [h1, h2]

/-- Two byte lists of the same length that agree at every index are equal. -/
theorem eq_of_getD_eq (a b : List Nat) (h : a.length = b.length)
    (hget : ∀ i, i < a.length → a.getD i 0 = b.getD i 0) : a = b := by
  apply List.ext_getElem h
  intro i h1 h2
  have := hget i h1
  rw [List.getD_eq_getElem _ _ h1, List.getD_eq_getElem _ _ h2] at this
  exact this

/-- Every index below `P * SPP` is `n * SPP + s` for a pixel `n` and sample `s`. -/
theorem index_interleaved (P SPP i : Nat) (hi : i < P * SPP) :
    ∃ n s, n < P ∧ s < SPP ∧ i = n * SPP + s := by
  have hS : 0 < SPP := by
    rcases Nat.eq_zero_or_pos SPP with h | h
    · rw [h] at hi; omega
    · exact h
  refine ⟨i / SPP, i % SPP, ?_, Nat.mod_lt _ hS, ?_⟩
  · exact Nat.div_lt_of_lt_mul (by rw [Nat.mul_comm]; exact hi)
  · rw [Nat.mul_comm]; exact (Nat.div_add_mod i SPP).symm

/-- Every index below `P * SPP` is `n + P * s` for a pixel `n` and sample `s`. -/
theorem index_planar (P SPP i : Nat) (hi : i < P * SPP) :
    ∃ n s, n < P ∧ s < SPP ∧ i = n + P * s := by
  have hP : 0 < P := by
    rcases Nat.eq_zero_or_pos P with h | h
    · rw [h] at hi; omega
    · exact h
  refine ⟨i % P, i / P, Nat.mod_lt _ hP, ?_, ?_⟩
  · exact Nat.div_lt_of_lt_mul hi
  · rw [Nat.add_comm]; exact (Nat.div_add_mod i P).symm

/-- Interleaved to planar and back. -/
theorem ChangePlanarConfiguration_interleaved_planar (x : List Nat) (P SPP old : Nat)
    (hold : old ≠ Planar) (hS : 0 < SPP) (hlen : x.length = P * SPP) :
    ∃ y, ChangePlanarConfiguration x (P * SPP) 8 SPP old = .ok y ∧
      ChangePlanarConfiguration y (P * SPP) 8 SPP Planar = .ok x := by
  obtain ⟨y, hy, hyl, hyv⟩ := ChangePlanarConfiguration_of_interleaved x P SPP old hold hS hlen
  obtain ⟨z, hz, hzl, hzv⟩ := ChangePlanarConfiguration_of_planar y P SPP hS hyl
  refine ⟨y, hy, ?_⟩
  rw [hz]
  congr 1
  apply eq_of_getD_eq _ _ (by rw [hzl, hlen])
  intro i hi
  rw [hzl] at hi
  obtain ⟨n, s, hn, hs, rfl⟩ := index_interleaved P SPP i hi
  rw [hzv n s hn hs, hyv n s hn hs]

/-- Planar to interleaved and back. -/
theorem ChangePlanarConfiguration_planar_interleaved (x : List Nat) (P SPP old : Nat)
    (hold : old ≠ Planar) (hS : 0 < SPP) (hlen : x.length = P * SPP) :
    ∃ y, ChangePlanarConfiguration x (P * SPP) 8 SPP Planar = .ok y ∧
      ChangePlanarConfiguration y (P * SPP) 8 SPP old = .ok x := by
  obtain ⟨y, hy, hyl, hyv⟩ := ChangePlanarConfiguration_of_planar x P SPP hS hlen
  obtain ⟨z, hz, hzl, hzv⟩ := ChangePlanarConfiguration_of_interleaved y P SPP old hold hS hyl
  refine ⟨y, hy, ?_⟩
  rw [hz]
  congr 1
  apply eq_of_getD_eq _ _ (by rw [hzl, hlen])
  intro i hi
  rw [hzl] at hi
  obtain ⟨n, s, hn, hs, rfl⟩ := index_planar P SPP i hi
  rw [hzv n s hn hs, hyv n s hn hs]

/-- For one sample per pixel, one pixel, or as many pixels as samples per
pixel, the two directions of `ChangePlanarConfiguration` coincide. -/
theorem ChangePlanarConfiguration_directions_agree (x : List Nat) (P SPP old : Nat)
    (hold : old ≠ Planar) (hS : 0 < SPP) (hlen : x.length = P * SPP)
    (hshape : SPP = 1 ∨ P = 1 ∨ P = SPP) :
    ChangePlanarConfiguration x (P * SPP) 8 SPP old =
      ChangePlanarConfiguration x (P * SPP) 8 SPP Planar := by
  obtain ⟨y, hy, hyl, hyv⟩ := ChangePlanarConfiguration_of_interleaved x P SPP old hold hS hlen
  obtain ⟨z, hz, hzl, hzv⟩ := ChangePlanarConfiguration_of_planar x P SPP hS hlen
  rw [hy, hz]
  congr 1
  apply eq_of_getD_eq _ _ (by rw [hzl, hyl])
  intro i hi
  rw [hyl] at hi
  obtain ⟨n, s, hn, hs, rfl⟩ := index_planar P SPP i hi
  rw [hyv n s hn hs]
  rcases hshape with h | h | h
  · subst h
    have hs0 : s = 0 := by omega
    subst hs0
    have := hzv n 0 hn hs
    simp only [Nat.mul_one, Nat.add_zero, Nat.mul_zero] at this ⊢
    rw [this]
  · subst h
    have hn0 : n = 0 := by omega
    subst hn0
    have := hzv 0 s hn hs
    simp only [Nat.zero_mul, Nat.zero_add, Nat.one_mul] at this ⊢
    rw [this]
  · subst h
    have := hzv s n hs hn
    have e1 : n + P * s = s * P + n := by rw [Nat.mul_comm]; omega
    have e2 : s + P * n = n * P + s := by rw [Nat.mul_comm]; omega
    rw [e1, this, e2]

/-- C11. For 8-bit samples and every buffer `x` of `numValues = P * SPP` bytes,
`ChangePlanarConfiguration` with the old configuration interleaved and then with
the old configuration planar restores `x`, and likewise with the old
configuration planar and then interleaved. -/
theorem ChangePlanarConfiguration_inverse_directions (x : List Nat) (P SPP : Nat)
    (hS : 0 < SPP) (hlen : x.length = P * SPP) :
    (∃ y, ChangePlanarConfiguration x (P * SPP) 8 SPP Interleaved = .ok y ∧
      ChangePlanarConfiguration y (P * SPP) 8 SPP Planar = .ok x) ∧
    (∃ y, ChangePlanarConfiguration x (P * SPP) 8 SPP Planar = .ok y ∧
      ChangePlanarConfiguration y (P * SPP) 8 SPP Interleaved = .ok x) :=
  ⟨ChangePlanarConfiguration_interleaved_planar x P SPP Interleaved (by decide) hS hlen,
    ChangePlanarConfiguration_planar_interleaved x P SPP Interleaved (by decide) hS hlen⟩

theorem ChangePlanarConfiguration_inverse_directions_witness :
    (∃ y, ChangePlanarConfiguration [10, 20, 30, 11, 21, 31] (2 * 3) 8 3 Interleaved = .ok y ∧
      ChangePlanarConfiguration y (2 * 3) 8 3 Planar = .ok [10, 20, 30, 11, 21, 31]) ∧
    (∃ y, ChangePlanarConfiguration [10, 20, 30, 11, 21, 31] (2 * 3) 8 3 Planar = .ok y ∧
      ChangePlanarConfiguration y (2 * 3) 8 3 Interleaved = .ok [10, 20, 30, 11, 21, 31]) :=
  ChangePlanarConfiguration_inverse_directions [10, 20, 30, 11, 21, 31] 2 3 (by decide)
    (by decide)

/-- C12, as stated, fails: two pixels of three samples, transformed twice with
the old configuration interleaved (and likewise planar), do not come back. -/
theorem ChangePlanarConfiguration_twice_differs :
    ChangePlanarConfiguration [1, 2, 3, 4, 5, 6] 6 8 3 Interleaved = .ok [1, 4, 2, 5, 3, 6] ∧
    ChangePlanarConfiguration [1, 4, 2, 5, 3, 6] 6 8 3 Interleaved = .ok [1, 5, 4, 3, 2, 6] ∧
    ChangePlanarConfiguration [1, 2, 3, 4, 5, 6] 6 8 3 Planar = .ok [1, 3, 5, 2, 4, 6] ∧
    ChangePlanarConfiguration [1, 3, 5, 2, 4, 6] 6 8 3 Planar = .ok [1, 5, 4, 3, 2, 6] ∧
    ([1, 5, 4, 3, 2, 6] : List Nat) ≠ [1, 2, 3, 4, 5, 6] := by
  refine ⟨by rfl, by rfl, by rfl, by rfl, by decide⟩

/-- C12, amended. For 8-bit samples, every buffer `x` of `numValues = P * SPP`
bytes and every old configuration, applying `ChangePlanarConfiguration` twice
with the same arguments restores `x` when there is one sample per pixel, one
pixel, or as many pixels as samples per pixel. -/
theorem ChangePlanarConfiguration_twice (x : List Nat) (P SPP old : Nat)
    (hS : 0 < SPP) (hlen : x.length = P * SPP) (hshape : SPP = 1 ∨ P = 1 ∨ P = SPP) :
    ∃ y, ChangePlanarConfiguration x (P * SPP) 8 SPP old = .ok y ∧
      ChangePlanarConfiguration y (P * SPP) 8 SPP old = .ok x := by
  by_cases hold : old = Planar
  · subst hold
    obtain ⟨y, hy, hyx⟩ :=
      ChangePlanarConfiguration_planar_interleaved x P SPP Interleaved (by decide) hS hlen
    refine ⟨y, hy, ?_⟩
    have hyl : y.length = P * SPP := by
      obtain ⟨y', hy', hl, _⟩ := ChangePlanarConfiguration_of_planar x P SPP hS hlen
      rw [hy] at hy'
      cases hy'
      exact hl
    rw [← ChangePlanarConfiguration_directions_agree y P SPP Interleaved (by decide) hS hyl
      hshape]
    exact hyx
  · obtain ⟨y, hy, hyx⟩ := ChangePlanarConfiguration_interleaved_planar x P SPP old hold hS hlen
    refine ⟨y, hy, ?_⟩
    have hyl : y.length = P * SPP := by
      obtain ⟨y', hy', hl, _⟩ := ChangePlanarConfiguration_of_interleaved x P SPP old hold hS hlen
      rw [hy] at hy'
      cases hy'
      exact hl
    rw [ChangePlanarConfiguration_directions_agree y P SPP old hold hS hyl hshape]
    exact hyx

theorem ChangePlanarConfiguration_twice_witness :
    ∃ y, ChangePlanarConfiguration [1, 2, 3, 4, 5, 6, 7, 8, 9] (3 * 3) 8 3 Interleaved = .ok y ∧
      ChangePlanarConfiguration y (3 * 3) 8 3 Interleaved = .ok [1, 2, 3, 4, 5, 6, 7, 8, 9] :=
  ChangePlanarConfiguration_twice [1, 2, 3, 4, 5, 6, 7, 8, 9] 3 3 Interleaved (by decide)
    (by decide) (by decide)

/-- Sixteen or more bits allocated are rejected, whatever the rest. -/
theorem ChangePlanarConfiguration_rejects_two_bytes (pixelData : List Nat)
    (numValues bitsAllocated samplesPerPixel old : Nat) (hS : samplesPerPixel ≠ 0)
    (hb : 16 ≤ bitsAllocated) :
    ChangePlanarConfiguration pixelData numValues bitsAllocated samplesPerPixel old =
      .error (.unsupportedBitsAllocated bitsAllocated) := by
  have h : bitsAllocated / 8 ≠ 1 := by omega
  simp only [ChangePlanarConfiguration, hS, h, if_false]

/-- C13. `ChangePlanarConfiguration` tests `bitsAllocated / 8 == 1` with the
quotient rounded down: with twelve bits allocated, two bytes per sample when
rounded up, it does not fail and transposes the bytes as 8-bit samples. -/
theorem ChangePlanarConfiguration_accepts_twelve_bits :
    ChangePlanarConfiguration [1, 2, 3, 4, 5, 6] 6 12 3 Interleaved = .ok [1, 4, 2, 5, 3, 6] ∧
    (12 + 7) / 8 = 2 ∧
    bytesAllocated { Columns := 1, Rows := 1, BitsAllocated := 12, BitsStored := 12,
                     SamplesPerPixel := 3, PixelRepresentation := 0, PlanarConfiguration := 0,
                     PhotometricInterpretation := 3, EncodedBuffer := [],
                     DecodedBuffer := [1, 2, 3, 4, 5, 6] } = 2 := by
  refine ⟨by rfl, by decide, by rfl⟩

/-- C14. With the effective precision `p ≥ 1` (the scanned precision, or
`BitsStored` when the scan yields 0), `DecodeJpeg` selects the 8-bit subvariant
iff `p ≤ 8`, the 12-bit one iff `8 < p ≤ 12`, the 16-bit one iff `12 < p ≤ 16`,
and fails with `unsupportedBitDepth`, whatever the subvariants are, iff `p > 16`.
Selecting a subvariant means that for every choice of the three subvariants the
outcome of `DecodeJpeg` is the outcome of that one. -/
theorem DecodeJpeg_dispatch (scan : List Nat → Nat → Nat) (ctx : CodecsContext)
    (params : DecoderParameters) (p : Nat)
    (hp : p = if scan ctx.EncodedBuffer ctx.EncodedBuffer.length = 0 then ctx.BitsStored
      else scan ctx.EncodedBuffer ctx.EncodedBuffer.length)
    (h1 : 1 ≤ p) :
    ((∀ d8 d12 d16, DecodeJpeg scan d8 d12 d16 ctx params = d8 ctx params) ↔ p ≤ 8) ∧
    ((∀ d8 d12 d16, DecodeJpeg scan d8 d12 d16 ctx params = d12 ctx params) ↔
      8 < p ∧ p ≤ 12) ∧
    ((∀ d8 d12 d16, DecodeJpeg scan d8 d12 d16 ctx params = d16 ctx params) ↔
      12 < p ∧ p ≤ 16) ∧
    ((∀ d8 d12 d16, DecodeJpeg scan d8 d12 d16 ctx params =
      (.error (.unsupportedBitDepth p), ctx)) ↔ 16 < p) := by
  have hne : p ≠ 0 := by omega
  have key : ∀ d8 d12 d16, DecodeJpeg scan d8 d12 d16 ctx params =
      if p ≤ 8 then d8 ctx params else if p ≤ 12 then d12 ctx params
      else if p ≤ 16 then d16 ctx params else (.error (.unsupportedBitDepth p), ctx) := by
    intro d8 d12 d16
    unfold DecodeJpeg
    simp only [← hp, hne, if_false]
  have probe := key (fun c _ => (.error .inputOverflow, c)) (fun c _ => (.error .outputOverflow, c))
    (fun c _ => (.error .readPastEnd, c))
  refine ⟨⟨fun h => ?_, fun h d8 d12 d16 => ?_⟩, ⟨fun h => ?_, fun h d8 d12 d16 => ?_⟩,
    ⟨fun h => ?_, fun h d8 d12 d16 => ?_⟩, ⟨fun h => ?_, fun h d8 d12 d16 => ?_⟩⟩
  · have h' := h (fun c _ => (.error .inputOverflow, c)) (fun c _ => (.error .outputOverflow, c))
      (fun c _ => (.error .readPastEnd, c))
    rw [probe] at h'
    by_contra hc
    by_cases h12 : p ≤ 12 <;> by_cases h16 : p ≤ 16 <;> simp [hc, h12, h16] at h'
  · rw [key, if_pos h]
  · have h' := h (fun c _ => (.error .inputOverflow, c)) (fun c _ => (.error .outputOverflow, c))
      (fun c _ => (.error .readPastEnd, c))
    rw [probe] at h'
    by_contra hc
    by_cases h8 : p ≤ 8 <;> by_cases h12 : p ≤ 12 <;> by_cases h16 : p ≤ 16 <;>
      simp [h8, h12, h16] at h'
    all_goals omega
  · rw [key, if_neg (by omega), if_pos h.2]
  · have h' := h (fun c _ => (.error .inputOverflow, c)) (fun c _ => (.error .outputOverflow, c))
      (fun c _ => (.error .readPastEnd, c))
    rw [probe] at h'
    by_contra hc
    by_cases h8 : p ≤ 8 <;> by_cases h12 : p ≤ 12 <;> by_cases h16 : p ≤ 16 <;>
      simp [h8, h12, h16] at h'
    all_goals omega
  · rw [key, if_neg (by omega), if_neg (by omega), if_pos h.2]
  · have h' := h (fun c _ => (.error .inputOverflow, c)) (fun c _ => (.error .outputOverflow, c))
      (fun c _ => (.error .readPastEnd, c))
    rw [probe] at h'
    by_contra hc
    by_cases h8 : p ≤ 8 <;> by_cases h12 : p ≤ 12 <;> by_cases h16 : p ≤ 16 <;>
      simp [h8, h12, h16] at h'
    all_goals omega
  · rw [key, if_neg (by omega), if_neg (by omega), if_neg (by omega)]

theorem DecodeJpeg_dispatch_witness :
    ((∀ d8 d12 d16, DecodeJpeg (fun _ _ => 12) d8 d12 d16
        { Columns := 1, Rows := 1, BitsAllocated := 16, BitsStored := 8, SamplesPerPixel := 1,
          PixelRepresentation := 0, PlanarConfiguration := 0, PhotometricInterpretation := 2,
          EncodedBuffer := [255, 216], DecodedBuffer := [] } ⟨false⟩ =
      d12 { Columns := 1, Rows := 1, BitsAllocated := 16, BitsStored := 8, SamplesPerPixel := 1,
            PixelRepresentation := 0, PlanarConfiguration := 0, PhotometricInterpretation := 2,
            EncodedBuffer := [255, 216], DecodedBuffer := [] } ⟨false⟩) ↔
      8 < 12 ∧ 12 ≤ 12) :=
  (DecodeJpeg_dispatch (fun _ _ => 12)
    { Columns := 1, Rows := 1, BitsAllocated := 16, BitsStored := 8, SamplesPerPixel := 1,
      PixelRepresentation := 0, PlanarConfiguration := 0, PhotometricInterpretation := 2,
      EncodedBuffer := [255, 216], DecodedBuffer := [] } ⟨false⟩ 12 (by rfl) (by decide)).2.1

/-- C15. In `DecodeJpeg`, a non-zero scanned precision is the one dispatched on,
whatever `BitsStored` is; when the scan yields 0 and `BitsStored` is not 0,
`BitsStored` is dispatched on; when both are 0 the call fails with
`bitDepthUnknown`, whatever the subvariants are, and leaves the context as it
was. -/
theorem DecodeJpeg_precision_fallback (scan : List Nat → Nat → Nat)
    (d8 d12 d16 : CodecsContext → DecoderParameters → Outcome) (ctx : CodecsContext)
    (params : DecoderParameters) :
    (scan ctx.EncodedBuffer ctx.EncodedBuffer.length ≠ 0 →
      DecodeJpeg scan d8 d12 d16 ctx params =
        if scan ctx.EncodedBuffer ctx.EncodedBuffer.length ≤ 8 then d8 ctx params
        else if scan ctx.EncodedBuffer ctx.EncodedBuffer.length ≤ 12 then d12 ctx params
        else if scan ctx.EncodedBuffer ctx.EncodedBuffer.length ≤ 16 then d16 ctx params
        else (.error (.unsupportedBitDepth (scan ctx.EncodedBuffer ctx.EncodedBuffer.length)),
          ctx)) ∧
    (scan ctx.EncodedBuffer ctx.EncodedBuffer.length = 0 → ctx.BitsStored ≠ 0 →
      DecodeJpeg scan d8 d12 d16 ctx params =
        if ctx.BitsStored ≤ 8 then d8 ctx params
        else if ctx.BitsStored ≤ 12 then d12 ctx params
        else if ctx.BitsStored ≤ 16 then d16 ctx params
        else (.error (.unsupportedBitDepth ctx.BitsStored), ctx)) ∧
    (scan ctx.EncodedBuffer ctx.EncodedBuffer.length = 0 → ctx.BitsStored = 0 →
      DecodeJpeg scan d8 d12 d16 ctx params = (.error .bitDepthUnknown, ctx)) := by
  refine ⟨fun h => ?_, fun h hb => ?_, fun h hb => ?_⟩
  · unfold DecodeJpeg
    simp only [h, if_false]
  · unfold DecodeJpeg
    simp only [h, hb, if_true, if_false]
  · unfold DecodeJpeg
    simp only [h, hb, if_true]

theorem DecodeJpeg_precision_fallback_witness :
    DecodeJpeg (fun _ _ => 0) (fun c _ => (.ok (), c)) (fun c _ => (.ok (), c))
      (fun c _ => (.ok (), c))
      { Columns := 1, Rows := 1, BitsAllocated := 8, BitsStored := 0, SamplesPerPixel := 1,
        PixelRepresentation := 0, PlanarConfiguration := 0, PhotometricInterpretation := 2,
        EncodedBuffer := [255, 216], DecodedBuffer := [] } ⟨false⟩ =
    (.error .bitDepthUnknown,
      { Columns := 1, Rows := 1, BitsAllocated := 8, BitsStored := 0, SamplesPerPixel := 1,
        PixelRepresentation := 0, PlanarConfiguration := 0, PhotometricInterpretation := 2,
        EncodedBuffer := [255, 216], DecodedBuffer := [] }) :=
  (DecodeJpeg_precision_fallback (fun _ _ => 0) (fun c _ => (.ok (), c)) (fun c _ => (.ok (), c))
    (fun c _ => (.ok (), c))
    { Columns := 1, Rows := 1, BitsAllocated := 8, BitsStored := 0, SamplesPerPixel := 1,
      PixelRepresentation := 0, PlanarConfiguration := 0, PhotometricInterpretation := 2,
      EncodedBuffer := [255, 216], DecodedBuffer := [] } ⟨false⟩).2.2 (by rfl) (by rfl)

/-- C16. `EncodeJpeg` with `Lossy` set and `BitsStored ≠ 8` fails, whatever the
subvariants are, and leaves the context as it was; with `Lossy` set and
`BitsStored = 8` its outcome is that of the 8-bit subvariant. -/
theorem EncodeJpeg_lossy_restriction
    (e8 e12 e16 : CodecsContext → EncoderParameters → Outcome) (ctx : CodecsContext)
    (params : EncoderParameters) (hl : params.Lossy = true) :
    (ctx.BitsStored ≠ 8 → EncodeJpeg e8 e12 e16 ctx params =
      (.error (.unsupportedLossyBitDepth ctx.BitsStored), ctx)) ∧
    (ctx.BitsStored = 8 → EncodeJpeg e8 e12 e16 ctx params = e8 ctx params) := by
  refine ⟨fun h => ?_, fun h => ?_⟩
  · unfold EncodeJpeg
    simp only [hl, h, ne_eq, not_false_eq_true, and_self, if_true]
  · unfold EncodeJpeg
    simp only [hl, h, ne_eq, not_true_eq_false, and_false, if_false, le_refl, if_true]

theorem EncodeJpeg_lossy_restriction_witness :
    EncodeJpeg (fun c _ => (.ok (), { c with EncodedBuffer := [8] }))
      (fun c _ => (.ok (), { c with EncodedBuffer := [12] }))
      (fun c _ => (.ok (), { c with EncodedBuffer := [16] }))
      { Columns := 1, Rows := 1, BitsAllocated := 16, BitsStored := 12, SamplesPerPixel := 1,
        PixelRepresentation := 0, PlanarConfiguration := 0, PhotometricInterpretation := 2,
        EncodedBuffer := [], DecodedBuffer := [1, 2] }
      { Lossy := true, Quality := 90, SmoothingFactor := 0, SampleFactor := 0, Predictor := 1,
        PointTransform := 0, AllowedLossyError := 0, ProgressionOrder := 0, Rate := 0,
        AllowMct := 0 } =
    (.error (.unsupportedLossyBitDepth 12),
      { Columns := 1, Rows := 1, BitsAllocated := 16, BitsStored := 12, SamplesPerPixel := 1,
        PixelRepresentation := 0, PlanarConfiguration := 0, PhotometricInterpretation := 2,
        EncodedBuffer := [], DecodedBuffer := [1, 2] }) :=
  (EncodeJpeg_lossy_restriction (fun c _ => (.ok (), { c with EncodedBuffer := [8] }))
    (fun c _ => (.ok (), { c with EncodedBuffer := [12] }))
    (fun c _ => (.ok (), { c with EncodedBuffer := [16] }))
    { Columns := 1, Rows := 1, BitsAllocated := 16, BitsStored := 12, SamplesPerPixel := 1,
      PixelRepresentation := 0, PlanarConfiguration := 0, PhotometricInterpretation := 2,
      EncodedBuffer := [], DecodedBuffer := [1, 2] }
    { Lossy := true, Quality := 90, SmoothingFactor := 0, SampleFactor := 0, Predictor := 1,
      PointTransform := 0, AllowedLossyError := 0, ProgressionOrder := 0, Rate := 0,
      AllowMct := 0 } (by rfl)).1 (by decide)

/-- On arrays of at least `n` bytes, `memcmp` is zero exactly when the first
`n` bytes agree. -/
theorem memcmp_eq_zero_iff : ∀ (n : Nat) (a b : List Nat), n ≤ a.length → n ≤ b.length →
    (memcmp a b n = 0 ↔ a.take n = b.take n)
  | 0, a, b, _, _ => by
    cases a <;> cases b <;> simp [memcmp]
  | n + 1, [], _, ha, _ => by simp at ha
  | n + 1, _ :: _, [], _, hb => by simp at hb
  | n + 1, x :: a, y :: b, ha, hb => by
    have ih := memcmp_eq_zero_iff n a b (by simpa using ha) (by simpa using hb)
    unfold memcmp
    by_cases hxy : x = y
    · simp only [hxy, if_true, List.take_succ_cons, List.cons.injEq, true_and]
      exact ih
    · simp only [hxy, if_false, List.take_succ_cons, List.cons.injEq, false_and, iff_false]
      omega

/-- C17. For every encoded buffer of at least 12 bytes, the sniff of
`DecodeJpeg2000` yields JP2 iff the first 12 bytes are
00 00 00 0C 6A 50 20 20 0D 0A 87 0A or the first 4 bytes are 0D 0A 87 0A; it
yields J2K iff it does not yield JP2 and the first 4 bytes are FF 4F FF 51; and
it yields unknown for every other prefix. -/
theorem DecodeJpeg2000_magic_sniff (encoded : List Nat) (h : 12 ≤ encoded.length) :
    ∃ f, DecodeJpeg2000.codecFormat encoded = .ok f ∧
      (f = .OPJ_CODEC_JP2 ↔
        encoded.take 12 =
            [0x00, 0x00, 0x00, 0x0C, 0x6A, 0x50, 0x20, 0x20, 0x0D, 0x0A, 0x87, 0x0A] ∨
          encoded.take 4 = [0x0D, 0x0A, 0x87, 0x0A]) ∧
      (f = .OPJ_CODEC_J2K ↔
        f ≠ .OPJ_CODEC_JP2 ∧ encoded.take 4 = [0xFF, 0x4F, 0xFF, 0x51]) ∧
      (f = .OPJ_CODEC_UNKNOWN ↔
        ¬ (encoded.take 12 =
            [0x00, 0x00, 0x00, 0x0C, 0x6A, 0x50, 0x20, 0x20, 0x0D, 0x0A, 0x87, 0x0A] ∨
          encoded.take 4 = [0x0D, 0x0A, 0x87, 0x0A]) ∧
        encoded.take 4 ≠ [0xFF, 0x4F, 0xFF, 0x51]) := by
  have hl : (encoded.take 12).length = 12 := by rw [List.length_take]; omega
  have h12 : memcmp (encoded.take 12) JP2_RFC3745_MAGIC 12 = 0 ↔ encoded.take 12 =
      [0x00, 0x00, 0x00, 0x0C, 0x6A, 0x50, 0x20, 0x20, 0x0D, 0x0A, 0x87, 0x0A] := by
    rw [memcmp_eq_zero_iff 12 _ _ (by omega) (by decide), List.take_take]
    rfl
  have h4 : memcmp (encoded.take 12) JP2_MAGIC 4 = 0 ↔
      encoded.take 4 = [0x0D, 0x0A, 0x87, 0x0A] := by
    rw [memcmp_eq_zero_iff 4 _ _ (by omega) (by decide), List.take_take]
    rfl
  have hj : memcmp (encoded.take 12) J2K_CODESTREAM_MAGIC 4 = 0 ↔
      encoded.take 4 = [0xFF, 0x4F, 0xFF, 0x51] := by
    rw [memcmp_eq_zero_iff 4 _ _ (by omega) (by decide), List.take_take]
    rfl
  unfold DecodeJpeg2000.codecFormat
  rw [if_neg (by omega)]
  simp only [h12, h4, hj]
  by_cases hjp2 : encoded.take 12 =
      [0x00, 0x00, 0x00, 0x0C, 0x6A, 0x50, 0x20, 0x20, 0x0D, 0x0A, 0x87, 0x0A] ∨
      encoded.take 4 = [0x0D, 0x0A, 0x87, 0x0A]
  · rw [if_pos hjp2]
    refine ⟨_, rfl, ?_, ?_, ?_⟩
    · simp only [true_iff]; exact hjp2
    · simp
    · simp [hjp2]
  · rw [if_neg hjp2]
    by_cases hj2k : encoded.take 4 = [0xFF, 0x4F, 0xFF, 0x51]
    · rw [if_pos hj2k]
      refine ⟨_, rfl, ?_, ?_, ?_⟩
      · simp [hjp2]
      · simp [hj2k]
      · simp [hj2k]
    · rw [if_neg hj2k]
      refine ⟨_, rfl, ?_, ?_, ?_⟩
      · simp [hjp2]
      · simp [hj2k]
      · simp [hjp2, hj2k]

theorem DecodeJpeg2000_magic_sniff_witness :
    ∃ f, DecodeJpeg2000.codecFormat
        [0xFF, 0x4F, 0xFF, 0x51, 0x00, 0x29, 0x00, 0x00, 0x00, 0x00, 0x02, 0x00, 0x00] = .ok f ∧
      (f = .OPJ_CODEC_JP2 ↔
        List.take 12
            [0xFF, 0x4F, 0xFF, 0x51, 0x00, 0x29, 0x00, 0x00, 0x00, 0x00, 0x02, 0x00, 0x00] =
            [0x00, 0x00, 0x00, 0x0C, 0x6A, 0x50, 0x20, 0x20, 0x0D, 0x0A, 0x87, 0x0A] ∨
          List.take 4
            [0xFF, 0x4F, 0xFF, 0x51, 0x00, 0x29, 0x00, 0x00, 0x00, 0x00, 0x02, 0x00, 0x00] =
            [0x0D, 0x0A, 0x87, 0x0A]) ∧
      (f = .OPJ_CODEC_J2K ↔
        f ≠ .OPJ_CODEC_JP2 ∧
          List.take 4
            [0xFF, 0x4F, 0xFF, 0x51, 0x00, 0x29, 0x00, 0x00, 0x00, 0x00, 0x02, 0x00, 0x00] =
            [0xFF, 0x4F, 0xFF, 0x51]) ∧
      (f = .OPJ_CODEC_UNKNOWN ↔
        ¬ (List.take 12
            [0xFF, 0x4F, 0xFF, 0x51, 0x00, 0x29, 0x00, 0x00, 0x00, 0x00, 0x02, 0x00, 0x00] =
            [0x00, 0x00, 0x00, 0x0C, 0x6A, 0x50, 0x20, 0x20, 0x0D, 0x0A, 0x87, 0x0A] ∨
          List.take 4
            [0xFF, 0x4F, 0xFF, 0x51, 0x00, 0x29, 0x00, 0x00, 0x00, 0x00, 0x02, 0x00, 0x00] =
            [0x0D, 0x0A, 0x87, 0x0A]) ∧
        List.take 4
            [0xFF, 0x4F, 0xFF, 0x51, 0x00, 0x29, 0x00, 0x00, 0x00, 0x00, 0x02, 0x00, 0x00] ≠
          [0xFF, 0x4F, 0xFF, 0x51]) :=
  DecodeJpeg2000_magic_sniff
    [0xFF, 0x4F, 0xFF, 0x51, 0x00, 0x29, 0x00, 0x00, 0x00, 0x00, 0x02, 0x00, 0x00] (by decide)

set_option maxRecDepth 100000 in
/-- The stream of `EncodeRle` for 300 bytes 0x42. -/
theorem EncodeRle_scenario_repeat :
    EncodeRle (scenarioContext (List.replicate 300 0x42)) =
      .ok { scenarioContext (List.replicate 300 0x42) with
            EncodedBuffer := singleSegmentHeader ++ [0x81, 0x42, 0x81, 0x42, 0xD5, 0x42] } := by
  rfl

/-- C18, as stated, fails: for 300 bytes 0x42 the six bytes from offset 64 are
81 42 81 42 D5 42, not 81 42 81 42 C5 42. -/
theorem EncodeRle_repeat_not_C5 :
    ∃ ctx', EncodeRle (scenarioContext (List.replicate 300 0x42)) = .ok ctx' ∧
      (ctx'.EncodedBuffer.drop 64).take 6 = [0x81, 0x42, 0x81, 0x42, 0xD5, 0x42] ∧
      (ctx'.EncodedBuffer.drop 64).take 6 ≠ [0x81, 0x42, 0x81, 0x42, 0xC5, 0x42] :=
  ⟨_, EncodeRle_scenario_repeat, by decide, by decide⟩

/-- C18, amended. For 300 bytes 0x42 with one 8-bit sample per pixel,
interleaved, the bytes of the `EncodeRle` stream from offset 64 are
81 42 81 42 D5 42, two repeats of 128 and one repeat of 44, and the length of
the stream, header included, is even. -/
theorem EncodeRle_repeat_300 :
    ∃ ctx', EncodeRle (scenarioContext (List.replicate 300 0x42)) = .ok ctx' ∧
      ctx'.EncodedBuffer.take 64 = singleSegmentHeader ∧
      ctx'.EncodedBuffer.drop 64 = [0x81, 0x42, 0x81, 0x42, 0xD5, 0x42] ∧
      ctx'.EncodedBuffer.drop 64 =
        encodeRuns [Run.repeated 127 0x42, Run.repeated 127 0x42, Run.repeated 43 0x42] ∧
      expandRuns [Run.repeated 127 0x42, Run.repeated 127 0x42, Run.repeated 43 0x42] =
        List.replicate 128 0x42 ++ List.replicate 128 0x42 ++ List.replicate 44 0x42 ∧
      ctx'.EncodedBuffer.length % 2 = 0 :=
  ⟨_, EncodeRle_scenario_repeat, by decide, by decide, by decide, by rfl, by decide⟩

set_option maxRecDepth 100000 in
/-- The stream of `EncodeRle` for the 128 bytes 00 to 7F. -/
theorem EncodeRle_scenario_literal :
    EncodeRle (scenarioContext (List.range 128)) =
      .ok { scenarioContext (List.range 128) with
            EncodedBuffer := singleSegmentHeader ++ (0x7F :: List.range 128 ++ [0]) } := by
  rfl

/-- C19. For an image of one 8-bit sample per pixel whose raw buffer has `n`
bytes, `1 ≤ n ≤ 128`, no two adjacent bytes equal, the stream of `EncodeRle`
is the header of one segment followed by the control byte `n - 1`, the `n`
bytes, and one zero byte when that makes the length even; for the 128 bytes
00 to 7F the body is 7F, those 128 bytes and the padding zero. -/
theorem EncodeRle_literal_run (ctx : CodecsContext) (hBA : bytesAllocated ctx = 1)
    (hSPP : ctx.SamplesPerPixel = 1) (hP : pixelCount ctx = ctx.DecodedBuffer.length)
    (h1 : 1 ≤ ctx.DecodedBuffer.length) (h128 : ctx.DecodedBuffer.length ≤ 128)
    (hbytes : ∀ b ∈ ctx.DecodedBuffer, b < 256)
    (hadj : List.Chain' (· ≠ ·) ctx.DecodedBuffer) :
    EncodeRle ctx = .ok { ctx with EncodedBuffer :=
      singleSegmentHeader ++
        ((ctx.DecodedBuffer.length - 1) :: ctx.DecodedBuffer ++
          if ctx.DecodedBuffer.length % 2 = 0 then [0] else []) } ∧
    EncodeRle (scenarioContext (List.range 128)) =
      .ok { scenarioContext (List.range 128) with
            EncodedBuffer := singleSegmentHeader ++ (0x7F :: List.range 128 ++ [0]) } := by
  exact ⟨EncodeRle_of_distinct ctx hBA hSPP hP h1 h128 hbytes hadj, EncodeRle_scenario_literal⟩

theorem EncodeRle_literal_run_witness :
    EncodeRle (scenarioContext [7, 8, 7, 9]) =
      .ok { scenarioContext [7, 8, 7, 9] with
            EncodedBuffer := singleSegmentHeader ++ (3 :: [7, 8, 7, 9] ++ [0]) } :=
  (EncodeRle_literal_run (scenarioContext [7, 8, 7, 9]) (by rfl) (by rfl) (by rfl) (by decide)
    (by decide) (by decide) (by simp [scenarioContext])).1

/-- The stream of `EncodeRle` for the four bytes 10 10 20 30. -/
theorem EncodeRle_scenario_mixed :
    EncodeRle (scenarioContext [0x10, 0x10, 0x20, 0x30]) =
      .ok { scenarioContext [0x10, 0x10, 0x20, 0x30] with
            EncodedBuffer := singleSegmentHeader ++ [0x03, 0x10, 0x10, 0x20, 0x30, 0x00] } := by
  rfl

/-- C20, as stated, fails by the padding byte: for the raw bytes 10 10 20 30
the bytes of the stream from offset 64 are 03 10 10 20 30 00, six bytes and not
the five bytes 03 10 10 20 30. -/
theorem EncodeRle_mixed_body_is_padded :
    ∃ ctx', EncodeRle (scenarioContext [0x10, 0x10, 0x20, 0x30]) = .ok ctx' ∧
      ctx'.EncodedBuffer.drop 64 = [0x03, 0x10, 0x10, 0x20, 0x30, 0x00] ∧
      ctx'.EncodedBuffer.drop 64 ≠ [0x03, 0x10, 0x10, 0x20, 0x30] :=
  ⟨_, EncodeRle_scenario_mixed, by decide, by decide⟩

/-- C20, amended. For the raw bytes 10 10 20 30 with one 8-bit sample per
pixel, the bytes of the `EncodeRle` stream from offset 64 are 03 10 10 20 30
followed by one zero byte that pads the segment to an even length: one literal
run of the four bytes, the pair of 10 not becoming a repeat run. -/
theorem EncodeRle_mixed :
    ∃ ctx', EncodeRle (scenarioContext [0x10, 0x10, 0x20, 0x30]) = .ok ctx' ∧
      ctx'.EncodedBuffer.take 64 = singleSegmentHeader ∧
      ctx'.EncodedBuffer.drop 64 = [0x03, 0x10, 0x10, 0x20, 0x30] ++ [0x00] ∧
      [0x03, 0x10, 0x10, 0x20, 0x30] = encodeRuns [Run.literal [0x10, 0x10, 0x20, 0x30]] :=
  ⟨_, EncodeRle_scenario_mixed, by decide, by decide, by decide⟩

/-- The offset slots the decoder reads from a stream of `EncodeRle`, of any
length: the slots from the segment count on hold zero. -/
theorem Encoded_offsets (ctx : CodecsContext) (enc : List Nat) (h : Encoded ctx enc) :
    ∃ offs : List Int, offs.length = 15 ∧ RleDecoder.readOffsets enc 15 0 = .ok offs ∧
      ∀ j, bytesAllocated ctx * ctx.SamplesPerPixel ≤ j → offs.getD j 0 = 0 := by
  obtain ⟨_, offs, body, hl, henc, _, hzero, hsegs⟩ := h
  have hrange : ∀ v ∈ offs, -2147483648 ≤ v ∧ v < 2147483648 := by
    intro v hv
    obtain ⟨j, hj, rfl⟩ := List.getElem_of_mem hv
    have hg : offs.getD j 0 = offs[j] := by
      rw [List.getD_eq_getElem?_getD, List.getElem?_eq_getElem hj]; rfl
    rw [← hg]
    by_cases hjn : j < bytesAllocated ctx * ctx.SamplesPerPixel
    · obtain ⟨pre, runs, trail, post, _, hoff, _⟩ := hsegs j hjn
      rw [hoff]
      exact toInt32_range _
    · rw [hzero j (by omega)]
      omega
  refine ⟨offs, hl, ?_, hzero⟩
  have := readOffsets_flatMap offs
    (le32 ((bytesAllocated ctx * ctx.SamplesPerPixel : Nat) : Int)) body 0
    (by rw [length_le32]) hrange
  rw [hl] at this
  rw [henc]
  exact this

/-- The slots `readOffsets` returns are the words `ReadInt32` finds in the header. -/
theorem readOffsets_slot (data : List Nat) : ∀ (n k : Nat) (offs : List Int),
    RleDecoder.readOffsets data n k = .ok offs → ∀ j, j < n →
      ByteReader.ReadInt32 data (4 + 4 * (k + j)) = .ok (offs.getD j 0)
  | 0, _, _, _, j, hj => by omega
  | n + 1, k, offs, h, j, hj => by
    unfold RleDecoder.readOffsets at h
    cases h1 : ByteReader.ReadInt32 data (4 + 4 * k) with
    | error e => rw [h1] at h; cases h
    | ok o =>
      cases h2 : RleDecoder.readOffsets data n (k + 1) with
      | error e => rw [h1, h2] at h; cases h
      | ok rest =>
        rw [h1, h2] at h
        have ho : offs = o :: rest := by cases h; rfl
        subst ho
        cases j with
        | zero => simpa using h1
        | succ j =>
          have := readOffsets_slot data n (k + 1) rest h2 j (by omega)
          rw [List.getD_cons_succ]
          rw [← this]
          congr 2
          omega

/-- C21. In every stream `EncodeRle` produces, each of the fifteen offset slots
of the header with an index from the segment count `BA * SPP` on reads as zero. -/
theorem EncodeRle_unused_offsets_zero (ctx ctx' : CodecsContext)
    (h : EncodeRle ctx = .ok ctx') :
    ∃ offs : List Int, RleDecoder.readOffsets ctx'.EncodedBuffer 15 0 = .ok offs ∧
      offs.length = 15 ∧
      ∀ j, bytesAllocated ctx * ctx.SamplesPerPixel ≤ j → j < 15 →
        offs.getD j 0 = 0 ∧
        ByteReader.ReadInt32 ctx'.EncodedBuffer (4 + 4 * j) = .ok 0 := by
  obtain ⟨offs, hl, hread, hzero⟩ := Encoded_offsets ctx _ (EncodeRle_encoded ctx ctx' h).1
  refine ⟨offs, hread, hl, fun j hj hj15 => ⟨hzero j hj, ?_⟩⟩
  have hslot := readOffsets_slot ctx'.EncodedBuffer 15 0 offs hread j hj15
  rw [hzero j hj, Nat.zero_add] at hslot
  exact hslot

theorem EncodeRle_unused_offsets_zero_witness :
    ∃ offs : List Int,
      RleDecoder.readOffsets ([2, 0, 0, 0, 64, 0, 0, 0, 68, 0, 0, 0] ++ List.replicate 52 0 ++
        [1, 1, 3, 0, 1, 2, 4, 0]) 15 0 = .ok offs ∧
      offs.length = 15 ∧
      ∀ j, 2 * 1 ≤ j → j < 15 →
        offs.getD j 0 = 0 ∧
        ByteReader.ReadInt32 ([2, 0, 0, 0, 64, 0, 0, 0, 68, 0, 0, 0] ++ List.replicate 52 0 ++
          [1, 1, 3, 0, 1, 2, 4, 0]) (4 + 4 * j) = .ok 0 :=
  EncodeRle_unused_offsets_zero
    { Columns := 2, Rows := 1, BitsAllocated := 16, BitsStored := 12,
      SamplesPerPixel := 1, PixelRepresentation := 0, PlanarConfiguration := 0,
      PhotometricInterpretation := 2, EncodedBuffer := [], DecodedBuffer := [2, 1, 4, 3] }
    { Columns := 2, Rows := 1, BitsAllocated := 16, BitsStored := 12,
      SamplesPerPixel := 1, PixelRepresentation := 0, PlanarConfiguration := 0,
      PhotometricInterpretation := 2,
      EncodedBuffer := [2, 0, 0, 0, 64, 0, 0, 0, 68, 0, 0, 0] ++ List.replicate 52 0 ++
        [1, 1, 3, 0, 1, 2, 4, 0],
      DecodedBuffer := [2, 1, 4, 3] }
    (by rfl)

/-- The constructor reads as many slots as it is asked for. -/
theorem length_readOffsets (data : List Nat) : ∀ (n k : Nat) (offs : List Int),
    RleDecoder.readOffsets data n k = .ok offs → offs.length = n
  | 0, _, offs, h => by
    unfold RleDecoder.readOffsets at h
    cases h
    rfl
  | n + 1, k, offs, h => by
    unfold RleDecoder.readOffsets at h
    cases h1 : ByteReader.ReadInt32 data (4 + 4 * k) with
    | error e => rw [h1] at h; cases h
    | ok o =>
      cases h2 : RleDecoder.readOffsets data n (k + 1) with
      | error e => rw [h1, h2] at h; cases h
      | ok rest =>
        rw [h1, h2] at h
        have ho : offs = o :: rest := by cases h; rfl
        subst ho
        rw [List.length_cons, length_readOffsets data n (k + 1) rest h2]

/-- What the constructor `RleDecoder::RleDecoder(data, size)` leaves in the
fields: the data, the size, the first word as the segment count and the
fifteen words after it as the offsets. -/
theorem RleDecoder_new_fields (data : List Nat) (size : Int) (d : RleDecoder)
    (h : RleDecoder.new data size = .ok d) :
    d.data_ = data ∧ d.size_ = size ∧ d.offsets_.length = 15 ∧
    RleDecoder.readOffsets data 15 0 = .ok d.offsets_ ∧
    ∃ count, ByteReader.ReadUInt32 data 0 = .ok count ∧ d.segmentCount_ = toInt32 count := by
  unfold RleDecoder.new at h
  cases h1 : ByteReader.ReadUInt32 data 0 with
  | error e => rw [h1] at h; cases h
  | ok count =>
    cases h2 : RleDecoder.readOffsets data 15 0 with
    | error e => rw [h1, h2] at h; cases h
    | ok offs =>
      rw [h1, h2] at h
      have hd : d = { data_ := data, size_ := size, segmentCount_ := toInt32 count,
                      offsets_ := offs } := by cases h; rfl
      subst hd
      exact ⟨rfl, rfl, length_readOffsets data 15 0 offs h2, rfl, count, rfl, rfl⟩

/-- C22. For a decoder built from a header with `segmentCount_` segments (at
most the fifteen the header has slots for), `GetSegmentLength(s)` is
`offsets_[s + 1] - offsets_[s]` for every `s < segmentCount_ - 1` and
`size_ - offsets_[s]`, with `size_` the encoded size, for `s = segmentCount_ - 1`;
and `DecodeSegment(s)` decodes that many bytes from `offsets_[s]`. -/
theorem GetSegmentLength_spec (data : List Nat) (size : Int) (d : RleDecoder)
    (hd : RleDecoder.new data size = .ok d) (hc : d.segmentCount_ ≤ 15) (s : Nat) :
    ((s : Int) < d.segmentCount_ - 1 →
      d.GetSegmentLength s = .ok (d.offsets_.getD (s + 1) 0 - d.offsets_.getD s 0) ∧
      ∀ sinkSize start sampleOffset, d.DecodeSegmentLog s sinkSize start sampleOffset =
        RleDecoder.DecodeLog sinkSize start sampleOffset data (d.offsets_.getD s 0)
          (d.offsets_.getD (s + 1) 0 - d.offsets_.getD s 0)) ∧
    ((s : Int) = d.segmentCount_ - 1 →
      d.GetSegmentLength s = .ok (size - d.offsets_.getD s 0) ∧
      ∀ sinkSize start sampleOffset, d.DecodeSegmentLog s sinkSize start sampleOffset =
        RleDecoder.DecodeLog sinkSize start sampleOffset data (d.offsets_.getD s 0)
          (size - d.offsets_.getD s 0)) := by
  obtain ⟨hdata, hsize, hlen, _, _⟩ := RleDecoder_new_fields data size d hd
  have hoff : ∀ j : Nat, j < 15 → d.GetSegmentOffset j = .ok (d.offsets_.getD j 0) := by
    intro j hj
    unfold RleDecoder.GetSegmentOffset
    rw [if_pos (by rw [hlen]; omega)]
    simp
  constructor
  · intro hs
    have hlength : d.GetSegmentLength s =
        .ok (d.offsets_.getD (s + 1) 0 - d.offsets_.getD s 0) := by
      unfold RleDecoder.GetSegmentLength
      have h1 := hoff (s + 1) (by omega)
      rw [Nat.cast_add, Nat.cast_one] at h1
      rw [hoff s (by omega)]
      simp only [bind, Except.bind]
      rw [if_pos hs, h1]
    refine ⟨hlength, fun sinkSize start sampleOffset => ?_⟩
    unfold RleDecoder.DecodeSegmentLog
    rw [if_neg (by omega), hoff s (by omega), hlength, hdata]
    rfl
  · intro hs
    have hlength : d.GetSegmentLength s = .ok (size - d.offsets_.getD s 0) := by
      unfold RleDecoder.GetSegmentLength
      rw [hoff s (by omega)]
      simp only [bind, Except.bind]
      rw [if_neg (by omega), hsize]
    refine ⟨hlength, fun sinkSize start sampleOffset => ?_⟩
    unfold RleDecoder.DecodeSegmentLog
    rw [if_neg (by omega), hoff s (by omega), hlength, hdata]
    rfl

theorem GetSegmentLength_spec_witness :
    RleDecoder.GetSegmentLength
        { data_ := [2, 0, 0, 0, 64, 0, 0, 0, 68, 0, 0, 0] ++ List.replicate 52 0 ++
            [1, 1, 3, 0, 1, 2, 4, 0],
          size_ := 72, segmentCount_ := 2,
          offsets_ := [64, 68, 0, 0, 0, 0, 0, 0, 0, 0, 0, 0, 0, 0, 0] } (0 : Nat) = .ok (68 - 64) ∧
    RleDecoder.GetSegmentLength
        { data_ := [2, 0, 0, 0, 64, 0, 0, 0, 68, 0, 0, 0] ++ List.replicate 52 0 ++
            [1, 1, 3, 0, 1, 2, 4, 0],
          size_ := 72, segmentCount_ := 2,
          offsets_ := [64, 68, 0, 0, 0, 0, 0, 0, 0, 0, 0, 0, 0, 0, 0] } (1 : Nat) = .ok (72 - 68) :=
  ⟨((GetSegmentLength_spec
      ([2, 0, 0, 0, 64, 0, 0, 0, 68, 0, 0, 0] ++ List.replicate 52 0 ++ [1, 1, 3, 0, 1, 2, 4, 0])
      72
      { data_ := [2, 0, 0, 0, 64, 0, 0, 0, 68, 0, 0, 0] ++ List.replicate 52 0 ++
          [1, 1, 3, 0, 1, 2, 4, 0],
        size_ := 72, segmentCount_ := 2,
        offsets_ := [64, 68, 0, 0, 0, 0, 0, 0, 0, 0, 0, 0, 0, 0, 0] }
      (by rfl) (by decide) 0).1 (by decide)).1,
   ((GetSegmentLength_spec
      ([2, 0, 0, 0, 64, 0, 0, 0, 68, 0, 0, 0] ++ List.replicate 52 0 ++ [1, 1, 3, 0, 1, 2, 4, 0])
      72
      { data_ := [2, 0, 0, 0, 64, 0, 0, 0, 68, 0, 0, 0] ++ List.replicate 52 0 ++
          [1, 1, 3, 0, 1, 2, 4, 0],
        size_ := 72, segmentCount_ := 2,
        offsets_ := [64, 68, 0, 0, 0, 0, 0, 0, 0, 0, 0, 0, 0, 0, 0] }
      (by rfl) (by decide) 1).2 (by decide)).1⟩

/-- The resolution loop ends within `tw` iterations and only counts up. -/
theorem resolutionLoop_total : ∀ (fuel n tw th : Nat), tw ≤ fuel →
    ∃ m, EncodeJpeg2000.resolutionLoop fuel n tw th = .ok m ∧ n ≤ m ∧
      (tw ≠ 0 → th ≠ 0 → n + 1 ≤ m)
  | 0, n, tw, th, h => by
    have htw : tw = 0 := by omega
    subst htw
    refine ⟨n, ?_, le_refl _, fun h0 => absurd rfl h0⟩
    unfold EncodeJpeg2000.resolutionLoop
    simp
  | fuel + 1, n, tw, th, h => by
    unfold EncodeJpeg2000.resolutionLoop
    by_cases hc : tw ≠ 0 ∧ th ≠ 0
    · rw [if_pos hc]
      have hlt : tw >>> 1 ≤ fuel := by
        rw [Nat.shiftRight_eq_div_pow]
        omega
      obtain ⟨m, hm, hle, _⟩ := resolutionLoop_total fuel (n + 1) (tw >>> 1) (th >>> 1) hlt
      exact ⟨m, hm, by omega, fun _ _ => hle⟩
    · rw [if_neg hc]
      exact ⟨n, rfl, le_refl _, fun h1 h2 => absurd ⟨h1, h2⟩ hc⟩

/-- C24, as stated, fails: a 64 x 64 image gets 6 resolutions and a 2 x 2 image
gets 1, not 0. -/
theorem numresolution_small_not_zero :
    EncodeJpeg2000.numresolution
      { Columns := 64, Rows := 64, BitsAllocated := 8, BitsStored := 8, SamplesPerPixel := 1,
        PixelRepresentation := 0, PlanarConfiguration := 0, PhotometricInterpretation := 2,
        EncodedBuffer := [], DecodedBuffer := [] } = .ok 6 ∧
    EncodeJpeg2000.numresolution
      { Columns := 2, Rows := 2, BitsAllocated := 8, BitsStored := 8, SamplesPerPixel := 1,
        PixelRepresentation := 0, PlanarConfiguration := 0, PhotometricInterpretation := 2,
        EncodedBuffer := [], DecodedBuffer := [] } = .ok 1 := by
  exact ⟨by rfl, by rfl⟩

/-- C24, amended. For every image with `Columns ≥ 1` and `Rows ≥ 1`,
`EncodeJpeg2000` uses 0 resolutions exactly when `Columns = 1` or `Rows = 1`;
for 8192 x 8192 it uses 6. -/
theorem numresolution_small_and_large (ctx : CodecsContext) (hc : 1 ≤ ctx.Columns)
    (hr : 1 ≤ ctx.Rows) :
    (∃ n, EncodeJpeg2000.numresolution ctx = .ok n ∧
      (n = 0 ↔ ctx.Columns = 1 ∨ ctx.Rows = 1)) ∧
    (ctx.Columns = 8192 → ctx.Rows = 8192 → EncodeJpeg2000.numresolution ctx = .ok 6) := by
  refine ⟨?_, fun h1 h2 => by unfold EncodeJpeg2000.numresolution; rw [h1, h2]; rfl⟩
  obtain ⟨m, hm, _, hpos⟩ := resolutionLoop_total (ctx.Columns >>> 1) 0 (ctx.Columns >>> 1)
    (ctx.Rows >>> 1) (le_refl _)
  have hcs : ctx.Columns >>> 1 = ctx.Columns / 2 := by
    rw [Nat.shiftRight_eq_div_pow]
  have hrs : ctx.Rows >>> 1 = ctx.Rows / 2 := by
    rw [Nat.shiftRight_eq_div_pow]
  refine ⟨if m > 6 then 6 else m, ?_, ?_⟩
  · unfold EncodeJpeg2000.numresolution
    simp only [bind, Except.bind]
    rw [hm]
  · constructor
    · intro h0
      by_contra hne
      have h1 : ctx.Columns >>> 1 ≠ 0 := by rw [hcs]; omega
      have h2 : ctx.Rows >>> 1 ≠ 0 := by rw [hrs]; omega
      have := hpos h1 h2
      split at h0 <;> omega
    · intro h1
      have hz : ctx.Columns >>> 1 = 0 ∨ ctx.Rows >>> 1 = 0 := by
        rw [hcs, hrs]; omega
      have hm0 : m = 0 := by
        unfold EncodeJpeg2000.resolutionLoop at hm
        rw [if_neg (by rcases hz with h | h <;> simp [h])] at hm
        cases hm
        rfl
      rw [hm0]
      rfl

theorem numresolution_small_and_large_witness :
    (∃ n, EncodeJpeg2000.numresolution
        { Columns := 1, Rows := 64, BitsAllocated := 8, BitsStored := 8, SamplesPerPixel := 1,
          PixelRepresentation := 0, PlanarConfiguration := 0, PhotometricInterpretation := 2,
          EncodedBuffer := [], DecodedBuffer := [] } = .ok n ∧
      (n = 0 ↔ (1 : Nat) = 1 ∨ (64 : Nat) = 1)) :=
  (numresolution_small_and_large
    { Columns := 1, Rows := 64, BitsAllocated := 8, BitsStored := 8, SamplesPerPixel := 1,
      PixelRepresentation := 0, PlanarConfiguration := 0, PhotometricInterpretation := 2,
      EncodedBuffer := [], DecodedBuffer := [] } (by decide) (by decide)).1

/-- The decomposition loop ends within `tw` iterations. -/
theorem decompositionLoop_total : ∀ (fuel n tw th : Nat), tw ≤ fuel →
    ∃ m, EncodeHtJpeg2000.decompositionLoop fuel n tw th = .ok m
  | 0, n, tw, th, h => by
    have htw : tw = 0 := by omega
    subst htw
    refine ⟨n, ?_⟩
    unfold EncodeHtJpeg2000.decompositionLoop
    simp
  | fuel + 1, n, tw, th, h => by
    unfold EncodeHtJpeg2000.decompositionLoop
    by_cases hc : tw > 64 ∧ th > 64
    · rw [if_pos hc]
      exact decompositionLoop_total fuel (n + 1) (tw / 2) (th / 2) (by omega)
    · rw [if_neg hc]
      exact ⟨n, rfl⟩

/-- C25. For every image with `Columns ≤ 64` and `Rows ≤ 64`, `EncodeHtJpeg2000`
uses 0 decompositions; for 8192 x 8192 it uses 6; and for all dimensions the
count is at most 6. -/
theorem numDecompositions_small_and_large (ctx : CodecsContext) :
    (ctx.Columns ≤ 64 → ctx.Rows ≤ 64 → EncodeHtJpeg2000.numDecompositions ctx = .ok 0) ∧
    (ctx.Columns = 8192 → ctx.Rows = 8192 →
      EncodeHtJpeg2000.numDecompositions ctx = .ok 6) ∧
    ∃ n, EncodeHtJpeg2000.numDecompositions ctx = .ok n ∧ n ≤ 6 := by
  refine ⟨fun hc hr => ?_,
    fun h1 h2 => by unfold EncodeHtJpeg2000.numDecompositions; rw [h1, h2]; rfl, ?_⟩
  · have hloop : EncodeHtJpeg2000.decompositionLoop ctx.Columns 0 ctx.Columns ctx.Rows =
        .ok 0 := by
      unfold EncodeHtJpeg2000.decompositionLoop
      rw [if_neg (by omega)]
    unfold EncodeHtJpeg2000.numDecompositions
    simp only [bind, Except.bind, hloop]
    rfl
  · obtain ⟨m, hm⟩ := decompositionLoop_total ctx.Columns 0 ctx.Columns ctx.Rows (le_refl _)
    refine ⟨if m > 6 then 6 else m, ?_, by split <;> omega⟩
    unfold EncodeHtJpeg2000.numDecompositions
    simp only [bind, Except.bind]
    rw [hm]

theorem numDecompositions_small_and_large_witness :
    EncodeHtJpeg2000.numDecompositions
      { Columns := 64, Rows := 48, BitsAllocated := 8, BitsStored := 8, SamplesPerPixel := 1,
        PixelRepresentation := 0, PlanarConfiguration := 0, PhotometricInterpretation := 2,
        EncodedBuffer := [], DecodedBuffer := [] } = .ok 0 :=
  (numDecompositions_small_and_large
    { Columns := 64, Rows := 48, BitsAllocated := 8, BitsStored := 8, SamplesPerPixel := 1,
      PixelRepresentation := 0, PlanarConfiguration := 0, PhotometricInterpretation := 2,
      EncodedBuffer := [], DecodedBuffer := [] }).1 (by decide) (by decide)

namespace RleDecoder

theorem GetSegmentOffset_error (d : RleDecoder) (segment : Int) (e : CodecsError)
    (h : d.GetSegmentOffset segment = .error e) : e = .memoryFault := by
  unfold GetSegmentOffset at h
  split at h
  · cases h
  · cases h; rfl

theorem GetSegmentLength_error (d : RleDecoder) (segment : Int) (e : CodecsError)
    (h : d.GetSegmentLength segment = .error e) : e = .memoryFault := by
  unfold GetSegmentLength at h
  cases h1 : d.GetSegmentOffset segment with
  | error e1 =>
    rw [h1] at h
    cases h
    exact GetSegmentOffset_error _ _ _ h1
  | ok offset =>
    rw [h1] at h
    simp only [bind, Except.bind] at h
    split at h
    · cases h2 : d.GetSegmentOffset (segment + 1) with
      | error e2 =>
        rw [h2] at h
        cases h
        exact GetSegmentOffset_error _ _ _ h2
      | ok next =>
        rw [h2] at h
        cases h
    · cases h

/-- A segment index inside the range never ends in the range exception. -/
theorem DecodeSegmentTrace_error (d : RleDecoder) (segment size start sampleOffset : Int)
    (hs : 0 ≤ segment ∧ segment < d.segmentCount_) (e : CodecsError)
    (h : (d.DecodeSegmentTrace segment size start sampleOffset).2 = some e) :
    e = .inputOverflow ∨ e = .outputOverflow ∨ e = .memoryFault ∨ e = .outOfFuel := by
  unfold DecodeSegmentTrace at h
  rw [if_neg (by omega)] at h
  cases h1 : d.GetSegmentOffset segment with
  | error e1 =>
    rw [h1] at h
    cases h
    exact Or.inr (Or.inr (Or.inl (GetSegmentOffset_error _ _ _ h1)))
  | ok offset =>
    rw [h1] at h
    cases h2 : d.GetSegmentLength segment with
    | error e2 =>
      rw [h2] at h
      cases h
      exact Or.inr (Or.inr (Or.inl (GetSegmentLength_error _ _ _ h2)))
    | ok length =>
      rw [h2] at h
      exact decodeLoopT_error _ _ _ _ _ _ _ e h

end RleDecoder

/-- How a call with trace `t` on a sink ends: with a fault of memory or with the
exception of the trace. -/
theorem applyTrace_error (buffer : List Nat) (t : Trace) (e : CodecsError)
    (h : (applyTrace buffer t).1 = .error e) : e = .memoryFault ∨ t.2 = some e := by
  unfold applyTrace at h
  cases hs : (storeT buffer t.1).2 with
  | some e' =>
    simp only [hs] at h
    cases h
    exact Or.inl (storeT_error _ _ _ hs)
  | none =>
    simp only [hs] at h
    cases ht : t.2 with
    | none => simp only [ht] at h; cases h
    | some e' =>
      simp only [ht] at h
      cases h
      exact Or.inr rfl

/-- C23. `RleDecoder::DecodeSegment` with a segment index `s < 0` or
`s ≥ segmentCount_` throws the range exception before any store: the trace has
no store, the sink is left as it was, whatever the decoder holds; with
`0 ≤ s < segmentCount_` the call never ends in the range exception. -/
theorem DecodeSegment_range_check (d : RleDecoder) (s size start sampleOffset : Int) :
    (s < 0 ∨ s ≥ d.segmentCount_ →
      d.DecodeSegmentTrace s size start sampleOffset = ([], some (.segmentOutOfRange s)) ∧
      ∀ buffer : List Nat,
        d.DecodeSegmentSink s buffer size start sampleOffset =
          (.error (.segmentOutOfRange s), buffer) ∧
        d.DecodeSegment s buffer size start sampleOffset = .error (.segmentOutOfRange s)) ∧
    (0 ≤ s ∧ s < d.segmentCount_ →
      ∀ (buffer : List Nat) (s' : Int),
        (d.DecodeSegmentSink s buffer size start sampleOffset).1 ≠
          .error (.segmentOutOfRange s') ∧
        d.DecodeSegment s buffer size start sampleOffset ≠ .error (.segmentOutOfRange s')) := by
  constructor
  · intro h
    have ht : d.DecodeSegmentTrace s size start sampleOffset =
        ([], some (.segmentOutOfRange s)) := by
      unfold RleDecoder.DecodeSegmentTrace
      rw [if_pos h]
    refine ⟨ht, fun buffer => ⟨?_, ?_⟩⟩
    · unfold RleDecoder.DecodeSegmentSink
      rw [ht]
      rfl
    · unfold RleDecoder.DecodeSegment RleDecoder.DecodeSegmentLog
      rw [if_pos h]
      rfl
  · intro h buffer s'
    have hno : ∀ e, (d.DecodeSegmentSink s buffer size start sampleOffset).1 = .error e →
        e ≠ .segmentOutOfRange s' := by
      intro e he heq
      subst heq
      rcases applyTrace_error _ _ _ he with h1 | h1
      · cases h1
      · rcases RleDecoder.DecodeSegmentTrace_error d s size start sampleOffset h _ h1 with
          h2 | h2 | h2 | h2 <;> cases h2
    refine ⟨fun he => hno _ he rfl, fun he => ?_⟩
    unfold RleDecoder.DecodeSegment at he
    rw [RleDecoder.DecodeSegmentLog_eq_trace] at he
    unfold Trace.toExcept at he
    cases ht : (d.DecodeSegmentTrace s size start sampleOffset).2 with
    | some e =>
      rw [ht] at he
      simp only [bind, Except.bind] at he
      cases he
      rcases RleDecoder.DecodeSegmentTrace_error d s size start sampleOffset h _ ht with
        h2 | h2 | h2 | h2 <;> cases h2
    | none =>
      rw [ht] at he
      simp only [bind, Except.bind] at he
      rw [store_eq_storeT] at he
      cases hst : (storeT buffer (d.DecodeSegmentTrace s size start sampleOffset).1).2 with
      | none => rw [hst] at he; cases he
      | some e =>
        rw [hst] at he
        cases he
        have := storeT_error _ _ _ hst
        cases this

theorem DecodeSegment_range_check_witness :
    RleDecoder.DecodeSegmentTrace
        { data_ := [1, 0, 0, 0, 64, 0, 0, 0] ++ List.replicate 56 0 ++ [1, 65, 66],
          size_ := 67, segmentCount_ := 1,
          offsets_ := [64, 0, 0, 0, 0, 0, 0, 0, 0, 0, 0, 0, 0, 0, 0] } 1 2 0 1 =
      ([], some (.segmentOutOfRange 1)) ∧
    ∀ buffer : List Nat,
      RleDecoder.DecodeSegmentSink
          { data_ := [1, 0, 0, 0, 64, 0, 0, 0] ++ List.replicate 56 0 ++ [1, 65, 66],
            size_ := 67, segmentCount_ := 1,
            offsets_ := [64, 0, 0, 0, 0, 0, 0, 0, 0, 0, 0, 0, 0, 0, 0] } 1 buffer 2 0 1 =
        (.error (.segmentOutOfRange 1), buffer) ∧
      RleDecoder.DecodeSegment
          { data_ := [1, 0, 0, 0, 64, 0, 0, 0] ++ List.replicate 56 0 ++ [1, 65, 66],
            size_ := 67, segmentCount_ := 1,
            offsets_ := [64, 0, 0, 0, 0, 0, 0, 0, 0, 0, 0, 0, 0, 0, 0] } 1 buffer 2 0 1 =
        .error (.segmentOutOfRange 1) :=
  (DecodeSegment_range_check
    { data_ := [1, 0, 0, 0, 64, 0, 0, 0] ++ List.replicate 56 0 ++ [1, 65, 66],
      size_ := 67, segmentCount_ := 1,
      offsets_ := [64, 0, 0, 0, 0, 0, 0, 0, 0, 0, 0, 0, 0, 0, 0] } 1 2 0 1).1 (by decide)

/-- C26. When `DecodeJpeg8` runs with `ConvertColorspaceToRgb` set and a pixel
representation that is not signed on a JPEG whose header declares YCbCr or RGB,
then on success `PhotometricInterpretation` is Rgb, `PlanarConfiguration` is
interleaved and, for 8 bits allocated and 3 components, the decoded buffer has
`image_width * image_height * 3` bytes; when the flag is not set or the colour
space is neither, both fields are left as they were, however the call ends. -/
theorem DecodeJpeg8_colour_space_patch (lib : JpegLibrary) (junk : Nat → Nat)
    (ctx : CodecsContext) (params : DecoderParameters) (dinfo : jpeg_decompress_struct)
    (hh : lib.jpeg_read_header ctx.EncodedBuffer = .ok (some dinfo)) :
    (params.ConvertColorspaceToRgb = true → ctx.PixelRepresentation ≠ Signed →
      dinfo.out_color_space = .JCS_YCbCr ∨ dinfo.out_color_space = .JCS_RGB →
      (DecodeJpeg8 lib junk ctx params).1 = .ok () →
      (DecodeJpeg8 lib junk ctx params).2.PhotometricInterpretation = Rgb ∧
      (DecodeJpeg8 lib junk ctx params).2.PlanarConfiguration = Interleaved ∧
      (bytesAllocated ctx = 1 → dinfo.num_components = 3 →
        (DecodeJpeg8 lib junk ctx params).2.DecodedBuffer.length =
          dinfo.image_width * dinfo.image_height * 3)) ∧
    (params.ConvertColorspaceToRgb = false ∨
        (dinfo.out_color_space ≠ .JCS_YCbCr ∧ dinfo.out_color_space ≠ .JCS_RGB) →
      (DecodeJpeg8 lib junk ctx params).2.PhotometricInterpretation =
        ctx.PhotometricInterpretation ∧
      (DecodeJpeg8 lib junk ctx params).2.PlanarConfiguration = ctx.PlanarConfiguration) := by
  constructor
  · intro hconv hsigned hcs _
    have hrun : DecodeJpeg8 lib junk ctx params =
        DecodeJpeg8.decompressInto lib junk { dinfo with out_color_space := .JCS_RGB }
          { ctx with PhotometricInterpretation := Rgb, PlanarConfiguration := Interleaved } := by
      unfold DecodeJpeg8
      rw [hh]
      simp only []
      rw [if_pos ⟨hconv, hcs⟩, if_neg hsigned]
    rw [hrun]
    obtain ⟨h1, h2⟩ := decompressInto_spec lib junk { dinfo with out_color_space := .JCS_RGB }
      { ctx with PhotometricInterpretation := Rgb, PlanarConfiguration := Interleaved }
    simp only [CodecsContext.numericFields, List.cons.injEq, and_true] at h1
    refine ⟨h1.2.2.2.2.2.2.2, h1.2.2.2.2.2.2.1, fun hba hnc => ?_⟩
    rw [h2]
    have hba' :
        bytesAllocated
          { ctx with PhotometricInterpretation := Rgb, PlanarConfiguration := Interleaved } =
        1 := hba
    rw [hba', hnc, Nat.mul_one]
  · intro hno
    have hrun : DecodeJpeg8 lib junk ctx params =
        DecodeJpeg8.decompressInto lib junk
          { dinfo with jpeg_color_space := .JCS_UNKNOWN, out_color_space := .JCS_UNKNOWN }
          ctx := by
      unfold DecodeJpeg8
      rw [hh]
      simp only []
      rw [if_neg]
      intro hc
      rcases hno with h | h
      · rw [h] at hc
        exact absurd hc.1 (by decide)
      · rcases hc.2 with h' | h'
        · exact h.1 h'
        · exact h.2 h'
    rw [hrun]
    obtain ⟨h1, _⟩ := decompressInto_spec lib junk
      { dinfo with jpeg_color_space := .JCS_UNKNOWN, out_color_space := .JCS_UNKNOWN } ctx
    simp only [CodecsContext.numericFields, List.cons.injEq, and_true] at h1
    exact ⟨h1.2.2.2.2.2.2.2, h1.2.2.2.2.2.2.1⟩

theorem DecodeJpeg8_colour_space_patch_witness :
    (DecodeJpeg8 (exampleLibrary ⟨2, 1, 3, .JCS_YCbCr, .JCS_YCbCr⟩
        ([(0, 10), (1, 20), (2, 30), (3, 11), (4, 21), (5, 31)], none)) (fun _ => 0)
        (exampleContext 2 1 3 0 1 4) ⟨true⟩).2.PhotometricInterpretation = Rgb ∧
    (DecodeJpeg8 (exampleLibrary ⟨2, 1, 3, .JCS_YCbCr, .JCS_YCbCr⟩
        ([(0, 10), (1, 20), (2, 30), (3, 11), (4, 21), (5, 31)], none)) (fun _ => 0)
        (exampleContext 2 1 3 0 1 4) ⟨true⟩).2.PlanarConfiguration = Interleaved ∧
    (bytesAllocated (exampleContext 2 1 3 0 1 4) = 1 → (3 : Nat) = 3 →
      (DecodeJpeg8 (exampleLibrary ⟨2, 1, 3, .JCS_YCbCr, .JCS_YCbCr⟩
        ([(0, 10), (1, 20), (2, 30), (3, 11), (4, 21), (5, 31)], none)) (fun _ => 0)
        (exampleContext 2 1 3 0 1 4) ⟨true⟩).2.DecodedBuffer.length = 2 * 1 * 3) :=
  (DecodeJpeg8_colour_space_patch (exampleLibrary ⟨2, 1, 3, .JCS_YCbCr, .JCS_YCbCr⟩
      ([(0, 10), (1, 20), (2, 30), (3, 11), (4, 21), (5, 31)], none)) (fun _ => 0)
    (exampleContext 2 1 3 0 1 4) ⟨true⟩ ⟨2, 1, 3, .JCS_YCbCr, .JCS_YCbCr⟩ (by rfl)).1
    (by rfl) (by decide) (Or.inl rfl) (by rfl)

/-- C27. When `DecodeJpeg8` runs with `ConvertColorspaceToRgb` set and a signed
pixel representation on a JPEG whose header declares YCbCr or RGB, it fails
with the exception of the signed conversion and the context is as it was at
entry, numeric fields and buffers alike. -/
theorem DecodeJpeg8_signed_convert (lib : JpegLibrary) (junk : Nat → Nat)
    (ctx : CodecsContext) (params : DecoderParameters) (dinfo : jpeg_decompress_struct)
    (hh : lib.jpeg_read_header ctx.EncodedBuffer = .ok (some dinfo))
    (hconv : params.ConvertColorspaceToRgb = true) (hsigned : ctx.PixelRepresentation = Signed)
    (hcs : dinfo.out_color_space = .JCS_YCbCr ∨ dinfo.out_color_space = .JCS_RGB) :
    DecodeJpeg8 lib junk ctx params = (.error .signedColorConvertUnsupported, ctx) := by
  unfold DecodeJpeg8
  rw [hh]
  simp only []
  rw [if_pos ⟨hconv, hcs⟩, if_pos hsigned]

theorem DecodeJpeg8_signed_convert_witness :
    DecodeJpeg8 (exampleLibrary ⟨2, 1, 3, .JCS_YCbCr, .JCS_YCbCr⟩
        ([(0, 10), (1, 20), (2, 30), (3, 11), (4, 21), (5, 31)], none)) (fun _ => 0)
      (exampleContext 2 1 3 1 1 4) ⟨true⟩ =
    (.error .signedColorConvertUnsupported, exampleContext 2 1 3 1 1 4) :=
  DecodeJpeg8_signed_convert (exampleLibrary ⟨2, 1, 3, .JCS_YCbCr, .JCS_YCbCr⟩
      ([(0, 10), (1, 20), (2, 30), (3, 11), (4, 21), (5, 31)], none)) (fun _ => 0)
    (exampleContext 2 1 3 1 1 4) ⟨true⟩ ⟨2, 1, 3, .JCS_YCbCr, .JCS_YCbCr⟩ (by rfl) (by rfl)
    (by rfl) (Or.inl rfl)

/-! ## The entry points over the third-party libraries -/

theorem toSizeT_of_lt (n : Nat) (h : n < 4294967296) : toSizeT n = n := by
  unfold toSizeT
  omega

theorem DecodeJpegLs_numericFields (lib : CharLS) (junk : Nat → Nat) (ctx : CodecsContext) :
    (DecodeJpegLs lib junk ctx).2.numericFields = ctx.numericFields := by
  unfold DecodeJpegLs
  cases lib.JpegLsReadHeader ctx.EncodedBuffer <;> rfl

theorem EncodeJpegLs_numericFields (lib : CharLS) (junk : Nat → Nat) (ctx : CodecsContext)
    (params : EncoderParameters) :
    (EncodeJpegLs lib junk ctx params).2.numericFields = ctx.numericFields := by
  unfold EncodeJpegLs
  simp only []
  repeat' split
  all_goals rfl

theorem DecodeJpeg2000_numericFields (lib : OpenJpegDecoder) (junk : Nat → Nat)
    (ctx : CodecsContext) :
    (DecodeJpeg2000 lib junk ctx).2.numericFields = ctx.numericFields := by
  unfold DecodeJpeg2000
  split
  · rfl
  · split <;> rfl

theorem EncodeJpeg2000_numericFields (lib : OpenJpegEncoder) (ctx : CodecsContext)
    (params : EncoderParameters) :
    (EncodeJpeg2000 lib ctx params).2.numericFields = ctx.numericFields := by
  unfold EncodeJpeg2000
  cases EncodeJpeg2000.encoded lib ctx params <;> rfl

theorem DecodeHtJpeg2000_numericFields (lib : OpenJphDecoder) (ctx : CodecsContext) :
    (DecodeHtJpeg2000 lib ctx).2.numericFields = ctx.numericFields := by
  unfold DecodeHtJpeg2000
  cases DecodeHtJpeg2000.decodedBuffer lib ctx <;> rfl

theorem EncodeHtJpeg2000_numericFields (lib : OpenJphEncoder) (ctx : CodecsContext)
    (params : EncoderParameters) :
    (EncodeHtJpeg2000 lib ctx params).2.numericFields = ctx.numericFields := by
  unfold EncodeHtJpeg2000
  cases EncodeHtJpeg2000.encoded lib ctx params with
  | error e => rfl
  | ok data => simp only []; split <;> rfl

theorem EncodeJpeg16_numericFields (lib : JpegCompressor) (ctx : CodecsContext)
    (params : EncoderParameters) :
    (EncodeJpeg16 lib ctx params).2.numericFields = ctx.numericFields := by
  unfold EncodeJpeg16
  simp only []
  repeat' split
  all_goals rfl

/-- What `DecodeJpeg8` leaves of the numeric fields, however it ends: the entry
values, or, after the colour-space patch, the entry values with Rgb and
interleaved. -/
theorem DecodeJpeg8_numericFields (lib : JpegLibrary) (junk : Nat → Nat)
    (ctx : CodecsContext) (dparams : DecoderParameters) :
    (DecodeJpeg8 lib junk ctx dparams).2.numericFields = ctx.numericFields ∨
      ((∃ dinfo, lib.jpeg_read_header ctx.EncodedBuffer = .ok (some dinfo) ∧
          (dinfo.out_color_space = .JCS_YCbCr ∨ dinfo.out_color_space = .JCS_RGB)) ∧
        dparams.ConvertColorspaceToRgb = true ∧ ctx.PixelRepresentation ≠ Signed ∧
        (DecodeJpeg8 lib junk ctx dparams).2.numericFields =
          [ctx.Columns, ctx.Rows, ctx.BitsAllocated, ctx.BitsStored, ctx.SamplesPerPixel,
            ctx.PixelRepresentation, Interleaved, Rgb]) := by
  unfold DecodeJpeg8
  cases hh : lib.jpeg_read_header ctx.EncodedBuffer with
  | error e => exact Or.inl rfl
  | ok o =>
    cases o with
    | none => exact Or.inl rfl
    | some dinfo =>
      simp only []
      by_cases hp : dparams.ConvertColorspaceToRgb = true ∧
          (dinfo.out_color_space = .JCS_YCbCr ∨ dinfo.out_color_space = .JCS_RGB)
      · rw [if_pos hp]
        by_cases hs : ctx.PixelRepresentation = Signed
        · rw [if_pos hs]
          exact Or.inl rfl
        · rw [if_neg hs]
          refine Or.inr ⟨⟨dinfo, rfl, hp.2⟩, hp.1, hs, ?_⟩
          rw [(decompressInto_spec lib junk _ _).1]
          rfl
      · rw [if_neg hp]
        exact Or.inl (decompressInto_spec lib junk _ _).1

/-- The dispatcher `DecodeJpeg` ends as the subvariant it hands over to, or
fails with the context as it was. -/
theorem DecodeJpeg_cases (scan : List Nat → Nat → Nat)
    (d8 d12 d16 : CodecsContext → DecoderParameters → Outcome) (ctx : CodecsContext)
    (dparams : DecoderParameters) :
    DecodeJpeg scan d8 d12 d16 ctx dparams = d8 ctx dparams ∨
    DecodeJpeg scan d8 d12 d16 ctx dparams = d12 ctx dparams ∨
    DecodeJpeg scan d8 d12 d16 ctx dparams = d16 ctx dparams ∨
    (DecodeJpeg scan d8 d12 d16 ctx dparams).2 = ctx := by
  unfold DecodeJpeg
  simp only []
  generalize (if scan ctx.EncodedBuffer ctx.EncodedBuffer.length = 0 then ctx.BitsStored
    else scan ctx.EncodedBuffer ctx.EncodedBuffer.length) = p
  by_cases h0 : p = 0
  · rw [if_pos h0]
    exact Or.inr (Or.inr (Or.inr rfl))
  · rw [if_neg h0]
    by_cases h8 : p ≤ 8
    · rw [if_pos h8]
      exact Or.inl rfl
    · rw [if_neg h8]
      by_cases h12 : p ≤ 12
      · rw [if_pos h12]
        exact Or.inr (Or.inl rfl)
      · rw [if_neg h12]
        by_cases h16 : p ≤ 16
        · rw [if_pos h16]
          exact Or.inr (Or.inr (Or.inl rfl))
        · rw [if_neg h16]
          exact Or.inr (Or.inr (Or.inr rfl))

/-- The dispatcher `EncodeJpeg` ends as the subvariant it hands over to, or
fails with the context as it was. -/
theorem EncodeJpeg_cases (e8 e12 e16 : CodecsContext → EncoderParameters → Outcome)
    (ctx : CodecsContext) (eparams : EncoderParameters) :
    EncodeJpeg e8 e12 e16 ctx eparams = e8 ctx eparams ∨
    EncodeJpeg e8 e12 e16 ctx eparams = e12 ctx eparams ∨
    EncodeJpeg e8 e12 e16 ctx eparams = e16 ctx eparams ∨
    (EncodeJpeg e8 e12 e16 ctx eparams).2 = ctx := by
  unfold EncodeJpeg
  simp only []
  by_cases hl : eparams.Lossy = true ∧ ctx.BitsStored ≠ 8
  · rw [if_pos hl]
    exact Or.inr (Or.inr (Or.inr rfl))
  · rw [if_neg hl]
    by_cases h8 : ctx.BitsStored ≤ 8
    · rw [if_pos h8]
      exact Or.inl rfl
    · rw [if_neg h8]
      by_cases h12 : ctx.BitsStored ≤ 12
      · rw [if_pos h12]
        exact Or.inr (Or.inl rfl)
      · rw [if_neg h12]
        by_cases h16 : ctx.BitsStored ≤ 16
        · rw [if_pos h16]
          exact Or.inr (Or.inr (Or.inl rfl))
        · rw [if_neg h16]
          exact Or.inr (Or.inr (Or.inr rfl))

/-- C28, as stated, fails for the JPEG decoder: with the colour conversion
requested on a YCbCr JPEG, a failure the library reports while decompressing
leaves the photometric interpretation and the planar configuration patched to
Rgb and interleaved, not at their entry values YbrFull (4) and planar (1);
likewise through the dispatcher `DecodeJpeg`. -/
theorem DecodeJpeg8_failure_after_patch :
    DecodeJpeg8 (exampleLibrary ⟨2, 1, 3, .JCS_YCbCr, .JCS_YCbCr⟩ ([], some .codecFailure))
        (fun _ => 0) (exampleContext 2 1 3 0 1 4) ⟨true⟩ =
      (.error .codecFailure,
        { exampleContext 2 1 3 0 Interleaved Rgb with DecodedBuffer := [0, 0, 0, 0, 0, 0] }) ∧
    (DecodeJpeg (fun _ _ => 8)
        (DecodeJpeg8 (exampleLibrary ⟨2, 1, 3, .JCS_YCbCr, .JCS_YCbCr⟩ ([], some .codecFailure))
          (fun _ => 0))
        (fun c _ => (.ok (), c)) (fun c _ => (.ok (), c))
        (exampleContext 2 1 3 0 1 4) ⟨true⟩).1 = .error .codecFailure ∧
    (DecodeJpeg (fun _ _ => 8)
        (DecodeJpeg8 (exampleLibrary ⟨2, 1, 3, .JCS_YCbCr, .JCS_YCbCr⟩ ([], some .codecFailure))
          (fun _ => 0))
        (fun c _ => (.ok (), c)) (fun c _ => (.ok (), c))
        (exampleContext 2 1 3 0 1 4) ⟨true⟩).2.numericFields = [2, 1, 8, 8, 3, 0, 0, 3] ∧
    (exampleContext 2 1 3 0 1 4).numericFields = [2, 1, 8, 8, 3, 0, 1, 4] := by
  refine ⟨by rfl, by rfl, by rfl, by rfl⟩

/-- C28, amended. For every codec entry point (`DecodeRle`, `EncodeRle`,
`DecodeJpeg`, `EncodeJpeg`, `DecodeJpegLs`, `EncodeJpegLs`, `DecodeJpeg2000`,
`EncodeJpeg2000`, `DecodeHtJpeg2000`, `EncodeHtJpeg2000`), over every behaviour
of the third-party libraries, a call that fails leaves the numeric fields of
the context at their entry values, with one exception: when the JPEG decoder
reached through `DecodeJpeg` has applied its colour-space patch (conversion
requested, pixels not signed, the header read by the subvariant's library
declares YCbCr or RGB) and fails afterwards, the photometric interpretation and
the planar configuration are Rgb and interleaved and the six other fields are
at their entry values. The same holds of `DecodeJpeg8` called directly. -/
theorem failure_leaves_numeric_fields (junk : Nat → Nat) (ctx : CodecsContext)
    (dparams : DecoderParameters) (eparams : EncoderParameters) (err : CodecsError)
    (scan : List Nat → Nat → Nat) (jpeg8 jpeg12 jpeg16 : JpegLibrary)
    (cjpeg8 cjpeg12 cjpeg16 : JpegCompressor) (charls : CharLS)
    (openjpegDecoder : OpenJpegDecoder) (openjpegEncoder : OpenJpegEncoder)
    (openjphDecoder : OpenJphDecoder) (openjphEncoder : OpenJphEncoder) :
    ((DecodeRleOutcome junk ctx).1 = .error err →
      (DecodeRleOutcome junk ctx).2.numericFields = ctx.numericFields) ∧
    ((EncodeRleOutcome ctx).1 = .error err →
      (EncodeRleOutcome ctx).2.numericFields = ctx.numericFields) ∧
    ((DecodeJpeg8 jpeg8 junk ctx dparams).1 = .error err →
      ((DecodeJpeg8 jpeg8 junk ctx dparams).2.numericFields = ctx.numericFields ∨
        ((∃ dinfo, jpeg8.jpeg_read_header ctx.EncodedBuffer = .ok (some dinfo) ∧
            (dinfo.out_color_space = .JCS_YCbCr ∨ dinfo.out_color_space = .JCS_RGB)) ∧
          dparams.ConvertColorspaceToRgb = true ∧ ctx.PixelRepresentation ≠ Signed ∧
          (DecodeJpeg8 jpeg8 junk ctx dparams).2.numericFields =
            [ctx.Columns, ctx.Rows, ctx.BitsAllocated, ctx.BitsStored, ctx.SamplesPerPixel,
              ctx.PixelRepresentation, Interleaved, Rgb]))) ∧
    ((DecodeJpeg scan (DecodeJpeg8 jpeg8 junk) (DecodeJpeg12 jpeg12 junk)
        (DecodeJpeg16 jpeg16 junk) ctx dparams).1 = .error err →
      ((DecodeJpeg scan (DecodeJpeg8 jpeg8 junk) (DecodeJpeg12 jpeg12 junk)
          (DecodeJpeg16 jpeg16 junk) ctx dparams).2.numericFields = ctx.numericFields ∨
        ((∃ lib dinfo, (lib = jpeg8 ∨ lib = jpeg12 ∨ lib = jpeg16) ∧
            lib.jpeg_read_header ctx.EncodedBuffer = .ok (some dinfo) ∧
            (dinfo.out_color_space = .JCS_YCbCr ∨ dinfo.out_color_space = .JCS_RGB)) ∧
          dparams.ConvertColorspaceToRgb = true ∧ ctx.PixelRepresentation ≠ Signed ∧
          (DecodeJpeg scan (DecodeJpeg8 jpeg8 junk) (DecodeJpeg12 jpeg12 junk)
            (DecodeJpeg16 jpeg16 junk) ctx dparams).2.numericFields =
            [ctx.Columns, ctx.Rows, ctx.BitsAllocated, ctx.BitsStored, ctx.SamplesPerPixel,
              ctx.PixelRepresentation, Interleaved, Rgb]))) ∧
    ((EncodeJpeg (EncodeJpeg8 cjpeg8) (EncodeJpeg12 cjpeg12) (EncodeJpeg16 cjpeg16)
        ctx eparams).1 = .error err →
      (EncodeJpeg (EncodeJpeg8 cjpeg8) (EncodeJpeg12 cjpeg12) (EncodeJpeg16 cjpeg16)
        ctx eparams).2.numericFields = ctx.numericFields) ∧
    ((DecodeJpegLs charls junk ctx).1 = .error err →
      (DecodeJpegLs charls junk ctx).2.numericFields = ctx.numericFields) ∧
    ((EncodeJpegLs charls junk ctx eparams).1 = .error err →
      (EncodeJpegLs charls junk ctx eparams).2.numericFields = ctx.numericFields) ∧
    ((DecodeJpeg2000 openjpegDecoder junk ctx).1 = .error err →
      (DecodeJpeg2000 openjpegDecoder junk ctx).2.numericFields = ctx.numericFields) ∧
    ((EncodeJpeg2000 openjpegEncoder ctx eparams).1 = .error err →
      (EncodeJpeg2000 openjpegEncoder ctx eparams).2.numericFields = ctx.numericFields) ∧
    ((DecodeHtJpeg2000 openjphDecoder ctx).1 = .error err →
      (DecodeHtJpeg2000 openjphDecoder ctx).2.numericFields = ctx.numericFields) ∧
    ((EncodeHtJpeg2000 openjphEncoder ctx eparams).1 = .error err →
      (EncodeHtJpeg2000 openjphEncoder ctx eparams).2.numericFields = ctx.numericFields) := by
  refine ⟨fun _ => DecodeRleOutcome_numericFields junk ctx,
    fun _ => EncodeRleOutcome_numericFields ctx,
    fun _ => DecodeJpeg8_numericFields jpeg8 junk ctx dparams, fun _ => ?_, fun _ => ?_,
    fun _ => DecodeJpegLs_numericFields charls junk ctx,
    fun _ => EncodeJpegLs_numericFields charls junk ctx eparams,
    fun _ => DecodeJpeg2000_numericFields openjpegDecoder junk ctx,
    fun _ => EncodeJpeg2000_numericFields openjpegEncoder ctx eparams,
    fun _ => DecodeHtJpeg2000_numericFields openjphDecoder ctx,
    fun _ => EncodeHtJpeg2000_numericFields openjphEncoder ctx eparams⟩
  · have hsub : ∀ lib : JpegLibrary, lib = jpeg8 ∨ lib = jpeg12 ∨ lib = jpeg16 →
        (DecodeJpeg8 lib junk ctx dparams).2.numericFields = ctx.numericFields ∨
        ((∃ lib dinfo, (lib = jpeg8 ∨ lib = jpeg12 ∨ lib = jpeg16) ∧
            lib.jpeg_read_header ctx.EncodedBuffer = .ok (some dinfo) ∧
            (dinfo.out_color_space = .JCS_YCbCr ∨ dinfo.out_color_space = .JCS_RGB)) ∧
          dparams.ConvertColorspaceToRgb = true ∧ ctx.PixelRepresentation ≠ Signed ∧
          (DecodeJpeg8 lib junk ctx dparams).2.numericFields =
            [ctx.Columns, ctx.Rows, ctx.BitsAllocated, ctx.BitsStored, ctx.SamplesPerPixel,
              ctx.PixelRepresentation, Interleaved, Rgb]) := by
      intro lib hlib
      rcases DecodeJpeg8_numericFields lib junk ctx dparams with h | ⟨⟨dinfo, hh, hcs⟩, h1, h2, h3⟩
      · exact Or.inl h
      · exact Or.inr ⟨⟨lib, dinfo, hlib, hh, hcs⟩, h1, h2, h3⟩
    rcases DecodeJpeg_cases scan (DecodeJpeg8 jpeg8 junk) (DecodeJpeg12 jpeg12 junk)
      (DecodeJpeg16 jpeg16 junk) ctx dparams with h | h | h | h
    · rw [h]
      exact hsub jpeg8 (Or.inl rfl)
    · rw [h]
      exact hsub jpeg12 (Or.inr (Or.inl rfl))
    · rw [h]
      exact hsub jpeg16 (Or.inr (Or.inr rfl))
    · rw [h]
      exact Or.inl rfl
  · rcases EncodeJpeg_cases (EncodeJpeg8 cjpeg8) (EncodeJpeg12 cjpeg12) (EncodeJpeg16 cjpeg16)
      ctx eparams with h | h | h | h
    · rw [h]
      exact EncodeJpeg16_numericFields cjpeg8 ctx eparams
    · rw [h]
      exact EncodeJpeg16_numericFields cjpeg12 ctx eparams
    · rw [h]
      exact EncodeJpeg16_numericFields cjpeg16 ctx eparams
    · rw [h]

theorem failure_leaves_numeric_fields_witness :
    ((DecodeRleOutcome (fun _ => 0)
        { exampleContext 2 1 1 0 0 1 with
          EncodedBuffer := [1, 0, 0, 0, 64, 0, 0, 0] ++ List.replicate 56 0 ++ [0, 65, 5, 66] }).1 =
      .error .inputOverflow ∧
    (DecodeRleOutcome (fun _ => 0)
        { exampleContext 2 1 1 0 0 1 with
          EncodedBuffer := [1, 0, 0, 0, 64, 0, 0, 0] ++ List.replicate 56 0 ++ [0, 65, 5, 66] }
        ).2.DecodedBuffer = [65, 0] ∧
    (DecodeRleOutcome (fun _ => 0)
        { exampleContext 2 1 1 0 0 1 with
          EncodedBuffer := [1, 0, 0, 0, 64, 0, 0, 0] ++ List.replicate 56 0 ++ [0, 65, 5, 66] }
        ).2.numericFields = [2, 1, 8, 8, 1, 0, 0, 1]) ∧
    ((EncodeJpeg2000 (exampleOpenJpegEncoder none)
        { exampleContext 2 2 1 0 0 1 with DecodedBuffer := [1, 2, 3, 4] }
        ⟨false, 0, 0, 0, 0, 0, 0, 0, 10, 0⟩).1 = .error .codecFailure ∧
    (EncodeJpeg2000 (exampleOpenJpegEncoder none)
        { exampleContext 2 2 1 0 0 1 with DecodedBuffer := [1, 2, 3, 4] }
        ⟨false, 0, 0, 0, 0, 0, 0, 0, 10, 0⟩).2.numericFields = [2, 2, 8, 8, 1, 0, 0, 1]) ∧
    ((DecodeHtJpeg2000
        (exampleOpenJphDecoder (some ⟨1, 2, 2, 0, 0, false⟩) (fun y _ => some [(y : Int), 300]))
        { exampleContext 2 2 1 0 0 1 with BitsAllocated := 12 }).1 = .error .memoryFault ∧
    (DecodeHtJpeg2000
        (exampleOpenJphDecoder (some ⟨1, 2, 2, 0, 0, false⟩) (fun y _ => some [(y : Int), 300]))
        { exampleContext 2 2 1 0 0 1 with BitsAllocated := 12 }).2.numericFields =
      [2, 2, 12, 8, 1, 0, 0, 1]) :=
  ⟨⟨by rfl, by rfl,
    (failure_leaves_numeric_fields (fun _ => 0)
      { exampleContext 2 1 1 0 0 1 with
        EncodedBuffer := [1, 0, 0, 0, 64, 0, 0, 0] ++ List.replicate 56 0 ++ [0, 65, 5, 66] }
      ⟨false⟩ ⟨false, 0, 0, 0, 0, 0, 0, 0, 0, 0⟩ .inputOverflow (fun _ _ => 0)
      (exampleLibrary ⟨2, 1, 1, .JCS_GRAYSCALE, .JCS_GRAYSCALE⟩ ([], none))
      (exampleLibrary ⟨2, 1, 1, .JCS_GRAYSCALE, .JCS_GRAYSCALE⟩ ([], none))
      (exampleLibrary ⟨2, 1, 1, .JCS_GRAYSCALE, .JCS_GRAYSCALE⟩ ([], none))
      (exampleJpegCompressor (.ok [])) (exampleJpegCompressor (.ok []))
      (exampleJpegCompressor (.ok [])) (exampleCharLS none ([], true) none)
      (exampleOpenJpegDecoder none none) (exampleOpenJpegEncoder none)
      (exampleOpenJphDecoder none (fun _ _ => none)) (exampleOpenJphEncoder none)).1 (by rfl)⟩,
   ⟨by rfl,
    (failure_leaves_numeric_fields (fun _ => 0)
      { exampleContext 2 2 1 0 0 1 with DecodedBuffer := [1, 2, 3, 4] }
      ⟨false⟩ ⟨false, 0, 0, 0, 0, 0, 0, 0, 10, 0⟩ .codecFailure (fun _ _ => 0)
      (exampleLibrary ⟨2, 1, 1, .JCS_GRAYSCALE, .JCS_GRAYSCALE⟩ ([], none))
      (exampleLibrary ⟨2, 1, 1, .JCS_GRAYSCALE, .JCS_GRAYSCALE⟩ ([], none))
      (exampleLibrary ⟨2, 1, 1, .JCS_GRAYSCALE, .JCS_GRAYSCALE⟩ ([], none))
      (exampleJpegCompressor (.ok [])) (exampleJpegCompressor (.ok []))
      (exampleJpegCompressor (.ok [])) (exampleCharLS none ([], true) none)
      (exampleOpenJpegDecoder none none) (exampleOpenJpegEncoder none)
      (exampleOpenJphDecoder none (fun _ _ => none))
      (exampleOpenJphEncoder none)).2.2.2.2.2.2.2.2.1 (by rfl)⟩,
   ⟨by rfl,
    (failure_leaves_numeric_fields (fun _ => 0)
      { exampleContext 2 2 1 0 0 1 with BitsAllocated := 12 }
      ⟨false⟩ ⟨false, 0, 0, 0, 0, 0, 0, 0, 10, 0⟩ .memoryFault (fun _ _ => 0)
      (exampleLibrary ⟨2, 1, 1, .JCS_GRAYSCALE, .JCS_GRAYSCALE⟩ ([], none))
      (exampleLibrary ⟨2, 1, 1, .JCS_GRAYSCALE, .JCS_GRAYSCALE⟩ ([], none))
      (exampleLibrary ⟨2, 1, 1, .JCS_GRAYSCALE, .JCS_GRAYSCALE⟩ ([], none))
      (exampleJpegCompressor (.ok [])) (exampleJpegCompressor (.ok []))
      (exampleJpegCompressor (.ok [])) (exampleCharLS none ([], true) none)
      (exampleOpenJpegDecoder none none) (exampleOpenJpegEncoder none)
      (exampleOpenJphDecoder (some ⟨1, 2, 2, 0, 0, false⟩) (fun y _ => some [(y : Int), 300]))
      (exampleOpenJphEncoder none)).2.2.2.2.2.2.2.2.2.1 (by rfl)⟩⟩

/-- C30, as stated, fails: two equal bytes that end a segment are written as a
repeat run of two, `FF 30` for the segment `30 30`, not as the two literal
bytes `01 30 30`. In `10 10 20 30 30` the pair `10 10` becomes literal bytes and
the pair `30 30` a repeat run. -/
theorem Flush_pair_repeat_run :
    ([48, 48].foldl RleEncoder.Encode RleEncoder.new).Flush.writer_ =
      encodeRuns [Run.repeated 1 48] ∧
    encodeRuns [Run.repeated 1 48] = [255, 48] ∧
    encodeRuns [Run.literal [48, 48]] = [1, 48, 48] ∧
    (EncodeRle (scenarioContext [48, 48])).map (fun c => c.EncodedBuffer) =
      .ok (singleSegmentHeader ++ [255, 48]) ∧
    ([16, 16, 32, 48, 48].foldl RleEncoder.Encode RleEncoder.new).Flush.writer_ =
      encodeRuns [Run.literal [16, 16, 32], Run.repeated 1 48] := by
  refine ⟨by rfl, by rfl, by rfl, by rfl, by rfl⟩

/-- C30, amended. For every input segment, fed byte by byte to `Encode` from a
flushed encoder and closed by `Flush`, the encoder writes well-formed runs that
expand to the segment, and every repeat run but the last run of the segment
stands for three or more equal bytes (the last for two or more). When the byte
changes after a run of exactly two equal bytes, `Encode` moves the two bytes to
the literal buffer and writes literal runs only; when the segment ends on a run
of exactly two equal bytes, `Flush` writes the pending literal bytes and then
the repeat run of two. -/
theorem repeat_run_threshold (e0 : RleEncoder) (h0 : e0.clean) :
    (∀ segment : List Nat, ∃ runs : List Run,
      (segment.foldl RleEncoder.Encode e0).Flush.writer_ = e0.writer_ ++ encodeRuns runs ∧
      (∀ r ∈ runs, r.wf) ∧ expandRuns runs = segment.map (· % 256) ∧
      (∀ n c, Run.repeated n c ∈ runs.dropLast → 3 ≤ n + 1) ∧
      (∀ n c, Run.repeated n c ∈ runs → 2 ≤ n + 1)) ∧
    (∀ (inp : List Nat) (b : Nat), (inp.foldl RleEncoder.Encode e0).repeatCount_ = 2 →
      (b : Int) ≠ (inp.foldl RleEncoder.Encode e0).prevByte_ →
      ∃ lits : List Run, (∀ r ∈ lits, r.wf ∧ ∃ bs, r = Run.literal bs) ∧
        ((inp.foldl RleEncoder.Encode e0).Encode b).writer_ =
          (inp.foldl RleEncoder.Encode e0).writer_ ++ encodeRuns lits ∧
        expandRuns lits ++ ((inp.foldl RleEncoder.Encode e0).Encode b).pending =
          (inp.foldl RleEncoder.Encode e0).pending ++
            [toUInt8 (inp.foldl RleEncoder.Encode e0).prevByte_,
             toUInt8 (inp.foldl RleEncoder.Encode e0).prevByte_] ∧
        ((inp.foldl RleEncoder.Encode e0).Encode b).repeatCount_ = 1 ∧
        ((inp.foldl RleEncoder.Encode e0).Encode b).prevByte_ = b) ∧
    (∀ inp : List Nat, (inp.foldl RleEncoder.Encode e0).repeatCount_ = 2 →
      ∃ lits : List Run, (∀ r ∈ lits, r.wf ∧ ∃ bs, r = Run.literal bs) ∧
        expandRuns lits = (inp.foldl RleEncoder.Encode e0).pending ∧
        (inp.foldl RleEncoder.Encode e0).Flush.writer_ =
          (inp.foldl RleEncoder.Encode e0).writer_ ++ encodeRuns lits ++
            (Run.repeated 1 (toUInt8 (inp.foldl RleEncoder.Encode e0).prevByte_)).bytes) := by
  have hinv : ∀ inp : List Nat, RleEncoder.Inv e0 inp (inp.foldl RleEncoder.Encode e0) := by
    intro inp
    have := (RleEncoder.foldl_Encode_long e0 inp e0 [] (RleEncoder.Inv_init e0 h0)).1
    rwa [List.nil_append] at this
  refine ⟨fun segment => ?_, fun inp b h2 hne => ?_, fun inp h2 => ?_⟩
  · obtain ⟨_, runs1, hwf1, hlong1, hw1⟩ :=
      RleEncoder.foldl_Encode_long e0 segment e0 [] (RleEncoder.Inv_init e0 h0)
    obtain ⟨lits, last, hl, hlast, hw2, _⟩ := RleEncoder.Flush_tail e0 _ segment (hinv segment)
    obtain ⟨⟨runs, hw, hwf, hex⟩, _⟩ := RleEncoder.Flush_spec e0 _ segment (hinv segment)
    have hwfall : ∀ r ∈ runs1 ++ (lits ++ last), r.wf := by
      intro r hr
      rcases List.mem_append.mp hr with h | h
      · exact hwf1 r h
      · rcases List.mem_append.mp h with h | h
        · exact (hl r h).1
        · rcases hlast with hnil | ⟨n, c, hc, h1, h127⟩
          · rw [hnil] at h
            cases h
          · rw [hc, List.mem_singleton] at h
            subst h
            exact ⟨h1, h127⟩
    have hruns : runs = runs1 ++ (lits ++ last) := by
      apply encodeRuns_inj _ _ hwf hwfall
      rw [hw2, hw1, List.append_assoc] at hw
      have := List.append_cancel_left hw
      rw [encodeRuns_append]
      exact this.symm
    subst hruns
    refine ⟨_, hw, hwf, hex, ?_, ?_⟩
    · intro n c hr
      have hmid : Run.repeated n c ∈ runs1 ++ lits := by
        rcases hlast with hnil | ⟨m, d, hd, _, _⟩
        · rw [hnil, List.append_nil] at hr
          exact List.mem_of_mem_dropLast hr
        · rw [hd, ← List.append_assoc, List.dropLast_concat] at hr
          exact hr
      rcases List.mem_append.mp hmid with h | h
      · have := hlong1 n c h
        omega
      · obtain ⟨bs, hbs⟩ := (hl _ h).2
        cases hbs
    · intro n c hr
      have := hwf _ hr
      simp only [Run.wf] at this
      omega
  · exact RleEncoder.Encode_pair e0 _ inp b (hinv inp) h2 hne
  · obtain ⟨lits, last, hl, _, hw, hpair⟩ := RleEncoder.Flush_tail e0 _ inp (hinv inp)
    obtain ⟨hlast, hex⟩ := hpair h2
    refine ⟨lits, hl, hex, ?_⟩
    rw [hw, hlast, encodeRuns_append, ← List.append_assoc]
    simp [encodeRuns]

theorem repeat_run_threshold_witness :
    (∃ runs : List Run,
      ([16, 16, 32, 48, 48].foldl RleEncoder.Encode RleEncoder.new).Flush.writer_ =
        RleEncoder.new.writer_ ++ encodeRuns runs ∧
      (∀ r ∈ runs, r.wf) ∧ expandRuns runs = [16, 16, 32, 48, 48].map (· % 256) ∧
      (∀ n c, Run.repeated n c ∈ runs.dropLast → 3 ≤ n + 1) ∧
      (∀ n c, Run.repeated n c ∈ runs → 2 ≤ n + 1)) ∧
    (∃ lits : List Run, (∀ r ∈ lits, r.wf ∧ ∃ bs, r = Run.literal bs) ∧
      (([16, 16].foldl RleEncoder.Encode RleEncoder.new).Encode 32).writer_ =
        ([16, 16].foldl RleEncoder.Encode RleEncoder.new).writer_ ++ encodeRuns lits ∧
      expandRuns lits ++ (([16, 16].foldl RleEncoder.Encode RleEncoder.new).Encode 32).pending =
        ([16, 16].foldl RleEncoder.Encode RleEncoder.new).pending ++
          [toUInt8 ([16, 16].foldl RleEncoder.Encode RleEncoder.new).prevByte_,
           toUInt8 ([16, 16].foldl RleEncoder.Encode RleEncoder.new).prevByte_] ∧
      (([16, 16].foldl RleEncoder.Encode RleEncoder.new).Encode 32).repeatCount_ = 1 ∧
      (([16, 16].foldl RleEncoder.Encode RleEncoder.new).Encode 32).prevByte_ = 32) ∧
    (∃ lits : List Run, (∀ r ∈ lits, r.wf ∧ ∃ bs, r = Run.literal bs) ∧
      expandRuns lits = ([16, 16, 32, 48, 48].foldl RleEncoder.Encode RleEncoder.new).pending ∧
      ([16, 16, 32, 48, 48].foldl RleEncoder.Encode RleEncoder.new).Flush.writer_ =
        ([16, 16, 32, 48, 48].foldl RleEncoder.Encode RleEncoder.new).writer_ ++
          encodeRuns lits ++
          (Run.repeated 1
            (toUInt8 ([16, 16, 32, 48, 48].foldl RleEncoder.Encode RleEncoder.new).prevByte_)).bytes) :=
  ⟨(repeat_run_threshold RleEncoder.new clean_new).1 [16, 16, 32, 48, 48],
   (repeat_run_threshold RleEncoder.new clean_new).2.1 [16, 16] 32 (by rfl) (by decide),
   (repeat_run_threshold RleEncoder.new clean_new).2.2 [16, 16, 32, 48, 48] (by rfl)⟩

/-- Halving a non-zero number takes one binary digit away. -/
theorem log_half_succ (m : Nat) (hm : m ≠ 0) :
    (if m / 2 = 0 then 0 else Nat.log 2 (m / 2) + 1) = Nat.log 2 m := by
  by_cases h2 : 2 ≤ m
  · rw [Nat.log_of_one_lt_of_le (by decide) h2, if_neg (by omega)]
  · have h1 : m = 1 := by omega
    subst h1
    simp

theorem div_pow_ne_zero_iff (a k : Nat) : a / 2 ^ k ≠ 0 ↔ 2 ^ k ≤ a := by
  have hpos : 0 < 2 ^ k := Nat.pow_pos (by decide)
  constructor
  · intro h
    by_contra hlt
    exact h (Nat.div_eq_of_lt (by omega))
  · intro h
    have := Nat.div_pos h hpos
    omega

/-- The resolution loop counts the binary digits of the smaller of `tw`, `th`. -/
theorem resolutionLoop_eq_log : ∀ (fuel n tw th : Nat), tw ≤ fuel →
    EncodeJpeg2000.resolutionLoop fuel n tw th =
      .ok (n + (if min tw th = 0 then 0 else Nat.log 2 (min tw th) + 1))
  | 0, n, tw, th, h => by
    have htw : tw = 0 := by omega
    subst htw
    unfold EncodeJpeg2000.resolutionLoop
    simp
  | fuel + 1, n, tw, th, h => by
    unfold EncodeJpeg2000.resolutionLoop
    by_cases hc : tw ≠ 0 ∧ th ≠ 0
    · rw [if_pos hc]
      have hs1 : tw >>> 1 = tw / 2 := by rw [Nat.shiftRight_eq_div_pow]
      have hs2 : th >>> 1 = th / 2 := by rw [Nat.shiftRight_eq_div_pow]
      show EncodeJpeg2000.resolutionLoop fuel (n + 1) (tw >>> 1) (th >>> 1) = _
      rw [hs1, hs2, resolutionLoop_eq_log fuel (n + 1) (tw / 2) (th / 2) (by omega)]
      have hmin : min (tw / 2) (th / 2) = min tw th / 2 := by omega
      have hne : min tw th ≠ 0 := by omega
      rw [hmin, if_neg hne, log_half_succ _ hne]
      congr 1
      omega
    · rw [if_neg hc]
      have : min tw th = 0 := by omega
      rw [if_pos this]
      rfl

/-- C33. For all `Columns, Rows ≥ 1` the resolution count `EncodeJpeg2000` stores
in `parameters.numresolution` is `min(6, ⌊log2(min(Columns, Rows))⌋)`, and
`⌊log2(min(Columns, Rows))⌋` is the number of times the pair can be halved, by
integer halving, with both halves non-zero: after `k` halvings both are non-zero
exactly when `k ≤ ⌊log2(min(Columns, Rows))⌋`. -/
theorem numresolution_eq_log (ctx : CodecsContext) (hc : 1 ≤ ctx.Columns) (hr : 1 ≤ ctx.Rows) :
    EncodeJpeg2000.numresolution ctx = .ok (min 6 (Nat.log 2 (min ctx.Columns ctx.Rows))) ∧
    ∀ k : Nat, (ctx.Columns / 2 ^ k ≠ 0 ∧ ctx.Rows / 2 ^ k ≠ 0) ↔
      k ≤ Nat.log 2 (min ctx.Columns ctx.Rows) := by
  constructor
  · unfold EncodeJpeg2000.numresolution
    have hs1 : ctx.Columns >>> 1 = ctx.Columns / 2 := by rw [Nat.shiftRight_eq_div_pow]
    have hs2 : ctx.Rows >>> 1 = ctx.Rows / 2 := by rw [Nat.shiftRight_eq_div_pow]
    simp only [bind, Except.bind]
    rw [resolutionLoop_eq_log _ 0 _ _ (le_refl _), hs1, hs2]
    have hmin : min (ctx.Columns / 2) (ctx.Rows / 2) = min ctx.Columns ctx.Rows / 2 := by omega
    have hne : min ctx.Columns ctx.Rows ≠ 0 := by omega
    simp only []
    rw [hmin, Nat.zero_add, log_half_succ _ hne]
    congr 1
    split <;> omega
  · intro k
    have hne : min ctx.Columns ctx.Rows ≠ 0 := by omega
    rw [← Nat.pow_le_iff_le_log (by decide) hne, div_pow_ne_zero_iff, div_pow_ne_zero_iff]
    omega

theorem numresolution_eq_log_witness :
    EncodeJpeg2000.numresolution (exampleContext 100 37 1 0 0 1) =
      .ok (min 6 (Nat.log 2 (min 100 37))) ∧
    EncodeJpeg2000.numresolution (exampleContext 100 37 1 0 0 1) = .ok 5 :=
  ⟨(numresolution_eq_log (exampleContext 100 37 1 0 0 1) (by decide) (by decide)).1, by rfl⟩

/-- C34 (the code at the failing input). For a 129 x 129 image `EncodeHtJpeg2000`
uses 1 decomposition: `tw / 2` is the integer quotient 64, on which `ceil`
changes nothing, and the loop stops. The loop of the claim goes on with
`⌈129 / 2⌉ = 65 > 64` and counts 2. The same happens for 257 x 257 (2 against 3). -/
theorem numDecompositions_floor_halving :
    EncodeHtJpeg2000.numDecompositions
      { Columns := 129, Rows := 129, BitsAllocated := 8, BitsStored := 8, SamplesPerPixel := 1,
        PixelRepresentation := 0, PlanarConfiguration := 0, PhotometricInterpretation := 2,
        EncodedBuffer := [], DecodedBuffer := [] } = .ok 1 ∧
    ceilingHalvingCount 129 129 = 2 ∧
    EncodeHtJpeg2000.numDecompositions
      { Columns := 257, Rows := 257, BitsAllocated := 8, BitsStored := 8, SamplesPerPixel := 1,
        PixelRepresentation := 0, PlanarConfiguration := 0, PhotometricInterpretation := 2,
        EncodedBuffer := [], DecodedBuffer := [] } = .ok 2 ∧
    ceilingHalvingCount 257 257 = 3 := by
  refine ⟨by rfl, by rfl, by rfl, by rfl⟩

theorem roundToSignificand_of_lt (bits n : Nat) (h : n < 2 ^ bits) :
    roundToSignificand bits n = n := by
  have he : excessBits bits n n = 0 := by
    cases n with
    | zero => rfl
    | succ m =>
      unfold excessBits
      rw [if_pos h]
  unfold roundToSignificand
  simp only [he, pow_zero, Nat.div_one, Nat.mod_one, Nat.mul_one]
  rw [if_pos (Or.inl (by omega))]

/-- The conversion to `float` is exact up to `2 ^ 24`. -/
theorem toFloat_of_le (n : Nat) (h : n ≤ 16777216) : toFloat n = n := by
  unfold toFloat
  by_cases hlt : n < 2 ^ 24
  · exact roundToSignificand_of_lt 24 n hlt
  · have hn : n = 16777216 := by
      have : (2 : Nat) ^ 24 = 16777216 := by norm_num
      omega
    subst hn
    decide

/-- C36, as stated, fails: for rate 10 with 12 bits stored of 16 allocated the
value is the integer quotient 7, not the exact quotient 7.5. Nor is the value
the integer quotient for every rate: the conversion to `float` rounds the
quotient 16777217 (rate 16777217, 8 bits stored of 8) to 16777216, and the
product of rate 268435456 and 16 bits stored wraps around to 0. -/
theorem tcp_rate_not_exact :
    EncodeJpeg2000.tcp_rate
      { Columns := 1, Rows := 1, BitsAllocated := 16, BitsStored := 12, SamplesPerPixel := 1,
        PixelRepresentation := 0, PlanarConfiguration := 0, PhotometricInterpretation := 2,
        EncodedBuffer := [], DecodedBuffer := [] }
      { Lossy := true, Quality := 0, SmoothingFactor := 0, SampleFactor := 0, Predictor := 0,
        PointTransform := 0, AllowedLossyError := 0, ProgressionOrder := 0, Rate := 10,
        AllowMct := 0 } = .ok 7 ∧
    ((7 : Nat) : ℚ) ≠ (10 : ℚ) * 12 / 16 ∧ (10 : ℚ) * 12 / 16 = 15 / 2 ∧
    EncodeJpeg2000.tcp_rate
      { Columns := 1, Rows := 1, BitsAllocated := 8, BitsStored := 8, SamplesPerPixel := 1,
        PixelRepresentation := 0, PlanarConfiguration := 0, PhotometricInterpretation := 2,
        EncodedBuffer := [], DecodedBuffer := [] }
      { Lossy := true, Quality := 0, SmoothingFactor := 0, SampleFactor := 0, Predictor := 0,
        PointTransform := 0, AllowedLossyError := 0, ProgressionOrder := 0, Rate := 16777217,
        AllowMct := 0 } = .ok 16777216 ∧
    16777217 * 8 / 8 = 16777217 ∧
    EncodeJpeg2000.tcp_rate
      { Columns := 1, Rows := 1, BitsAllocated := 16, BitsStored := 16, SamplesPerPixel := 1,
        PixelRepresentation := 0, PlanarConfiguration := 0, PhotometricInterpretation := 2,
        EncodedBuffer := [], DecodedBuffer := [] }
      { Lossy := true, Quality := 0, SmoothingFactor := 0, SampleFactor := 0, Predictor := 0,
        PointTransform := 0, AllowedLossyError := 0, ProgressionOrder := 0, Rate := 268435456,
        AllowMct := 0 } = .ok 0 ∧
    268435456 * 16 / 16 = 268435456 := by
  refine ⟨by rfl, by norm_num, by norm_num, by rfl, by rfl, by rfl, by rfl⟩

/-- C36, amended. For every rate, bits stored and bits allocated > 0, the rate
of the quality layer `EncodeJpeg2000` hands to the library is the quotient of
the `size_t` product `Rate * BitsStored` (modulo 2^32) by `BitsAllocated`,
rounded to a `float`. When `Rate * BitsStored` is below 2^32 and the integer
quotient `⌊Rate * BitsStored / BitsAllocated⌋` is at most 2^24, it is that
integer quotient; it is then the exact quotient exactly when `BitsAllocated`
divides `Rate * BitsStored`. -/
theorem tcp_rate_integer_quotient (ctx : CodecsContext) (params : EncoderParameters)
    (h : 0 < ctx.BitsAllocated) :
    EncodeJpeg2000.tcp_rate ctx params =
      .ok (toFloat (toSizeT (params.Rate * ctx.BitsStored) / ctx.BitsAllocated)) ∧
    (params.Rate * ctx.BitsStored < 4294967296 →
      params.Rate * ctx.BitsStored / ctx.BitsAllocated ≤ 16777216 →
      EncodeJpeg2000.tcp_rate ctx params =
        .ok ⌊(params.Rate : ℚ) * ctx.BitsStored / ctx.BitsAllocated⌋₊ ∧
      EncodeJpeg2000.tcp_rate ctx params =
        .ok (params.Rate * ctx.BitsStored / ctx.BitsAllocated) ∧
      ((((params.Rate * ctx.BitsStored / ctx.BitsAllocated : Nat) : ℚ) =
          (params.Rate : ℚ) * ctx.BitsStored / ctx.BitsAllocated) ↔
        ctx.BitsAllocated ∣ params.Rate * ctx.BitsStored)) := by
  have hdef : EncodeJpeg2000.tcp_rate ctx params =
      .ok (toFloat (toSizeT (params.Rate * ctx.BitsStored) / ctx.BitsAllocated)) := by
    unfold EncodeJpeg2000.tcp_rate
    rw [if_neg (by omega)]
  refine ⟨hdef, fun hprod hquot => ?_⟩
  have hq : EncodeJpeg2000.tcp_rate ctx params =
      .ok (params.Rate * ctx.BitsStored / ctx.BitsAllocated) := by
    rw [hdef, toSizeT_of_lt _ hprod, toFloat_of_le _ hquot]
  have hfloor : ⌊(params.Rate : ℚ) * ctx.BitsStored / ctx.BitsAllocated⌋₊ =
      params.Rate * ctx.BitsStored / ctx.BitsAllocated := by
    rw [← Nat.cast_mul, Nat.floor_div_eq_div]
  refine ⟨by rw [hq, hfloor], hq, ?_⟩
  have hba : (ctx.BitsAllocated : ℚ) ≠ 0 := by
    exact_mod_cast (show ctx.BitsAllocated ≠ 0 by omega)
  constructor
  · intro he
    rw [eq_div_iff hba] at he
    have he2 : params.Rate * ctx.BitsStored / ctx.BitsAllocated * ctx.BitsAllocated =
        params.Rate * ctx.BitsStored := by exact_mod_cast he
    exact ⟨params.Rate * ctx.BitsStored / ctx.BitsAllocated,
      ((Nat.mul_comm _ _).trans he2).symm⟩
  · intro hd
    rw [← Nat.cast_mul, Nat.cast_div hd hba]

theorem tcp_rate_integer_quotient_witness :
    EncodeJpeg2000.tcp_rate
      { Columns := 1, Rows := 1, BitsAllocated := 16, BitsStored := 12, SamplesPerPixel := 1,
        PixelRepresentation := 0, PlanarConfiguration := 0, PhotometricInterpretation := 2,
        EncodedBuffer := [], DecodedBuffer := [] }
      { Lossy := true, Quality := 0, SmoothingFactor := 0, SampleFactor := 0, Predictor := 0,
        PointTransform := 0, AllowedLossyError := 0, ProgressionOrder := 0, Rate := 10,
        AllowMct := 0 } = .ok ⌊((10 : Nat) : ℚ) * (12 : Nat) / (16 : Nat)⌋₊ :=
  ((tcp_rate_integer_quotient
    { Columns := 1, Rows := 1, BitsAllocated := 16, BitsStored := 12, SamplesPerPixel := 1,
      PixelRepresentation := 0, PlanarConfiguration := 0, PhotometricInterpretation := 2,
      EncodedBuffer := [], DecodedBuffer := [] }
    { Lossy := true, Quality := 0, SmoothingFactor := 0, SampleFactor := 0, Predictor := 0,
      PointTransform := 0, AllowedLossyError := 0, ProgressionOrder := 0, Rate := 10,
      AllowMct := 0 } (by decide)).2 (by decide) (by decide)).1

/-- The literal loop ends `length` bytes further in the input. -/
theorem literalLoop_index (data : List Nat) (stride : Int) :
    ∀ (length : Nat) (i pos : Int) (r : WriteLog × Int × Int),
      RleDecoder.literalLoop data stride length i pos = .ok r → r.2.1 = i + length := by
  intro length
  induction length with
  | zero =>
    intro i pos r h
    simp only [RleDecoder.literalLoop, Except.ok.injEq] at h
    rw [← h]
    simp
  | succ n ih =>
    intro i pos r h
    rw [RleDecoder.literalLoop] at h
    cases hb : readByte data i with
    | error e => rw [hb] at h; cases h
    | ok b =>
      rw [hb] at h
      simp only [bind, Except.bind] at h
      cases hr : RleDecoder.literalLoop data stride n (i + 1) (pos + stride) with
      | error e => rw [hr] at h; cases h
      | ok r1 =>
        rw [hr] at h
        simp only [Except.ok.injEq] at h
        rw [← h]
        have := ih _ _ _ hr
        simp only []
        rw [this]
        push_cast
        ring

/-- The literal loop reads only the `length` bytes from `i` on. -/
theorem literalLoop_congr (d1 d2 : List Nat) (stride lo hi : Int)
    (h : ∀ j, lo ≤ j → j < hi → readByte d1 j = readByte d2 j) :
    ∀ (length : Nat) (i pos : Int), lo ≤ i → i + length ≤ hi →
      RleDecoder.literalLoop d1 stride length i pos =
        RleDecoder.literalLoop d2 stride length i pos := by
  intro length
  induction length with
  | zero => intro i pos _ _; rfl
  | succ n ih =>
    intro i pos hlo hhi
    rw [RleDecoder.literalLoop, RleDecoder.literalLoop, h i hlo (by push_cast at hhi; omega),
      ih (i + 1) (pos + stride) (by omega) (by push_cast at hhi ⊢; omega)]

/-- The `memcpy` reads only the `length` bytes from `i` on. -/
theorem memcpyLog_congr (d1 d2 : List Nat) (lo hi : Int)
    (h : ∀ j, lo ≤ j → j < hi → readByte d1 j = readByte d2 j) :
    ∀ (length : Nat) (i pos : Int), lo ≤ i → i + length ≤ hi →
      RleDecoder.memcpyLog d1 length i pos = RleDecoder.memcpyLog d2 length i pos := by
  intro length
  induction length with
  | zero => intro i pos _ _; rfl
  | succ n ih =>
    intro i pos hlo hhi
    rw [RleDecoder.memcpyLog, RleDecoder.memcpyLog, h i hlo (by push_cast at hhi; omega),
      ih (i + 1) (pos + 1) (by omega) (by push_cast at hhi ⊢; omega)]

/-- The loop of `RleDecoder::Decode` reads only bytes of the segment, from a
loop state with two bytes or more of the segment left, or with one byte left
that is not the control byte of a repeat run. -/
theorem decodeLoop_congr (d1 d2 : List Nat) (size stride end_ lo : Int)
    (h : ∀ j, lo ≤ j → j < end_ → readByte d1 j = readByte d2 j) :
    ∀ (fuel : Nat) (i pos : Int), lo ≤ i →
      (i + 2 ≤ end_ ∨ end_ ≤ i ∨
        ∀ c, readByte d1 i = .ok c → ¬ (toInt8 c < 0 ∧ toInt8 c ≥ -127)) →
      RleDecoder.decodeLoop d1 size stride end_ fuel i pos =
        RleDecoder.decodeLoop d2 size stride end_ fuel i pos := by
  intro fuel
  induction fuel with
  | zero =>
    intro i pos _ _
    rw [RleDecoder.decodeLoop, RleDecoder.decodeLoop]
  | succ fuel ih =>
    intro i pos hlo hP
    conv_lhs => rw [RleDecoder.decodeLoop]
    conv_rhs => rw [RleDecoder.decodeLoop]
    by_cases hc : i < end_ ∧ pos < size
    · rw [if_pos hc, if_pos hc]
      simp only []
      have hb := h i hlo hc.1
      rw [← hb]
      cases hr : readByte d1 i with
      | error e => rfl
      | ok c =>
        simp only [bind, Except.bind]
        by_cases hlit : toInt8 c ≥ 0
        · rw [if_pos hlit, if_pos hlit]
          by_cases hin : end_ - (i + 1) < toInt8 c + 1
          · rw [if_pos hin, if_pos hin]
          · rw [if_neg hin, if_neg hin]
            by_cases hout : pos + (toInt8 c + 1 - 1) * stride ≥ size
            · rw [if_pos hout, if_pos hout]
            · rw [if_neg hout, if_neg hout]
              have hlen : ((toInt8 c + 1).toNat : Int) = toInt8 c + 1 := by omega
              by_cases hs : stride = 1
              · rw [if_pos hs, if_pos hs]
                rw [memcpyLog_congr d1 d2 lo end_ h _ (i + 1) pos (by omega) (by omega)]
                cases hm : RleDecoder.memcpyLog d2 (toInt8 c + 1).toNat (i + 1) pos with
                | error e => rfl
                | ok w =>
                  simp only [pure, Except.pure]
                  by_cases hg : i + 1 + (toInt8 c + 1) + 1 ≥ end_
                  · rw [if_pos hg, if_pos hg]
                  · rw [if_neg hg, if_neg hg, ih _ _ (by omega) (Or.inl (by omega))]
              · rw [if_neg hs, if_neg hs]
                rw [literalLoop_congr d1 d2 stride lo end_ h _ (i + 1) pos (by omega) (by omega)]
                cases hm : RleDecoder.literalLoop d2 stride (toInt8 c + 1).toNat (i + 1) pos with
                | error e => rfl
                | ok r =>
                  have hi := literalLoop_index d2 stride _ _ _ _ hm
                  simp only []
                  by_cases hg : r.2.1 + 1 ≥ end_
                  · rw [if_pos hg, if_pos hg]
                  · rw [if_neg hg, if_neg hg, ih _ _ (by omega) (Or.inl (by omega))]
        · rw [if_neg hlit, if_neg hlit]
          by_cases hrep : toInt8 c ≥ -127
          · rw [if_pos hrep, if_pos hrep]
            by_cases hout : pos + (-toInt8 c - 1) * stride ≥ size
            · rw [if_pos hout, if_pos hout]
            · rw [if_neg hout, if_neg hout]
              have hnext : i + 2 ≤ end_ := by
                rcases hP with h1 | h1 | h1
                · exact h1
                · omega
                · exact absurd ⟨by omega, hrep⟩ (h1 c hr)
              rw [h (i + 1) (by omega) (by omega)]
              cases hb2 : readByte d2 (i + 1) with
              | error e => rfl
              | ok b =>
                simp only []
                by_cases hg : i + 1 + 1 + 1 ≥ end_
                · rw [if_pos hg, if_pos hg]
                · rw [if_neg hg, if_neg hg, ih _ _ (by omega) (Or.inl (by omega))]
          · rw [if_neg hrep, if_neg hrep]
            by_cases hg : i + 1 + 1 ≥ end_
            · rw [if_pos hg, if_pos hg]
            · rw [if_neg hg, if_neg hg, ih _ _ (by omega) (Or.inl (by omega))]
    · rw [if_neg hc, if_neg hc]

/-- Two buffers that hold the same segment at the same offset read the same
inside the segment. -/
theorem readByte_segment (pre pre' seg post post' : List Nat) (hp : pre'.length = pre.length)
    (j : Int) (h1 : (pre.length : Int) ≤ j) (h2 : j < (pre.length : Int) + seg.length) :
    readByte (pre ++ seg ++ post) j = readByte (pre' ++ seg ++ post') j := by
  obtain ⟨k, hk⟩ : ∃ k : Nat, j = (pre.length : Int) + k := ⟨(j - pre.length).toNat, by omega⟩
  subst hk
  rw [readByte_mid pre seg post k (by omega)]
  have := readByte_mid pre' seg post' k (by omega)
  rw [hp] at this
  rw [this]

/-- C31. For every segment made of a non-empty sequence of complete well-formed
runs followed by at most one extra byte of any value, with the expansion below
the sink size, `RleDecoder::Decode` returns and its stores are exactly the
expansion of all the runs, the `k`-th byte at `start + k * stride`; they are the
stores it makes for the same runs without the extra byte, so the guard
`(i + 1) >= end` drops no complete run and the extra byte is not interpreted. -/
theorem Decode_trailing_byte (runs : List Run) (pre trail post : List Nat)
    (size start stride : Int) (hne : runs ≠ []) (ht : trail.length ≤ 1)
    (hwf : ∀ r ∈ runs, r.wf)
    (hfit : ∀ k : Nat, k < (expandRuns runs).length → start + k * stride < size) :
    RleDecoder.DecodeLog size start stride (pre ++ encodeRuns runs ++ trail ++ post) pre.length
        (((encodeRuns runs).length + trail.length : Nat) : Int) =
      .ok (strided start stride (expandRuns runs)) ∧
    RleDecoder.DecodeLog size start stride (pre ++ encodeRuns runs ++ trail ++ post) pre.length
        (((encodeRuns runs).length + trail.length : Nat) : Int) =
      RleDecoder.DecodeLog size start stride (pre ++ encodeRuns runs ++ post) pre.length
        (encodeRuns runs).length ∧
    (strided start stride (expandRuns runs)).length = (expandRuns runs).length ∧
    ∀ k : Nat, k < (expandRuns runs).length →
      (strided start stride (expandRuns runs))[k]? =
        some (start + k * stride, (expandRuns runs).getD k 0) := by
  have h1 : RleDecoder.DecodeLog size start stride (pre ++ encodeRuns runs ++ trail ++ post)
      pre.length (((encodeRuns runs).length + trail.length : Nat) : Int) =
      .ok (strided start stride (expandRuns runs)) := by
    unfold RleDecoder.DecodeLog
    rw [Int.toNat_ofNat]
    exact decodeLoop_runs size stride trail post ht runs pre _ _ _ start _ rfl
      (by push_cast; ring) rfl hwf hfit (by omega) (Or.inl hne)
  have h2 : RleDecoder.DecodeLog size start stride (pre ++ encodeRuns runs ++ post)
      pre.length (encodeRuns runs).length = .ok (strided start stride (expandRuns runs)) := by
    unfold RleDecoder.DecodeLog
    rw [Int.toNat_ofNat]
    exact decodeLoop_runs size stride [] post (by simp) runs pre _ _ _ start _ (by simp)
      (by simp) rfl hwf hfit (le_refl _) (Or.inl hne)
  exact ⟨h1, by rw [h1, h2], length_strided _ _ _, fun k hk => getElem?_strided _ _ _ k hk⟩

theorem Decode_trailing_byte_witness :
    RleDecoder.DecodeLog 10 0 2
        ([9] ++ encodeRuns [Run.literal [1, 2], Run.repeated 2 7] ++ [200] ++ [4, 4])
        ([9] : List Nat).length
        (((encodeRuns [Run.literal [1, 2], Run.repeated 2 7]).length + [200].length : Nat) : Int) =
      .ok (strided 0 2 (expandRuns [Run.literal [1, 2], Run.repeated 2 7])) :=
  (Decode_trailing_byte [Run.literal [1, 2], Run.repeated 2 7] [9] [200] [4, 4] 10 0 2
    (by decide) (by decide) (by decide)
    (by
      intro k hk
      simp [expandRuns, Run.expand] at hk
      omega)).1

/-- C39 (the code at the failing input, and where the claim holds). In a segment
of one byte that is the control byte of a repeat run, `RleDecoder::Decode` reads
the byte after the segment: for the segment `FF` at offset 0 with count 1, the
stores are two copies of the byte at index 1, which is outside the segment, and
a buffer that ends with the segment is read past its end. For every other
segment the stores depend on the bytes of the segment only: two buffers that
hold the same segment at the same offset give the same outcome, whatever lies
before and after it. -/
theorem Decode_repeat_reads_past_segment :
    (RleDecoder.DecodeLog 10 0 1 [255, 66] 0 1 = .ok [(0, 66), (1, 66)] ∧
      RleDecoder.DecodeLog 10 0 1 [255, 67] 0 1 = .ok [(0, 67), (1, 67)] ∧
      RleDecoder.DecodeLog 10 0 1 [255] 0 1 = .error .memoryFault) ∧
    ∀ (pre pre' seg post post' : List Nat) (size start stride : Int),
      pre'.length = pre.length →
      (seg.length ≠ 1 ∨ ¬ (toInt8 (seg.getD 0 0) < 0 ∧ toInt8 (seg.getD 0 0) ≥ -127)) →
      RleDecoder.DecodeLog size start stride (pre ++ seg ++ post) pre.length seg.length =
        RleDecoder.DecodeLog size start stride (pre' ++ seg ++ post') pre.length seg.length := by
  refine ⟨⟨by rfl, by rfl, by rfl⟩, ?_⟩
  intro pre pre' seg post post' size start stride hp hseg
  unfold RleDecoder.DecodeLog
  apply decodeLoop_congr _ _ size stride _ pre.length
    (fun j h1 h2 => readByte_segment pre pre' seg post post' hp j h1 h2) _ _ _ (le_refl _)
  by_cases h2 : 2 ≤ seg.length
  · left
    omega
  · by_cases h0 : seg.length = 0
    · right; left
      omega
    · right; right
      intro c hc
      have h1 : seg.length = 1 := by omega
      have hr := readByte_mid pre seg post 0 (by omega)
      simp only [Nat.cast_zero, add_zero] at hr
      rw [hr] at hc
      cases hc
      rcases hseg with h | h
      · exact absurd h1 h
      · exact h

theorem Decode_repeat_reads_past_segment_witness :
    RleDecoder.DecodeLog 10 0 1 ([9, 9] ++ [255, 66] ++ [1, 2, 3]) ([9, 9] : List Nat).length
        ([255, 66] : List Nat).length =
      RleDecoder.DecodeLog 10 0 1 ([0, 0] ++ [255, 66] ++ []) ([9, 9] : List Nat).length
        ([255, 66] : List Nat).length :=
  Decode_repeat_reads_past_segment.2 [9, 9] [0, 0] [255, 66] [1, 2, 3] [] 10 0 1 rfl
    (Or.inl (by decide))

namespace RleEncoder

theorem MoveBuffer_indices_bound (e : RleEncoder) (count : Int) (hc : 0 < count)
    (hcb : count ≤ e.bufferPos_) :
    ∀ i ∈ MoveBuffer.indices e count, 0 ≤ i ∧ i < e.bufferPos_ := by
  intro i hi
  unfold MoveBuffer.indices at hi
  rcases List.mem_append.mp hi with h | h
  · obtain ⟨k, hk, rfl⟩ := List.mem_map.mp h
    have := List.mem_range.mp hk
    omega
  · obtain ⟨n, hn, hmem⟩ := List.mem_flatMap.mp h
    have := List.mem_range.mp hn
    simp only [List.mem_cons, List.mem_singleton, List.not_mem_nil, or_false] at hmem
    rcases hmem with h1 | h1 <;> omega

/-- The literal flush loop accesses `buffer_` below `bufferPos_` only. -/
theorem flushLiterals_indices_bound (limit : Int) (hl : 0 ≤ limit) (fuel : Nat) :
    ∀ e : RleEncoder, 0 ≤ e.bufferPos_ → e.bufferPos_ ≤ e.buffer_.length →
      ∀ i ∈ flushLiterals.indices limit fuel e, 0 ≤ i ∧ i < e.bufferPos_ := by
  induction fuel with
  | zero =>
    intro e _ _ i hi
    simp [flushLiterals.indices] at hi
  | succ fuel ih =>
    intro e h0 hb i hi
    rw [flushLiterals.indices] at hi
    by_cases hgt : e.bufferPos_ > limit
    · rw [if_pos hgt] at hi
      simp only [] at hi
      have hc1 : 0 < min 128 e.bufferPos_ := by omega
      have hc2 : min 128 e.bufferPos_ ≤ e.bufferPos_ := by omega
      obtain ⟨_, _, hbp, hlen, _⟩ :=
        MoveBuffer_spec (e.WriteByte (toUInt8 (min 128 e.bufferPos_ - 1)))
          (min 128 e.bufferPos_) hc1 hc2 hb
      have hbp' : ((e.WriteByte (toUInt8 (min 128 e.bufferPos_ - 1))).MoveBuffer
          (min 128 e.bufferPos_)).bufferPos_ = e.bufferPos_ - min 128 e.bufferPos_ := hbp
      rcases List.mem_append.mp hi with h | h
      · exact MoveBuffer_indices_bound (e.WriteByte (toUInt8 (min 128 e.bufferPos_ - 1)))
          _ hc1 hc2 i h
      · have := ih _ (by rw [hbp']; omega) (by rw [hlen, hbp']; exact le_trans (by omega) hb) i h
        rw [hbp'] at this
        omega
    · rw [if_neg hgt] at hi
      simp at hi

/-- The accesses of `Encode` to `buffer_` are below index 130. -/
theorem Encode_indices_bound (e0 e : RleEncoder) (inp : List Nat) (b : Nat) (h : Inv e0 inp e) :
    ∀ i ∈ Encode.indices e b, 0 ≤ i ∧ i < 130 := by
  obtain ⟨_, hb0, hb128, hr0, hr128, h3, hlen, _⟩ := h
  intro i hi
  unfold Encode.indices at hi
  by_cases heq : (b : Int) = e.prevByte_
  · rw [if_pos heq] at hi
    simp only [] at hi
    by_cases hA : e.repeatCount_ + 1 > 2 ∧ e.bufferPos_ > 0
    · rw [if_pos hA] at hi
      have := flushLiterals_indices_bound 0 (le_refl _) e.bufferPos_.toNat
        { e with repeatCount_ := e.repeatCount_ + 1 } hb0
        (by show e.bufferPos_ ≤ (e.buffer_.length : Int); omega) i hi
      have hbp : ({ e with repeatCount_ := e.repeatCount_ + 1 } : RleEncoder).bufferPos_ =
        e.bufferPos_ := rfl
      rw [hbp] at this
      omega
    · rw [if_neg hA] at hi
      simp at hi
  · rw [if_neg heq] at hi
    simp only [] at hi
    obtain ⟨_, c1, c2, c3, _, _⟩ := closeRun_spec e hb0 hb128 hr0 hr128 h3 hlen _ rfl
    rcases List.mem_append.mp hi with h | h
    · have hp : e.pushPrev.bufferPos_ = e.bufferPos_ + 1 := rfl
      by_cases r0 : e.repeatCount_ = 0
      · rw [if_pos r0] at h; simp at h
      · rw [if_neg r0] at h
        by_cases r1 : e.repeatCount_ = 1
        · rw [if_pos r1] at h
          simp only [List.mem_singleton] at h
          omega
        · rw [if_neg r1] at h
          by_cases r2 : e.repeatCount_ = 2
          · rw [if_pos r2] at h
            simp only [List.mem_cons, List.mem_singleton, List.not_mem_nil, or_false] at h
            rcases h with h | h <;> omega
          · rw [if_neg r2] at h
            simp at h
    · generalize (if e.repeatCount_ = 0 then e
        else if e.repeatCount_ = 1 then e.pushPrev
        else if e.repeatCount_ = 2 then e.pushPrev.pushPrev
        else flushRepeats e.repeatCount_.toNat e) = e1 at *
      have := flushLiterals_indices_bound 128 (by omega) e1.bufferPos_.toNat e1 c1 (by omega) i h
      omega

/-- The accesses of `Flush` to `buffer_` are below index 129. -/
theorem Flush_indices_bound (e0 e : RleEncoder) (inp : List Nat) (h : Inv e0 inp e) :
    ∀ i ∈ Flush.indices e, 0 ≤ i ∧ i < 130 := by
  obtain ⟨_, hb0, hb128, hr0, hr128, h3, hlen, _⟩ := h
  intro i hi
  unfold Flush.indices at hi
  simp only [] at hi
  by_cases hlt : e.repeatCount_ < 2
  · rw [if_pos hlt, if_pos hlt] at hi
    rcases lt_or_le 0 e.repeatCount_ with hpos | hneg
    · have h1 : e.repeatCount_.toNat = 1 := by omega
      rw [h1] at hi
      have hpp : pushPending 1 e = { e.pushPrev with repeatCount_ := e.repeatCount_ - 1 } := by
        simp only [pushPending, if_pos hpos]
      have hpi : pushPending.indices 1 e = [e.bufferPos_] := by
        simp only [pushPending.indices, if_pos hpos]
      rw [hpp, hpi] at hi
      rcases List.mem_append.mp hi with h | h
      · simp only [List.mem_singleton] at h
        omega
      · have := flushLiterals_indices_bound 0 (le_refl _) _
          ({ e.pushPrev with repeatCount_ := e.repeatCount_ - 1 } : RleEncoder)
          (by show 0 ≤ e.bufferPos_ + 1; omega)
          (by show e.bufferPos_ + 1 ≤ ((e.buffer_.set _ _).length : Int)
              rw [List.length_set]; omega) i h
        have hbp : ({ e.pushPrev with repeatCount_ := e.repeatCount_ - 1 } : RleEncoder).bufferPos_ =
          e.bufferPos_ + 1 := rfl
        rw [hbp] at this
        omega
    · have h0 : e.repeatCount_.toNat = 0 := by omega
      rw [h0] at hi
      simp only [pushPending, pushPending.indices, List.nil_append] at hi
      have := flushLiterals_indices_bound 0 (le_refl _) _ e hb0 (by omega) i hi
      omega
  · rw [if_neg hlt, if_neg hlt, List.nil_append] at hi
    have := flushLiterals_indices_bound 0 (le_refl _) _ e hb0 (by omega) i hi
    omega

/-- `NextSegment`, when it returns, leaves the encoder flushed. -/
theorem NextSegment_clean (e0 e e' : RleEncoder) (inp : List Nat) (h : Inv e0 inp e)
    (hn : e.NextSegment = .ok e') : e'.clean := by
  have hcl := (Flush_spec e0 e inp h).2.1
  have hlt := NextSegment_ok_lt e e' hn
  have hsame : e.NextSegment = e.Flush.NextSegment := by
    unfold NextSegment
    rw [Flush_of_clean e.Flush hcl]
  rw [hsame] at hn
  obtain ⟨_, e'', h1, _, _, _, _, _, hc⟩ := NextSegment_spec e.Flush hcl hlt
  rw [h1] at hn
  cases hn
  exact hc

/-- Every state a sequence of calls reaches from a state inside a segment is
again a state inside a segment. -/
theorem runCalls_inv : ∀ (calls : List Call) (e e' : RleEncoder),
    (∃ e0 inp, Inv e0 inp e) → runCalls calls e = .ok e' → ∃ e0 inp, Inv e0 inp e' := by
  intro calls
  induction calls with
  | nil =>
    intro e e' h hr
    simp only [runCalls, Except.ok.injEq] at hr
    rw [← hr]
    exact h
  | cons c cs ih =>
    intro e e' h hr
    obtain ⟨e0, inp, hinv⟩ := h
    rw [runCalls] at hr
    cases c with
    | Encode b =>
      exact ih (e.Encode b) e' ⟨e0, inp ++ [b], Encode_inv e0 e inp b hinv⟩ hr
    | Flush =>
      exact ih e.Flush e' ⟨e.Flush, [], Inv_init _ (Flush_spec e0 e inp hinv).2.1⟩ hr
    | NextSegment =>
      cases hn : e.NextSegment with
      | error err =>
        simp only [Call.run, hn, bind, Except.bind] at hr
        cases hr
      | ok e1 =>
        simp only [Call.run, hn, bind, Except.bind] at hr
        exact ih e1 e' ⟨e1, [], Inv_init _ (NextSegment_clean e0 e e1 inp hinv hn)⟩ hr

end RleEncoder

/-- C32. For every sequence of `Encode`, `Flush` and `NextSegment` calls on a
fresh `RleEncoder`, in the state `e` it reaches the literal buffer has its 132
bytes, the buffer position is between 0 and 128, and it is 0 whenever the
repeat count is 3 or more; and every index at which the next call, whichever it
is, reads or writes the literal buffer is below 132 (below 130, in fact). -/
theorem literal_buffer_bound (calls : List RleEncoder.Call) (e : RleEncoder)
    (h : RleEncoder.runCalls calls RleEncoder.new = .ok e) :
    e.buffer_.length = 132 ∧ 0 ≤ e.bufferPos_ ∧ e.bufferPos_ ≤ 128 ∧
    (3 ≤ e.repeatCount_ → e.bufferPos_ = 0) ∧
    ∀ (c : RleEncoder.Call), ∀ i ∈ c.indices e, 0 ≤ i ∧ i < 130 ∧ i < 132 := by
  obtain ⟨e0, inp, hinv⟩ := RleEncoder.runCalls_inv calls RleEncoder.new e
    ⟨RleEncoder.new, [], RleEncoder.Inv_init _ clean_new⟩ h
  refine ⟨hinv.2.2.2.2.2.2.1, hinv.2.1, hinv.2.2.1, hinv.2.2.2.2.2.1, ?_⟩
  intro c i hi
  have hb : 0 ≤ i ∧ i < 130 := by
    cases c with
    | Encode b => exact RleEncoder.Encode_indices_bound e0 e inp b hinv i hi
    | Flush => exact RleEncoder.Flush_indices_bound e0 e inp hinv i hi
    | NextSegment => exact RleEncoder.Flush_indices_bound e0 e inp hinv i hi
  exact ⟨hb.1, hb.2, by omega⟩

theorem literal_buffer_bound_witness :
    (((RleEncoder.new.Encode 16).Encode 16).Encode 32).bufferPos_ ≤ 128 ∧
    ∀ (c : RleEncoder.Call), ∀ i ∈ c.indices (((RleEncoder.new.Encode 16).Encode 16).Encode 32),
      0 ≤ i ∧ i < 130 ∧ i < 132 :=
  ⟨(literal_buffer_bound [.Encode 16, .Encode 16, .Encode 32]
      (((RleEncoder.new.Encode 16).Encode 16).Encode 32) (by rfl)).2.2.1,
   (literal_buffer_bound [.Encode 16, .Encode 16, .Encode 32]
      (((RleEncoder.new.Encode 16).Encode 16).Encode 32) (by rfl)).2.2.2.2⟩

namespace RleEncoder

/-- The writer after one round of the literal flush loop. -/
theorem length_MoveBuffer (e : RleEncoder) (h0 : 0 < e.bufferPos_)
    (hb : e.bufferPos_ ≤ e.buffer_.length) :
    (((e.WriteByte (toUInt8 (min 128 e.bufferPos_ - 1))).MoveBuffer
      (min 128 e.bufferPos_)).writer_.length : Int) =
      e.writer_.length + 1 + min 128 e.bufferPos_ := by
  obtain ⟨hw, _⟩ := MoveBuffer_spec (e.WriteByte (toUInt8 (min 128 e.bufferPos_ - 1)))
    (min 128 e.bufferPos_) (by omega) (by show min 128 e.bufferPos_ ≤ e.bufferPos_; omega) hb
  rw [hw]
  simp only [WriteByte, List.length_append, List.length_take, List.length_singleton]
  omega

/-- The full literal flush writes the pending bytes and one control byte for
every 128 of them. -/
theorem length_flushLiterals_zero (fuel : Nat) :
    ∀ e : RleEncoder, 0 ≤ e.bufferPos_ → e.bufferPos_ ≤ e.buffer_.length →
      e.bufferPos_ ≤ fuel →
      ((flushLiterals 0 fuel e).writer_.length : Int) =
        e.writer_.length + e.bufferPos_ + (e.bufferPos_ + 127) / 128 := by
  induction fuel with
  | zero =>
    intro e h0 _ hf
    have : e.bufferPos_ = 0 := by omega
    rw [flushLiterals_zero, this]
    simp
  | succ fuel ih =>
    intro e h0 hb hf
    by_cases hgt : e.bufferPos_ > 0
    · rw [flushLiterals_succ_pos _ _ _ hgt]
      obtain ⟨_, _, hbp, hlen, _⟩ :=
        MoveBuffer_spec (e.WriteByte (toUInt8 (min 128 e.bufferPos_ - 1)))
          (min 128 e.bufferPos_) (by omega)
          (by show min 128 e.bufferPos_ ≤ e.bufferPos_; omega) hb
      have hl := length_MoveBuffer e hgt hb
      generalize (e.WriteByte (toUInt8 (min 128 e.bufferPos_ - 1))).MoveBuffer
        (min 128 e.bufferPos_) = e2 at hbp hlen hl ⊢
      have hbp' : e2.bufferPos_ = e.bufferPos_ - min 128 e.bufferPos_ := hbp
      have hlen' : e2.buffer_.length = e.buffer_.length := hlen
      rw [ih e2 (by omega) (by omega) (by omega), hl, hbp']
      omega
    · rw [flushLiterals_succ_neg _ _ _ hgt]
      have : e.bufferPos_ = 0 := by omega
      rw [this]
      simp

/-- The literal flush of `Encode` when the byte changes: one run of 128 bytes
when more than 128 are pending, nothing otherwise. -/
theorem length_flushLiterals_limit (e : RleEncoder) (h0 : 0 ≤ e.bufferPos_)
    (h256 : e.bufferPos_ ≤ 256) (hb : e.bufferPos_ ≤ e.buffer_.length) :
    ((flushLiterals 128 e.bufferPos_.toNat e).writer_.length : Int) =
        e.writer_.length + (if e.bufferPos_ > 128 then 129 else 0) ∧
    (flushLiterals 128 e.bufferPos_.toNat e).bufferPos_ =
        e.bufferPos_ - (if e.bufferPos_ > 128 then 128 else 0) := by
  by_cases hgt : e.bufferPos_ > 128
  · obtain ⟨f, hf⟩ : ∃ f, e.bufferPos_.toNat = f + 1 := ⟨e.bufferPos_.toNat - 1, by omega⟩
    rw [hf, flushLiterals_succ_pos _ _ _ hgt, if_pos hgt, if_pos hgt]
    obtain ⟨_, _, hbp, hlen, _⟩ :=
      MoveBuffer_spec (e.WriteByte (toUInt8 (min 128 e.bufferPos_ - 1)))
        (min 128 e.bufferPos_) (by omega)
        (by show min 128 e.bufferPos_ ≤ e.bufferPos_; omega) hb
    have hl := length_MoveBuffer e (by omega) hb
    generalize (e.WriteByte (toUInt8 (min 128 e.bufferPos_ - 1))).MoveBuffer
      (min 128 e.bufferPos_) = e2 at hbp hlen hl ⊢
    have hbp' : e2.bufferPos_ = e.bufferPos_ - min 128 e.bufferPos_ := hbp
    have hlen' : e2.buffer_.length = e.buffer_.length := hlen
    obtain ⟨_, _, _, i3, _⟩ := flushLiterals_spec 128 (by omega) f e2 (by omega) (by omega)
      (by omega)
    rw [i3 (by omega), hl, hbp']
    constructor <;> omega
  · obtain ⟨_, _, _, i3, _⟩ := flushLiterals_spec 128 (by omega) e.bufferPos_.toNat e h0 hb
      (by omega)
    rw [i3 (by omega), if_neg hgt, if_neg hgt]
    constructor <;> omega

end RleEncoder

namespace RleEncoder

/-- `Encode` keeps the accounting invariant. -/
theorem Encode_cost (e0 e : RleEncoder) (inp : List Nat) (b : Nat) (h : Inv e0 inp e)
    (hc : Cost e0 inp.length e) : Cost e0 (inp.length + 1) (e.Encode b) := by
  obtain ⟨_, hb0, hb128, hr0, hr128, h3, hlen, hprev0, hprev, _, _⟩ := h
  unfold Cost at hc ⊢
  unfold Encode
  by_cases heq : (b : Int) = e.prevByte_
  · rw [if_pos heq]
    simp only []
    by_cases hA : e.repeatCount_ + 1 > 2 ∧ e.bufferPos_ > 0
    · rw [if_pos hA]
      have hrc : e.repeatCount_ = 2 := by
        rcases lt_or_le e.repeatCount_ 3 with h | h
        · omega
        · have := h3 h; omega
      obtain ⟨_, i1, i2, _, _, _, _, i7, _⟩ :=
        flushLiterals_spec 0 (le_refl _) e.bufferPos_.toNat
          { e with repeatCount_ := e.repeatCount_ + 1 } hb0
          (by show e.bufferPos_ ≤ (e.buffer_.length : Int); omega)
          (by show e.bufferPos_ ≤ (e.bufferPos_.toNat : Int); omega)
      have hl := length_flushLiterals_zero e.bufferPos_.toNat
          { e with repeatCount_ := e.repeatCount_ + 1 } hb0
          (by show e.bufferPos_ ≤ (e.buffer_.length : Int); omega)
          (by show e.bufferPos_ ≤ (e.bufferPos_.toNat : Int); omega)
      have hw0 : ({ e with repeatCount_ := e.repeatCount_ + 1 } : RleEncoder).writer_ = e.writer_ :=
        rfl
      have hb1 : ({ e with repeatCount_ := e.repeatCount_ + 1 } : RleEncoder).bufferPos_ =
        e.bufferPos_ := rfl
      have hr1 : ({ e with repeatCount_ := e.repeatCount_ + 1 } : RleEncoder).repeatCount_ =
        e.repeatCount_ + 1 := rfl
      rw [hw0, hb1] at hl
      rw [hr1] at i7
      generalize flushLiterals 0 e.bufferPos_.toNat
        { e with repeatCount_ := e.repeatCount_ + 1 } = r at *
      have hbp : r.bufferPos_ = 0 := by
        have : (0 : Int) ⊔ 0 = 0 := by simp
        omega
      rw [hl, hbp, i7]
      push_cast
      omega
    · rw [if_neg hA]
      by_cases hB : e.repeatCount_ + 1 > 128
      · rw [if_pos hB]
        have hbp : e.bufferPos_ = 0 := h3 (by omega)
        obtain ⟨p1, p2, _, p4, _⟩ :=
          emitRepeat_spec { e with repeatCount_ := e.repeatCount_ + 1 }
            (by show 2 ≤ e.repeatCount_ + 1; omega)
        have hw : ((emitRepeat { e with repeatCount_ := e.repeatCount_ + 1 }).writer_.length : Int)
            = e.writer_.length + 2 := by
          rw [p1]
          simp [Run.bytes]
        have hr : (emitRepeat { e with repeatCount_ := e.repeatCount_ + 1 }).repeatCount_ = 1 := by
          rw [p2]
          show e.repeatCount_ + 1 - min (e.repeatCount_ + 1) 128 = 1
          omega
        have hp : (emitRepeat { e with repeatCount_ := e.repeatCount_ + 1 }).bufferPos_ = 0 := by
          rw [p4]
          exact hbp
        rw [hw, hr, hp]
        push_cast
        omega
      · rw [if_neg hB]
        show 128 * ((e.writer_.length : Int) - e0.writer_.length -
            (((inp.length + 1 : Nat) : Int) - e.bufferPos_ - (e.repeatCount_ + 1))) ≤
          (((inp.length + 1 : Nat) : Int) - e.bufferPos_ - (e.repeatCount_ + 1)) +
            128 * max (e.repeatCount_ + 1 - 2) 0
        push_cast
        omega
  · rw [if_neg heq]
    simp only []
    obtain ⟨_, c1, c2, c3, _, _⟩ := closeRun_spec e hb0 hb128 hr0 hr128 h3 hlen _ rfl
    have hclose : ∀ e1 : RleEncoder, e1 = (if e.repeatCount_ = 0 then e
        else if e.repeatCount_ = 1 then e.pushPrev
        else if e.repeatCount_ = 2 then e.pushPrev.pushPrev
        else flushRepeats e.repeatCount_.toNat e) →
        ((e1.writer_.length : Int) = e.writer_.length + (if e.repeatCount_ ≥ 3 then 2 else 0)) ∧
        e1.bufferPos_ = e.bufferPos_ + (if e.repeatCount_ ≥ 3 then 0 else e.repeatCount_) := by
      intro e1 he1
      by_cases r0 : e.repeatCount_ = 0
      · rw [if_pos r0] at he1
        subst he1
        rw [if_neg (by omega), if_neg (by omega)]
        constructor <;> omega
      · rw [if_neg r0] at he1
        by_cases r1 : e.repeatCount_ = 1
        · rw [if_pos r1] at he1
          subst he1
          rw [if_neg (by omega), if_neg (by omega)]
          refine ⟨by show (e.writer_.length : Int) = _; omega,
            by show e.bufferPos_ + 1 = _; omega⟩
        · rw [if_neg r1] at he1
          by_cases r2 : e.repeatCount_ = 2
          · rw [if_pos r2] at he1
            subst he1
            rw [if_neg (by omega), if_neg (by omega)]
            refine ⟨by show (e.writer_.length : Int) = _; omega,
              by show e.bufferPos_ + 1 + 1 = _; omega⟩
          · rw [if_neg r2] at he1
            rw [flushRepeats_once _ e (by omega) hr128 (by omega)] at he1
            subst he1
            obtain ⟨p1, _, _, p4, _⟩ := emitRepeat_spec e (by omega)
            rw [if_pos (by omega), if_pos (by omega), p1, p4]
            constructor
            · simp [Run.bytes]
            · omega
    obtain ⟨hw1, hb1⟩ := hclose _ rfl
    generalize (if e.repeatCount_ = 0 then e
      else if e.repeatCount_ = 1 then e.pushPrev
      else if e.repeatCount_ = 2 then e.pushPrev.pushPrev
      else flushRepeats e.repeatCount_.toNat e) = e1 at *
    obtain ⟨hw2, hb2⟩ := length_flushLiterals_limit e1 c1 (by omega) (by omega)
    show 128 * (((flushLiterals 128 e1.bufferPos_.toNat e1).writer_.length : Int) -
        e0.writer_.length - (((inp.length + 1 : Nat) : Int) -
          (flushLiterals 128 e1.bufferPos_.toNat e1).bufferPos_ - 1)) ≤
      (((inp.length + 1 : Nat) : Int) - (flushLiterals 128 e1.bufferPos_.toNat e1).bufferPos_ - 1) +
        128 * max ((1 : Int) - 2) 0
    rw [hw2, hb2, hw1, hb1]
    have hbz := h3
    push_cast
    by_cases r3 : e.repeatCount_ ≥ 3
    · have := h3 r3
      rw [if_pos r3, if_pos r3] at *
      rw [if_neg (by omega), if_neg (by omega)]
      omega
    · rw [if_neg r3, if_neg r3] at *
      split <;> omega

/-- The bytes fed to `Encode` keep the invariant and the accounting invariant. -/
theorem foldl_Encode_cost (e0 : RleEncoder) : ∀ (bs : List Nat) (e : RleEncoder) (inp : List Nat),
    Inv e0 inp e → Cost e0 inp.length e →
    Inv e0 (inp ++ bs) (bs.foldl Encode e) ∧ Cost e0 (inp ++ bs).length (bs.foldl Encode e) := by
  intro bs
  induction bs with
  | nil =>
    intro e inp h hc
    rw [List.append_nil]
    exact ⟨h, hc⟩
  | cons b bs ih =>
    intro e inp h hc
    have h1 := Encode_inv e0 e inp b h
    have hc1 := Encode_cost e0 e inp b h hc
    have := ih (e.Encode b) (inp ++ [b]) h1 (by rw [List.length_append]; exact hc1)
    rw [List.append_assoc, List.singleton_append] at this
    exact this

/-- What `Flush` adds to the writer. -/
theorem length_Flush (e0 e : RleEncoder) (inp : List Nat) (h : Inv e0 inp e) :
    (e.Flush.writer_.length : Int) =
      if e.repeatCount_ < 2 then
        e.writer_.length + (e.bufferPos_ + e.repeatCount_) +
          (e.bufferPos_ + e.repeatCount_ + 127) / 128
      else e.writer_.length + e.bufferPos_ + (e.bufferPos_ + 127) / 128 + 2 := by
  obtain ⟨_, hb0, hb128, hr0, hr128, h3, hlen, _⟩ := h
  by_cases hlt : e.repeatCount_ < 2
  · rw [if_pos hlt]
    have hp : ∃ e1 : RleEncoder, pushPending e.repeatCount_.toNat e = e1 ∧
        e1.repeatCount_ = 0 ∧ e1.writer_ = e.writer_ ∧
        e1.bufferPos_ = e.bufferPos_ + e.repeatCount_ ∧
        e1.buffer_.length = e.buffer_.length := by
      rcases lt_or_le 0 e.repeatCount_ with hpos | hneg
      · have h1 : e.repeatCount_.toNat = 1 := by omega
        rw [h1]
        obtain ⟨p1, p2, p3, p4, _⟩ := pushPrev_spec e hb0 (by omega)
        refine ⟨_, rfl, ?_, ?_, ?_, ?_⟩
        · simp only [pushPending, if_pos hpos]; omega
        · simp only [pushPending, if_pos hpos]; exact p4
        · simp only [pushPending, if_pos hpos]
          show e.bufferPos_ + 1 = _
          omega
        · simp only [pushPending, if_pos hpos]; exact p3
      · have h0 : e.repeatCount_.toNat = 0 := by omega
        rw [h0]
        exact ⟨e, rfl, by omega, rfl, by show e.bufferPos_ = _; omega, rfl⟩
    obtain ⟨e1, he1, q2, q3, q4, q5⟩ := hp
    obtain ⟨_, _, _, _, _, _, _, i7, _⟩ :=
      flushLiterals_spec 0 (le_refl _) e1.bufferPos_.toNat e1 (by omega) (by omega) (by omega)
    have hl := length_flushLiterals_zero e1.bufferPos_.toNat e1 (by omega) (by omega) (by omega)
    have hF : e.Flush.writer_ = (flushLiterals 0 e1.bufferPos_.toNat e1).writer_ := by
      unfold Flush
      simp only [if_pos hlt, he1]
      rw [if_neg (by rw [i7, q2]; omega)]
    rw [hF, hl, q3, q4]
  · rw [if_neg hlt]
    obtain ⟨_, _, _, _, _, _, _, i7, _⟩ :=
      flushLiterals_spec 0 (le_refl _) e.bufferPos_.toNat e hb0 (by omega) (by omega)
    have hl := length_flushLiterals_zero e.bufferPos_.toNat e hb0 (by omega) (by omega)
    have hF : e.Flush.writer_ = (flushLiterals 0 e.bufferPos_.toNat e).emitRepeat.writer_ := by
      unfold Flush
      simp only [if_neg hlt]
      rw [if_pos (by rw [i7]; omega), flushRepeats_once _ _ (by rw [i7]; omega)
        (by rw [i7]; omega) (by rw [i7]; omega)]
    obtain ⟨p1, _⟩ := emitRepeat_spec (flushLiterals 0 e.bufferPos_.toNat e) (by rw [i7]; omega)
    rw [hF, p1, List.length_append, Nat.cast_add, hl]
    simp [Run.bytes]

end RleEncoder

/-- C40. For every segment of `n` bytes fed to `Encode` from a flushed encoder
and closed by `Flush`, the bytes written for the segment, before the padding to
even length, number at most `n + ⌈n / 128⌉`. -/
theorem Flush_length_le (e0 : RleEncoder) (h0 : e0.clean) (segment : List Nat) :
    (segment.foldl RleEncoder.Encode e0).Flush.writer_.length ≤
      e0.writer_.length + segment.length + (segment.length + 127) / 128 := by
  have hinit : RleEncoder.Cost e0 ([] : List Nat).length e0 := by
    obtain ⟨_, h2, h3, _⟩ := h0
    unfold RleEncoder.Cost
    rw [h2, h3]
    simp
  obtain ⟨hinv, hcost⟩ := RleEncoder.foldl_Encode_cost e0 segment e0 []
    (RleEncoder.Inv_init e0 h0) hinit
  rw [List.nil_append] at hinv hcost
  have hl := RleEncoder.length_Flush e0 _ segment hinv
  obtain ⟨_, hb0, hb128, hr0, hr128, h3, _⟩ := hinv
  unfold RleEncoder.Cost at hcost
  have hgoal : ((segment.foldl RleEncoder.Encode e0).Flush.writer_.length : Int) ≤
      e0.writer_.length + segment.length + ((segment.length : Int) + 127) / 128 := by
    rw [hl]
    generalize (segment.foldl RleEncoder.Encode e0).repeatCount_ = rc at *
    generalize (segment.foldl RleEncoder.Encode e0).bufferPos_ = bp at *
    generalize ((segment.foldl RleEncoder.Encode e0).writer_.length : Int) = w at *
    by_cases hlt : rc < 2
    · rw [if_pos hlt]
      have : max (rc - 2) 0 = 0 := by omega
      rw [this] at hcost
      omega
    · rw [if_neg hlt]
      by_cases h2 : rc = 2
      · have : max (rc - 2) 0 = 0 := by omega
        rw [this] at hcost
        omega
      · have hbz := h3 (by omega)
        have : max (rc - 2) 0 = rc - 2 := by omega
        rw [this] at hcost
        omega
  omega

theorem Flush_length_le_witness :
    ([7].foldl RleEncoder.Encode RleEncoder.new).Flush.writer_.length ≤
      RleEncoder.new.writer_.length + [7].length + ([7].length + 127) / 128 ∧
    ([7].foldl RleEncoder.Encode RleEncoder.new).Flush.writer_ = [0, 7] :=
  ⟨Flush_length_le RleEncoder.new clean_new [7], by rfl⟩

/-- When the pixel loop of `EncodeRle` returns, every read was inside the raw
buffer. -/
theorem encodePixels_ok_lt (ctx : CodecsContext) (offset : Nat) (n : Nat) :
    ∀ (pos : Nat) (e e' : RleEncoder), encodePixels ctx offset n pos e = .ok e' →
      ∀ p, p < n → pos + p * offset < ctx.DecodedBuffer.length := by
  induction n with
  | zero => intro pos e e' _ p hp; omega
  | succ n ih =>
    intro pos e e' h p hp
    rw [encodePixels] at h
    by_cases hge : pos ≥ ctx.DecodedBuffer.length
    · rw [if_pos hge] at h
      cases h
    · rw [if_neg hge] at h
      cases p with
      | zero => omega
      | succ p =>
        have := ih _ _ _ h p (by omega)
        rw [Nat.add_mul, Nat.one_mul]
        omega

/-- When the segment loop of `EncodeRle` returns, every read was inside the raw
buffer. -/
theorem encodeSegments_ok_lt (ctx : CodecsContext) (m : Nat) :
    ∀ (s : Nat) (e e' : RleEncoder), encodeSegments ctx m s e = .ok e' →
      ∀ j p, j < m → p < pixelCount ctx →
        segmentPos ctx (s + j) + p * segmentStride ctx < ctx.DecodedBuffer.length := by
  induction m with
  | zero => intro s e e' _ j p hj; omega
  | succ m ih =>
    intro s e e' h j p hj hp
    rw [encodeSegments] at h
    cases hN : e.NextSegment with
    | error err => simp only [hN, bind, Except.bind] at h; cases h
    | ok e1 =>
      cases hP : encodePixels ctx (segmentStride ctx) (pixelCount ctx) (segmentPos ctx s) e1 with
      | error err => simp only [hN, hP, bind, Except.bind] at h; cases h
      | ok e2 =>
        simp only [hN, hP, bind, Except.bind] at h
        cases j with
        | zero => exact encodePixels_ok_lt ctx _ _ _ _ _ hP p hp
        | succ j =>
          have := ih (s + 1) _ _ h j p (by omega) hp
          have e : s + (j + 1) = s + 1 + j := by omega
          rw [e]
          exact this

/-- With at most fifteen segments, the segment loop of `EncodeRle` fails only
with a read past the end of the raw buffer. -/
theorem encodeSegments_error (ctx : CodecsContext) (m : Nat) :
    ∀ (s : Nat) (e : RleEncoder) (err : CodecsError), Layout ctx e s → s + m ≤ 15 →
      encodeSegments ctx m s e = .error err → err = .readPastEnd := by
  induction m with
  | zero =>
    intro s e err _ _ h
    simp [encodeSegments] at h
  | succ m ih =>
    intro s e err hl h15 h
    obtain ⟨hclean, hcount, hlen15, _, _, _⟩ := id hl
    obtain ⟨pad, e1, hN, _, _, _, _, _, hcl1⟩ :=
      NextSegment_spec e hclean (by rw [hcount, hlen15]; omega)
    rw [encodeSegments] at h
    cases hP : encodePixels ctx (segmentStride ctx) (pixelCount ctx) (segmentPos ctx s) e1 with
    | error err' =>
      simp only [hN, hP, bind, Except.bind, Except.error.injEq] at h
      rw [← h]
      exact encodePixels_error ctx _ _ _ _ _ hP
    | ok e2 =>
      simp only [hN, hP, bind, Except.bind] at h
      have h1 : encodeSegments ctx 1 s e = .ok e2.Flush := by
        simp only [encodeSegments, bind, Except.bind, hN, hP]
      have hl2 := encodeSegments_layout ctx 1 s e _ hl h1
      exact ih (s + 1) e2.Flush err hl2 (by omega) h

/-- Two gathers that agree byte by byte are equal. -/
theorem gather_congr (b1 b2 : List Nat) (o1 o2 n p1 p2 : Nat)
    (h : ∀ k, k < n → b1.getD (p1 + k * o1) 0 = b2.getD (p2 + k * o2) 0) :
    gather b1 o1 n p1 = gather b2 o2 n p2 := by
  apply eq_of_getD_eq
  · rw [length_gather, length_gather]
  · intro i hi
    rw [length_gather] at hi
    rw [getD_gather _ _ _ _ _ hi, getD_gather _ _ _ _ _ hi]
    exact h i hi

/-- The segment loop of `EncodeRle` depends on the context through the bytes of
the segments only. -/
theorem encodeSegments_congr (ctx1 ctx2 : CodecsContext) (n : Nat)
    (h1 : ∀ s p, s < n → p < pixelCount ctx1 →
      segmentPos ctx1 s + p * segmentStride ctx1 < ctx1.DecodedBuffer.length)
    (h2 : ∀ s p, s < n → p < pixelCount ctx2 →
      segmentPos ctx2 s + p * segmentStride ctx2 < ctx2.DecodedBuffer.length)
    (hg : ∀ s, s < n → segmentBytes ctx1 s = segmentBytes ctx2 s) :
    ∀ (m s : Nat) (e : RleEncoder), s + m ≤ n →
      encodeSegments ctx1 m s e = encodeSegments ctx2 m s e := by
  intro m
  induction m with
  | zero => intro s e _; rfl
  | succ m ih =>
    intro s e hs
    rw [encodeSegments, encodeSegments]
    cases hN : e.NextSegment with
    | error err => rfl
    | ok e1 =>
      simp only [bind, Except.bind]
      rw [encodePixels_eq_foldl ctx1 _ _ _ _ (fun p hp => h1 s p (by omega) hp),
        encodePixels_eq_foldl ctx2 _ _ _ _ (fun p hp => h2 s p (by omega) hp)]
      have := hg s (by omega)
      unfold segmentBytes at this
      rw [this]
      exact ih (s + 1) _ (by omega)

/-- `EncodeRle` on two contexts with the same number of segments and the same
bytes in every segment gives the same encoded bytes. -/
theorem EncodeRle_congr (ctx1 ctx2 : CodecsContext)
    (hn : bytesAllocated ctx1 * ctx1.SamplesPerPixel = bytesAllocated ctx2 * ctx2.SamplesPerPixel)
    (h1 : ∀ s p, s < bytesAllocated ctx1 * ctx1.SamplesPerPixel → p < pixelCount ctx1 →
      segmentPos ctx1 s + p * segmentStride ctx1 < ctx1.DecodedBuffer.length)
    (h2 : ∀ s p, s < bytesAllocated ctx1 * ctx1.SamplesPerPixel → p < pixelCount ctx2 →
      segmentPos ctx2 s + p * segmentStride ctx2 < ctx2.DecodedBuffer.length)
    (hg : ∀ s, s < bytesAllocated ctx1 * ctx1.SamplesPerPixel →
      segmentBytes ctx1 s = segmentBytes ctx2 s) :
    (EncodeRle ctx1).map (fun c => c.EncodedBuffer) =
      (EncodeRle ctx2).map (fun c => c.EncodedBuffer) := by
  unfold EncodeRle
  simp only [bind, Except.bind]
  rw [← hn, encodeSegments_congr ctx1 ctx2 _ h1 h2 hg _ 0 _ (by omega)]
  cases encodeSegments ctx2 (bytesAllocated ctx1 * ctx1.SamplesPerPixel) 0 RleEncoder.new with
  | error err => rfl
  | ok e => rfl

/-- `EncodeRle` returns when the raw buffer holds every byte of the frame and
there are at most fifteen segments. -/
theorem EncodeRle_ok (ctx : CodecsContext)
    (h15 : bytesAllocated ctx * ctx.SamplesPerPixel ≤ 15)
    (hlen : pixelCount ctx * bytesAllocated ctx * ctx.SamplesPerPixel ≤ ctx.DecodedBuffer.length) :
    ∃ ctx', EncodeRle ctx = .ok ctx' := by
  obtain ⟨e, he⟩ := encodeSegments_ok ctx hlen (bytesAllocated ctx * ctx.SamplesPerPixel) 0
    RleEncoder.new (Layout_new ctx) (by omega) (by omega)
  unfold EncodeRle
  simp only [bind, Except.bind, he]
  exact ⟨_, rfl⟩

/-- Two lists with the same first `n` elements agree below `n`. -/
theorem getD_of_take_eq (a b : List Nat) (n q : Nat) (h : a.take n = b.take n) (hq : q < n) :
    a.getD q 0 = b.getD q 0 := by
  have h1 : (a.take n)[q]? = a[q]? := List.getElem?_take_of_lt hq
  have h2 : (b.take n)[q]? = b[q]? := List.getElem?_take_of_lt hq
  rw [List.getD_eq_getElem?_getD, List.getD_eq_getElem?_getD, ← h1, ← h2, h]

/-- C38. With at most fifteen segments and a size `P * BA * SPP` below 2^31
(`P` pixels, `BA` bytes allocated, `SPP` samples per pixel), so that the
`size_t` product `Columns * Rows`, the `int` pixel counter and the read
positions of `EncodeRle` do not wrap around: `EncodeRle` fails with "read
position is past end of frame buffer" exactly when the decoded buffer holds
fewer than `P * BA * SPP` bytes, and it returns when the buffer holds at least
that many; then the encoded bytes are those of every other buffer with the same
first `P * BA * SPP` bytes. The size is the same with the pixel count the source
computes in `size_t`. -/
theorem EncodeRle_buffer_length_check (ctx : CodecsContext)
    (h15 : bytesAllocated ctx * ctx.SamplesPerPixel ≤ 15)
    (hsize : pixelCount ctx * bytesAllocated ctx * ctx.SamplesPerPixel < 2147483648) :
    (toSizeT (ctx.Columns * ctx.Rows) * bytesAllocated ctx * ctx.SamplesPerPixel =
      pixelCount ctx * bytesAllocated ctx * ctx.SamplesPerPixel) ∧
    (EncodeRle ctx = .error .readPastEnd ↔
      ctx.DecodedBuffer.length < pixelCount ctx * bytesAllocated ctx * ctx.SamplesPerPixel) ∧
    ((∃ ctx', EncodeRle ctx = .ok ctx') ↔
      pixelCount ctx * bytesAllocated ctx * ctx.SamplesPerPixel ≤ ctx.DecodedBuffer.length) ∧
    (∀ buffer : List Nat,
      pixelCount ctx * bytesAllocated ctx * ctx.SamplesPerPixel ≤ ctx.DecodedBuffer.length →
      pixelCount ctx * bytesAllocated ctx * ctx.SamplesPerPixel ≤ buffer.length →
      buffer.take (pixelCount ctx * bytesAllocated ctx * ctx.SamplesPerPixel) =
        ctx.DecodedBuffer.take (pixelCount ctx * bytesAllocated ctx * ctx.SamplesPerPixel) →
      (EncodeRle { ctx with DecodedBuffer := buffer }).map (fun c => c.EncodedBuffer) =
        (EncodeRle ctx).map (fun c => c.EncodedBuffer)) := by
  have hfail : ctx.DecodedBuffer.length <
      pixelCount ctx * bytesAllocated ctx * ctx.SamplesPerPixel →
      EncodeRle ctx = .error .readPastEnd := by
    intro hlt
    obtain ⟨s, k, hs, hk, hq⟩ := segment_cover ctx ctx.DecodedBuffer.length hlt
    unfold EncodeRle
    cases hS : encodeSegments ctx (bytesAllocated ctx * ctx.SamplesPerPixel) 0 RleEncoder.new with
    | ok e =>
      have := encodeSegments_ok_lt ctx _ _ _ _ hS s k hs hk
      rw [Nat.zero_add] at this
      omega
    | error err =>
      have := encodeSegments_error ctx _ 0 _ err (Layout_new ctx) (by omega) hS
      simp only [bind, Except.bind]
      rw [hS, this]
  refine ⟨?_, ⟨fun h => ?_, hfail⟩, ⟨fun h => ?_, EncodeRle_ok ctx h15⟩, ?_⟩
  · rcases Nat.eq_zero_or_pos (bytesAllocated ctx * ctx.SamplesPerPixel) with h0 | hpos
    · rw [Nat.mul_assoc, Nat.mul_assoc, h0, Nat.mul_zero, Nat.mul_zero]
    · have hle : pixelCount ctx ≤ pixelCount ctx * (bytesAllocated ctx * ctx.SamplesPerPixel) :=
        Nat.le_mul_of_pos_right _ hpos
      rw [Nat.mul_assoc] at hsize
      have hP : toSizeT (ctx.Columns * ctx.Rows) = pixelCount ctx := by
        unfold toSizeT pixelCount at *
        omega
      rw [hP]
  · by_contra hge
    obtain ⟨ctx', hok⟩ := EncodeRle_ok ctx h15 (by omega)
    rw [hok] at h
    cases h
  · by_contra hlt
    obtain ⟨ctx', hok⟩ := h
    rw [hfail (by omega)] at hok
    cases hok
  · intro buffer hlen hblen htake
    apply EncodeRle_congr { ctx with DecodedBuffer := buffer } ctx rfl
    · intro s p hs hp
      have := segment_index_lt ctx s p hs hp
      show segmentPos ctx s + p * segmentStride ctx < buffer.length
      omega
    · intro s p hs hp
      have := segment_index_lt ctx s p hs hp
      omega
    · intro s hs
      unfold segmentBytes
      apply gather_congr
      intro k hk
      exact getD_of_take_eq _ _ _ _ htake (segment_index_lt ctx s k hs hk)

theorem EncodeRle_buffer_length_check_witness :
    EncodeRle
      { Columns := 2, Rows := 1, BitsAllocated := 16, BitsStored := 12,
        SamplesPerPixel := 1, PixelRepresentation := 0, PlanarConfiguration := 0,
        PhotometricInterpretation := 2, EncodedBuffer := [], DecodedBuffer := [2, 1, 4] } =
      .error .readPastEnd :=
  (EncodeRle_buffer_length_check
    { Columns := 2, Rows := 1, BitsAllocated := 16, BitsStored := 12,
      SamplesPerPixel := 1, PixelRepresentation := 0, PlanarConfiguration := 0,
      PhotometricInterpretation := 2, EncodedBuffer := [], DecodedBuffer := [2, 1, 4] }
    (by decide) (by decide)).2.1.2 (by decide)

/-- C37. For 8-bit samples, three samples per pixel and an interleaved buffer
`x` of `P` pixels, `ChangePlanarConfiguration` from interleaved returns a buffer
`y`, and `EncodeRle` returns the same encoded bytes on `x` with the planar
configuration interleaved as on `y` with the planar configuration planar. -/
theorem EncodeRle_layout_independent (ctx : CodecsContext) (hBA : ctx.BitsAllocated = 8)
    (hSPP : ctx.SamplesPerPixel = 3) (hPC : ctx.PlanarConfiguration = Interleaved)
    (hlen : ctx.DecodedBuffer.length = pixelCount ctx * 3) :
    ∃ (y enc : List Nat),
      ChangePlanarConfiguration ctx.DecodedBuffer (pixelCount ctx * 3) 8 3 Interleaved = .ok y ∧
      (EncodeRle ctx).map (fun c => c.EncodedBuffer) = .ok enc ∧
      (EncodeRle { ctx with PlanarConfiguration := Planar, DecodedBuffer := y }).map
        (fun c => c.EncodedBuffer) = .ok enc := by
  obtain ⟨y, hy, hylen, hget⟩ := ChangePlanarConfiguration_of_interleaved ctx.DecodedBuffer
    (pixelCount ctx) 3 Interleaved (by decide) (by decide) hlen
  have hb : bytesAllocated ctx = 1 := by
    unfold bytesAllocated
    rw [hBA]
    rfl
  have hN : pixelCount ctx * bytesAllocated ctx * ctx.SamplesPerPixel = pixelCount ctx * 3 := by
    rw [hb, hSPP, Nat.mul_one]
  obtain ⟨ctx', hok⟩ := EncodeRle_ok ctx (by rw [hb, hSPP]; decide) (by rw [hN, hlen])
  have hb2 : bytesAllocated { ctx with PlanarConfiguration := Planar, DecodedBuffer := y } = 1 := hb
  have hP2 : pixelCount { ctx with PlanarConfiguration := Planar, DecodedBuffer := y } =
    pixelCount ctx := rfl
  have hpos1 : ∀ s k, s < 3 → segmentPos ctx s + k * segmentStride ctx = k * 3 + s := by
    intro s k _
    rw [segmentPos_add_mul_stride, if_pos hPC, hb, hSPP]
    simp
  have hpos2 : ∀ s k, s < 3 →
      segmentPos { ctx with PlanarConfiguration := Planar, DecodedBuffer := y } s +
        k * segmentStride { ctx with PlanarConfiguration := Planar, DecodedBuffer := y } =
      k + pixelCount ctx * s := by
    intro s k _
    have hne : ¬ ({ ctx with PlanarConfiguration := Planar, DecodedBuffer := y } :
        CodecsContext).PlanarConfiguration = Interleaved := by
      show ¬ (Planar = Interleaved)
      decide
    rw [segmentPos_add_mul_stride, if_neg hne, hb2, hP2]
    simp
    ring
  have hcongr := EncodeRle_congr ctx
    { ctx with PlanarConfiguration := Planar, DecodedBuffer := y } rfl
    (fun s p hs hp => by
      have := segment_index_lt ctx s p hs hp
      omega)
    (fun s p hs hp => by
      rw [hb, hSPP] at hs
      rw [hpos2 s p (by omega)]
      show p + pixelCount ctx * s < y.length
      rw [hylen]
      exact idx_lt_mul2 _ _ _ _ hp (by omega))
    (fun s hs => by
      rw [hb, hSPP] at hs
      unfold segmentBytes
      apply gather_congr
      intro k hk
      rw [hpos1 s k (by omega), hpos2 s k (by omega)]
      exact (hget k s hk (by omega)).symm)
  refine ⟨y, ctx'.EncodedBuffer, hy, by rw [hok]; rfl, ?_⟩
  rw [← hcongr, hok]
  rfl

theorem EncodeRle_layout_independent_witness :
    ∃ (y enc : List Nat),
      ChangePlanarConfiguration [1, 2, 3, 1, 2, 4] (2 * 3) 8 3 Interleaved = .ok y ∧
      (EncodeRle
        { Columns := 2, Rows := 1, BitsAllocated := 8, BitsStored := 8,
          SamplesPerPixel := 3, PixelRepresentation := 0, PlanarConfiguration := Interleaved,
          PhotometricInterpretation := 3, EncodedBuffer := [],
          DecodedBuffer := [1, 2, 3, 1, 2, 4] }).map (fun c => c.EncodedBuffer) = .ok enc ∧
      (EncodeRle
        { Columns := 2, Rows := 1, BitsAllocated := 8, BitsStored := 8,
          SamplesPerPixel := 3, PixelRepresentation := 0, PlanarConfiguration := Planar,
          PhotometricInterpretation := 3, EncodedBuffer := [],
          DecodedBuffer := y }).map (fun c => c.EncodedBuffer) = .ok enc :=
  EncodeRle_layout_independent
    { Columns := 2, Rows := 1, BitsAllocated := 8, BitsStored := 8,
      SamplesPerPixel := 3, PixelRepresentation := 0, PlanarConfiguration := Interleaved,
      PhotometricInterpretation := 3, EncodedBuffer := [],
      DecodedBuffer := [1, 2, 3, 1, 2, 4] } rfl rfl rfl (by decide)

/-- Replaying stores that are all inside the buffer never faults. -/
theorem store_eq_setAll (log : WriteLog) : ∀ (buffer : List Nat),
    (∀ w ∈ log, 0 ≤ w.1 ∧ w.1 < buffer.length) →
    store buffer log = .ok (setAll buffer (log.map (fun w => (w.1.toNat, w.2)))) := by
  induction log with
  | nil => intro buffer _; rfl
  | cons w ws ih =>
    intro buffer h
    obtain ⟨pos, b⟩ := w
    have hw := h (pos, b) (List.mem_cons_self _ _)
    simp only [store, List.map_cons, setAll_cons]
    rw [if_pos hw]
    apply ih
    intro v hv
    rw [List.length_set]
    exact h v (List.mem_cons_of_mem _ hv)

/-- Stores that put the bytes of `x` at their own positions and cover every
position rebuild `x`. -/
theorem store_rebuilds (x : List Nat) (log : WriteLog) (buffer : List Nat)
    (hlen : buffer.length = x.length)
    (h : ∀ w ∈ log, 0 ≤ w.1 ∧ w.1 < x.length ∧ w.2 = x.getD w.1.toNat 0)
    (hcover : ∀ j : Nat, j < x.length → ∃ w ∈ log, w.1 = (j : Int)) :
    store buffer log = .ok x := by
  rw [store_eq_setAll log buffer (fun w hw => ⟨(h w hw).1, by rw [hlen]; exact (h w hw).2.1⟩)]
  congr 1
  apply List.ext_getElem?
  intro j
  rw [getElem?_setAll (fun j => x.getD j 0)]
  · by_cases hj : j < x.length
    · obtain ⟨w, hw, hwj⟩ := hcover j hj
      have hmem : j ∈ (log.map (fun w => (w.1.toNat, w.2))).map Prod.fst := by
        simp only [List.map_map, List.mem_map, Function.comp]
        exact ⟨w, hw, by rw [hwj]; rfl⟩
      rw [if_pos ⟨hmem, by rw [hlen]; exact hj⟩, List.getD_eq_getElem?_getD,
        List.getElem?_eq_getElem hj]
      rfl
    · rw [if_neg (by rw [hlen]; intro h'; exact hj h'.2),
        List.getElem?_eq_none (by omega), List.getElem?_eq_none (by omega)]
  · intro w hw
    obtain ⟨v, hv, rfl⟩ := List.mem_map.mp hw
    exact (h v hv).2.2

namespace EncodeHtJpeg2000

theorem lineLoop_ok (read : Nat → Except CodecsError Int) (f : Nat → Int) :
    ∀ (n x0 : Nat), (∀ x, x < n → read (x0 + x) = .ok (f (x0 + x))) →
      lineLoop read n x0 = .ok ((List.range' x0 n).map f) := by
  intro n
  induction n with
  | zero => intro x0 _; rfl
  | succ n ih =>
    intro x0 h
    have h0 := h 0 (by omega)
    rw [Nat.add_zero] at h0
    rw [lineLoop, h0, ih (x0 + 1) (fun x hx => by
      have := h (x + 1) (by omega)
      rw [show x0 + 1 + x = x0 + (x + 1) by omega]
      exact this)]
    rfl

theorem componentLines_ok (ctx : CodecsContext) (y : Nat) (g : Nat → List Int) :
    ∀ (n c0 : Nat), (∀ c, c < n → line ctx y (c0 + c) = .ok (g (c0 + c))) →
      componentLines ctx y n c0 = .ok ((List.range' c0 n).map g) := by
  intro n
  induction n with
  | zero => intro c0 _; rfl
  | succ n ih =>
    intro c0 h
    have h0 := h 0 (by omega)
    rw [Nat.add_zero] at h0
    rw [componentLines, h0, ih (c0 + 1) (fun c hc => by
      have := h (c + 1) (by omega)
      rw [show c0 + 1 + c = c0 + (c + 1) by omega]
      exact this)]
    rfl

theorem rowLines_ok (ctx : CodecsContext) (g : Nat → List (List Int)) :
    ∀ (n y0 : Nat),
      (∀ y, y < n → componentLines ctx (y0 + y) ctx.SamplesPerPixel 0 = .ok (g (y0 + y))) →
      rowLines ctx n y0 = .ok ((List.range' y0 n).map g) := by
  intro n
  induction n with
  | zero => intro y0 _; rfl
  | succ n ih =>
    intro y0 h
    have h0 := h 0 (by omega)
    rw [Nat.add_zero] at h0
    rw [rowLines, h0, ih (y0 + 1) (fun y hy => by
      have := h (y + 1) (by omega)
      rw [show y0 + 1 + y = y0 + (y + 1) by omega]
      exact this)]
    rfl

/-- When every sample read is inside the raw buffer, the lines handed over are
the samples `f y c x` read. -/
theorem lines_ok (ctx : CodecsContext) (f : Nat → Nat → Nat → Int)
    (h : ∀ y c, y < ctx.Rows → c < ctx.SamplesPerPixel →
      line ctx y c = .ok ((List.range ctx.Columns).map (f y c))) :
    lines ctx = .ok ((List.range ctx.Rows).map (fun y =>
      (List.range ctx.SamplesPerPixel).map (fun c => (List.range ctx.Columns).map (f y c)))) := by
  unfold lines
  have hrow : ∀ y, y < ctx.Rows → componentLines ctx (0 + y) ctx.SamplesPerPixel 0 =
      .ok ((List.range ctx.SamplesPerPixel).map
        (fun c => (List.range ctx.Columns).map (f (0 + y) c))) := by
    intro y hy
    rw [Nat.zero_add]
    have hc : ∀ c, c < ctx.SamplesPerPixel →
        line ctx y (0 + c) = .ok ((List.range ctx.Columns).map (f y (0 + c))) := by
      intro c hc
      rw [Nat.zero_add]
      exact h y c hy hc
    rw [componentLines_ok ctx y (fun c => (List.range ctx.Columns).map (f y c)) _ 0 hc,
      List.range_eq_range' (n := ctx.SamplesPerPixel)]
  rw [rowLines_ok ctx (fun y => (List.range ctx.SamplesPerPixel).map
    (fun c => (List.range ctx.Columns).map (f y c))) _ 0 hrow, List.range_eq_range' (n := ctx.Rows)]

end EncodeHtJpeg2000

theorem getD_map_range {α : Type} (f : Nat → α) (n k : Nat) (d : α) (hk : k < n) :
    ((List.range n).map f).getD k d = f k := by
  rw [List.getD_eq_getElem?_getD, List.getElem?_map, List.getElem?_range hk]
  rfl

/-- The byte position of sample `c` of pixel `x` of row `y` is inside the frame. -/
theorem htj2k_index_lt (W H S y c x : Nat) (hy : y < H) (hc : c < S) (hx : x < W) :
    y * W * S + c + x * S < W * H * S := by
  have h1 := idx_lt_mul H W y x hy hx
  have h2 := idx_lt_mul (H * W) S (y * W + x) c h1 hc
  have e1 : (y * W + x) * S + c = y * W * S + c + x * S := by ring
  have e2 : H * W * S = W * H * S := by ring
  omega

/-- Every byte position of the frame is that of a sample of a pixel of a row. -/
theorem htj2k_index_cover (W H S j : Nat) (hj : j < W * H * S) :
    ∃ y c x, y < H ∧ c < S ∧ x < W ∧ j = y * W * S + c + x * S := by
  obtain ⟨n, c, hn, hc, hjn⟩ := index_interleaved (W * H) S j hj
  obtain ⟨y, x, hy, hx, hnx⟩ := index_interleaved H W n (by rw [Nat.mul_comm]; exact hn)
  refine ⟨y, c, x, hy, hc, hx, ?_⟩
  rw [hjn, hnx]
  ring

/-- A byte of a buffer of bytes is below 256. -/
theorem getD_lt_256 (buffer : List Nat) (hb : ∀ b ∈ buffer, b < 256) (i : Nat) :
    buffer.getD i 0 < 256 := by
  rw [List.getD_eq_getElem?_getD]
  cases hg : buffer[i]? with
  | none => simp
  | some v =>
    simp only [Option.getD_some]
    exact hb v (List.getElem?_mem hg)

theorem clampUInt8_byte (b : Nat) (hb : b < 256) : DecodeHtJpeg2000.clampUInt8 (b : Int) = b := by
  unfold DecodeHtJpeg2000.clampUInt8 toUInt8
  omega

/-- The loop over the rows of `DecodeHtJpeg2000` stores, for every row, every
component and every pixel; with one sample per pixel the loop over the
components has one round. -/
theorem DecodeHtJpeg2000.stores_eq (ctx : CodecsContext) (width height : Nat)
    (pull : Nat → Nat → List Int) :
    DecodeHtJpeg2000.stores ctx width height pull =
      (List.range height).flatMap (fun (y : Nat) =>
        (List.range ctx.SamplesPerPixel).flatMap (fun (c : Nat) =>
          DecodeHtJpeg2000.lineStores ctx width
            (y * width * ctx.SamplesPerPixel * (ctx.BitsAllocated / 8)) c ctx.SamplesPerPixel
            (pull y c))) := by
  unfold DecodeHtJpeg2000.stores
  by_cases hS : ctx.SamplesPerPixel = 1
  · have h1 : List.range 1 = [0] := rfl
    simp only [hS, if_true, h1, List.flatMap_cons, List.flatMap_nil, List.append_nil]
  · simp only [hS, if_false]

/-- The store of pixel `x` of a line, for 8 bits allocated. -/
theorem DecodeHtJpeg2000.mem_lineStores_8bit (ctx : CodecsContext) (hBA : ctx.BitsAllocated ≤ 8)
    (width lineStart c stride : Nat) (line : List Int) (x : Nat) (hx : x < width) :
    (((lineStart + c + x * stride : Nat) : Int), DecodeHtJpeg2000.clampUInt8 (line.getD x 0)) ∈
      DecodeHtJpeg2000.lineStores ctx width lineStart c stride line := by
  unfold DecodeHtJpeg2000.lineStores
  rw [if_pos hBA]
  exact List.mem_map.mpr ⟨x, List.mem_range.mpr hx, rfl⟩

/-- The lines of the encoder, for 8 bits allocated. -/
theorem EncodeHtJpeg2000.line_8bit (ctx : CodecsContext) (hBA : ctx.BitsAllocated = 8)
    (hlen : ctx.DecodedBuffer.length = ctx.Columns * ctx.Rows * ctx.SamplesPerPixel)
    (y c : Nat) (hy : y < ctx.Rows) (hc : c < ctx.SamplesPerPixel) :
    EncodeHtJpeg2000.line ctx y c = .ok ((List.range ctx.Columns).map (fun x =>
      ((ctx.DecodedBuffer.getD (y * ctx.Columns * ctx.SamplesPerPixel + c +
        x * ctx.SamplesPerPixel) 0 : Nat) : Int))) := by
  unfold EncodeHtJpeg2000.line
  simp only []
  rw [if_pos (by omega), hBA]
  rw [EncodeHtJpeg2000.lineLoop_ok _ (fun x =>
      ((ctx.DecodedBuffer.getD (y * ctx.Columns * ctx.SamplesPerPixel + c +
        x * ctx.SamplesPerPixel) 0 : Nat) : Int)) _ 0, List.range_eq_range']
  intro x hx
  rw [Nat.zero_add]
  have hlt := htj2k_index_lt ctx.Columns ctx.Rows ctx.SamplesPerPixel y c x hy hc hx
  have he : y * ctx.Columns * (8 / 8) * ctx.SamplesPerPixel + c + x * ctx.SamplesPerPixel =
      y * ctx.Columns * ctx.SamplesPerPixel + c + x * ctx.SamplesPerPixel := by
    simp
  rw [he]
  unfold readByte
  rw [if_pos ⟨by omega, by rw [hlen]; exact_mod_cast hlt⟩]
  simp only [bind, Except.bind, Int.toNat_ofNat]

/-- For 8 bits allocated the lines the encoder gathers, scattered back by the
decoder, are the raw buffer. -/
theorem htj2k_roundtrip_8bit (ctx : CodecsContext) (hBA : ctx.BitsAllocated = 8)
    (hlen : ctx.DecodedBuffer.length = ctx.Columns * ctx.Rows * ctx.SamplesPerPixel)
    (hbytes : ∀ b ∈ ctx.DecodedBuffer, b < 256) :
    htj2kMarshalRoundTrip ctx = .ok ctx.DecodedBuffer := by
  unfold htj2kMarshalRoundTrip
  rw [EncodeHtJpeg2000.lines_ok ctx (fun y c x =>
    ((ctx.DecodedBuffer.getD (y * ctx.Columns * ctx.SamplesPerPixel + c +
      x * ctx.SamplesPerPixel) 0 : Nat) : Int))
    (fun y c hy hc => EncodeHtJpeg2000.line_8bit ctx hBA hlen y c hy hc)]
  simp only [bind, Except.bind]
  unfold DecodeHtJpeg2000.scatter
  simp only []
  have hbpp : ctx.BitsAllocated / 8 = 1 := by rw [hBA]
  rw [DecodeHtJpeg2000.stores_eq, hbpp]
  apply store_rebuilds
  · rw [List.length_replicate, hlen, Nat.mul_one]
  · intro w hw
    simp only [List.mem_flatMap, List.mem_range] at hw
    obtain ⟨y, hy, c, hc, hw⟩ := hw
    unfold DecodeHtJpeg2000.lineStores at hw
    rw [if_pos (by omega)] at hw
    simp only [List.mem_map, List.mem_range] at hw
    obtain ⟨x, hx, rfl⟩ := hw
    have hlt := htj2k_index_lt ctx.Columns ctx.Rows ctx.SamplesPerPixel y c x hy hc hx
    simp only [Nat.mul_one]
    refine ⟨by omega, by rw [hlen]; exact_mod_cast hlt, ?_⟩
    rw [getD_map_range _ _ _ _ hy, getD_map_range _ _ _ _ hc, getD_map_range _ _ _ _ hx,
      clampUInt8_byte _ (getD_lt_256 _ hbytes _), Int.toNat_ofNat]
  · intro j hj
    rw [hlen] at hj
    obtain ⟨y, c, x, hy, hc, hx, hjv⟩ := htj2k_index_cover _ _ _ j hj
    refine ⟨(_, DecodeHtJpeg2000.clampUInt8 _), List.mem_flatMap.mpr ⟨y, List.mem_range.mpr hy,
      List.mem_flatMap.mpr ⟨c, List.mem_range.mpr hc,
        DecodeHtJpeg2000.mem_lineStores_8bit ctx (by omega) _ _ c _ _ x hx⟩⟩, ?_⟩
    show ((_ : Nat) : Int) = (j : Int)
    rw [hjv, Nat.mul_one]

theorem le16_clampInt16 (lo hi : Nat) (hlo : lo < 256) (hhi : hi < 256) :
    le16 (DecodeHtJpeg2000.clampInt16 (toInt16 ((lo : Int) + 256 * (hi : Int)))) = [lo, hi] := by
  unfold le16 DecodeHtJpeg2000.clampInt16 toInt16
  simp only [List.cons.injEq, and_true]
  constructor <;> omega

theorem le16_clampUInt16 (lo hi : Nat) (hlo : lo < 256) (hhi : hi < 256) :
    le16 (DecodeHtJpeg2000.clampUInt16 ((lo : Int) + 256 * (hi : Int))) = [lo, hi] := by
  unfold le16 DecodeHtJpeg2000.clampUInt16
  simp only [List.cons.injEq, and_true]
  constructor <;> omega

theorem readUInt16_ok (data : List Nat) (pos : Nat) (h : pos + 1 < data.length) :
    readUInt16 data pos = .ok ((data.getD pos 0 : Int) + 256 * (data.getD (pos + 1) 0 : Int)) := by
  unfold readUInt16 readByte
  rw [if_pos ⟨by omega, by omega⟩, if_pos ⟨by omega, by omega⟩]
  simp only [bind, Except.bind, Int.toNat_ofNat]
  have e : ((pos : Int) + 1).toNat = pos + 1 := by omega
  rw [e]

/-- The lines of the encoder, for 16 bits allocated and one sample per pixel. -/
theorem EncodeHtJpeg2000.line_16bit (ctx : CodecsContext) (hBA : ctx.BitsAllocated = 16)
    (hlen : ctx.DecodedBuffer.length = ctx.Columns * ctx.Rows * 2)
    (y c : Nat) (hy : y < ctx.Rows) :
    EncodeHtJpeg2000.line ctx y c = .ok ((List.range ctx.Columns).map (fun x =>
      if ctx.PixelRepresentation = Signed then
        toInt16 ((ctx.DecodedBuffer.getD (y * ctx.Columns * 2 + 2 * x) 0 : Int) +
          256 * (ctx.DecodedBuffer.getD (y * ctx.Columns * 2 + 2 * x + 1) 0 : Int))
      else
        (ctx.DecodedBuffer.getD (y * ctx.Columns * 2 + 2 * x) 0 : Int) +
          256 * (ctx.DecodedBuffer.getD (y * ctx.Columns * 2 + 2 * x + 1) 0 : Int))) := by
  have hpos : ∀ x, x < ctx.Columns →
      y * ctx.Columns * 2 + 2 * x + 1 < ctx.DecodedBuffer.length := by
    intro x hx
    have h1 := idx_lt_mul ctx.Rows ctx.Columns y x hy hx
    have e1 : ctx.Columns * ctx.Rows * 2 = ctx.Rows * ctx.Columns * 2 := by ring
    have e2 : y * ctx.Columns * 2 + 2 * x = (y * ctx.Columns + x) * 2 := by ring
    omega
  have hbpp : ctx.BitsAllocated / 8 = 2 := by rw [hBA]
  unfold EncodeHtJpeg2000.line
  simp only []
  rw [if_neg (by omega), hbpp]
  by_cases hs : ctx.PixelRepresentation = Signed
  · rw [if_pos hs]
    rw [EncodeHtJpeg2000.lineLoop_ok _ (fun x =>
        toInt16 ((ctx.DecodedBuffer.getD (y * ctx.Columns * 2 + 2 * x) 0 : Int) +
          256 * (ctx.DecodedBuffer.getD (y * ctx.Columns * 2 + 2 * x + 1) 0 : Int))) _ 0,
      List.range_eq_range']
    · simp only [if_pos hs]
    · intro x hx
      rw [Nat.zero_add]
      unfold readInt16
      rw [readUInt16_ok _ _ (hpos x hx)]
      rfl
  · rw [if_neg hs]
    rw [EncodeHtJpeg2000.lineLoop_ok _ (fun x =>
        (ctx.DecodedBuffer.getD (y * ctx.Columns * 2 + 2 * x) 0 : Int) +
          256 * (ctx.DecodedBuffer.getD (y * ctx.Columns * 2 + 2 * x + 1) 0 : Int)) _ 0,
      List.range_eq_range']
    · simp only [if_neg hs]
    · intro x hx
      rw [Nat.zero_add]
      exact readUInt16_ok _ _ (hpos x hx)

/-- The two stores of pixel `x` of a line, for 16 bits allocated. -/
theorem DecodeHtJpeg2000.mem_lineStores_16bit (ctx : CodecsContext)
    (hBA : ¬ ctx.BitsAllocated ≤ 8) (width lineStart c stride : Nat) (line : List Int) :
    ∀ w, w ∈ DecodeHtJpeg2000.lineStores ctx width lineStart c stride line ↔
      ∃ x, x < width ∧ ∃ k, k < 2 ∧ w =
        (((lineStart + 2 * (c + x * stride) + k : Nat) : Int),
          (le16 (if ctx.PixelRepresentation = Signed
            then DecodeHtJpeg2000.clampInt16 (line.getD x 0)
            else DecodeHtJpeg2000.clampUInt16 (line.getD x 0))).getD k 0) := by
  intro w
  unfold DecodeHtJpeg2000.lineStores
  rw [if_neg hBA]
  by_cases hs : ctx.PixelRepresentation = Signed
  · simp only [if_pos hs, List.mem_flatMap, List.mem_range, List.mem_cons, List.mem_singleton,
      List.not_mem_nil, or_false]
    constructor
    · rintro ⟨x, hx, h | h⟩
      · exact ⟨x, hx, 0, by omega, by rw [h]; rfl⟩
      · exact ⟨x, hx, 1, by omega, by rw [h]⟩
    · rintro ⟨x, hx, k, hk, h⟩
      refine ⟨x, hx, ?_⟩
      have : k = 0 ∨ k = 1 := by omega
      rcases this with rfl | rfl
      · left; rw [h]; rfl
      · right; rw [h]
  · simp only [if_neg hs, List.mem_flatMap, List.mem_range, List.mem_cons, List.mem_singleton,
      List.not_mem_nil, or_false]
    constructor
    · rintro ⟨x, hx, h | h⟩
      · exact ⟨x, hx, 0, by omega, by rw [h]; rfl⟩
      · exact ⟨x, hx, 1, by omega, by rw [h]⟩
    · rintro ⟨x, hx, k, hk, h⟩
      refine ⟨x, hx, ?_⟩
      have : k = 0 ∨ k = 1 := by omega
      rcases this with rfl | rfl
      · left; rw [h]; rfl
      · right; rw [h]

/-- For 16 bits allocated and one sample per pixel, of either sign, the lines
the encoder gathers, scattered back by the decoder, are the raw buffer. -/
theorem htj2k_roundtrip_16bit (ctx : CodecsContext) (hBA : ctx.BitsAllocated = 16)
    (hS : ctx.SamplesPerPixel = 1)
    (hlen : ctx.DecodedBuffer.length = ctx.Columns * ctx.Rows * 2)
    (hbytes : ∀ b ∈ ctx.DecodedBuffer, b < 256) :
    htj2kMarshalRoundTrip ctx = .ok ctx.DecodedBuffer := by
  unfold htj2kMarshalRoundTrip
  rw [EncodeHtJpeg2000.lines_ok ctx (fun y _ x =>
      if ctx.PixelRepresentation = Signed then
        toInt16 ((ctx.DecodedBuffer.getD (y * ctx.Columns * 2 + 2 * x) 0 : Int) +
          256 * (ctx.DecodedBuffer.getD (y * ctx.Columns * 2 + 2 * x + 1) 0 : Int))
      else
        (ctx.DecodedBuffer.getD (y * ctx.Columns * 2 + 2 * x) 0 : Int) +
          256 * (ctx.DecodedBuffer.getD (y * ctx.Columns * 2 + 2 * x + 1) 0 : Int))
    (fun y c hy _ => EncodeHtJpeg2000.line_16bit ctx hBA hlen y c hy)]
  simp only [bind, Except.bind]
  unfold DecodeHtJpeg2000.scatter
  simp only []
  have hbpp : ctx.BitsAllocated / 8 = 2 := by rw [hBA]
  have hpos : ∀ y x, y < ctx.Rows → x < ctx.Columns →
      y * ctx.Columns * 2 + 2 * x + 1 < ctx.Columns * ctx.Rows * 2 := by
    intro y x hy hx
    have h1 := idx_lt_mul ctx.Rows ctx.Columns y x hy hx
    have e1 : ctx.Columns * ctx.Rows * 2 = ctx.Rows * ctx.Columns * 2 := by ring
    have e2 : y * ctx.Columns * 2 + 2 * x = (y * ctx.Columns + x) * 2 := by ring
    omega
  rw [DecodeHtJpeg2000.stores_eq, hbpp, hS]
  apply store_rebuilds
  · rw [List.length_replicate, hlen, Nat.mul_one]
  · intro w hw
    simp only [List.mem_flatMap, List.mem_range] at hw
    obtain ⟨y, hy, c, hc, hw⟩ := hw
    have hc0 : c = 0 := by omega
    subst hc0
    obtain ⟨x, hx, k, hk, rfl⟩ :=
      (DecodeHtJpeg2000.mem_lineStores_16bit ctx (by omega) _ _ 0 1 _ w).1 hw
    have hp := hpos y x hy hx
    have hlo := getD_lt_256 _ hbytes (y * ctx.Columns * 2 + 2 * x)
    have hhi := getD_lt_256 _ hbytes (y * ctx.Columns * 2 + 2 * x + 1)
    have epos : y * ctx.Columns * 1 * 2 + 2 * (0 + x * 1) + k = y * ctx.Columns * 2 + 2 * x + k := by
      ring
    rw [epos]
    refine ⟨by omega, by rw [hlen]; omega, ?_⟩
    rw [getD_map_range _ _ _ _ hy]
    have h1 : (0 : Nat) < 1 := by omega
    rw [getD_map_range _ _ _ _ h1, getD_map_range _ _ _ _ hx]
    simp only [Int.toNat_ofNat]
    by_cases hs : ctx.PixelRepresentation = Signed
    · simp only [if_pos hs]
      rw [le16_clampInt16 _ _ hlo hhi]
      have : k = 0 ∨ k = 1 := by omega
      rcases this with rfl | rfl <;> rfl
    · simp only [if_neg hs]
      rw [le16_clampUInt16 _ _ hlo hhi]
      have : k = 0 ∨ k = 1 := by omega
      rcases this with rfl | rfl <;> rfl
  · intro j hj
    rw [hlen] at hj
    obtain ⟨n, k, hn, hk, hjn⟩ := index_interleaved (ctx.Columns * ctx.Rows) 2 j hj
    obtain ⟨y, x, hy, hx, hnx⟩ := index_interleaved ctx.Rows ctx.Columns n
      (by rw [Nat.mul_comm]; exact hn)
    refine ⟨_, List.mem_flatMap.mpr ⟨y, List.mem_range.mpr hy,
      List.mem_flatMap.mpr ⟨0, List.mem_range.mpr (by omega),
        (DecodeHtJpeg2000.mem_lineStores_16bit ctx (by omega) _ _ 0 1 _ _).2
          ⟨x, hx, k, hk, rfl⟩⟩⟩, ?_⟩
    show ((_ : Nat) : Int) = (j : Int)
    rw [hjn, hnx]
    congr 1
    ring

/-- C35 (the code at the failing input, and where the claim holds). With 16
bits allocated and three samples per pixel the encoder reads every line from
byte `y * Columns * bytesPerPixel` on, whatever the component, so the three
lines of a row are the same and the rows do not start where the decoder puts
them: for the one pixel `01 00 02 00 03 00` the three lines are all `[1]` and
the decoder scatters them to `01 00 01 00 01 00`. With 8 bits allocated (any
number of samples per pixel), and with 16 bits allocated and one sample per
pixel of either sign, the lines the encoder gathers from a raw buffer of
`Columns * Rows * SamplesPerPixel` samples, scattered back by the decoder, are
the raw buffer byte for byte. -/
theorem htj2k_line_marshalling :
    (EncodeHtJpeg2000.lines
        { Columns := 1, Rows := 1, BitsAllocated := 16, BitsStored := 16, SamplesPerPixel := 3,
          PixelRepresentation := 0, PlanarConfiguration := 0, PhotometricInterpretation := 3,
          EncodedBuffer := [], DecodedBuffer := [1, 0, 2, 0, 3, 0] } = .ok [[[1], [1], [1]]] ∧
      htj2kMarshalRoundTrip
        { Columns := 1, Rows := 1, BitsAllocated := 16, BitsStored := 16, SamplesPerPixel := 3,
          PixelRepresentation := 0, PlanarConfiguration := 0, PhotometricInterpretation := 3,
          EncodedBuffer := [], DecodedBuffer := [1, 0, 2, 0, 3, 0] } = .ok [1, 0, 1, 0, 1, 0] ∧
      htj2kMarshalRoundTrip
        { Columns := 2, Rows := 2, BitsAllocated := 16, BitsStored := 16, SamplesPerPixel := 3,
          PixelRepresentation := 1, PlanarConfiguration := 0, PhotometricInterpretation := 3,
          EncodedBuffer := [],
          DecodedBuffer := [1, 0, 2, 0, 3, 0, 4, 0, 5, 0, 6, 0, 7, 0, 8, 0, 9, 0, 10, 0, 11, 0,
            12, 0] } =
        .ok [1, 0, 1, 0, 1, 0, 2, 0, 2, 0, 2, 0, 3, 0, 3, 0, 3, 0, 4, 0, 4, 0, 4, 0]) ∧
    (∀ ctx : CodecsContext, ctx.BitsAllocated = 8 →
      ctx.DecodedBuffer.length = ctx.Columns * ctx.Rows * ctx.SamplesPerPixel →
      (∀ b ∈ ctx.DecodedBuffer, b < 256) →
      htj2kMarshalRoundTrip ctx = .ok ctx.DecodedBuffer) ∧
    (∀ ctx : CodecsContext, ctx.BitsAllocated = 16 → ctx.SamplesPerPixel = 1 →
      ctx.DecodedBuffer.length = ctx.Columns * ctx.Rows * 2 →
      (∀ b ∈ ctx.DecodedBuffer, b < 256) →
      htj2kMarshalRoundTrip ctx = .ok ctx.DecodedBuffer) := by
  refine ⟨⟨by rfl, by rfl, by rfl⟩, fun ctx h1 h2 h3 => htj2k_roundtrip_8bit ctx h1 h2 h3,
    fun ctx h1 h2 h3 h4 => htj2k_roundtrip_16bit ctx h1 h2 h3 h4⟩

theorem htj2k_line_marshalling_witness :
    htj2kMarshalRoundTrip
        { Columns := 2, Rows := 2, BitsAllocated := 8, BitsStored := 8, SamplesPerPixel := 3,
          PixelRepresentation := 0, PlanarConfiguration := 0, PhotometricInterpretation := 3,
          EncodedBuffer := [],
          DecodedBuffer := [1, 2, 3, 4, 5, 6, 7, 8, 9, 10, 11, 255] } =
        .ok [1, 2, 3, 4, 5, 6, 7, 8, 9, 10, 11, 255] ∧
    htj2kMarshalRoundTrip
        { Columns := 2, Rows := 2, BitsAllocated := 16, BitsStored := 16, SamplesPerPixel := 1,
          PixelRepresentation := 1, PlanarConfiguration := 0, PhotometricInterpretation := 2,
          EncodedBuffer := [], DecodedBuffer := [1, 0, 255, 255, 0, 128, 255, 127] } =
        .ok [1, 0, 255, 255, 0, 128, 255, 127] :=
  ⟨htj2k_line_marshalling.2.1
      { Columns := 2, Rows := 2, BitsAllocated := 8, BitsStored := 8, SamplesPerPixel := 3,
        PixelRepresentation := 0, PlanarConfiguration := 0, PhotometricInterpretation := 3,
        EncodedBuffer := [],
        DecodedBuffer := [1, 2, 3, 4, 5, 6, 7, 8, 9, 10, 11, 255] } rfl (by decide) (by decide),
   htj2k_line_marshalling.2.2
      { Columns := 2, Rows := 2, BitsAllocated := 16, BitsStored := 16, SamplesPerPixel := 1,
        PixelRepresentation := 1, PlanarConfiguration := 0, PhotometricInterpretation := 2,
        EncodedBuffer := [], DecodedBuffer := [1, 0, 255, 255, 0, 128, 255, 127] }
      rfl rfl (by decide) (by decide)⟩

end DcmjsCodecs
